import Mathlib

/-!
# Verification of the kitchen-fridge CalDAV synchronization core

This file gives a shallow embedding, in Lean 4, of the sync engine and the
data model of the kitchen-fridge library (a bidirectional CalDAV
synchronization library for to-do items), together with theorems about the
embedded code.

Conventions of the embedding:
* `Url`, `VersionTag` and XML namespaces are modelled as `String`s
  (Rust `VersionTag` is a newtype over `String`).
* Rust `HashMap`s are modelled as association lists with no duplicate keys;
  `HashMap::insert` (which replaces an existing binding and returns the old
  one) and `HashMap::remove` are modelled by `KF.ainsert` / `KF.aerase`.
* `async` plays no semantic role (the engine runs one calendar pair at a
  time, holding both locks), so the embedded functions are plain functions.
* Fallible remote I/O is modelled by explicit outcome oracles (`Faults`,
  HTTP response values), and every mutating call issued against either
  source is recorded in an explicit write log.
-/

namespace KF

/-- Item and calendar identity (Rust `url::Url`), modelled as a string. -/
abbrev Url := String

/-- `VersionTag { tag: String }` from `utils/sync.rs`, modelled as its tag. -/
abbrev VersionTag := String

/-- `SyncStatus` from `utils/sync.rs`: the four-state per-entity sync state. -/
inductive SyncStatus where
  | NotSynced : SyncStatus
  | Synced (vt : VersionTag) : SyncStatus
  | LocallyModified (vt : VersionTag) : SyncStatus
  | LocallyDeleted (vt : VersionTag) : SyncStatus
deriving DecidableEq, Repr

/-- `NamespacedName` from `utils/mod.rs`: the `(xmlns, name)` identity of a
WebDAV property. -/
structure NamespacedName where
  xmlns : String
  name : String
deriving DecidableEq, Repr

/-! ## Association lists standing in for `HashMap` -/

/-- Lookup in an association list (`HashMap::get`). -/
def alookup {α β : Type} [DecidableEq α] : List (α × β) → α → Option β
  | [], _ => none
  | (k, v) :: rest, a => if k = a then some v else alookup rest a

/-- `HashMap::insert`: replace the binding if the key is present, otherwise
add a new binding. -/
def ainsert {α β : Type} [DecidableEq α] (a : α) (b : β) : List (α × β) → List (α × β)
  | [] => [(a, b)]
  | (k, v) :: rest => if k = a then (a, b) :: rest else (k, v) :: ainsert a b rest

/-- `HashMap::remove`: drop the binding for the key, if present. -/
def aerase {α β : Type} [DecidableEq α] (a : α) : List (α × β) → List (α × β)
  | [] => []
  | (k, v) :: rest => if k = a then rest else (k, v) :: aerase a rest

/-- The keys of an association list. -/
def akeys {α β : Type} (l : List (α × β)) : List α := l.map Prod.fst

theorem alookup_eq_none {α β : Type} [DecidableEq α] (l : List (α × β)) (a : α) :
    alookup l a = none ↔ a ∉ akeys l := by
  induction l with
  | nil => simp [alookup, akeys]
  | cons kv rest ih =>
    obtain ⟨k, v⟩ := kv
    by_cases h : k = a
    · subst h
      simp [alookup, akeys]
    · simp [alookup, akeys, h, ih]
      intro hne
      exact fun hc => h hc.symm

theorem alookup_isSome {α β : Type} [DecidableEq α] (l : List (α × β)) (a : α) :
    (alookup l a).isSome ↔ a ∈ akeys l := by
  rw [Option.isSome_iff_ne_none]
  constructor
  · intro h
    by_contra hmem
    exact h ((alookup_eq_none l a).mpr hmem)
  · intro h hn
    exact absurd ((alookup_eq_none l a).mp hn) (by simpa using h)

theorem alookup_mem {α β : Type} [DecidableEq α] {l : List (α × β)} {a : α} {b : β}
    (h : alookup l a = some b) : (a, b) ∈ l := by
  induction l with
  | nil => simp [alookup] at h
  | cons kv rest ih =>
    obtain ⟨k, v⟩ := kv
    by_cases hk : k = a
    · subst hk
      simp [alookup] at h
      simp [h]
    · simp [alookup, hk] at h
      exact List.mem_cons_of_mem _ (ih h)

theorem mem_alookup {α β : Type} [DecidableEq α] {l : List (α × β)} {a : α} {b : β}
    (hnd : (akeys l).Nodup) (h : (a, b) ∈ l) : alookup l a = some b := by
  induction l with
  | nil => simp at h
  | cons kv rest ih =>
    obtain ⟨k, v⟩ := kv
    rw [akeys, List.map_cons, List.nodup_cons] at hnd
    rcases List.mem_cons.mp h with heq | hmem
    · cases heq
      simp [alookup]
    · have hka : k ≠ a := by
        intro hk
        subst hk
        have hmm : (k, b).1 ∈ List.map Prod.fst rest := List.mem_map_of_mem _ hmem
        exact hnd.1 hmm
      simp [alookup, hka]
      exact ih hnd.2 hmem

theorem akeys_ainsert {α β : Type} [DecidableEq α] (a : α) (b : β) (l : List (α × β)) :
    akeys (ainsert a b l) = if a ∈ akeys l then akeys l else akeys l ++ [a] := by
  induction l with
  | nil => simp [ainsert, akeys]
  | cons kv rest ih =>
    obtain ⟨k, v⟩ := kv
    by_cases h : k = a
    · subst h
      simp [ainsert, akeys]
    · have hne : a ≠ k := fun hc => h hc.symm
      have hcons : akeys (ainsert a b ((k, v) :: rest)) = k :: akeys (ainsert a b rest) := by
        rw [ainsert, if_neg h]
        rfl
      rw [hcons, ih]
      by_cases hmem : a ∈ akeys rest
      · rw [if_pos hmem,
          if_pos (show a ∈ akeys ((k, v) :: rest) from List.mem_cons_of_mem _ hmem)]
        rfl
      · rw [if_neg hmem, if_neg (show a ∉ akeys ((k, v) :: rest) from by
          intro hc
          rw [show akeys ((k, v) :: rest) = k :: akeys rest from rfl, List.mem_cons] at hc
          rcases hc with hc | hc
          · exact hne hc
          · exact hmem hc)]
        rfl

theorem alookup_ainsert_self {α β : Type} [DecidableEq α] (a : α) (b : β) (l : List (α × β)) :
    alookup (ainsert a b l) a = some b := by
  induction l with
  | nil => simp [ainsert, alookup]
  | cons kv rest ih =>
    obtain ⟨k, v⟩ := kv
    by_cases h : k = a <;> simp [ainsert, alookup, h, ih]

theorem alookup_ainsert_ne {α β : Type} [DecidableEq α] (a a' : α) (b : β) (l : List (α × β))
    (h : a ≠ a') : alookup (ainsert a b l) a' = alookup l a' := by
  induction l with
  | nil => simp [ainsert, alookup, h]
  | cons kv rest ih =>
    obtain ⟨k, v⟩ := kv
    by_cases hk : k = a
    · subst hk
      simp [ainsert, alookup, h]
    · simp [ainsert, hk, alookup]
      by_cases hk' : k = a' <;> simp [hk', ih]

theorem alookup_aerase_self {α β : Type} [DecidableEq α] (a : α) (l : List (α × β))
    (hnd : (akeys l).Nodup) : alookup (aerase a l) a = none := by
  induction l with
  | nil => simp [aerase, alookup]
  | cons kv rest ih =>
    obtain ⟨k, v⟩ := kv
    rw [akeys, List.map_cons, List.nodup_cons] at hnd
    by_cases h : k = a
    · subst h
      rw [aerase, if_pos rfl, alookup_eq_none]
      exact hnd.1
    · simp [aerase, h, alookup, ih hnd.2]

theorem alookup_aerase_ne {α β : Type} [DecidableEq α] (a a' : α) (l : List (α × β))
    (h : a ≠ a') : alookup (aerase a l) a' = alookup l a' := by
  induction l with
  | nil => simp [aerase]
  | cons kv rest ih =>
    obtain ⟨k, v⟩ := kv
    by_cases hk : k = a
    · subst hk
      simp [aerase, alookup, h]
    · simp [aerase, hk, alookup]
      by_cases hk' : k = a' <;> simp [hk', ih]

theorem akeys_aerase_subset {α β : Type} [DecidableEq α] (a : α) (l : List (α × β)) :
    akeys (aerase a l) ⊆ akeys l := by
  induction l with
  | nil => simp [aerase]
  | cons kv rest ih =>
    obtain ⟨k, v⟩ := kv
    by_cases h : k = a
    · subst h
      rw [aerase, if_pos rfl]
      exact fun x hx => List.mem_cons_of_mem _ hx
    · rw [aerase, if_neg h]
      intro x hx
      simp only [akeys, List.map_cons, List.mem_cons] at hx ⊢
      rcases hx with hx | hx
      · exact Or.inl hx
      · exact Or.inr (ih hx)

theorem akeys_aerase_nodup {α β : Type} [DecidableEq α] (a : α) (l : List (α × β))
    (hnd : (akeys l).Nodup) : (akeys (aerase a l)).Nodup := by
  induction l with
  | nil => simp [aerase, akeys]
  | cons kv rest ih =>
    obtain ⟨k, v⟩ := kv
    rw [akeys, List.map_cons, List.nodup_cons] at hnd
    by_cases h : k = a
    · subst h
      rw [aerase, if_pos rfl]
      exact hnd.2
    · rw [aerase, if_neg h, akeys, List.map_cons, List.nodup_cons]
      exact ⟨fun hb => hnd.1 (akeys_aerase_subset a rest hb), ih hnd.2⟩

theorem akeys_ainsert_nodup {α β : Type} [DecidableEq α] (a : α) (b : β) (l : List (α × β))
    (hnd : (akeys l).Nodup) : (akeys (ainsert a b l)).Nodup := by
  rw [akeys_ainsert]
  by_cases h : a ∈ akeys l
  · simpa [h] using hnd
  · rw [if_neg h]
    refine List.Nodup.append hnd (List.nodup_singleton a) ?_
    intro x hx hxa
    rw [List.mem_singleton] at hxa
    exact h (hxa ▸ hx)

/-! ## The sync progress reporter

`provider/mod.rs` records all per-entity and per-calendar failures through a
`SyncProgress` value (module `provider/sync_progress.rs`, which is not among
the sources of this snapshot); only the resulting success flag matters for the
theorems below. -/

/-- Modelled from the spec: the `SyncProgress` reporter of the missing module
`provider/sync_progress.rs`.  Per §4.4/§7 of the spec every per-entity or
per-calendar failure is reported through `warn`/`error` and the pass reports
`success` only when no such failure was recorded (§8 states its invariants
for passes that report success).  `trace`/`debug`/`info`/`feedback` do not
affect the flag and are omitted. -/
structure SyncProgress where
  nErrors : Nat
deriving DecidableEq, Repr

def SyncProgress.fresh : SyncProgress := ⟨0⟩

/-- `SyncProgress::error`: record a failure. -/
def SyncProgress.error (p : SyncProgress) : SyncProgress := ⟨p.nErrors + 1⟩

/-- `SyncProgress::warn`: warnings also count against the success flag. -/
def SyncProgress.warn (p : SyncProgress) : SyncProgress := ⟨p.nErrors + 1⟩

/-- `SyncProgress::is_success`. -/
def SyncProgress.is_success (p : SyncProgress) : Bool := p.nErrors = 0

theorem warn_not_success (p : SyncProgress) : p.warn.is_success = false := by
  simp [SyncProgress.warn, SyncProgress.is_success]

theorem error_not_success (p : SyncProgress) : p.error.is_success = false := by
  simp [SyncProgress.error, SyncProgress.is_success]

/-! ## Items and calendars as the sync engine sees them -/

/-- A local item as relevant to the sync engine: its observable content
(`name`, completion, UID, ... of `Task`) is folded into one opaque `data`
field; `ss` is `Item::sync_status`. -/
structure LocalItem where
  data : String
  ss : SyncStatus
deriving DecidableEq, Repr

/-- An item stored on the remote server: its content and its current ETag. -/
structure RemoteItem where
  data : String
  tag : VersionTag
deriving DecidableEq, Repr

/-! ## Item delta computation (`Provider::calculate_item_changes`) -/

/-- The six delta sets computed by `Provider::calculate_item_changes`
(`provider/mod.rs`).  The Rust `HashSet`s are modelled as lists (membership is
what matters; the commit loops iterate over them). -/
structure ItemChanges where
  local_item_dels : List Url
  remote_item_dels : List Url
  local_item_changes : List Url
  remote_item_changes : List Url
  local_item_additions : List Url
  remote_item_additions : List Url
deriving DecidableEq, Repr

def ItemChanges.empty : ItemChanges := ⟨[], [], [], [], [], []⟩

/-- First loop of `Provider::calculate_item_changes` (provider/mod.rs, loop
`for (url, remote_tag) in remote_items`): walk the remote version-tag map,
classifying each URL against the local item's sync status and draining the
working set `to_handle` (`local_items_to_handle`). -/
def scan_remote_items (cal_local : List (Url × LocalItem)) :
    List (Url × VersionTag) → List Url → ItemChanges → SyncProgress →
    ItemChanges × List Url × SyncProgress
  | [], to_handle, acc, prog => (acc, to_handle, prog)
  | (url, remote_tag) :: rest, to_handle, acc, prog =>
    match alookup cal_local url with
    | none =>
      -- This was created on the remote
      scan_remote_items cal_local rest to_handle
        { acc with remote_item_additions := url :: acc.remote_item_additions } prog
    | some local_item =>
      let prog1 := if url ∈ to_handle then prog else prog.error
      let th1 := to_handle.erase url
      match local_item.ss with
      | .NotSynced =>
        -- URL reuse between remote and local sources; skip this URL
        scan_remote_items cal_local rest th1 acc prog1.error
      | .Synced local_tag =>
        if remote_tag ≠ local_tag then
          scan_remote_items cal_local rest th1
            { acc with remote_item_changes := url :: acc.remote_item_changes } prog1
        else
          scan_remote_items cal_local rest th1 acc prog1
      | .LocallyModified local_tag =>
        if remote_tag = local_tag then
          scan_remote_items cal_local rest th1
            { acc with local_item_changes := url :: acc.local_item_changes } prog1
        else
          scan_remote_items cal_local rest th1
            { acc with remote_item_changes := url :: acc.remote_item_changes } prog1
      | .LocallyDeleted local_tag =>
        if remote_tag = local_tag then
          scan_remote_items cal_local rest th1
            { acc with local_item_dels := url :: acc.local_item_dels } prog1
        else
          scan_remote_items cal_local rest th1
            { acc with remote_item_changes := url :: acc.remote_item_changes } prog1

/-- Second loop of `Provider::calculate_item_changes` (provider/mod.rs, loop
`for url in local_items_to_handle`): classify the local items whose URL the
remote does not list. -/
def handle_leftover_local_items (cal_local : List (Url × LocalItem)) :
    List Url → ItemChanges → SyncProgress → ItemChanges × SyncProgress
  | [], acc, prog => (acc, prog)
  | url :: rest, acc, prog =>
    match alookup cal_local url with
    | none => handle_leftover_local_items cal_local rest acc prog.error
    | some local_item =>
      match local_item.ss with
      | .Synced _ =>
        handle_leftover_local_items cal_local rest
          { acc with remote_item_dels := url :: acc.remote_item_dels } prog
      | .NotSynced =>
        handle_leftover_local_items cal_local rest
          { acc with local_item_additions := url :: acc.local_item_additions } prog
      | .LocallyDeleted _ =>
        handle_leftover_local_items cal_local rest
          { acc with remote_item_dels := url :: acc.remote_item_dels } prog
      | .LocallyModified _ =>
        handle_leftover_local_items cal_local rest
          { acc with remote_item_dels := url :: acc.remote_item_dels } prog

/-- `Provider::calculate_item_changes`: compute the item delta between a local
calendar and the remote version-tag map. -/
def calculate_item_changes (cal_local : List (Url × LocalItem))
    (remote_items : List (Url × VersionTag)) (prog : SyncProgress) :
    ItemChanges × SyncProgress :=
  let out := scan_remote_items cal_local remote_items (akeys cal_local) ItemChanges.empty prog
  handle_leftover_local_items cal_local out.2.1 out.1 out.2.2

/-! ### Characterization of the delta computation -/

theorem scan_remote_item_dels_frame (L : List (Url × LocalItem))
    (R : List (Url × VersionTag)) (th : List Url) (acc : ItemChanges)
    (prog : SyncProgress) :
    (scan_remote_items L R th acc prog).1.remote_item_dels = acc.remote_item_dels := by
  induction R generalizing th acc prog with
  | nil => simp [scan_remote_items]
  | cons e rest ih =>
    obtain ⟨url, rt⟩ := e
    cases hl : alookup L url with
    | none => simp only [scan_remote_items, hl]; rw [ih]
    | some item =>
      obtain ⟨d, ss⟩ := item
      cases ss <;> simp only [scan_remote_items, hl] <;> (try split_ifs) <;> rw [ih]

theorem scan_local_item_additions_frame (L : List (Url × LocalItem))
    (R : List (Url × VersionTag)) (th : List Url) (acc : ItemChanges)
    (prog : SyncProgress) :
    (scan_remote_items L R th acc prog).1.local_item_additions = acc.local_item_additions := by
  induction R generalizing th acc prog with
  | nil => simp [scan_remote_items]
  | cons e rest ih =>
    obtain ⟨url, rt⟩ := e
    cases hl : alookup L url with
    | none => simp only [scan_remote_items, hl]; rw [ih]
    | some item =>
      obtain ⟨d, ss⟩ := item
      cases ss <;> simp only [scan_remote_items, hl] <;> (try split_ifs) <;> rw [ih]

theorem scan_mem_remote_item_additions (L : List (Url × LocalItem))
    (R : List (Url × VersionTag)) (th : List Url) (acc : ItemChanges)
    (prog : SyncProgress) (u : Url) :
    u ∈ (scan_remote_items L R th acc prog).1.remote_item_additions ↔
      u ∈ acc.remote_item_additions ∨ (alookup L u = none ∧ ∃ rt, (u, rt) ∈ R) := by
  induction R generalizing th acc prog with
  | nil => simp [scan_remote_items]
  | cons e rest ih =>
    obtain ⟨url, rt⟩ := e
    by_cases hu : u = url
    · subst hu
      cases hl : alookup L u with
      | none =>
        simp only [scan_remote_items, hl]
        rw [ih]
        simp [hl]
      | some item =>
        obtain ⟨d, ss⟩ := item
        cases ss <;> simp only [scan_remote_items, hl] <;> (try split_ifs) <;>
          rw [ih] <;> simp [hl]
    · cases hl : alookup L url with
      | none =>
        simp only [scan_remote_items, hl]
        rw [ih]
        simp [hu, List.mem_cons, Prod.mk.injEq]
      | some item =>
        obtain ⟨d, ss⟩ := item
        cases ss <;> simp only [scan_remote_items, hl] <;> (try split_ifs) <;>
          rw [ih] <;> simp [hu, List.mem_cons, Prod.mk.injEq]

/-- The condition under which the first loop classifies a URL present on both
sides as a *remote modification*: `Synced` with a differing tag, or a
conflicting `LocallyModified`/`LocallyDeleted` (differing tag, server wins). -/
def remote_change_status (rt : VersionTag) : SyncStatus → Bool
  | .NotSynced => false
  | .Synced lt => rt ≠ lt
  | .LocallyModified lt => rt ≠ lt
  | .LocallyDeleted lt => rt ≠ lt

theorem scan_mem_remote_item_changes (L : List (Url × LocalItem))
    (R : List (Url × VersionTag)) (th : List Url) (acc : ItemChanges)
    (prog : SyncProgress) (u : Url) :
    u ∈ (scan_remote_items L R th acc prog).1.remote_item_changes ↔
      u ∈ acc.remote_item_changes ∨
        ∃ rt it, (u, rt) ∈ R ∧ alookup L u = some it ∧ remote_change_status rt it.ss = true := by
  induction R generalizing th acc prog with
  | nil => simp [scan_remote_items]
  | cons e rest ih =>
    obtain ⟨url, rt⟩ := e
    by_cases hu : u = url
    · subst hu
      cases hl : alookup L u with
      | none =>
        simp only [scan_remote_items, hl]
        rw [ih]
        simp [hl]
      | some item =>
        obtain ⟨d, ss⟩ := item
        cases ss <;> simp only [scan_remote_items, hl] <;> (try split_ifs) <;>
          rw [ih] <;> simp_all [remote_change_status, List.mem_cons, Prod.mk.injEq]
    · cases hl : alookup L url with
      | none =>
        simp only [scan_remote_items, hl]
        rw [ih]
        simp [hu, List.mem_cons, Prod.mk.injEq]
      | some item =>
        obtain ⟨d, ss⟩ := item
        cases ss <;> simp only [scan_remote_items, hl] <;> (try split_ifs) <;>
          rw [ih] <;> simp [hu, List.mem_cons, Prod.mk.injEq]

theorem scan_mem_local_item_changes (L : List (Url × LocalItem))
    (R : List (Url × VersionTag)) (th : List Url) (acc : ItemChanges)
    (prog : SyncProgress) (u : Url) :
    u ∈ (scan_remote_items L R th acc prog).1.local_item_changes ↔
      u ∈ acc.local_item_changes ∨
        ∃ rt it, (u, rt) ∈ R ∧ alookup L u = some it ∧ it.ss = .LocallyModified rt := by
  induction R generalizing th acc prog with
  | nil => simp [scan_remote_items]
  | cons e rest ih =>
    obtain ⟨url, rt⟩ := e
    by_cases hu : u = url
    · subst hu
      cases hl : alookup L u with
      | none =>
        simp only [scan_remote_items, hl]
        rw [ih]
        simp [hl]
      | some item =>
        obtain ⟨d, ss⟩ := item
        cases ss <;> simp only [scan_remote_items, hl] <;> (try split_ifs) <;>
          rw [ih] <;> simp_all [List.mem_cons, Prod.mk.injEq, eq_comm]
    · cases hl : alookup L url with
      | none =>
        simp only [scan_remote_items, hl]
        rw [ih]
        simp [hu, List.mem_cons, Prod.mk.injEq]
      | some item =>
        obtain ⟨d, ss⟩ := item
        cases ss <;> simp only [scan_remote_items, hl] <;> (try split_ifs) <;>
          rw [ih] <;> simp [hu, List.mem_cons, Prod.mk.injEq]

theorem scan_mem_local_item_dels (L : List (Url × LocalItem))
    (R : List (Url × VersionTag)) (th : List Url) (acc : ItemChanges)
    (prog : SyncProgress) (u : Url) :
    u ∈ (scan_remote_items L R th acc prog).1.local_item_dels ↔
      u ∈ acc.local_item_dels ∨
        ∃ rt it, (u, rt) ∈ R ∧ alookup L u = some it ∧ it.ss = .LocallyDeleted rt := by
  induction R generalizing th acc prog with
  | nil => simp [scan_remote_items]
  | cons e rest ih =>
    obtain ⟨url, rt⟩ := e
    by_cases hu : u = url
    · subst hu
      cases hl : alookup L u with
      | none =>
        simp only [scan_remote_items, hl]
        rw [ih]
        simp [hl]
      | some item =>
        obtain ⟨d, ss⟩ := item
        cases ss <;> simp only [scan_remote_items, hl] <;> (try split_ifs) <;>
          rw [ih] <;> simp_all [List.mem_cons, Prod.mk.injEq, eq_comm]
    · cases hl : alookup L url with
      | none =>
        simp only [scan_remote_items, hl]
        rw [ih]
        simp [hu, List.mem_cons, Prod.mk.injEq]
      | some item =>
        obtain ⟨d, ss⟩ := item
        cases ss <;> simp only [scan_remote_items, hl] <;> (try split_ifs) <;>
          rw [ih] <;> simp [hu, List.mem_cons, Prod.mk.injEq]

theorem scan_mem_to_handle (L : List (Url × LocalItem))
    (R : List (Url × VersionTag)) (th : List Url) (acc : ItemChanges)
    (prog : SyncProgress) (u : Url) (hnd : th.Nodup) :
    u ∈ (scan_remote_items L R th acc prog).2.1 ↔
      u ∈ th ∧ ¬(alookup L u ≠ none ∧ ∃ rt, (u, rt) ∈ R) := by
  induction R generalizing th acc prog with
  | nil => simp [scan_remote_items]
  | cons e rest ih =>
    obtain ⟨url, rt⟩ := e
    by_cases hu : u = url
    · subst hu
      cases hl : alookup L u with
      | none =>
        simp only [scan_remote_items, hl]
        rw [ih _ _ _ hnd]
        simp [hl]
      | some item =>
        obtain ⟨d, ss⟩ := item
        have hmem : u ∉ th.erase u := fun hc => ((List.Nodup.mem_erase_iff hnd).mp hc).1 rfl
        cases ss <;> simp only [scan_remote_items, hl] <;> (try split_ifs) <;>
          rw [ih _ _ _ (hnd.erase u)] <;> simp [hl, hmem]
    · have hmem : u ∈ th.erase url ↔ u ∈ th := by
        rw [List.Nodup.mem_erase_iff hnd]
        simp [hu]
      cases hl : alookup L url with
      | none =>
        simp only [scan_remote_items, hl]
        rw [ih _ _ _ hnd]
        simp [hu, List.mem_cons, Prod.mk.injEq]
      | some item =>
        obtain ⟨d, ss⟩ := item
        cases ss <;> simp only [scan_remote_items, hl] <;> (try split_ifs) <;>
          rw [ih _ _ _ (hnd.erase url)] <;> simp [hu, hmem, List.mem_cons, Prod.mk.injEq]

theorem leftover_mem_remote_item_dels (L : List (Url × LocalItem)) (th : List Url)
    (acc : ItemChanges) (prog : SyncProgress) (u : Url) :
    u ∈ (handle_leftover_local_items L th acc prog).1.remote_item_dels ↔
      u ∈ acc.remote_item_dels ∨
        (u ∈ th ∧ ∃ it, alookup L u = some it ∧ it.ss ≠ .NotSynced) := by
  induction th generalizing acc prog with
  | nil => simp [handle_leftover_local_items]
  | cons url rest ih =>
    by_cases hu : u = url
    · subst hu
      cases hl : alookup L u with
      | none =>
        simp only [handle_leftover_local_items, hl]
        rw [ih]
        simp [hl]
      | some item =>
        obtain ⟨d, ss⟩ := item
        cases ss <;> simp only [handle_leftover_local_items, hl] <;>
          rw [ih] <;> simp [hl]
    · cases hl : alookup L url with
      | none =>
        simp only [handle_leftover_local_items, hl]
        rw [ih]
        simp [hu]
      | some item =>
        obtain ⟨d, ss⟩ := item
        cases ss <;> simp only [handle_leftover_local_items, hl] <;>
          rw [ih] <;> simp [hu]

theorem leftover_mem_local_item_additions (L : List (Url × LocalItem)) (th : List Url)
    (acc : ItemChanges) (prog : SyncProgress) (u : Url) :
    u ∈ (handle_leftover_local_items L th acc prog).1.local_item_additions ↔
      u ∈ acc.local_item_additions ∨
        (u ∈ th ∧ ∃ it, alookup L u = some it ∧ it.ss = .NotSynced) := by
  induction th generalizing acc prog with
  | nil => simp [handle_leftover_local_items]
  | cons url rest ih =>
    by_cases hu : u = url
    · subst hu
      cases hl : alookup L u with
      | none =>
        simp only [handle_leftover_local_items, hl]
        rw [ih]
        simp [hl]
      | some item =>
        obtain ⟨d, ss⟩ := item
        cases ss <;> simp only [handle_leftover_local_items, hl] <;>
          rw [ih] <;> simp [hl]
    · cases hl : alookup L url with
      | none =>
        simp only [handle_leftover_local_items, hl]
        rw [ih]
        simp [hu]
      | some item =>
        obtain ⟨d, ss⟩ := item
        cases ss <;> simp only [handle_leftover_local_items, hl] <;>
          rw [ih] <;> simp [hu]

theorem leftover_local_item_dels_frame (L : List (Url × LocalItem)) (th : List Url)
    (acc : ItemChanges) (prog : SyncProgress) :
    (handle_leftover_local_items L th acc prog).1.local_item_dels = acc.local_item_dels := by
  induction th generalizing acc prog with
  | nil => simp [handle_leftover_local_items]
  | cons url rest ih =>
    cases hl : alookup L url with
    | none => simp only [handle_leftover_local_items, hl]; rw [ih]
    | some item =>
      obtain ⟨d, ss⟩ := item
      cases ss <;> simp only [handle_leftover_local_items, hl] <;> rw [ih]

theorem leftover_local_item_changes_frame (L : List (Url × LocalItem)) (th : List Url)
    (acc : ItemChanges) (prog : SyncProgress) :
    (handle_leftover_local_items L th acc prog).1.local_item_changes = acc.local_item_changes := by
  induction th generalizing acc prog with
  | nil => simp [handle_leftover_local_items]
  | cons url rest ih =>
    cases hl : alookup L url with
    | none => simp only [handle_leftover_local_items, hl]; rw [ih]
    | some item =>
      obtain ⟨d, ss⟩ := item
      cases ss <;> simp only [handle_leftover_local_items, hl] <;> rw [ih]

theorem leftover_remote_item_changes_frame (L : List (Url × LocalItem)) (th : List Url)
    (acc : ItemChanges) (prog : SyncProgress) :
    (handle_leftover_local_items L th acc prog).1.remote_item_changes =
      acc.remote_item_changes := by
  induction th generalizing acc prog with
  | nil => simp [handle_leftover_local_items]
  | cons url rest ih =>
    cases hl : alookup L url with
    | none => simp only [handle_leftover_local_items, hl]; rw [ih]
    | some item =>
      obtain ⟨d, ss⟩ := item
      cases ss <;> simp only [handle_leftover_local_items, hl] <;> rw [ih]

theorem leftover_remote_item_additions_frame (L : List (Url × LocalItem)) (th : List Url)
    (acc : ItemChanges) (prog : SyncProgress) :
    (handle_leftover_local_items L th acc prog).1.remote_item_additions =
      acc.remote_item_additions := by
  induction th generalizing acc prog with
  | nil => simp [handle_leftover_local_items]
  | cons url rest ih =>
    cases hl : alookup L url with
    | none => simp only [handle_leftover_local_items, hl]; rw [ih]
    | some item =>
      obtain ⟨d, ss⟩ := item
      cases ss <;> simp only [handle_leftover_local_items, hl] <;> rw [ih]

theorem akeys_mem_iff {α β : Type} (l : List (α × β)) (a : α) :
    a ∈ akeys l ↔ ∃ b, (a, b) ∈ l := by
  rw [akeys, List.mem_map]
  constructor
  · rintro ⟨⟨k, b⟩, hm, rfl⟩
    exact ⟨b, hm⟩
  · rintro ⟨b, hm⟩
    exact ⟨(a, b), hm, rfl⟩

/-- Full pointwise characterization of the item delta computed by
`Provider::calculate_item_changes`: the six sets classify every URL exactly
by the rules of the spec's table (§4.4.2). -/
theorem calculate_item_changes_spec (L : List (Url × LocalItem))
    (R : List (Url × VersionTag)) (prog : SyncProgress)
    (hndL : (akeys L).Nodup) (u : Url) :
    (u ∈ (calculate_item_changes L R prog).1.remote_item_additions ↔
      alookup L u = none ∧ ∃ rt, (u, rt) ∈ R)
    ∧ (u ∈ (calculate_item_changes L R prog).1.remote_item_changes ↔
      ∃ rt it, (u, rt) ∈ R ∧ alookup L u = some it ∧ remote_change_status rt it.ss = true)
    ∧ (u ∈ (calculate_item_changes L R prog).1.local_item_changes ↔
      ∃ rt it, (u, rt) ∈ R ∧ alookup L u = some it ∧ it.ss = .LocallyModified rt)
    ∧ (u ∈ (calculate_item_changes L R prog).1.local_item_dels ↔
      ∃ rt it, (u, rt) ∈ R ∧ alookup L u = some it ∧ it.ss = .LocallyDeleted rt)
    ∧ (u ∈ (calculate_item_changes L R prog).1.remote_item_dels ↔
      (∀ rt, (u, rt) ∉ R) ∧ ∃ it, alookup L u = some it ∧ it.ss ≠ .NotSynced)
    ∧ (u ∈ (calculate_item_changes L R prog).1.local_item_additions ↔
      (∀ rt, (u, rt) ∉ R) ∧ ∃ it, alookup L u = some it ∧ it.ss = .NotSynced) := by
  have hcalc : calculate_item_changes L R prog =
      handle_leftover_local_items L
        (scan_remote_items L R (akeys L) ItemChanges.empty prog).2.1
        (scan_remote_items L R (akeys L) ItemChanges.empty prog).1
        (scan_remote_items L R (akeys L) ItemChanges.empty prog).2.2 := rfl
  refine ⟨?_, ?_, ?_, ?_, ?_, ?_⟩
  · rw [hcalc, leftover_remote_item_additions_frame, scan_mem_remote_item_additions]
    simp [ItemChanges.empty, and_comm]
  · rw [hcalc, leftover_remote_item_changes_frame, scan_mem_remote_item_changes]
    simp [ItemChanges.empty]
  · rw [hcalc, leftover_local_item_changes_frame, scan_mem_local_item_changes]
    simp [ItemChanges.empty]
  · rw [hcalc, leftover_local_item_dels_frame, scan_mem_local_item_dels]
    simp [ItemChanges.empty]
  · rw [hcalc, leftover_mem_remote_item_dels, scan_remote_item_dels_frame,
      scan_mem_to_handle _ _ _ _ _ _ hndL]
    simp only [ItemChanges.empty, List.not_mem_nil, false_or]
    constructor
    · rintro ⟨⟨hkeys, hnot⟩, it, hit, hss⟩
      exact ⟨fun rt hrt => hnot ⟨by simp [hit], ⟨rt, hrt⟩⟩, it, hit, hss⟩
    · rintro ⟨hnR, it, hit, hss⟩
      refine ⟨⟨(alookup_isSome L u).mp (by simp [hit]), fun hc => ?_⟩, it, hit, hss⟩
      rcases hc.2 with ⟨rt, hrt⟩
      exact hnR rt hrt
  · rw [hcalc, leftover_mem_local_item_additions, scan_local_item_additions_frame,
      scan_mem_to_handle _ _ _ _ _ _ hndL]
    simp only [ItemChanges.empty, List.not_mem_nil, false_or]
    constructor
    · rintro ⟨⟨hkeys, hnot⟩, it, hit, hss⟩
      exact ⟨fun rt hrt => hnot ⟨by simp [hit], ⟨rt, hrt⟩⟩, it, hit, hss⟩
    · rintro ⟨hnR, it, hit, hss⟩
      refine ⟨⟨(alookup_isSome L u).mp (by simp [hit]), fun hc => ?_⟩, it, hit, hss⟩
      rcases hc.2 with ⟨rt, hrt⟩
      exact hnR rt hrt

theorem remote_change_status_iff (rt : VersionTag) (ss : SyncStatus) :
    remote_change_status rt ss = true ↔
      (∃ lt, ss = .Synced lt ∧ rt ≠ lt) ∨ (∃ lt, ss = .LocallyModified lt ∧ rt ≠ lt) ∨
        (∃ lt, ss = .LocallyDeleted lt ∧ rt ≠ lt) := by
  cases ss <;> simp [remote_change_status]

theorem item_delta_spec
    (L : List (Url × LocalItem)) (R : List (Url × VersionTag)) (prog : SyncProgress)
    (u : Url) (hndL : (akeys L).Nodup) (hndR : (akeys R).Nodup) :
    (u ∈ (calculate_item_changes L R prog).1.remote_item_additions ↔
      (∃ rt, alookup R u = some rt) ∧ alookup L u = none)
    ∧ (u ∈ (calculate_item_changes L R prog).1.remote_item_changes ↔
      ∃ rt it, alookup R u = some rt ∧ alookup L u = some it ∧
        ((∃ lt, it.ss = .Synced lt ∧ rt ≠ lt) ∨
          (∃ lt, it.ss = .LocallyModified lt ∧ rt ≠ lt) ∨
          (∃ lt, it.ss = .LocallyDeleted lt ∧ rt ≠ lt)))
    ∧ (u ∈ (calculate_item_changes L R prog).1.local_item_changes ↔
      ∃ rt it, alookup R u = some rt ∧ alookup L u = some it ∧
        it.ss = .LocallyModified rt)
    ∧ (u ∈ (calculate_item_changes L R prog).1.local_item_dels ↔
      ∃ rt it, alookup R u = some rt ∧ alookup L u = some it ∧
        it.ss = .LocallyDeleted rt)
    ∧ (u ∈ (calculate_item_changes L R prog).1.remote_item_dels ↔
      alookup R u = none ∧ ∃ it, alookup L u = some it ∧ it.ss ≠ .NotSynced)
    ∧ (u ∈ (calculate_item_changes L R prog).1.local_item_additions ↔
      alookup R u = none ∧ ∃ it, alookup L u = some it ∧ it.ss = .NotSynced) := by
  obtain ⟨h1, h2, h3, h4, h5, h6⟩ := calculate_item_changes_spec L R prog hndL u
  have hmemR : ∀ rt, ((u, rt) ∈ R ↔ alookup R u = some rt) :=
    fun rt => ⟨mem_alookup hndR, alookup_mem⟩
  have hnoneR : (∀ rt, (u, rt) ∉ R) ↔ alookup R u = none := by
    rw [alookup_eq_none, akeys_mem_iff]
    exact not_exists.symm
  refine ⟨?_, ?_, ?_, ?_, ?_, ?_⟩
  · rw [h1]
    simp only [hmemR]
    exact and_comm
  · rw [h2]
    simp only [hmemR, remote_change_status_iff]
  · rw [h3]
    simp only [hmemR]
  · rw [h4]
    simp only [hmemR]
  · rw [h5, hnoneR]
  · rw [h6, hnoneR]

/-- **C1.** For every local calendar `L` and remote version-tag map `R`, the
item delta computation (`Provider::calculate_item_changes`) classifies every
URL exactly as the spec's table prescribes: a URL in `R` but not in `L` is a
remote addition; a URL present on both sides with local status `NotSynced` is
skipped (URL reuse — it lands in none of the six sets, which follows from the
six equivalences below); with `Synced(lt)` it is a remote modification iff
the remote tag differs from `lt` and otherwise a no-op; with
`LocallyModified(lt)` it is a local modification iff the tags are equal and
otherwise a remote modification; with `LocallyDeleted(lt)` it is a local
deletion iff the tags are equal and otherwise a remote modification; and a
URL present in `L` but absent from `R` is a remote deletion when its status
is `Synced`, `LocallyDeleted` or `LocallyModified`, and a local addition when
its status is `NotSynced`. -/
theorem item_delta_classification
    (L : List (Url × LocalItem)) (R : List (Url × VersionTag)) (prog : SyncProgress)
    (u : Url) (hndL : (akeys L).Nodup) (hndR : (akeys R).Nodup) :
    (u ∈ (calculate_item_changes L R prog).1.remote_item_additions ↔
      (∃ rt, alookup R u = some rt) ∧ alookup L u = none)
    ∧ (u ∈ (calculate_item_changes L R prog).1.remote_item_changes ↔
      ∃ rt it, alookup R u = some rt ∧ alookup L u = some it ∧
        ((∃ lt, it.ss = .Synced lt ∧ rt ≠ lt) ∨
          (∃ lt, it.ss = .LocallyModified lt ∧ rt ≠ lt) ∨
          (∃ lt, it.ss = .LocallyDeleted lt ∧ rt ≠ lt)))
    ∧ (u ∈ (calculate_item_changes L R prog).1.local_item_changes ↔
      ∃ rt it, alookup R u = some rt ∧ alookup L u = some it ∧
        it.ss = .LocallyModified rt)
    ∧ (u ∈ (calculate_item_changes L R prog).1.local_item_dels ↔
      ∃ rt it, alookup R u = some rt ∧ alookup L u = some it ∧
        it.ss = .LocallyDeleted rt)
    ∧ (u ∈ (calculate_item_changes L R prog).1.remote_item_dels ↔
      alookup R u = none ∧ ∃ it, alookup L u = some it ∧ it.ss ≠ .NotSynced)
    ∧ (u ∈ (calculate_item_changes L R prog).1.local_item_additions ↔
      alookup R u = none ∧ ∃ it, alookup L u = some it ∧ it.ss = .NotSynced) :=
  item_delta_spec L R prog u hndL hndR

/-- A sample local calendar exercising all four sync states. -/
def exCalL : List (Url × LocalItem) :=
  [("u1", ⟨"A", .Synced "t1"⟩), ("u2", ⟨"B", .LocallyModified "t1"⟩),
   ("u3", ⟨"C", .LocallyDeleted "t2"⟩), ("u4", ⟨"D", .NotSynced⟩)]

/-- A sample remote version-tag map: `u3` changed remotely, `u5` is new. -/
def exCalR : List (Url × VersionTag) :=
  [("u1", "t1"), ("u2", "t1"), ("u3", "t9"), ("u5", "t5")]

/-- Witness for C1 at a concrete input: `u3` (locally deleted at `t2`,
remotely at `t9`) is classified as a remote modification. -/
theorem item_delta_classification_witness :
    "u3" ∈ (calculate_item_changes exCalL exCalR SyncProgress.fresh).1.remote_item_changes :=
  (item_delta_classification exCalL exCalR SyncProgress.fresh "u3"
      (by decide) (by decide)).2.1.mpr
    ⟨"t9", ⟨"C", .LocallyDeleted "t2"⟩, by decide, by decide,
      Or.inr (Or.inr ⟨"t2", by decide, by decide⟩)⟩

/-! ## Errors (`error.rs`), reduced to the variants the embedded code returns -/

/-- `KFError` from `error.rs` (payload details that play no semantic role are
dropped). -/
inductive KFError where
  | ItemAlreadyExists (url : Url)
  | ItemDoesNotExist (url : Url)
  | PropertyAlreadyExists (nsn : NamespacedName)
  | PropertyDoesNotExist (nsn : NamespacedName)
  | CannotUpdateUnsyncedItem
  | CannotUpdateUnchangedItem
  | NoETag (url : Url)
  | UnexpectedHTTPStatusCode (got : Nat)
deriving DecidableEq, Repr

/-! ## WebDAV properties (`utils/prop.rs`) -/

/-- `Property` from `utils/prop.rs`: a WebDAV property with its sync state. -/
structure Property where
  nsn : NamespacedName
  value : String
  sync_status : SyncStatus
deriving DecidableEq, Repr

/-- `Property::mark_synced_to_self`: mark the property `Synced` with its own
value as the version tag. -/
def Property.mark_synced_to_self (p : Property) : Property :=
  { p with sync_status := .Synced p.value }

/-! ## The local cached calendar (`calendar/cached_calendar.rs`) -/

/-- `CachedCalendar`: the local calendar of the cache.  `meta` stands for the
supported-components/color metadata, which the sync engine only copies. -/
structure CachedCalendar where
  name : String
  url : Url
  meta : String
  properties : List (NamespacedName × Property)
  items : List (Url × LocalItem)
  deleted : Bool
deriving DecidableEq, Repr

/-- `CompleteCalendar::new` for `CachedCalendar`: an empty calendar. -/
def CachedCalendar.new (name : String) (url : Url) (meta : String) : CachedCalendar :=
  { name := name, url := url, meta := meta, properties := [], items := [], deleted := false }

/-- `CachedCalendar::mark_item_for_deletion_sync`
(calendar/cached_calendar.rs): transition the item at `item_url` to
`LocallyDeleted` (keeping the previously recorded tag), or drop it outright
when it was never synced. -/
def mark_item_for_deletion_sync (items : List (Url × LocalItem)) (item_url : Url) :
    Except KFError (List (Url × LocalItem)) :=
  match alookup items item_url with
  | none => .error (.ItemDoesNotExist item_url)
  | some item =>
    match item.ss with
    | .Synced prev_ss => .ok (ainsert item_url { item with ss := .LocallyDeleted prev_ss } items)
    | .LocallyModified prev_ss =>
      .ok (ainsert item_url { item with ss := .LocallyDeleted prev_ss } items)
    | .LocallyDeleted prev_ss =>
      .ok (ainsert item_url { item with ss := .LocallyDeleted prev_ss } items)
    | .NotSynced => .ok (aerase item_url items)

theorem ainsert_lookup_self {α β : Type} [DecidableEq α] {l : List (α × β)} {a : α} {b : β}
    (h : alookup l a = some b) : ainsert a b l = l := by
  induction l with
  | nil => simp [alookup] at h
  | cons kv rest ih =>
    obtain ⟨k, v⟩ := kv
    by_cases hk : k = a
    · subst hk
      simp [alookup] at h
      simp [ainsert, h]
    · simp [alookup, hk] at h
      simp [ainsert, hk, ih h]

/-- **C10.** `mark_item_for_deletion` is idempotent on tombstones: if the item
at `url` already has status `LocallyDeleted V`, the call succeeds and returns
the item map completely unchanged — the entry is still present, with the
identical status `LocallyDeleted V` and the same recorded version tag. -/
theorem mark_item_for_deletion_idempotent_on_tombstones
    (items : List (Url × LocalItem)) (url : Url) (it : LocalItem) (V : VersionTag)
    (hlook : alookup items url = some it) (hss : it.ss = .LocallyDeleted V) :
    mark_item_for_deletion_sync items url = .ok items ∧
      alookup items url = some { data := it.data, ss := .LocallyDeleted V } := by
  have hit : it = { data := it.data, ss := .LocallyDeleted V } := by
    cases it
    simp_all
  constructor
  · rw [mark_item_for_deletion_sync, hlook]
    have : { it with ss := .LocallyDeleted V } = it := by rw [hit]
    rw [hit]
    simp only [ainsert_lookup_self (hit ▸ hlook)]
  · rw [← hit]
    exact hlook

/-- Witness for C10 at a concrete input. -/
theorem mark_item_for_deletion_idempotent_witness :
    mark_item_for_deletion_sync [("u1", ⟨"A", .LocallyDeleted "v7"⟩)] "u1" =
        .ok [("u1", ⟨"A", .LocallyDeleted "v7"⟩)] ∧
      alookup [("u1", (⟨"A", .LocallyDeleted "v7"⟩ : LocalItem))] "u1" =
        some ⟨"A", .LocallyDeleted "v7"⟩ :=
  mark_item_for_deletion_idempotent_on_tombstones _ "u1" ⟨"A", .LocallyDeleted "v7"⟩ "v7"
    (by decide) (by decide)

/-! ## The local store (`cache.rs`) -/

/-- `Cache` from `cache.rs`: the local store's in-memory calendar map (the
serialization boundary plays no role here). -/
structure Cache where
  calendars : List (Url × CachedCalendar)
deriving DecidableEq, Repr

/-- `Cache::create_calendar` (cache.rs): build a fresh calendar, run
`HashMap::insert` — which *replaces* any existing binding and returns the old
one — and only then report `ItemAlreadyExists` if a binding was present.
The function returns the call's result together with the store state after
the call (the Rust method mutates `self.data.calendars` in place). -/
def Cache.create_calendar (c : Cache) (url : Url) (name : String) (meta : String) :
    Except KFError CachedCalendar × Cache :=
  let new_calendar := CachedCalendar.new name url meta
  let old := alookup c.calendars url
  let c1 : Cache := { c with calendars := ainsert url new_calendar c.calendars }
  match old with
  | some _ => (.error (.ItemAlreadyExists url), c1)
  | none => (.ok new_calendar, c1)

/-- A pre-existing calendar, with content, stored at `https://s/c1/`. -/
def exOldCal : CachedCalendar :=
  { CachedCalendar.new "old name" "https://s/c1/" "meta-old" with
    items := [("https://s/c1/i1", ⟨"task", .Synced "t1"⟩)] }

/-- **C5 (failing input).** On a store that already holds a calendar at `u`,
`create_calendar(u, …)` does return `ItemAlreadyExists` — but, contrary to
the claim, the previously stored calendar is *not* the one present
afterwards: the `HashMap::insert` performed before the error check has
already replaced it with the freshly created empty calendar. -/
theorem create_calendar_already_exists_replaces :
    (Cache.create_calendar ⟨[("https://s/c1/", exOldCal)]⟩ "https://s/c1/" "new name"
        "meta-new").1 = .error (.ItemAlreadyExists "https://s/c1/") ∧
      alookup (Cache.create_calendar ⟨[("https://s/c1/", exOldCal)]⟩ "https://s/c1/" "new name"
          "meta-new").2.calendars "https://s/c1/" =
        some (CachedCalendar.new "new name" "https://s/c1/" "meta-new") ∧
      alookup (Cache.create_calendar ⟨[("https://s/c1/", exOldCal)]⟩ "https://s/c1/" "new name"
          "meta-new").2.calendars "https://s/c1/" ≠ some exOldCal := by
  refine ⟨rfl, rfl, ?_⟩
  decide

/-! ## The remote calendar's HTTP boundary (`calendar/remote_calendar.rs`,
`client.rs`) -/

/-- An HTTP request as issued by `RemoteCalendar::update_item`/`add_item`:
method, target, the conditional header, and the serialized iCal body. -/
structure HttpRequest where
  method : String
  url : Url
  if_match : Option String
  body : String
deriving DecidableEq, Repr

/-- An HTTP response: its status code and its `ETag` header, if any. -/
structure HttpResponse where
  status : Nat
  etag : Option String
deriving DecidableEq, Repr

/-- `http::StatusCode::is_success`: `2xx`. -/
def status_is_success (s : Nat) : Bool := 200 ≤ s ∧ s ≤ 299

/-- `HttpStatusConstraint` from `error.rs`. -/
inductive HttpStatusConstraint where
  | Success : HttpStatusConstraint
  | Specific (statuses : List Nat) : HttpStatusConstraint
deriving DecidableEq, Repr

/-- `HttpStatusConstraint::satisfied_by`. -/
def HttpStatusConstraint.satisfied_by : HttpStatusConstraint → Nat → Bool
  | .Success, s => status_is_success s
  | .Specific statuses, s => statuses.any (fun x => x = s)

/-- The `PUT` request shape shared by `update_item`: `If-Match` set to the
previously recorded tag, body the serialized item. -/
def put_request (url : Url) (old_etag : VersionTag) (body : String) : HttpRequest :=
  { method := "PUT", url := url, if_match := some old_etag, body := body }

/-- The `PUT` issued by `RemoteCalendar::update_item` once the input item's
status check has passed: `If-Match: old_etag`, then status/ETag handling.
The returned list records the requests issued. -/
def update_item_put (server : HttpRequest → HttpResponse) (url : Url) (item : LocalItem)
    (old_etag : VersionTag) : Except KFError SyncStatus × List HttpRequest :=
  let req : HttpRequest := put_request url old_etag item.data
  let response := server req
  if ¬ status_is_success response.status then
    (.error (.UnexpectedHTTPStatusCode response.status), [req])
  else
    match response.etag with
    | none => (.error (.NoETag url), [req])
    | some etag => (.ok (.Synced etag), [req])

/-- `RemoteCalendar::update_item` (calendar/remote_calendar.rs): reject items
whose status is `NotSynced` or `Synced` at the boundary (before any request);
otherwise `PUT` with `If-Match` set to the recorded tag. -/
def RemoteCalendar.update_item (server : HttpRequest → HttpResponse) (url : Url)
    (item : LocalItem) : Except KFError SyncStatus × List HttpRequest :=
  match item.ss with
  | .NotSynced => (.error .CannotUpdateUnsyncedItem, [])
  | .Synced _ => (.error .CannotUpdateUnchangedItem, [])
  | .LocallyModified etag => update_item_put server url item etag
  | .LocallyDeleted etag => update_item_put server url item etag

/-- **C6.** `update_item` errors on `Synced`/`NotSynced` input without issuing
any HTTP request; on `LocallyModified V` or `LocallyDeleted V` it issues
exactly one `PUT` with `If-Match: V`, and on a successful response carrying
an ETag it returns `Synced` of the response's ETag. -/
theorem update_item_boundary (server : HttpRequest → HttpResponse) (url : Url)
    (item : LocalItem) :
    (∀ vt, item.ss = .Synced vt →
      RemoteCalendar.update_item server url item = (.error .CannotUpdateUnchangedItem, []))
    ∧ (item.ss = .NotSynced →
      RemoteCalendar.update_item server url item = (.error .CannotUpdateUnsyncedItem, []))
    ∧ (∀ V, item.ss = .LocallyModified V ∨ item.ss = .LocallyDeleted V →
      (RemoteCalendar.update_item server url item).2 = [put_request url V item.data]
        ∧ ∀ e,
          status_is_success (server (put_request url V item.data)).status = true →
          (server (put_request url V item.data)).etag = some e →
          (RemoteCalendar.update_item server url item).1 = .ok (.Synced e)) := by
  refine ⟨?_, ?_, ?_⟩
  · intro vt h
    rw [RemoteCalendar.update_item, h]
  · intro h
    rw [RemoteCalendar.update_item, h]
  · intro V hV
    have hput : RemoteCalendar.update_item server url item = update_item_put server url item V := by
      rcases hV with h | h <;> rw [RemoteCalendar.update_item, h]
    constructor
    · rw [hput, update_item_put]
      split
      · rfl
      · split <;> rfl
    · intro e hst hetag
      rw [hput, update_item_put]
      simp only [hst, hetag]
      simp

/-- A server answering every request with `204 No Content` and ETag `v2`. -/
def exServer : HttpRequest → HttpResponse := fun _ => { status := 204, etag := some "v2" }

/-- Witness for C6 at a concrete input: a `LocallyModified "v1"` item is sent
with `If-Match: v1` and comes back `Synced "v2"`. -/
theorem update_item_boundary_witness :
    (RemoteCalendar.update_item exServer "https://s/c1/i1" ⟨"D", .LocallyModified "v1"⟩).2 =
        [put_request "https://s/c1/i1" "v1" "D"]
      ∧ (RemoteCalendar.update_item exServer "https://s/c1/i1"
          ⟨"D", .LocallyModified "v1"⟩).1 = .ok (.Synced "v2") := by
  have h := (update_item_boundary exServer "https://s/c1/i1"
      ⟨"D", .LocallyModified "v1"⟩).2.2 "v1" (Or.inl rfl)
  exact ⟨h.1, h.2 "v2" (by decide) rfl⟩

/-- `RemoteCalendar::delete_item` (calendar/remote_calendar.rs): issue the
`DELETE` and accept any success status (`response.status().is_success()`). -/
def RemoteCalendar.delete_item_response (status : Nat) : Except KFError Unit :=
  if ¬ status_is_success status then .error (.UnexpectedHTTPStatusCode status)
  else .ok ()

/-- The state of a calendar on the CalDAV server, as observed through
`RemoteCalendar`: per-item content and ETag, per-property value. -/
structure RemoteCal where
  name : String
  url : Url
  meta : String
  items : List (Url × RemoteItem)
  props : List (NamespacedName × String)
deriving DecidableEq, Repr

/-- An empty remote calendar (`DavCalendar::new`). -/
def RemoteCal.new (name : String) (url : Url) (meta : String) : RemoteCal :=
  { name := name, url := url, meta := meta, items := [], props := [] }

/-- `Client::delete_calendar` (client.rs): issue the `DELETE`, require the
status to be exactly `200 OK` or `204 No Content` (as
`HttpStatusConstraint::Specific`), and only then evict the calendar from the
cached reply map.  Returns the call's result together with the calendar map
after the call. -/
def Client.delete_calendar (status : Nat) (url : Url)
    (cals : List (Url × RemoteCal)) :
    Except KFError (Option RemoteCal) × List (Url × RemoteCal) :=
  if (HttpStatusConstraint.Specific [200, 204]).satisfied_by status then
    (.ok (alookup cals url), aerase url cals)
  else
    (.error (.ItemDoesNotExist url), cals)

/-- **C9 (counterexample).** The claim says a DELETE is successful *only* on
`200` or `204`; but `RemoteCalendar::delete_item` accepts any `2xx`: at
status `202 Accepted` it returns `Ok(())` instead of the claimed error. -/
theorem delete_item_accepts_202 :
    ¬(202 = 200 ∨ 202 = 204) ∧ RemoteCalendar.delete_item_response 202 = .ok () :=
  ⟨by decide, rfl⟩

/-- Helper: the `Specific [200, 204]` constraint holds exactly on 200/204. -/
theorem satisfied_by_delete_iff (s : Nat) :
    (HttpStatusConstraint.Specific [200, 204]).satisfied_by s = true ↔ s = 200 ∨ s = 204 := by
  simp only [HttpStatusConstraint.satisfied_by, List.any_cons, List.any_nil, Bool.or_eq_true,
    decide_eq_true_eq, Bool.false_eq_true, or_false]
  constructor <;> (intro h; omega)

/-- **C9 (amended).** Item deletion (`RemoteCalendar::delete_item`) treats any
`2xx` status as success and errors otherwise; calendar deletion
(`Client::delete_calendar`) succeeds exactly on `200` or `204`, and on any
other status it returns an error and leaves the client's calendar map
unchanged. -/
theorem delete_status_handling (status : Nat) (url : Url)
    (cals : List (Url × RemoteCal)) :
    (RemoteCalendar.delete_item_response status = .ok () ↔ 200 ≤ status ∧ status ≤ 299)
    ∧ ((∃ r, (Client.delete_calendar status url cals).1 = .ok r) ↔
        status = 200 ∨ status = 204)
    ∧ (¬(status = 200 ∨ status = 204) →
        (Client.delete_calendar status url cals).1 = .error (.ItemDoesNotExist url)
        ∧ (Client.delete_calendar status url cals).2 = cals) := by
  have hsi : status_is_success status = true ↔ 200 ≤ status ∧ status ≤ 299 := by
    simp [status_is_success]
  refine ⟨?_, ?_, ?_⟩
  · rw [← hsi, RemoteCalendar.delete_item_response]
    cases hb : status_is_success status <;> simp [hb]
  · rw [← satisfied_by_delete_iff status, Client.delete_calendar]
    cases hb : (HttpStatusConstraint.Specific [200, 204]).satisfied_by status <;> simp [hb]
  · intro h
    rw [Client.delete_calendar]
    have hb : (HttpStatusConstraint.Specific [200, 204]).satisfied_by status = false := by
      cases hb : (HttpStatusConstraint.Specific [200, 204]).satisfied_by status
      · rfl
      · exact absurd ((satisfied_by_delete_iff status).mp hb) h
    simp [hb]

/-! ## The iCal codec (`ical/parser.rs`, data model from `task.rs`/`item.rs`)

The external `ical` crate is out of scope (the spec treats the text parser as
a given codec): its output — a stream of parsed `IcalCalendar` values — is
the input of the embedded `parse`. -/

/-- An error of the external `ical` text parser, opaque here. -/
abbrev ParserError := String

/-- `ical::property::Property`: name and optional value (parameters play no
role in `parse`). -/
structure IcalProp where
  name : String
  value : Option String
deriving DecidableEq, Repr

/-- `ical::parser::ical::component::IcalEvent`. -/
structure IcalEvent where
  properties : List IcalProp
deriving DecidableEq, Repr

/-- `ical::parser::ical::component::IcalTodo`. -/
structure IcalTodo where
  properties : List IcalProp
deriving DecidableEq, Repr

/-- `ical::parser::ical::component::IcalJournal`. -/
structure IcalJournal where
  properties : List IcalProp
deriving DecidableEq, Repr

/-- `ical::parser::ical::component::IcalCalendar`: one parsed `VCALENDAR`. -/
structure IcalCalendar where
  properties : List IcalProp
  events : List IcalEvent
  todos : List IcalTodo
  journals : List IcalJournal
deriving DecidableEq, Repr

/-- A UTC timestamp (`chrono::DateTime<Utc>` restricted to the second
precision the codec uses). -/
structure DateTimeUtc where
  year : Nat
  month : Nat
  day : Nat
  hour : Nat
  minute : Nat
  second : Nat
deriving DecidableEq, Repr

def isLeapYear (y : Nat) : Bool := (y % 4 = 0 && y % 100 ≠ 0) || y % 400 = 0

def daysInMonth (y m : Nat) : Nat :=
  if m = 1 ∨ m = 3 ∨ m = 5 ∨ m = 7 ∨ m = 8 ∨ m = 10 ∨ m = 12 then 31
  else if m = 4 ∨ m = 6 ∨ m = 9 ∨ m = 11 then 30
  else if m = 2 then (if isLeapYear y then 29 else 28)
  else 0

def digitsToNat (cs : List Char) : Nat := cs.foldl (fun acc c => acc * 10 + (c.toNat - 48)) 0

/-- The fixed-width `%Y%m%dT%H%M%S` shape `chrono` parses: 15 characters,
digits around a literal `T`, fields in calendar range (`%S` admits a leap
second). -/
def parse_date_time_chars : List Char → Option DateTimeUtc
  | [y1, y2, y3, y4, mo1, mo2, d1, d2, t, h1, h2, mi1, mi2, s1, s2] =>
    if ([y1, y2, y3, y4, mo1, mo2, d1, d2, h1, h2, mi1, mi2, s1, s2].all Char.isDigit)
        ∧ t = 'T' then
      let y := digitsToNat [y1, y2, y3, y4]
      let mo := digitsToNat [mo1, mo2]
      let d := digitsToNat [d1, d2]
      let h := digitsToNat [h1, h2]
      let mi := digitsToNat [mi1, mi2]
      let sec := digitsToNat [s1, s2]
      if 1 ≤ mo ∧ mo ≤ 12 ∧ 1 ≤ d ∧ d ≤ daysInMonth y mo ∧ h ≤ 23 ∧ mi ≤ 59 ∧ sec ≤ 60 then
        some ⟨y, mo, d, h, mi, sec⟩
      else none
    else none
  | _ => none

/-- `parse_date_time` (ical/parser.rs): try `%Y%m%dT%H%M%SZ`, then fall back
to `%Y%m%dT%H%M%S` (i.e. with optional trailing `Z`). -/
def parse_date_time (dt : String) : Option DateTimeUtc :=
  let cs := dt.toList
  if cs.getLast? = some 'Z' then parse_date_time_chars cs.dropLast
  else parse_date_time_chars cs

/-- `parse_date_time_from_property` (ical/parser.rs): absent values and
unparsable timestamps both yield `None` (the failure is only logged). -/
def parse_date_time_from_property (value : Option String) : Option DateTimeUtc :=
  value.bind (fun s => parse_date_time s)

/-- `CompletionStatus` from `task.rs`: `Uncompleted` carries no timestamp by
construction, which is how the code enforces the `Uncompleted`-with-timestamp
prohibition. -/
inductive CompletionStatus where
  | Completed (ts : Option DateTimeUtc) : CompletionStatus
  | Uncompleted : CompletionStatus
deriving DecidableEq, Repr

/-- `Task` from `task.rs`, restricted to the fields `parse` populates
(`relationships` is passed empty by the parser). -/
structure Task where
  url : Url
  uid : String
  sync_status : SyncStatus
  creation_date : Option DateTimeUtc
  last_modified : DateTimeUtc
  completion_status : CompletionStatus
  name : String
  ical_prod_id : String
  extra_parameters : List IcalProp
deriving DecidableEq, Repr

/-- `Item` from `item.rs` (`Event` has no parsed payload: `Event::new()`). -/
inductive Item where
  | Event : Item
  | Task (t : Task) : Item
deriving DecidableEq, Repr

/-- `IcalParseError` from `ical/parser.rs` (URL payloads dropped). -/
inductive IcalParseError where
  | ItemNotOfSingleType (n_events n_todos n_journals : Nat) : IcalParseError
  | InvalidData : IcalParseError
  | MissingDtstamp : IcalParseError
  | MissingName : IcalParseError
  | MissingUid : IcalParseError
  | MultipleItems : IcalParseError
  | UnableToParse (e : ParserError) : IcalParseError
deriving DecidableEq, Repr

/-- Modelled from the spec: `crate::ical::default_prod_id` (module
`ical/mod.rs` is not among the sources).  §6.2: the emitted PRODID is of the
shape `dash, org, product, EN` joined by double slashes; only its role as an
opaque fallback value matters here. -/
def default_prod_id : String := "-//ORG//PRODUCT//EN"

/-- `extract_ical_prod_id` (ical/parser.rs): the value of the first `PRODID`
property of the `VCALENDAR`, if any. -/
def extract_ical_prod_id (item : IcalCalendar) : Option String :=
  match item.properties.find? (fun p => p.name = "PRODID") with
  | some p => p.value
  | none => none

/-- `CurrentType` (ical/parser.rs). -/
inductive CurrentType where
  | Event (e : IcalEvent) : CurrentType
  | Todo (t : IcalTodo) : CurrentType
deriving DecidableEq, Repr

/-- `assert_single_type` (ical/parser.rs): exactly one component, of a single
type.  (The inner `[]` arms are unreachable: the length is 1 there.) -/
def assert_single_type (item : IcalCalendar) : Except IcalParseError CurrentType :=
  let n_events := item.events.length
  let n_todos := item.todos.length
  let n_journals := item.journals.length
  if n_events = 1 then
    if n_todos ≠ 0 ∨ n_journals ≠ 0 then
      .error (.ItemNotOfSingleType n_events n_todos n_journals)
    else
      match item.events with
      | e :: _ => .ok (.Event e)
      | [] => .error (.ItemNotOfSingleType n_events n_todos n_journals)
  else if n_todos = 1 then
    if n_events ≠ 0 ∨ n_journals ≠ 0 then
      .error (.ItemNotOfSingleType n_events n_todos n_journals)
    else
      match item.todos with
      | t :: _ => .ok (.Todo t)
      | [] => .error (.ItemNotOfSingleType n_events n_todos n_journals)
  else .error (.ItemNotOfSingleType n_events n_todos n_journals)

/-- The mutable locals of the `for prop in &todo.properties` loop of `parse`. -/
structure TodoScan where
  name : Option String
  uid : Option String
  completed : Bool
  last_modified : Option DateTimeUtc
  completion_date : Option DateTimeUtc
  creation_date : Option DateTimeUtc
  extra_parameters : List IcalProp
deriving DecidableEq, Repr

def initTodoScan : TodoScan := ⟨none, none, false, none, none, none, []⟩

/-- One iteration of the property loop of `parse` (ical/parser.rs): each
recognized property assigns its local (later occurrences overwrite), `STATUS`
only ever sets `completed` to true when its value is `COMPLETED`, anything
else is kept verbatim in `extra_parameters`. -/
def scanTodoProp (st : TodoScan) (prop : IcalProp) : TodoScan :=
  match prop.name with
  | "SUMMARY" => { st with name := prop.value }
  | "UID" => { st with uid := prop.value }
  | "DTSTAMP" => { st with last_modified := parse_date_time_from_property prop.value }
  | "LAST-MODIFIED" => { st with last_modified := parse_date_time_from_property prop.value }
  | "COMPLETED" => { st with completion_date := parse_date_time_from_property prop.value }
  | "CREATED" => { st with creation_date := parse_date_time_from_property prop.value }
  | "STATUS" => if prop.value = some "COMPLETED" then { st with completed := true } else st
  | _ => { st with extra_parameters := st.extra_parameters ++ [prop] }

/-- The `CurrentType::Todo(todo)` arm of `parse`: run the property loop, then
check `SUMMARY`, `UID` and `DTSTAMP`/`LAST-MODIFIED`, then build the task. -/
def parse_todo (todo : IcalTodo) (item_url : Url) (sync_status : SyncStatus)
    (ical_prod_id : String) : Except IcalParseError Item :=
  let st := todo.properties.foldl scanTodoProp initTodoScan
  match st.name with
  | none => .error .MissingName
  | some name =>
    match st.uid with
    | none => .error .MissingUid
    | some uid =>
      match st.last_modified with
      | none => .error .MissingDtstamp
      | some last_modified =>
        let completion_status :=
          match st.completed with
          | false => CompletionStatus.Uncompleted
          | true => CompletionStatus.Completed st.completion_date
        .ok (.Task
          { url := item_url, uid := uid, sync_status := sync_status,
            creation_date := st.creation_date, last_modified := last_modified,
            completion_status := completion_status, name := name,
            ical_prod_id := ical_prod_id, extra_parameters := st.extra_parameters })

/-- `parse` (ical/parser.rs): take the first `VCALENDAR` of the reader's
stream (no first item is `InvalidData`, a failed first parse is
`UnableToParse`), require a single component of a single type, build the
item, and finally fail with `MultipleItems` iff the *next* stream entry
exists and parsed successfully. -/
def parse (content : List (Except ParserError IcalCalendar)) (item_url : Url)
    (sync_status : SyncStatus) : Except IcalParseError Item :=
  match content with
  | [] => .error .InvalidData
  | .error e :: _ => .error (.UnableToParse e)
  | .ok parsed_item :: rest =>
    let ical_prod_id := (extract_ical_prod_id parsed_item).getD default_prod_id
    let item? : Except IcalParseError Item :=
      match assert_single_type parsed_item with
      | .error e => .error e
      | .ok (.Event _) => .ok .Event
      | .ok (.Todo todo) => parse_todo todo item_url sync_status ical_prod_id
    match item? with
    | .error e => .error e
    | .ok item =>
      if (rest.head?.map Except.isOk) = some true then .error .MultipleItems
      else .ok item

/-! ### Characterizing the property loop -/

/-- The last element of the list satisfying `pred`, if any. -/
def lastMatching (pred : IcalProp → Bool) : List IcalProp → Option IcalProp
  | [] => none
  | p :: rest =>
    match lastMatching pred rest with
    | some q => some q
    | none => if pred p then some p else none

/-- `f` of the last property satisfying `pred`, or `dflt` when none does. -/
def lastOr {α : Type} (pred : IcalProp → Bool) (f : IcalProp → α) (dflt : α)
    (props : List IcalProp) : α :=
  match lastMatching pred props with
  | some q => f q
  | none => dflt

theorem lastOr_nil {α : Type} (pred : IcalProp → Bool) (f : IcalProp → α) (dflt : α) :
    lastOr pred f dflt [] = dflt := rfl

theorem lastOr_singleton {α : Type} (pred : IcalProp → Bool) (f : IcalProp → α) (dflt : α)
    (p : IcalProp) : lastOr pred f dflt [p] = if pred p then f p else dflt := by
  rw [lastOr, lastMatching]
  cases hp : pred p <;> simp [lastMatching, hp]

theorem lastOr_cons {α : Type} (pred : IcalProp → Bool) (f : IcalProp → α) (dflt : α)
    (p : IcalProp) (rest : List IcalProp) :
    lastOr pred f dflt (p :: rest) = lastOr pred f (lastOr pred f dflt [p]) rest := by
  rw [lastOr, lastMatching]
  cases hq : lastMatching pred rest <;>
    cases hp : pred p <;> simp [lastOr, lastMatching, hq, hp]

/-- The value carried by the last property named `n` (none when the property
is absent or valueless). -/
def lastPropValue (n : String) (props : List IcalProp) : Option String :=
  lastOr (fun p => p.name = n) (fun p => p.value) none props

/-- The parsed timestamp of the last `DTSTAMP`/`LAST-MODIFIED` property. -/
def lastTimestamp (props : List IcalProp) : Option DateTimeUtc :=
  lastOr (fun p => p.name = "DTSTAMP" ∨ p.name = "LAST-MODIFIED")
    (fun p => parse_date_time_from_property p.value) none props

/-- The parsed timestamp of the last `COMPLETED` property. -/
def lastCompletedTimestamp (props : List IcalProp) : Option DateTimeUtc :=
  lastOr (fun p => p.name = "COMPLETED")
    (fun p => parse_date_time_from_property p.value) none props

/-- The parsed timestamp of the last `CREATED` property. -/
def lastCreatedTimestamp (props : List IcalProp) : Option DateTimeUtc :=
  lastOr (fun p => p.name = "CREATED")
    (fun p => parse_date_time_from_property p.value) none props

/-- Whether some `STATUS` property carries the value `COMPLETED`. -/
def hasStatusCompleted (props : List IcalProp) : Bool :=
  props.any (fun p => p.name = "STATUS" ∧ p.value = some "COMPLETED")

/-- The property names the parser recognizes; everything else goes verbatim
into `extra_parameters`. -/
def isRecognized (p : IcalProp) : Bool :=
  p.name = "SUMMARY" ∨ p.name = "UID" ∨ p.name = "DTSTAMP" ∨ p.name = "LAST-MODIFIED" ∨
    p.name = "COMPLETED" ∨ p.name = "CREATED" ∨ p.name = "STATUS"

/-- Closed form of the property loop's final state. -/
def scanSpec (st : TodoScan) (props : List IcalProp) : TodoScan :=
  { name := lastOr (fun p => p.name = "SUMMARY") (fun p => p.value) st.name props,
    uid := lastOr (fun p => p.name = "UID") (fun p => p.value) st.uid props,
    completed := st.completed || hasStatusCompleted props,
    last_modified := lastOr (fun p => p.name = "DTSTAMP" ∨ p.name = "LAST-MODIFIED")
      (fun p => parse_date_time_from_property p.value) st.last_modified props,
    completion_date := lastOr (fun p => p.name = "COMPLETED")
      (fun p => parse_date_time_from_property p.value) st.completion_date props,
    creation_date := lastOr (fun p => p.name = "CREATED")
      (fun p => parse_date_time_from_property p.value) st.creation_date props,
    extra_parameters := st.extra_parameters ++ props.filter (fun p => ¬ isRecognized p) }

theorem scanSpec_nil (st : TodoScan) : scanSpec st [] = st := by
  simp [scanSpec, lastOr_nil, hasStatusCompleted]

theorem scanTodoProp_single (st : TodoScan) (p : IcalProp) :
    scanTodoProp st p = scanSpec st [p] := by
  obtain ⟨n, v⟩ := p
  by_cases h1 : n = "SUMMARY"
  · subst h1
    simp [scanTodoProp, scanSpec, lastOr_singleton, hasStatusCompleted, isRecognized]
  by_cases h2 : n = "UID"
  · subst h2
    simp [scanTodoProp, scanSpec, lastOr_singleton, hasStatusCompleted, isRecognized]
  by_cases h3 : n = "DTSTAMP"
  · subst h3
    simp [scanTodoProp, scanSpec, lastOr_singleton, hasStatusCompleted, isRecognized]
  by_cases h4 : n = "LAST-MODIFIED"
  · subst h4
    simp [scanTodoProp, scanSpec, lastOr_singleton, hasStatusCompleted, isRecognized]
  by_cases h5 : n = "COMPLETED"
  · subst h5
    simp [scanTodoProp, scanSpec, lastOr_singleton, hasStatusCompleted, isRecognized]
  by_cases h6 : n = "CREATED"
  · subst h6
    simp [scanTodoProp, scanSpec, lastOr_singleton, hasStatusCompleted, isRecognized]
  by_cases h7 : n = "STATUS"
  · subst h7
    by_cases hv : v = some "COMPLETED" <;>
      simp [scanTodoProp, scanSpec, lastOr_singleton, hasStatusCompleted, isRecognized, hv]
  · have hstep : scanTodoProp st ⟨n, v⟩ =
        { st with extra_parameters := st.extra_parameters ++ [⟨n, v⟩] } := by
      rw [scanTodoProp]
      split <;> simp_all
    rw [hstep]
    simp [scanSpec, lastOr_singleton, hasStatusCompleted, isRecognized, h1, h2, h3, h4, h5,
      h6, h7]

theorem scanSpec_cons (st : TodoScan) (p : IcalProp) (rest : List IcalProp) :
    scanSpec (scanSpec st [p]) rest = scanSpec st (p :: rest) := by
  simp only [scanSpec, TodoScan.mk.injEq]
  refine ⟨?_, ?_, ?_, ?_, ?_, ?_, ?_⟩
  · conv_rhs => rw [lastOr_cons]
  · conv_rhs => rw [lastOr_cons]
  · simp [hasStatusCompleted, Bool.or_assoc]
  · conv_rhs => rw [lastOr_cons]
  · conv_rhs => rw [lastOr_cons]
  · conv_rhs => rw [lastOr_cons]
  · by_cases hr : isRecognized p <;> simp [List.filter_cons, hr]

theorem foldl_scanTodoProp (props : List IcalProp) (st : TodoScan) :
    props.foldl scanTodoProp st = scanSpec st props := by
  induction props generalizing st with
  | nil => rw [List.foldl_nil, scanSpec_nil]
  | cons p rest ih =>
    rw [List.foldl_cons, ih, scanTodoProp_single, scanSpec_cons]

theorem assert_event_iff (cal : IcalCalendar) (e : IcalEvent) :
    assert_single_type cal = .ok (.Event e) ↔
      cal.events = [e] ∧ cal.todos = [] ∧ cal.journals = [] := by
  obtain ⟨cp, evs, tds, jns⟩ := cal
  rcases evs with _ | ⟨e0, _ | ⟨e1, evs2⟩⟩ <;>
    rcases tds with _ | ⟨t0, _ | ⟨t1, tds2⟩⟩ <;>
      rcases jns with _ | ⟨j0, jns2⟩ <;>
        simp [assert_single_type]

theorem assert_todo_iff (cal : IcalCalendar) (t : IcalTodo) :
    assert_single_type cal = .ok (.Todo t) ↔
      cal.todos = [t] ∧ cal.events = [] ∧ cal.journals = [] := by
  obtain ⟨cp, evs, tds, jns⟩ := cal
  rcases evs with _ | ⟨e0, _ | ⟨e1, evs2⟩⟩ <;>
    rcases tds with _ | ⟨t0, _ | ⟨t1, tds2⟩⟩ <;>
      rcases jns with _ | ⟨j0, jns2⟩ <;>
        simp [assert_single_type]

theorem assert_error_or (cal : IcalCalendar) :
    (∃ err, assert_single_type cal = .error err) ∨
      (∃ e, assert_single_type cal = .ok (.Event e)) ∨
      (∃ t, assert_single_type cal = .ok (.Todo t)) := by
  cases h : assert_single_type cal with
  | error err => exact Or.inl ⟨err, rfl⟩
  | ok ct =>
    cases ct with
    | Event e => exact Or.inr (Or.inl ⟨e, rfl⟩)
    | Todo t => exact Or.inr (Or.inr ⟨t, rfl⟩)

theorem parse_todo_ok_iff (todo : IcalTodo) (url : Url) (ss : SyncStatus) (pid : String) :
    (parse_todo todo url ss pid).isOk = true ↔
      lastPropValue "SUMMARY" todo.properties ≠ none ∧
        lastPropValue "UID" todo.properties ≠ none ∧
        lastTimestamp todo.properties ≠ none := by
  have hname : (scanSpec initTodoScan todo.properties).name =
      lastPropValue "SUMMARY" todo.properties := rfl
  have huid : (scanSpec initTodoScan todo.properties).uid =
      lastPropValue "UID" todo.properties := rfl
  have hlm : (scanSpec initTodoScan todo.properties).last_modified =
      lastTimestamp todo.properties := rfl
  simp only [parse_todo, foldl_scanTodoProp, hname, huid, hlm]
  cases h1 : lastPropValue "SUMMARY" todo.properties <;>
    cases h2 : lastPropValue "UID" todo.properties <;>
      cases h3 : lastTimestamp todo.properties <;>
        simp [Except.isOk, Except.toBool]

theorem parse_cons_ok_isOk (cal : IcalCalendar) (rest : List (Except ParserError IcalCalendar))
    (url : Url) (ss : SyncStatus) :
    (parse (.ok cal :: rest) url ss).isOk = true ↔
      ((∃ e, assert_single_type cal = .ok (.Event e)) ∨
        (∃ t, assert_single_type cal = .ok (.Todo t) ∧
          (parse_todo t url ss ((extract_ical_prod_id cal).getD default_prod_id)).isOk = true))
      ∧ ¬(rest.head?.map Except.isOk = some true) := by
  rcases assert_error_or cal with ⟨err, herr⟩ | ⟨e, hev⟩ | ⟨t, htd⟩
  · simp [parse, herr, Except.isOk, Except.toBool]
  · by_cases hm : (rest.head?.map Except.isOk) = some true <;>
      simp [parse, hev, hm, Except.isOk, Except.toBool]
  · by_cases hm : (rest.head?.map Except.isOk) = some true
    · cases hpt : parse_todo t url ss ((extract_ical_prod_id cal).getD default_prod_id) <;>
        simp [parse, htd, hm, hpt, Except.isOk, Except.toBool]
    · cases hpt : parse_todo t url ss ((extract_ical_prod_id cal).getD default_prod_id) <;>
        simp [parse, htd, hm, hpt, Except.isOk, Except.toBool]

/-- **C7 (amended).** `parse` succeeds exactly when: the stream yields a first
`VCALENDAR` that parsed successfully, the entry immediately after it (if any)
did *not* parse successfully, the first `VCALENDAR` holds exactly one
component of a single type (one `VEVENT` or one `VTODO`), and — in the
`VTODO` case — the last `SUMMARY` and the last `UID` properties carry values,
and the last `DTSTAMP`/`LAST-MODIFIED` property exists and its value parses
as a timestamp. -/
theorem parse_ok_characterization (content : List (Except ParserError IcalCalendar))
    (url : Url) (ss : SyncStatus) :
    (parse content url ss).isOk = true ↔
      ∃ cal rest, content = .ok cal :: rest ∧
        ¬(rest.head?.map Except.isOk = some true) ∧
        ((∃ e, cal.events = [e] ∧ cal.todos = [] ∧ cal.journals = []) ∨
          (∃ todo, cal.todos = [todo] ∧ cal.events = [] ∧ cal.journals = [] ∧
            lastPropValue "SUMMARY" todo.properties ≠ none ∧
            lastPropValue "UID" todo.properties ≠ none ∧
            lastTimestamp todo.properties ≠ none)) := by
  rcases content with _ | ⟨c0, rest⟩
  · simp [parse, Except.isOk, Except.toBool]
  rcases c0 with e | cal
  · simp [parse, Except.isOk, Except.toBool]
  rw [parse_cons_ok_isOk]
  constructor
  · rintro ⟨hd, hm⟩
    refine ⟨cal, rest, rfl, hm, ?_⟩
    rcases hd with ⟨e, hev⟩ | ⟨t, htd, hok⟩
    · exact Or.inl ⟨e, (assert_event_iff cal e).mp hev⟩
    · obtain ⟨h1, h2, h3⟩ := (assert_todo_iff cal t).mp htd
      obtain ⟨hs, hu, hl⟩ := (parse_todo_ok_iff t url ss _).mp hok
      exact Or.inr ⟨t, h1, h2, h3, hs, hu, hl⟩
  · rintro ⟨cal', rest', hEq, hm, hdisj⟩
    obtain ⟨hcal, hrest⟩ : cal = cal' ∧ rest = rest' := by
      injection hEq with h1 h2
      exact ⟨Except.ok.inj h1, h2⟩
    subst hcal
    subst hrest
    refine ⟨?_, hm⟩
    rcases hdisj with ⟨e, hc⟩ | ⟨todo, h1, h2, h3, hs, hu, hl⟩
    · exact Or.inl ⟨e, (assert_event_iff cal e).mpr hc⟩
    · refine Or.inr ⟨todo, (assert_todo_iff cal todo).mpr ⟨h1, h2, h3⟩, ?_⟩
      exact (parse_todo_ok_iff todo url ss _).mpr ⟨hs, hu, hl⟩

/-- The failure condition of claim C7 exactly as the claim states it: more
than one `VCALENDAR` in the input, or not exactly one component of a single
type, or — for a `VTODO` — a missing `UID`, a missing `SUMMARY`, or both
`DTSTAMP` and `LAST-MODIFIED` missing. -/
def claimed_parse_fails (content : List (Except ParserError IcalCalendar)) : Bool :=
  content.length > 1 ||
    (match content with
     | [.ok cal] =>
       (¬((cal.events.length = 1 ∧ cal.todos.length = 0 ∧ cal.journals.length = 0) ∨
           (cal.todos.length = 1 ∧ cal.events.length = 0 ∧ cal.journals.length = 0)) : Bool) ||
         (match cal.todos with
          | [todo] =>
            (¬ todo.properties.any (fun p => p.name = "UID") : Bool) ||
              (¬ todo.properties.any (fun p => p.name = "SUMMARY") : Bool) ||
              ((¬ todo.properties.any (fun p => p.name = "DTSTAMP") ∧
                ¬ todo.properties.any (fun p => p.name = "LAST-MODIFIED") : Bool))
          | _ => false)
     | _ => true)

/-- A well-formed `VTODO` whose `DTSTAMP` is present but malformed. -/
def exBadDtstampCal : IcalCalendar :=
  { properties := [], events := [], journals := [],
    todos := [{ properties :=
      [⟨"UID", some "u1"⟩, ⟨"SUMMARY", some "s"⟩, ⟨"DTSTAMP", some "garbage"⟩] }] }

/-- **C7 (counterexample).** On a single `VCALENDAR` holding a single `VTODO`
with `UID`, `SUMMARY` and `DTSTAMP` all present, the claim says `parse`
returns an Item; but since the `DTSTAMP` value `"garbage"` fails timestamp
parsing, the code returns `MissingDtstamp` instead. -/
theorem parse_claim_counterexample :
    claimed_parse_fails [.ok exBadDtstampCal] = false ∧
      (parse [.ok exBadDtstampCal] "https://s/c1/i1" .NotSynced).isOk = false ∧
      parse [.ok exBadDtstampCal] "https://s/c1/i1" .NotSynced = .error .MissingDtstamp := by
  refine ⟨by decide, by decide, rfl⟩

/-- What `parse_todo` records as the completion status of a successfully
parsed task: `Completed` of the last `COMPLETED` timestamp iff some `STATUS`
property carries `COMPLETED`, otherwise `Uncompleted`. -/
theorem parse_todo_completion (todo : IcalTodo) (url : Url) (ss : SyncStatus) (pid : String)
    (t : Task) (h : parse_todo todo url ss pid = .ok (.Task t)) :
    t.completion_status =
      (if hasStatusCompleted todo.properties then
        CompletionStatus.Completed (lastCompletedTimestamp todo.properties)
      else CompletionStatus.Uncompleted) := by
  have hcmp : (scanSpec initTodoScan todo.properties).completed =
      hasStatusCompleted todo.properties := by
    simp [scanSpec, initTodoScan]
  have hcd : (scanSpec initTodoScan todo.properties).completion_date =
      lastCompletedTimestamp todo.properties := rfl
  rw [parse_todo, foldl_scanTodoProp] at h
  cases h1 : (scanSpec initTodoScan todo.properties).name with
  | none => rw [h1] at h; simp at h
  | some name =>
    rw [h1] at h
    cases h2 : (scanSpec initTodoScan todo.properties).uid with
    | none => rw [h2] at h; simp at h
    | some uid =>
      rw [h2] at h
      cases h3 : (scanSpec initTodoScan todo.properties).last_modified with
      | none => rw [h3] at h; simp at h
      | some lm =>
        rw [h3] at h
        simp only [Except.ok.injEq, Item.Task.injEq] at h
        rw [← h]
        rw [← hcmp, ← hcd]
        cases hc : (scanSpec initTodoScan todo.properties).completed <;> simp [hc]

/-- **C8.** For every successfully parsed `VTODO`, the task's completion
status is `Completed(ts)` — `ts` being the parsed `COMPLETED` timestamp when
it parses and `None` otherwise — exactly when the input carries a `STATUS`
property with value `COMPLETED`; any other or absent `STATUS` yields
`Uncompleted` even when a `COMPLETED` timestamp is present.  (That a task is
never `Uncompleted` while carrying a completion timestamp is enforced by the
`CompletionStatus` type itself: `Uncompleted` carries no timestamp.) -/
theorem parsed_task_completion (cal : IcalCalendar)
    (rest : List (Except ParserError IcalCalendar)) (url : Url) (ss : SyncStatus)
    (todo : IcalTodo) (t : Task) (hcal : cal.todos = [todo])
    (hp : parse (.ok cal :: rest) url ss = .ok (.Task t)) :
    (hasStatusCompleted todo.properties = true →
      t.completion_status = .Completed (lastCompletedTimestamp todo.properties))
    ∧ (hasStatusCompleted todo.properties = false →
      t.completion_status = .Uncompleted) := by
  rcases assert_error_or cal with ⟨err, herr⟩ | ⟨e, hev⟩ | ⟨t', htd⟩
  · simp only [parse, herr] at hp
    exact absurd hp (by simp)
  · exact absurd hp (by
      simp only [parse, hev]
      split <;> simp)
  · have ht' : todo = t' := by
      obtain ⟨h1, _, _⟩ := (assert_todo_iff cal t').mp htd
      rw [hcal] at h1
      simpa using h1
    subst ht'
    simp only [parse, htd] at hp
    cases hpt : parse_todo todo url ss ((extract_ical_prod_id cal).getD default_prod_id) with
    | error err => rw [hpt] at hp; simp at hp
    | ok item =>
      rw [hpt] at hp
      by_cases hm : Option.map Except.isOk rest.head? = some true
      · simp [hm] at hp
      · simp [hm] at hp
        have hres := parse_todo_completion todo url ss
          ((extract_ical_prod_id cal).getD default_prod_id) t (by rw [hpt, hp])
        constructor
        · intro hstat
          rw [hres, if_pos hstat]
        · intro hstat
          rw [hres, if_neg]
          simp [hstat]

/-- The VTODO of the C8 witness: `STATUS:COMPLETED` plus a `COMPLETED` date. -/
def exC8Cal : IcalCalendar :=
  { properties := [], events := [], journals := [],
    todos := [{ properties :=
      [⟨"UID", some "u1"⟩, ⟨"SUMMARY", some "s"⟩, ⟨"DTSTAMP", some "20210321T001600"⟩,
        ⟨"STATUS", some "COMPLETED"⟩, ⟨"COMPLETED", some "20210402T081557"⟩] }] }

/-- The task `parse` produces from `exC8Cal`. -/
def exC8Task : Task :=
  { url := "https://s/c1/i1", uid := "u1", sync_status := .NotSynced,
    creation_date := none, last_modified := ⟨2021, 3, 21, 0, 16, 0⟩,
    completion_status := .Completed (some ⟨2021, 4, 2, 8, 15, 57⟩), name := "s",
    ical_prod_id := default_prod_id, extra_parameters := [] }

/-- Witness for C8 at a concrete input: with `STATUS:COMPLETED` present the
parsed task is `Completed` of the parsed `COMPLETED` timestamp. -/
theorem parsed_task_completion_witness :
    exC8Task.completion_status =
      .Completed (lastCompletedTimestamp (exC8Cal.todos.headD ⟨[]⟩).properties) :=
  (parsed_task_completion exC8Cal [] "https://s/c1/i1" .NotSynced
      (exC8Cal.todos.headD ⟨[]⟩) exC8Task rfl rfl).1 (by decide)

/-- A sample remote calendar for the C9 witness. -/
def exRemCal : RemoteCal :=
  { RemoteCal.new "cal one" "https://s/c1/" "meta" with
    items := [("https://s/c1/i1", ⟨"task", "t1"⟩)] }

/-- Witness for C9 (amended) at a concrete input: status `404` fails the
calendar deletion and leaves the calendar map unchanged. -/
theorem delete_status_handling_witness :
    (Client.delete_calendar 404 "https://s/c1/" [("https://s/c1/", exRemCal)]).1 =
        .error (.ItemDoesNotExist "https://s/c1/")
      ∧ (Client.delete_calendar 404 "https://s/c1/" [("https://s/c1/", exRemCal)]).2 =
        [("https://s/c1/", exRemCal)] :=
  (delete_status_handling 404 "https://s/c1/" [("https://s/c1/", exRemCal)]).2.2 (by decide)


/-! ## The sync engine (`provider/mod.rs`): sources, faults, and the write log -/

/-- `BatchDownloadType` from `provider/mod.rs`. -/
inductive BatchDownloadType where
  | RemoteAdditions : BatchDownloadType
  | RemoteChanges : BatchDownloadType
deriving DecidableEq, Repr

/-- Every mutating call the sync engine can issue against either source.
The engine logs an operation when it performs the corresponding call
(`delete_item`, `add_item`, `update_item`, `immediately_delete_item`,
`set_property`, `delete_property`, `add_property`, `update_property`,
`immediately_delete_prop`, `create_calendar`, `delete_calendar`). -/
inductive WriteOp where
  | deleteItemRemote (u : Url) : WriteOp
  | addItemRemote (u : Url) : WriteOp
  | updateItemRemote (u : Url) : WriteOp
  | addItemLocal (u : Url) : WriteOp
  | updateItemLocal (u : Url) : WriteOp
  | deleteItemLocal (u : Url) : WriteOp
  | deletePropRemote (nsn : NamespacedName) : WriteOp
  | setPropRemote (nsn : NamespacedName) : WriteOp
  | addPropLocal (nsn : NamespacedName) : WriteOp
  | updatePropLocal (nsn : NamespacedName) : WriteOp
  | deletePropLocal (nsn : NamespacedName) : WriteOp
  | createCalendarLocal (u : Url) : WriteOp
  | createCalendarRemote (u : Url) : WriteOp
  | deleteCalendarLocal (u : Url) : WriteOp
  | deleteCalendarRemote (u : Url) : WriteOp
deriving DecidableEq, Repr

/-- Outcome oracle for the fallible calls the engine makes.  The engine's own
control flow is translated from `provider/mod.rs`; each network round trip
(or, for the local store, each filesystem write) is abstracted into a Boolean
"did this call succeed".  The ETags the server mints for `PUT`s are supplied
by a separate `putTag` parameter. -/
structure Faults where
  get_remote_calendars : Bool
  get_item_version_tags : Url → Bool
  get_remote_properties : Url → Bool
  delete_item : Url → Bool
  add_item : Url → Bool
  update_item : Url → Bool
  get_items_by_url : Url → List Url → Bool
  delete_property : NamespacedName → Bool
  set_property : NamespacedName → Bool
  create_local_calendar : Url → Bool
  create_remote_calendar : Url → Bool
  delete_remote_calendar : Url → Bool
  delete_local_calendar : Url → Bool

/-- The oracle under which every call succeeds. -/
def Faults.noFaults : Faults :=
  ⟨true, fun _ => true, fun _ => true, fun _ => true, fun _ => true, fun _ => true,
    fun _ _ => true, fun _ => true, fun _ => true, fun _ => true, fun _ => true,
    fun _ => true, fun _ => true⟩

/-- The state of one local/remote calendar pair while `sync_calendar_pair`
works on it, together with the progress flag and the log of mutating calls
issued so far. -/
structure PairState where
  loc : CachedCalendar
  rem : RemoteCal
  prog : SyncProgress
  log : List WriteOp
deriving DecidableEq, Repr

/-- `DavCalendar::get_item_version_tags` for the modelled remote calendar:
the URL-to-ETag map of the stored items. -/
def RemoteCal.version_tags (rc : RemoteCal) : List (Url × VersionTag) :=
  rc.items.map (fun e => (e.1, e.2.tag))

/-- `DavCalendar::get_items_by_url` (the multiget `REPORT` of
`calendar/remote_calendar.rs`): each requested URL yields, when present, the
item's content with sync status `Synced(etag)`. -/
def RemoteCal.items_by_url (rc : RemoteCal) (urls : List Url) :
    List (Option (Url × LocalItem)) :=
  urls.map (fun u => (alookup rc.items u).map (fun r => (u, (⟨r.data, .Synced r.tag⟩ : LocalItem))))

/-- `DavCalendar::get_properties` on the remote: the server stores plain
values; they surface as `Property` values whose sync status the delta code
never reads (`Property::new` defaults to `NotSynced`). -/
def RemoteCal.remote_properties (rc : RemoteCal) : List Property :=
  rc.props.map (fun e => ⟨e.1, e.2, .NotSynced⟩)

/-! ## Property delta computation (`Provider::calculate_prop_changes`) -/

/-- The six delta sets computed by `Provider::calculate_prop_changes`
(`provider/mod.rs`).  As for items, the Rust `HashSet`s become lists. -/
structure PropChanges where
  local_prop_dels : List NamespacedName
  remote_prop_dels : List NamespacedName
  local_prop_changes : List NamespacedName
  remote_prop_changes : List Property
  local_prop_additions : List Property
  remote_prop_additions : List Property
deriving DecidableEq, Repr

def PropChanges.empty : PropChanges := ⟨[], [], [], [], [], []⟩

/-- First loop of `Provider::calculate_prop_changes` (`for remote_prop in
remote_props`): classify each remote property against the local one and drain
the working map `local_props_to_handle`. -/
def scan_remote_props (loc_props : List (NamespacedName × Property)) :
    List Property → List (NamespacedName × Property) → PropChanges → SyncProgress →
    PropChanges × List (NamespacedName × Property) × SyncProgress
  | [], th, acc, prog => (acc, th, prog)
  | rp :: rest, th, acc, prog =>
    match alookup loc_props rp.nsn with
    | none =>
      -- This was created on the remote
      scan_remote_props loc_props rest th
        { acc with remote_prop_additions := rp :: acc.remote_prop_additions } prog
    | some local_prop =>
      let prog1 := if rp.nsn ∈ akeys th then prog else prog.error
      let th1 := aerase rp.nsn th
      match local_prop.sync_status with
      | .NotSynced =>
        -- Property reuse between remote and local sources; skip it
        scan_remote_props loc_props rest th1 acc prog1.error
      | .Synced local_tag =>
        if rp.value ≠ local_tag then
          scan_remote_props loc_props rest th1
            { acc with remote_prop_changes := rp :: acc.remote_prop_changes } prog1
        else
          scan_remote_props loc_props rest th1 acc prog1
      | .LocallyModified local_tag =>
        if rp.value = local_tag then
          scan_remote_props loc_props rest th1
            { acc with local_prop_changes := local_prop.nsn :: acc.local_prop_changes } prog1
        else
          scan_remote_props loc_props rest th1
            { acc with remote_prop_changes := rp :: acc.remote_prop_changes } prog1
      | .LocallyDeleted local_tag =>
        if rp.value = local_tag then
          scan_remote_props loc_props rest th1
            { acc with local_prop_dels := local_prop.nsn :: acc.local_prop_dels } prog1
        else
          scan_remote_props loc_props rest th1
            { acc with remote_prop_changes := rp :: acc.remote_prop_changes } prog1

/-- Second loop of `Provider::calculate_prop_changes` (`for (prop_name,
local_prop) in local_props_to_handle`): classify the local properties the
remote does not list. -/
def handle_leftover_local_props :
    List (NamespacedName × Property) → PropChanges → SyncProgress →
    PropChanges × SyncProgress
  | [], acc, prog => (acc, prog)
  | (nsn, local_prop) :: rest, acc, prog =>
    match local_prop.sync_status with
    | .Synced _ =>
      handle_leftover_local_props rest
        { acc with remote_prop_dels := nsn :: acc.remote_prop_dels } prog
    | .NotSynced =>
      handle_leftover_local_props rest
        { acc with local_prop_additions := local_prop :: acc.local_prop_additions } prog
    | .LocallyDeleted _ =>
      handle_leftover_local_props rest
        { acc with remote_prop_dels := nsn :: acc.remote_prop_dels } prog
    | .LocallyModified _ =>
      handle_leftover_local_props rest
        { acc with remote_prop_dels := nsn :: acc.remote_prop_dels } prog

/-- `Provider::calculate_prop_changes`: compute the property delta between
the local property map and the remote property list. -/
def calculate_prop_changes (loc_props : List (NamespacedName × Property))
    (remote_props : List Property) (prog : SyncProgress) :
    PropChanges × SyncProgress :=
  let out := scan_remote_props loc_props remote_props loc_props PropChanges.empty prog
  handle_leftover_local_props out.2.1 out.1 out.2.2



/-! ## Committing item changes (`Provider::commit_item_changes`) -/

/-- The local-deletions commit loop (`for url_del in local_item_dels`):
attempt the remote `DELETE` (`RemoteCalendar::delete_item`); on success the
server entry is gone and the local tombstone is dropped with
`immediately_delete_item` (a missing local entry is an `error`); on failure
only a `warn` is recorded and nothing is touched. -/
def commit_local_item_dels (f : Faults) : List Url → PairState → PairState
  | [], st => st
  | url :: rest, st =>
    if f.delete_item url then
      match alookup st.loc.items url with
      | some _ =>
        commit_local_item_dels f rest
          { st with loc := { st.loc with items := aerase url st.loc.items },
                    rem := { st.rem with items := aerase url st.rem.items },
                    log := st.log ++ [.deleteItemRemote url, .deleteItemLocal url] }
      | none =>
        commit_local_item_dels f rest
          { st with rem := { st.rem with items := aerase url st.rem.items },
                    prog := st.prog.error,
                    log := st.log ++ [.deleteItemRemote url, .deleteItemLocal url] }
    else
      commit_local_item_dels f rest
        { st with prog := st.prog.warn, log := st.log ++ [.deleteItemRemote url] }

/-- The remote-deletions commit loop (`for url_del in remote_item_dels`):
apply the deletion locally with `immediately_delete_item`; a missing local
entry is a `warn`. -/
def commit_remote_item_dels : List Url → PairState → PairState
  | [], st => st
  | url :: rest, st =>
    match alookup st.loc.items url with
    | some _ =>
      commit_remote_item_dels rest
        { st with loc := { st.loc with items := aerase url st.loc.items },
                  log := st.log ++ [.deleteItemLocal url] }
    | none =>
      commit_remote_item_dels rest
        { st with prog := st.prog.warn, log := st.log ++ [.deleteItemLocal url] }

/-- `Itertools::chunks`: split a list into consecutive chunks of `n` (the
last one possibly shorter). -/
def chunkListAux {α : Type} (n : Nat) : Nat → List α → List (List α)
  | 0, _ => []
  | _ + 1, [] => []
  | fuel + 1, x :: xs => (x :: xs.take (n - 1)) :: chunkListAux n fuel (xs.drop (n - 1))

def chunkList {α : Type} (n : Nat) (l : List α) : List (List α) :=
  chunkListAux n l.length l

theorem chunkListAux_fuel {α : Type} (n : Nat) :
    ∀ (fuel : Nat) (l : List α), l.length ≤ fuel →
      chunkListAux n fuel l = chunkListAux n l.length l := by
  intro fuel
  induction fuel using Nat.strong_induction_on with
  | _ fuel ih =>
    intro l hl
    cases l with
    | nil =>
      cases fuel with
      | zero => rfl
      | succ k => rfl
    | cons x xs =>
      cases fuel with
      | zero => simp at hl
      | succ k =>
        simp only [List.length_cons] at hl
        simp only [chunkListAux, List.length_cons]
        have h1 : (xs.drop (n - 1)).length ≤ k := by
          simp only [List.length_drop]
          omega
        have h2 : (xs.drop (n - 1)).length ≤ xs.length := by
          simp only [List.length_drop]
          omega
        rw [ih k (by omega) _ h1, ih xs.length (by omega) _ h2]

theorem chunkList_nil {α : Type} (n : Nat) : chunkList n ([] : List α) = [] := rfl

theorem chunkList_cons {α : Type} (n : Nat) (x : α) (xs : List α) :
    chunkList n (x :: xs) = (x :: xs.take (n - 1)) :: chunkList n (xs.drop (n - 1)) := by
  rw [chunkList, List.length_cons, chunkListAux, chunkList]
  rw [chunkListAux_fuel n xs.length (xs.drop (n - 1)) (by simp [List.length_drop])]

/-- Apply one downloaded item locally (the item branch of
`fetch_batch_and_apply_items`): a vanished entry is an `error`; otherwise
`CachedCalendar::add_item` (errors on an existing URL) or
`CachedCalendar::update_item` (errors on a missing URL). -/
def apply_one_item (bt : BatchDownloadType) (st : PairState) :
    Option (Url × LocalItem) → PairState
  | none => { st with prog := st.prog.error }
  | some (u, new_item) =>
    match bt with
    | .RemoteAdditions =>
      if (alookup st.loc.items u).isSome then
        { st with prog := st.prog.error, log := st.log ++ [.addItemLocal u] }
      else
        { st with loc := { st.loc with items := ainsert u new_item st.loc.items },
                  log := st.log ++ [.addItemLocal u] }
    | .RemoteChanges =>
      if (alookup st.loc.items u).isSome then
        { st with loc := { st.loc with items := ainsert u new_item st.loc.items },
                  log := st.log ++ [.updateItemLocal u] }
      else
        { st with prog := st.prog.error, log := st.log ++ [.updateItemLocal u] }

/-- `fetch_batch_and_apply_items`: one multiget for the whole batch (a failed
multiget `warn`s and skips the batch), then apply each returned entry
locally. -/
def fetch_batch_and_apply_items (bt : BatchDownloadType) (f : Faults)
    (batch : List Url) (st : PairState) : PairState :=
  if f.get_items_by_url st.rem.url batch then
    (st.rem.items_by_url batch).foldl (fun s it => apply_one_item bt s it) st
  else
    { st with prog := st.prog.warn }

/-- `apply_remote_item_additions` / `apply_remote_item_changes`: process the
URL set in chunks of `DOWNLOAD_BATCH_SIZE`. -/
def apply_remote_items_batched (bt : BatchDownloadType) (f : Faults)
    (batchSize : Nat) (urls : List Url) (st : PairState) : PairState :=
  (chunkList batchSize urls).foldl
    (fun s batch => fetch_batch_and_apply_items bt f batch s) st

/-- `RemoteCalendar::update_item`'s client-side precondition: only items
recorded as `LocallyModified` or `LocallyDeleted` carry the previous ETag
for the `If-Match` header; other statuses are rejected before any request. -/
def can_update_remote : SyncStatus → Bool
  | .LocallyModified _ => true
  | .LocallyDeleted _ => true
  | _ => false

/-- The local-additions commit loop (`for url_add in local_item_additions`):
a locally missing URL is an `error`; otherwise push the item with
`RemoteCalendar::add_item` (a `PUT` whose success the fault oracle decides
and whose new ETag `putTag` plays) and on success store the returned
`Synced` status back into the local item; a failed `PUT` is an `error`. -/
def commit_local_item_additions (f : Faults) (putTag : Url → String → VersionTag) :
    List Url → PairState → PairState
  | [], st => st
  | url :: rest, st =>
    match alookup st.loc.items url with
    | none =>
      commit_local_item_additions f putTag rest { st with prog := st.prog.error }
    | some item =>
      if f.add_item url then
        let it2 : LocalItem := { item with ss := .Synced (putTag url item.data) }
        let ri2 : RemoteItem := ⟨item.data, putTag url item.data⟩
        commit_local_item_additions f putTag rest
          { st with
              loc := { st.loc with items := ainsert url it2 st.loc.items },
              rem := { st.rem with items := ainsert url ri2 st.rem.items },
              log := st.log ++ [.addItemRemote url] }
      else
        commit_local_item_additions f putTag rest
          { st with prog := st.prog.error, log := st.log ++ [.addItemRemote url] }

/-- The local-changes commit loop (`for url_change in local_item_changes`):
like the additions loop but through `RemoteCalendar::update_item`, which
additionally rejects items not recorded as locally modified or deleted. -/
def commit_local_item_changes (f : Faults) (putTag : Url → String → VersionTag) :
    List Url → PairState → PairState
  | [], st => st
  | url :: rest, st =>
    match alookup st.loc.items url with
    | none =>
      commit_local_item_changes f putTag rest { st with prog := st.prog.error }
    | some item =>
      if f.update_item url && can_update_remote item.ss then
        let it2 : LocalItem := { item with ss := .Synced (putTag url item.data) }
        let ri2 : RemoteItem := ⟨item.data, putTag url item.data⟩
        commit_local_item_changes f putTag rest
          { st with
              loc := { st.loc with items := ainsert url it2 st.loc.items },
              rem := { st.rem with items := ainsert url ri2 st.rem.items },
              log := st.log ++ [.updateItemRemote url] }
      else
        commit_local_item_changes f putTag rest
          { st with prog := st.prog.error, log := st.log ++ [.updateItemRemote url] }

/-- `Provider::commit_item_changes`: the six phases in source order. -/
def commit_item_changes (f : Faults) (putTag : Url → String → VersionTag)
    (batchSize : Nat) (chg : ItemChanges) (st : PairState) : PairState :=
  commit_local_item_changes f putTag chg.local_item_changes
    (commit_local_item_additions f putTag chg.local_item_additions
      (apply_remote_items_batched .RemoteChanges f batchSize chg.remote_item_changes
        (apply_remote_items_batched .RemoteAdditions f batchSize chg.remote_item_additions
          (commit_remote_item_dels chg.remote_item_dels
            (commit_local_item_dels f chg.local_item_dels st)))))

/-! ## Committing property changes (`Provider::commit_prop_changes`) -/

/-- The local-prop-deletions commit loop: attempt the remote `PROPPATCH`
remove; on success drop the local tombstone with `immediately_delete_prop`
(a missing local entry is an `error`); on failure only `warn`. -/
def commit_local_prop_dels (f : Faults) : List NamespacedName → PairState → PairState
  | [], st => st
  | nsn :: rest, st =>
    if f.delete_property nsn then
      match alookup st.loc.properties nsn with
      | some _ =>
        commit_local_prop_dels f rest
          { st with loc := { st.loc with properties := aerase nsn st.loc.properties },
                    rem := { st.rem with props := aerase nsn st.rem.props },
                    log := st.log ++ [.deletePropRemote nsn, .deletePropLocal nsn] }
      | none =>
        commit_local_prop_dels f rest
          { st with rem := { st.rem with props := aerase nsn st.rem.props },
                    prog := st.prog.error,
                    log := st.log ++ [.deletePropRemote nsn, .deletePropLocal nsn] }
    else
      commit_local_prop_dels f rest
        { st with prog := st.prog.warn, log := st.log ++ [.deletePropRemote nsn] }

/-- The remote-prop-deletions commit loop: apply the deletion locally with
`immediately_delete_prop`; a missing local entry is a `warn`. -/
def commit_remote_prop_dels : List NamespacedName → PairState → PairState
  | [], st => st
  | nsn :: rest, st =>
    match alookup st.loc.properties nsn with
    | some _ =>
      commit_remote_prop_dels rest
        { st with loc := { st.loc with properties := aerase nsn st.loc.properties },
                  log := st.log ++ [.deletePropLocal nsn] }
    | none =>
      commit_remote_prop_dels rest
        { st with prog := st.prog.warn, log := st.log ++ [.deletePropLocal nsn] }

/-- Apply one downloaded property locally (`fetch_batch_and_apply_props`):
mark it synced-to-itself, then `CachedCalendar::add_property` (errors when
present) or `CachedCalendar::update_property` (errors when absent). -/
def apply_one_prop (bt : BatchDownloadType) (st : PairState) (p : Property) : PairState :=
  match bt with
  | .RemoteAdditions =>
    if (alookup st.loc.properties p.nsn).isSome then
      { st with prog := st.prog.error, log := st.log ++ [.addPropLocal p.nsn] }
    else
      { st with loc := { st.loc with properties := ainsert p.nsn p.mark_synced_to_self st.loc.properties },
                log := st.log ++ [.addPropLocal p.nsn] }
  | .RemoteChanges =>
    if (alookup st.loc.properties p.nsn).isSome then
      { st with loc := { st.loc with properties := ainsert p.nsn p.mark_synced_to_self st.loc.properties },
                log := st.log ++ [.updatePropLocal p.nsn] }
    else
      { st with prog := st.prog.error, log := st.log ++ [.updatePropLocal p.nsn] }

/-- `apply_remote_prop_additions` / `apply_remote_prop_changes`: the
properties were already fetched during the delta, so the batches are applied
purely locally. -/
def apply_remote_props_batched (bt : BatchDownloadType) (batchSize : Nat)
    (props : List Property) (st : PairState) : PairState :=
  (chunkList batchSize props).foldl
    (fun s batch => batch.foldl (fun s2 p => apply_one_prop bt s2 p) s) st

/-- The local-prop-additions commit loop: a locally missing name is an
`error`; otherwise `RemoteCalendar::set_property` pushes the local value (on
success it returns `Synced` with the value itself as version tag, which is
stored back locally); a failed `PROPPATCH` is an `error`. -/
def commit_local_prop_additions (f : Faults) : List Property → PairState → PairState
  | [], st => st
  | p :: rest, st =>
    match alookup st.loc.properties p.nsn with
    | none => commit_local_prop_additions f rest { st with prog := st.prog.error }
    | some local_prop =>
      if f.set_property p.nsn then
        let lp2 : Property := { local_prop with sync_status := .Synced local_prop.value }
        commit_local_prop_additions f rest
          { st with
              loc := { st.loc with properties := ainsert p.nsn lp2 st.loc.properties },
              rem := { st.rem with props := ainsert p.nsn local_prop.value st.rem.props },
              log := st.log ++ [.setPropRemote p.nsn] }
      else
        commit_local_prop_additions f rest
          { st with prog := st.prog.error, log := st.log ++ [.setPropRemote p.nsn] }

/-- The local-prop-changes commit loop: identical to the additions loop
(`set_property` both times), but driven by the name set. -/
def commit_local_prop_changes (f : Faults) : List NamespacedName → PairState → PairState
  | [], st => st
  | nsn :: rest, st =>
    match alookup st.loc.properties nsn with
    | none => commit_local_prop_changes f rest { st with prog := st.prog.error }
    | some local_prop =>
      if f.set_property nsn then
        let lp2 : Property := { local_prop with sync_status := .Synced local_prop.value }
        commit_local_prop_changes f rest
          { st with
              loc := { st.loc with properties := ainsert nsn lp2 st.loc.properties },
              rem := { st.rem with props := ainsert nsn local_prop.value st.rem.props },
              log := st.log ++ [.setPropRemote nsn] }
      else
        commit_local_prop_changes f rest
          { st with prog := st.prog.error, log := st.log ++ [.setPropRemote nsn] }

/-- `Provider::commit_prop_changes`: the six phases in source order. -/
def commit_prop_changes (f : Faults) (batchSize : Nat) (chg : PropChanges)
    (st : PairState) : PairState :=
  commit_local_prop_changes f chg.local_prop_changes
    (commit_local_prop_additions f chg.local_prop_additions
      (apply_remote_props_batched .RemoteChanges batchSize chg.remote_prop_changes
        (apply_remote_props_batched .RemoteAdditions batchSize chg.remote_prop_additions
          (commit_remote_prop_dels chg.remote_prop_dels
            (commit_local_prop_dels f chg.local_prop_dels st)))))



/-! ## The full sync pass (`Provider::run_sync`) -/

/-- One run's global state: the local source's calendar map (`Cache`), the
remote source's calendar map (`Client`), the progress flag and the write
log. -/
structure EngineState where
  locSrc : List (Url × CachedCalendar)
  remSrc : List (Url × RemoteCal)
  prog : SyncProgress
  log : List WriteOp
deriving DecidableEq, Repr

/-- `Provider::sync_calendar_pair` for the pair at `url` (the shared `Arc`
handles of the source maps are modelled by looking the calendars up at call
time).  Returns the updated state and whether the call returned `Ok`; on
`Err` the caller `warn`s and skips the calendar.

Step 0: a local calendar marked for deletion is deleted on the remote and,
only if that succeeded, locally.  Otherwise the item delta (step 1.1, after
`get_item_version_tags`), the property delta (step 1.2, after
`get_properties`), and the two commit steps run in order, and the updated
pair is written back. -/
def sync_calendar_pair (f : Faults) (putTag : Url → String → VersionTag)
    (batchSize : Nat) (url : Url) (st : EngineState) : EngineState × Bool :=
  match alookup st.locSrc url, alookup st.remSrc url with
  | some cal_local, some cal_remote =>
    if cal_local.deleted then
      let st1 := { st with log := st.log ++ [.deleteCalendarRemote url] }
      if f.delete_remote_calendar url then
        let st2 := { st1 with remSrc := aerase url st1.remSrc,
                              log := st1.log ++ [.deleteCalendarLocal url] }
        if f.delete_local_calendar url then
          ({ st2 with locSrc := aerase url st2.locSrc }, true)
        else (st2, false)
      else (st1, false)
    else
      if f.get_item_version_tags url then
        let ichg := calculate_item_changes cal_local.items cal_remote.version_tags st.prog
        if f.get_remote_properties url then
          let pchg := calculate_prop_changes cal_local.properties
            cal_remote.remote_properties ichg.2
          let ps0 : PairState := ⟨cal_local, cal_remote, pchg.2, st.log⟩
          let ps1 := commit_item_changes f putTag batchSize ichg.1 ps0
          let ps2 := commit_prop_changes f batchSize pchg.1 ps1
          ({ st with locSrc := ainsert url ps2.loc st.locSrc,
                     remSrc := ainsert url ps2.rem st.remSrc,
                     prog := ps2.prog, log := ps2.log }, true)
        else ({ st with prog := ichg.2 }, false)
      else (st, false)
  | _, _ => (st, false)

/-- First loop of `run_sync_inner` (`for (cal_url, cal_remote) in
cals_remote`): get or create the local counterpart
(`get_or_insert_counterpart_calendar`; a failed creation `warn`s and skips),
sync the pair (`Err` also `warn`s and skips) and record successfully handled
URLs. -/
def process_remote_cals (f : Faults) (putTag : Url → String → VersionTag)
    (batchSize : Nat) :
    List (Url × RemoteCal) → List Url → EngineState → EngineState × List Url
  | [], handled, st => (st, handled)
  | (cal_url, rcal) :: rest, handled, st =>
    match alookup st.locSrc cal_url with
    | some _ =>
      let out := sync_calendar_pair f putTag batchSize cal_url st
      if out.2 then
        process_remote_cals f putTag batchSize rest (cal_url :: handled) out.1
      else
        process_remote_cals f putTag batchSize rest handled
          { out.1 with prog := out.1.prog.warn }
    | none =>
      if f.create_local_calendar cal_url then
        let st1 := { st with
          locSrc := ainsert cal_url (CachedCalendar.new rcal.name cal_url rcal.meta) st.locSrc,
          log := st.log ++ [.createCalendarLocal cal_url] }
        let out := sync_calendar_pair f putTag batchSize cal_url st1
        if out.2 then
          process_remote_cals f putTag batchSize rest (cal_url :: handled) out.1
        else
          process_remote_cals f putTag batchSize rest handled
            { out.1 with prog := out.1.prog.warn }
      else
        process_remote_cals f putTag batchSize rest handled { st with prog := st.prog.warn }

/-- Second loop of `run_sync_inner` (`for (cal_url, cal_local) in
cals_local`, the local listing taken after the first loop): skip handled
URLs; delete local calendars marked for deletion (a failure there aborts the
whole pass with `Err`, hence the Boolean); get or create the remote
counterpart and sync the pair. -/
def process_local_cals (f : Faults) (putTag : Url → String → VersionTag)
    (batchSize : Nat) (handled : List Url) :
    List (Url × CachedCalendar) → EngineState → EngineState × Bool
  | [], st => (st, true)
  | (cal_url, _) :: rest, st =>
    if cal_url ∈ handled then process_local_cals f putTag batchSize handled rest st
    else
      match alookup st.locSrc cal_url with
      | none => process_local_cals f putTag batchSize handled rest st
      | some cal_local =>
        if cal_local.deleted then
          let st1 := { st with log := st.log ++ [.deleteCalendarLocal cal_url] }
          if f.delete_local_calendar cal_url then
            process_local_cals f putTag batchSize handled rest
              { st1 with locSrc := aerase cal_url st1.locSrc }
          else (st1, false)
        else
          match alookup st.remSrc cal_url with
          | some _ =>
            let out := sync_calendar_pair f putTag batchSize cal_url st
            process_local_cals f putTag batchSize handled rest
              (if out.2 then out.1 else { out.1 with prog := out.1.prog.warn })
          | none =>
            if f.create_remote_calendar cal_url then
              let st1 := { st with
                remSrc := ainsert cal_url (RemoteCal.new cal_local.name cal_url cal_local.meta) st.remSrc,
                log := st.log ++ [.createCalendarRemote cal_url] }
              let out := sync_calendar_pair f putTag batchSize cal_url st1
              process_local_cals f putTag batchSize handled rest
                (if out.2 then out.1 else { out.1 with prog := out.1.prog.warn })
            else
              process_local_cals f putTag batchSize handled rest
                { st with prog := st.prog.warn }

/-- `Provider::run_sync`: run `run_sync_inner` (list the remote calendars —
a failure is an `Err` —, loop 1, list the local calendars, loop 2); an `Err`
from the inner function records one more `error`; the returned flag is
`progress.is_success()`. -/
def run_sync (f : Faults) (putTag : Url → String → VersionTag) (batchSize : Nat)
    (st : EngineState) : EngineState × Bool :=
  if f.get_remote_calendars then
    let out1 := process_remote_cals f putTag batchSize st.remSrc [] st
    let out2 := process_local_cals f putTag batchSize out1.2 out1.1.locSrc out1.1
    if out2.2 then (out2.1, out2.1.prog.is_success)
    else
      (({ out2.1 with prog := out2.1.prog.error } : EngineState),
        ({ out2.1 with prog := out2.1.prog.error } : EngineState).prog.is_success)
  else
    (({ st with prog := st.prog.error } : EngineState),
      ({ st with prog := st.prog.error } : EngineState).prog.is_success)



/-! ### C4: the local-deletions commit loop -/

theorem alookup_aerase_of_none {α β : Type} [DecidableEq α] (a u : α) (l : List (α × β))
    (h : alookup l u = none) : alookup (aerase a l) u = none := by
  rw [alookup_eq_none] at h ⊢
  exact fun hc => h (akeys_aerase_subset a l hc)

/-- URLs outside the deletion set are untouched by the local-deletions
loop. -/
theorem commit_local_item_dels_not_mem (f : Faults) (dels : List Url)
    (st : PairState) (u : Url) (hu : u ∉ dels) :
    alookup (commit_local_item_dels f dels st).loc.items u = alookup st.loc.items u ∧
      alookup (commit_local_item_dels f dels st).rem.items u = alookup st.rem.items u := by
  induction dels generalizing st with
  | nil => exact ⟨rfl, rfl⟩
  | cons url rest ih =>
    have hne : url ≠ u := fun h => hu (h ▸ List.mem_cons_self url rest)
    have hur : u ∉ rest := fun h => hu (List.mem_cons_of_mem _ h)
    by_cases hf : f.delete_item url = true
    · cases hl : alookup st.loc.items url with
      | some it =>
        rw [commit_local_item_dels, if_pos hf, hl]
        refine ⟨((ih _ hur).1).trans ?_, ((ih _ hur).2).trans ?_⟩
        · exact alookup_aerase_ne url u _ hne
        · exact alookup_aerase_ne url u _ hne
      | none =>
        rw [commit_local_item_dels, if_pos hf, hl]
        refine ⟨(ih _ hur).1, ((ih _ hur).2).trans ?_⟩
        exact alookup_aerase_ne url u _ hne
    · rw [commit_local_item_dels, if_neg hf]
      exact ⟨(ih _ hur).1, (ih _ hur).2⟩

/-- A URL already absent from the local map stays absent through the
local-deletions loop (the loop only removes entries). -/
theorem commit_local_item_dels_absent (f : Faults) (dels : List Url)
    (st : PairState) (u : Url) (h : alookup st.loc.items u = none) :
    alookup (commit_local_item_dels f dels st).loc.items u = none := by
  induction dels generalizing st with
  | nil => exact h
  | cons url rest ih =>
    by_cases hf : f.delete_item url = true
    · cases hl : alookup st.loc.items url with
      | some it =>
        rw [commit_local_item_dels, if_pos hf, hl]
        exact ih _ (alookup_aerase_of_none url u _ h)
      | none =>
        rw [commit_local_item_dels, if_pos hf, hl]
        exact ih _ h
    · rw [commit_local_item_dels, if_neg hf]
      exact ih _ h

/-- **C4.** In the commit of local deletions (`commit_item_changes`, loop
over `local_item_dels`), an item whose status is `LocallyDeleted` is removed
from the local calendar only after the remote `delete_item` for its URL
returned success: if the remote deletion fails, the local entry is left
completely unchanged (still present, same content, still `LocallyDeleted`)
and the remote entry for that URL is untouched, so a later sync can retry;
if the remote deletion succeeds, the local tombstone is removed. -/
theorem local_deletion_commit (f : Faults) (dels : List Url) (st : PairState)
    (url : Url) (it : LocalItem) (V : VersionTag)
    (hmem : url ∈ dels) (hlook : alookup st.loc.items url = some it)
    (hss : it.ss = .LocallyDeleted V) (hnd : (akeys st.loc.items).Nodup) :
    (f.delete_item url = false →
       alookup (commit_local_item_dels f dels st).loc.items url = some it ∧
       alookup (commit_local_item_dels f dels st).rem.items url = alookup st.rem.items url) ∧
    (f.delete_item url = true →
       alookup (commit_local_item_dels f dels st).loc.items url = none) := by
  clear hss
  induction dels generalizing st with
  | nil => exact absurd hmem (List.not_mem_nil url)
  | cons url' rest ih =>
    by_cases hequ : url' = url
    · subst hequ
      constructor
      · intro hf
        have hf' : ¬ f.delete_item url' = true := by simp [hf]
        rw [commit_local_item_dels, if_neg hf']
        by_cases hmr : url' ∈ rest
        · exact (ih { st with prog := st.prog.warn, log := st.log ++ [.deleteItemRemote url'] } hmr hlook hnd).1 hf
        · obtain ⟨ha, hb⟩ := commit_local_item_dels_not_mem f rest { st with prog := st.prog.warn, log := st.log ++ [.deleteItemRemote url'] } url' hmr
          exact ⟨ha.trans hlook, hb⟩
      · intro hf
        rw [commit_local_item_dels, if_pos hf, hlook]
        refine commit_local_item_dels_absent f rest _ url' ?_
        exact alookup_aerase_self url' _ hnd
    · have hmr : url ∈ rest := by
        cases List.mem_cons.mp hmem with
        | inl h => exact absurd h.symm hequ
        | inr h => exact h
      by_cases hf' : f.delete_item url' = true
      · cases hl' : alookup st.loc.items url' with
        | some it' =>
          rw [commit_local_item_dels, if_pos hf', hl']
          obtain ⟨h1, h2⟩ := ih { st with loc := { st.loc with items := aerase url' st.loc.items }, rem := { st.rem with items := aerase url' st.rem.items }, log := st.log ++ [.deleteItemRemote url', .deleteItemLocal url'] } hmr (by rw [alookup_aerase_ne url' url _ hequ]; exact hlook) (akeys_aerase_nodup url' _ hnd)
          refine ⟨fun hf => ⟨(h1 hf).1, ((h1 hf).2).trans ?_⟩, h2⟩
          exact alookup_aerase_ne url' url _ hequ
        | none =>
          rw [commit_local_item_dels, if_pos hf', hl']
          obtain ⟨h1, h2⟩ := ih { st with rem := { st.rem with items := aerase url' st.rem.items }, prog := st.prog.error, log := st.log ++ [.deleteItemRemote url', .deleteItemLocal url'] } hmr hlook hnd
          refine ⟨fun hf => ⟨(h1 hf).1, ((h1 hf).2).trans ?_⟩, h2⟩
          exact alookup_aerase_ne url' url _ hequ
      · rw [commit_local_item_dels, if_neg hf']
        exact ih { st with prog := st.prog.warn, log := st.log ++ [.deleteItemRemote url'] } hmr hlook hnd

/-- A fault oracle whose remote item deletions all fail. -/
def exC4F : Faults := { Faults.noFaults with delete_item := fun _ => false }

/-- A pair state holding one locally deleted item present on both sides. -/
def exC4St : PairState :=
  ⟨⟨"cal", "c1", "", [], [("u", ⟨"d", .LocallyDeleted "v"⟩)], false⟩,
    ⟨"cal", "c1", "", [("u", ⟨"d", "v"⟩)], []⟩, ⟨0⟩, []⟩

/-- Witness for C4 at a concrete input. -/
theorem local_deletion_commit_witness :
    (exC4F.delete_item "u" = false →
       alookup (commit_local_item_dels exC4F ["u"] exC4St).loc.items "u" =
           some ⟨"d", .LocallyDeleted "v"⟩ ∧
       alookup (commit_local_item_dels exC4F ["u"] exC4St).rem.items "u" =
         alookup exC4St.rem.items "u") ∧
    (exC4F.delete_item "u" = true →
       alookup (commit_local_item_dels exC4F ["u"] exC4St).loc.items "u" = none) :=
  local_deletion_commit exC4F ["u"] exC4St "u" ⟨"d", .LocallyDeleted "v"⟩ "v"
    (by decide) (by decide) (by decide) (by decide)



/-! ### Progress monotonicity: `SyncProgress` error counts never decrease -/

/-- `LocallyModified` / `LocallyDeleted` are the two "local work pending"
states of `SyncStatus`. -/
def SyncStatus.is_dirty : SyncStatus → Bool
  | .LocallyModified _ => true
  | .LocallyDeleted _ => true
  | _ => false

/-- The inner item-application fold of `fetch_batch_and_apply_items`, over an
already fetched batch. -/
def apply_items_list (bt : BatchDownloadType) (rc : RemoteCal) (batch : List Url)
    (st : PairState) : PairState :=
  (rc.items_by_url batch).foldl (fun s it => apply_one_item bt s it) st

theorem fetch_batch_eq (bt : BatchDownloadType) (f : Faults) (batch : List Url)
    (st : PairState) :
    fetch_batch_and_apply_items bt f batch st =
      if f.get_items_by_url st.rem.url batch then apply_items_list bt st.rem batch st
      else { st with prog := st.prog.warn } := rfl

/-- The inner property-application fold of `fetch_batch_and_apply_props`. -/
def apply_props_list (bt : BatchDownloadType) (batch : List Property)
    (st : PairState) : PairState :=
  batch.foldl (fun s2 p => apply_one_prop bt s2 p) st

theorem props_batched_eq (bt : BatchDownloadType) (n : Nat) (props : List Property)
    (st : PairState) :
    apply_remote_props_batched bt n props st =
      (chunkList n props).foldl (fun s b => apply_props_list bt b s) st := rfl

theorem scan_remote_items_prog_le (L : List (Url × LocalItem))
    (R : List (Url × VersionTag)) (th : List Url) (acc : ItemChanges)
    (prog : SyncProgress) :
    prog.nErrors ≤ (scan_remote_items L R th acc prog).2.2.nErrors := by
  induction R generalizing th acc prog with
  | nil => exact le_rfl
  | cons e rest ih =>
    obtain ⟨url, rt⟩ := e
    cases hl : alookup L url with
    | none => simp only [scan_remote_items, hl]; exact ih _ _ _
    | some item =>
      obtain ⟨d, ss⟩ := item
      cases ss <;> simp only [scan_remote_items, hl] <;> (try split_ifs) <;>
        first
          | exact ih _ _ _
          | exact le_trans (Nat.le_succ _) (ih _ _ _)
          | exact le_trans (Nat.le_succ _) (le_trans (Nat.le_succ _) (ih _ _ _))

theorem handle_leftover_local_items_prog_le (L : List (Url × LocalItem))
    (th : List Url) (acc : ItemChanges) (prog : SyncProgress) :
    prog.nErrors ≤ (handle_leftover_local_items L th acc prog).2.nErrors := by
  induction th generalizing acc prog with
  | nil => exact le_rfl
  | cons url rest ih =>
    cases hl : alookup L url with
    | none =>
      simp only [handle_leftover_local_items, hl]
      exact le_trans (Nat.le_succ _) (ih _ _)
    | some item =>
      obtain ⟨d, ss⟩ := item
      cases ss <;> simp only [handle_leftover_local_items, hl] <;> exact ih _ _

theorem calculate_item_changes_prog_le (L : List (Url × LocalItem))
    (R : List (Url × VersionTag)) (prog : SyncProgress) :
    prog.nErrors ≤ (calculate_item_changes L R prog).2.nErrors :=
  le_trans (scan_remote_items_prog_le L R (akeys L) ItemChanges.empty prog)
    (handle_leftover_local_items_prog_le L _ _ _)

theorem scan_remote_props_prog_le (P : List (NamespacedName × Property))
    (RP : List Property) (th : List (NamespacedName × Property)) (acc : PropChanges)
    (prog : SyncProgress) :
    prog.nErrors ≤ (scan_remote_props P RP th acc prog).2.2.nErrors := by
  induction RP generalizing th acc prog with
  | nil => exact le_rfl
  | cons rp rest ih =>
    cases hl : alookup P rp.nsn with
    | none => simp only [scan_remote_props, hl]; exact ih _ _ _
    | some lp =>
      cases hss : lp.sync_status <;> simp only [scan_remote_props, hl, hss] <;>
          (try split_ifs) <;>
        first
          | exact ih _ _ _
          | exact le_trans (Nat.le_succ _) (ih _ _ _)
          | exact le_trans (Nat.le_succ _) (le_trans (Nat.le_succ _) (ih _ _ _))

theorem handle_leftover_local_props_prog_le (th : List (NamespacedName × Property))
    (acc : PropChanges) (prog : SyncProgress) :
    prog.nErrors ≤ (handle_leftover_local_props th acc prog).2.nErrors := by
  induction th generalizing acc prog with
  | nil => exact le_rfl
  | cons e rest ih =>
    obtain ⟨nsn, lp⟩ := e
    cases hss : lp.sync_status <;> simp only [handle_leftover_local_props, hss] <;>
      exact ih _ _

theorem calculate_prop_changes_prog_le (P : List (NamespacedName × Property))
    (RP : List Property) (prog : SyncProgress) :
    prog.nErrors ≤ (calculate_prop_changes P RP prog).2.nErrors :=
  le_trans (scan_remote_props_prog_le P RP P PropChanges.empty prog)
    (handle_leftover_local_props_prog_le _ _ _)

theorem le_step {a b c : Nat} (h2 : b ≤ c) (h1 : a ≤ b) : a ≤ c := le_trans h1 h2

theorem commit_local_item_dels_prog_le (f : Faults) (dels : List Url) (st : PairState) :
    st.prog.nErrors ≤ (commit_local_item_dels f dels st).prog.nErrors := by
  induction dels generalizing st with
  | nil => exact le_rfl
  | cons url rest ih =>
    cases hl : alookup st.loc.items url with
    | some it =>
      simp only [commit_local_item_dels, hl]
      split_ifs
      · exact le_step (ih _) le_rfl
      · exact le_step (ih _) (Nat.le_succ _)
    | none =>
      simp only [commit_local_item_dels, hl]
      split_ifs
      · exact le_step (ih _) (Nat.le_succ _)
      · exact le_step (ih _) (Nat.le_succ _)

theorem commit_remote_item_dels_prog_le (dels : List Url) (st : PairState) :
    st.prog.nErrors ≤ (commit_remote_item_dels dels st).prog.nErrors := by
  induction dels generalizing st with
  | nil => exact le_rfl
  | cons url rest ih =>
    cases hl : alookup st.loc.items url with
    | some it =>
      simp only [commit_remote_item_dels, hl]
      exact le_step (ih _) le_rfl
    | none =>
      simp only [commit_remote_item_dels, hl]
      exact le_step (ih _) (Nat.le_succ _)

theorem apply_one_item_prog_le (bt : BatchDownloadType) (st : PairState)
    (it : Option (Url × LocalItem)) :
    st.prog.nErrors ≤ (apply_one_item bt st it).prog.nErrors := by
  cases it with
  | none => exact Nat.le_succ _
  | some p =>
    obtain ⟨u, ni⟩ := p
    cases bt <;> simp only [apply_one_item] <;> split_ifs <;>
      first | exact le_rfl | exact Nat.le_succ _

theorem foldl_apply_items_prog_le (bt : BatchDownloadType)
    (l : List (Option (Url × LocalItem))) (st : PairState) :
    st.prog.nErrors ≤ (l.foldl (fun s it => apply_one_item bt s it) st).prog.nErrors := by
  induction l generalizing st with
  | nil => exact le_rfl
  | cons it rest ih =>
    rw [List.foldl_cons]
    exact le_step (ih _) (apply_one_item_prog_le bt st it)

theorem fetch_batch_prog_le (bt : BatchDownloadType) (f : Faults) (batch : List Url)
    (st : PairState) :
    st.prog.nErrors ≤ (fetch_batch_and_apply_items bt f batch st).prog.nErrors := by
  rw [fetch_batch_eq]
  split_ifs
  · exact foldl_apply_items_prog_le bt _ st
  · exact Nat.le_succ _

theorem apply_remote_items_batched_prog_le (bt : BatchDownloadType) (f : Faults)
    (n : Nat) (urls : List Url) (st : PairState) :
    st.prog.nErrors ≤ (apply_remote_items_batched bt f n urls st).prog.nErrors := by
  rw [apply_remote_items_batched]
  generalize chunkList n urls = bs
  induction bs generalizing st with
  | nil => exact le_rfl
  | cons b rest ih =>
    rw [List.foldl_cons]
    exact le_step (ih _) (fetch_batch_prog_le bt f b st)

theorem commit_local_item_additions_prog_le (f : Faults)
    (putTag : Url → String → VersionTag) (adds : List Url) (st : PairState) :
    st.prog.nErrors ≤ (commit_local_item_additions f putTag adds st).prog.nErrors := by
  induction adds generalizing st with
  | nil => exact le_rfl
  | cons url rest ih =>
    cases hl : alookup st.loc.items url with
    | none =>
      simp only [commit_local_item_additions, hl]
      exact le_step (ih _) (Nat.le_succ _)
    | some it =>
      simp only [commit_local_item_additions, hl]
      split_ifs
      · exact le_step (ih _) le_rfl
      · exact le_step (ih _) (Nat.le_succ _)

theorem commit_local_item_changes_prog_le (f : Faults)
    (putTag : Url → String → VersionTag) (chgs : List Url) (st : PairState) :
    st.prog.nErrors ≤ (commit_local_item_changes f putTag chgs st).prog.nErrors := by
  induction chgs generalizing st with
  | nil => exact le_rfl
  | cons url rest ih =>
    cases hl : alookup st.loc.items url with
    | none =>
      simp only [commit_local_item_changes, hl]
      exact le_step (ih _) (Nat.le_succ _)
    | some it =>
      simp only [commit_local_item_changes, hl]
      split_ifs
      · exact le_step (ih _) le_rfl
      · exact le_step (ih _) (Nat.le_succ _)

theorem commit_item_changes_prog_le (f : Faults) (putTag : Url → String → VersionTag)
    (n : Nat) (chg : ItemChanges) (st : PairState) :
    st.prog.nErrors ≤ (commit_item_changes f putTag n chg st).prog.nErrors := by
  rw [commit_item_changes]
  refine le_step (commit_local_item_changes_prog_le f putTag chg.local_item_changes _) ?_
  refine le_step (commit_local_item_additions_prog_le f putTag chg.local_item_additions _) ?_
  refine le_step (apply_remote_items_batched_prog_le .RemoteChanges f n chg.remote_item_changes _) ?_
  refine le_step (apply_remote_items_batched_prog_le .RemoteAdditions f n chg.remote_item_additions _) ?_
  refine le_step (commit_remote_item_dels_prog_le chg.remote_item_dels _) ?_
  exact commit_local_item_dels_prog_le f chg.local_item_dels st

theorem commit_local_prop_dels_prog_le (f : Faults) (dels : List NamespacedName)
    (st : PairState) :
    st.prog.nErrors ≤ (commit_local_prop_dels f dels st).prog.nErrors := by
  induction dels generalizing st with
  | nil => exact le_rfl
  | cons nsn rest ih =>
    cases hl : alookup st.loc.properties nsn with
    | some p =>
      simp only [commit_local_prop_dels, hl]
      split_ifs
      · exact le_step (ih _) le_rfl
      · exact le_step (ih _) (Nat.le_succ _)
    | none =>
      simp only [commit_local_prop_dels, hl]
      split_ifs
      · exact le_step (ih _) (Nat.le_succ _)
      · exact le_step (ih _) (Nat.le_succ _)

theorem commit_remote_prop_dels_prog_le (dels : List NamespacedName) (st : PairState) :
    st.prog.nErrors ≤ (commit_remote_prop_dels dels st).prog.nErrors := by
  induction dels generalizing st with
  | nil => exact le_rfl
  | cons nsn rest ih =>
    cases hl : alookup st.loc.properties nsn with
    | some p =>
      simp only [commit_remote_prop_dels, hl]
      exact le_step (ih _) le_rfl
    | none =>
      simp only [commit_remote_prop_dels, hl]
      exact le_step (ih _) (Nat.le_succ _)

theorem apply_one_prop_prog_le (bt : BatchDownloadType) (st : PairState) (p : Property) :
    st.prog.nErrors ≤ (apply_one_prop bt st p).prog.nErrors := by
  cases bt <;> simp only [apply_one_prop] <;> split_ifs <;>
    first | exact le_rfl | exact Nat.le_succ _

theorem apply_props_list_prog_le (bt : BatchDownloadType) (batch : List Property)
    (st : PairState) :
    st.prog.nErrors ≤ (apply_props_list bt batch st).prog.nErrors := by
  induction batch generalizing st with
  | nil => exact le_rfl
  | cons p rest ih =>
    rw [apply_props_list, List.foldl_cons]
    exact le_step (ih _) (apply_one_prop_prog_le bt st p)

theorem apply_remote_props_batched_prog_le (bt : BatchDownloadType) (n : Nat)
    (props : List Property) (st : PairState) :
    st.prog.nErrors ≤ (apply_remote_props_batched bt n props st).prog.nErrors := by
  rw [props_batched_eq]
  generalize chunkList n props = bs
  induction bs generalizing st with
  | nil => exact le_rfl
  | cons b rest ih =>
    rw [List.foldl_cons]
    exact le_step (ih _) (apply_props_list_prog_le bt b st)

theorem commit_local_prop_additions_prog_le (f : Faults) (props : List Property)
    (st : PairState) :
    st.prog.nErrors ≤ (commit_local_prop_additions f props st).prog.nErrors := by
  induction props generalizing st with
  | nil => exact le_rfl
  | cons p rest ih =>
    cases hl : alookup st.loc.properties p.nsn with
    | none =>
      simp only [commit_local_prop_additions, hl]
      exact le_step (ih _) (Nat.le_succ _)
    | some lp =>
      simp only [commit_local_prop_additions, hl]
      split_ifs
      · exact le_step (ih _) le_rfl
      · exact le_step (ih _) (Nat.le_succ _)

theorem commit_local_prop_changes_prog_le (f : Faults) (names : List NamespacedName)
    (st : PairState) :
    st.prog.nErrors ≤ (commit_local_prop_changes f names st).prog.nErrors := by
  induction names generalizing st with
  | nil => exact le_rfl
  | cons nsn rest ih =>
    cases hl : alookup st.loc.properties nsn with
    | none =>
      simp only [commit_local_prop_changes, hl]
      exact le_step (ih _) (Nat.le_succ _)
    | some lp =>
      simp only [commit_local_prop_changes, hl]
      split_ifs
      · exact le_step (ih _) le_rfl
      · exact le_step (ih _) (Nat.le_succ _)

theorem commit_prop_changes_prog_le (f : Faults) (n : Nat) (chg : PropChanges)
    (st : PairState) :
    st.prog.nErrors ≤ (commit_prop_changes f n chg st).prog.nErrors := by
  rw [commit_prop_changes]
  refine le_step (commit_local_prop_changes_prog_le f chg.local_prop_changes _) ?_
  refine le_step (commit_local_prop_additions_prog_le f chg.local_prop_additions _) ?_
  refine le_step (apply_remote_props_batched_prog_le .RemoteChanges n chg.remote_prop_changes _) ?_
  refine le_step (apply_remote_props_batched_prog_le .RemoteAdditions n chg.remote_prop_additions _) ?_
  refine le_step (commit_remote_prop_dels_prog_le chg.remote_prop_dels _) ?_
  exact commit_local_prop_dels_prog_le f chg.local_prop_dels st

theorem sync_calendar_pair_prog_le (f : Faults) (putTag : Url → String → VersionTag)
    (n : Nat) (url : Url) (st : EngineState) :
    st.prog.nErrors ≤ (sync_calendar_pair f putTag n url st).1.prog.nErrors := by
  cases hL : alookup st.locSrc url with
  | none =>
    cases hR : alookup st.remSrc url <;> simp [sync_calendar_pair, hL, hR]
  | some cal =>
    cases hR : alookup st.remSrc url with
    | none => simp [sync_calendar_pair, hL, hR]
    | some rc =>
      simp only [sync_calendar_pair, hL, hR]
      split_ifs
      · exact le_rfl
      · exact le_rfl
      · exact le_rfl
      · refine le_step (commit_prop_changes_prog_le f n _ _) ?_
        refine le_step (commit_item_changes_prog_le f putTag n _ _) ?_
        refine le_step (calculate_prop_changes_prog_le cal.properties rc.remote_properties _) ?_
        exact calculate_item_changes_prog_le cal.items rc.version_tags st.prog
      · exact calculate_item_changes_prog_le cal.items rc.version_tags st.prog
      · exact le_rfl

theorem process_remote_cals_prog_le (f : Faults) (putTag : Url → String → VersionTag)
    (n : Nat) (rcals : List (Url × RemoteCal)) (handled : List Url) (st : EngineState) :
    st.prog.nErrors ≤ (process_remote_cals f putTag n rcals handled st).1.prog.nErrors := by
  induction rcals generalizing handled st with
  | nil => exact le_rfl
  | cons e rest ih =>
    obtain ⟨cal_url, rcal⟩ := e
    cases hL : alookup st.locSrc cal_url with
    | some cal =>
      simp only [process_remote_cals, hL]
      split_ifs
      · exact le_step (ih _ _) (sync_calendar_pair_prog_le f putTag n cal_url st)
      · exact le_step (ih _ _)
          (le_step (Nat.le_succ _) (sync_calendar_pair_prog_le f putTag n cal_url st))
    | none =>
      simp only [process_remote_cals, hL]
      split_ifs
      · exact le_step (ih _ _) (sync_calendar_pair_prog_le f putTag n cal_url { st with locSrc := ainsert cal_url (CachedCalendar.new rcal.name cal_url rcal.meta) st.locSrc, log := st.log ++ [.createCalendarLocal cal_url] })
      · exact le_step (ih _ _)
          (le_step (Nat.le_succ _) (sync_calendar_pair_prog_le f putTag n cal_url { st with locSrc := ainsert cal_url (CachedCalendar.new rcal.name cal_url rcal.meta) st.locSrc, log := st.log ++ [.createCalendarLocal cal_url] }))
      · exact le_step (ih _ _) (Nat.le_succ _)

theorem process_local_cals_prog_le (f : Faults) (putTag : Url → String → VersionTag)
    (n : Nat) (handled : List Url) (lcals : List (Url × CachedCalendar)) (st : EngineState) :
    st.prog.nErrors ≤ (process_local_cals f putTag n handled lcals st).1.prog.nErrors := by
  induction lcals generalizing st with
  | nil => exact le_rfl
  | cons e rest ih =>
    obtain ⟨cal_url, snap⟩ := e
    by_cases hh : cal_url ∈ handled
    · simp only [process_local_cals, if_pos hh]
      exact le_step (ih _) le_rfl
    · cases hL : alookup st.locSrc cal_url with
      | none =>
        simp only [process_local_cals, if_neg hh, hL]
        exact le_step (ih _) le_rfl
      | some cal =>
        cases hdel : cal.deleted with
        | true =>
          simp only [process_local_cals, if_neg hh, hL, hdel, if_true]
          split_ifs
          · exact le_step (ih _) le_rfl
          · exact le_rfl
        | false =>
          cases hR : alookup st.remSrc cal_url with
          | some rc =>
            simp only [process_local_cals, if_neg hh, hL, hdel, Bool.false_eq_true,
              if_false, hR]
            split_ifs
            · exact le_step (ih _) (sync_calendar_pair_prog_le f putTag n cal_url st)
            · exact le_step (ih _)
                (le_step (Nat.le_succ _) (sync_calendar_pair_prog_le f putTag n cal_url st))
          | none =>
            simp only [process_local_cals, if_neg hh, hL, hdel, Bool.false_eq_true,
              if_false, hR]
            split_ifs
            · exact le_step (ih _) (sync_calendar_pair_prog_le f putTag n cal_url { st with remSrc := ainsert cal_url (RemoteCal.new cal.name cal_url cal.meta) st.remSrc, log := st.log ++ [.createCalendarRemote cal_url] })
            · exact le_step (ih _)
                (le_step (Nat.le_succ _) (sync_calendar_pair_prog_le f putTag n cal_url { st with remSrc := ainsert cal_url (RemoteCal.new cal.name cal_url cal.meta) st.remSrc, log := st.log ++ [.createCalendarRemote cal_url] }))
            · exact le_step (ih _) (Nat.le_succ _)

theorem run_sync_prog_le (f : Faults) (putTag : Url → String → VersionTag) (n : Nat)
    (st : EngineState) :
    st.prog.nErrors ≤ (run_sync f putTag n st).1.prog.nErrors := by
  simp only [run_sync]
  split_ifs with h1 h2
  · exact le_step (process_local_cals_prog_le f putTag n
        (process_remote_cals f putTag n st.remSrc [] st).2
        (process_remote_cals f putTag n st.remSrc [] st).1.locSrc
        (process_remote_cals f putTag n st.remSrc [] st).1)
      (process_remote_cals_prog_le f putTag n st.remSrc [] st)
  · refine le_step (Nat.le_succ _) ?_
    exact le_step (process_local_cals_prog_le f putTag n
        (process_remote_cals f putTag n st.remSrc [] st).2
        (process_remote_cals f putTag n st.remSrc [] st).1.locSrc
        (process_remote_cals f putTag n st.remSrc [] st).1)
      (process_remote_cals_prog_le f putTag n st.remSrc [] st)
  · exact Nat.le_succ _


/-! ### Frame lemmas: what each commit phase leaves untouched -/

/-- The scalar calendar fields no commit phase ever writes. -/
def sameShape (a b : PairState) : Prop :=
  a.loc.name = b.loc.name ∧ a.loc.url = b.loc.url ∧ a.loc.meta = b.loc.meta ∧
  a.loc.deleted = b.loc.deleted ∧ a.rem.name = b.rem.name ∧ a.rem.url = b.rem.url ∧
  a.rem.meta = b.rem.meta

theorem sameShape_refl (a : PairState) : sameShape a a :=
  ⟨rfl, rfl, rfl, rfl, rfl, rfl, rfl⟩

theorem sameShape_trans {a b c : PairState} (h1 : sameShape a b) (h2 : sameShape b c) :
    sameShape a c := by
  obtain ⟨a1, a2, a3, a4, a5, a6, a7⟩ := h1
  obtain ⟨b1, b2, b3, b4, b5, b6, b7⟩ := h2
  exact ⟨a1.trans b1, a2.trans b2, a3.trans b3, a4.trans b4, a5.trans b5, a6.trans b6,
    a7.trans b7⟩

/-- An item-phase frame: the property maps and the scalar fields survive. -/
def itemPhaseFrame (a b : PairState) : Prop :=
  a.loc.properties = b.loc.properties ∧ a.rem.props = b.rem.props ∧ sameShape a b

theorem itemPhaseFrame_refl (a : PairState) : itemPhaseFrame a a :=
  ⟨rfl, rfl, sameShape_refl a⟩

theorem itemPhaseFrame_trans {a b c : PairState} (h1 : itemPhaseFrame a b)
    (h2 : itemPhaseFrame b c) : itemPhaseFrame a c :=
  ⟨h1.1.trans h2.1, h1.2.1.trans h2.2.1, sameShape_trans h1.2.2 h2.2.2⟩

/-- A prop-phase frame: the item maps and the scalar fields survive. -/
def propPhaseFrame (a b : PairState) : Prop :=
  a.loc.items = b.loc.items ∧ a.rem.items = b.rem.items ∧ sameShape a b

theorem propPhaseFrame_refl (a : PairState) : propPhaseFrame a a :=
  ⟨rfl, rfl, sameShape_refl a⟩

theorem propPhaseFrame_trans {a b c : PairState} (h1 : propPhaseFrame a b)
    (h2 : propPhaseFrame b c) : propPhaseFrame a c :=
  ⟨h1.1.trans h2.1, h1.2.1.trans h2.2.1, sameShape_trans h1.2.2 h2.2.2⟩

theorem commit_local_item_dels_frame (f : Faults) (dels : List Url) (st : PairState) :
    itemPhaseFrame (commit_local_item_dels f dels st) st := by
  induction dels generalizing st with
  | nil => exact itemPhaseFrame_refl st
  | cons url rest ih =>
    cases hl : alookup st.loc.items url with
    | some it =>
      simp only [commit_local_item_dels, hl]
      split_ifs
      · exact itemPhaseFrame_trans (ih _) (itemPhaseFrame_refl _)
      · exact itemPhaseFrame_trans (ih _) (itemPhaseFrame_refl _)
    | none =>
      simp only [commit_local_item_dels, hl]
      split_ifs
      · exact itemPhaseFrame_trans (ih _) (itemPhaseFrame_refl _)
      · exact itemPhaseFrame_trans (ih _) (itemPhaseFrame_refl _)

theorem commit_remote_item_dels_frame (dels : List Url) (st : PairState) :
    itemPhaseFrame (commit_remote_item_dels dels st) st ∧
      (commit_remote_item_dels dels st).rem = st.rem := by
  induction dels generalizing st with
  | nil => exact ⟨itemPhaseFrame_refl st, rfl⟩
  | cons url rest ih =>
    cases hl : alookup st.loc.items url with
    | some it =>
      simp only [commit_remote_item_dels, hl]
      exact ⟨itemPhaseFrame_trans (ih _).1 (itemPhaseFrame_refl _), (ih _).2⟩
    | none =>
      simp only [commit_remote_item_dels, hl]
      exact ⟨itemPhaseFrame_trans (ih _).1 (itemPhaseFrame_refl _), (ih _).2⟩

theorem apply_items_list_nil (bt : BatchDownloadType) (rc : RemoteCal) (st : PairState) :
    apply_items_list bt rc [] st = st := rfl

theorem apply_items_list_cons (bt : BatchDownloadType) (rc : RemoteCal) (v : Url)
    (rest : List Url) (st : PairState) :
    apply_items_list bt rc (v :: rest) st =
      apply_items_list bt rc rest
        (apply_one_item bt st
          ((alookup rc.items v).map (fun r => (v, (⟨r.data, .Synced r.tag⟩ : LocalItem))))) := by
  simp [apply_items_list, RemoteCal.items_by_url]

theorem apply_one_item_frame (bt : BatchDownloadType) (st : PairState)
    (it : Option (Url × LocalItem)) :
    itemPhaseFrame (apply_one_item bt st it) st ∧ (apply_one_item bt st it).rem = st.rem := by
  cases it with
  | none => exact ⟨itemPhaseFrame_refl _, rfl⟩
  | some p =>
    obtain ⟨u, ni⟩ := p
    cases bt <;> simp only [apply_one_item] <;> split_ifs <;>
      exact ⟨⟨rfl, rfl, rfl, rfl, rfl, rfl, rfl, rfl, rfl⟩, rfl⟩

theorem apply_items_list_frame (bt : BatchDownloadType) (rc : RemoteCal)
    (batch : List Url) (st : PairState) :
    itemPhaseFrame (apply_items_list bt rc batch st) st ∧
      (apply_items_list bt rc batch st).rem = st.rem := by
  induction batch generalizing st with
  | nil => exact ⟨itemPhaseFrame_refl st, rfl⟩
  | cons v rest ih =>
    rw [apply_items_list_cons]
    obtain ⟨hf1, hf2⟩ := apply_one_item_frame bt st
      ((alookup rc.items v).map (fun r => (v, (⟨r.data, .Synced r.tag⟩ : LocalItem))))
    exact ⟨itemPhaseFrame_trans (ih _).1 hf1, ((ih _).2).trans hf2⟩

theorem fetch_batch_frame (bt : BatchDownloadType) (f : Faults) (batch : List Url)
    (st : PairState) :
    itemPhaseFrame (fetch_batch_and_apply_items bt f batch st) st ∧
      (fetch_batch_and_apply_items bt f batch st).rem = st.rem := by
  rw [fetch_batch_eq]
  split_ifs
  · exact apply_items_list_frame bt st.rem batch st
  · exact ⟨itemPhaseFrame_refl _, rfl⟩

theorem foldl_fetch_frame (bt : BatchDownloadType) (f : Faults) (bs : List (List Url))
    (st : PairState) :
    itemPhaseFrame (bs.foldl (fun s batch => fetch_batch_and_apply_items bt f batch s) st) st ∧
      (bs.foldl (fun s batch => fetch_batch_and_apply_items bt f batch s) st).rem = st.rem := by
  induction bs generalizing st with
  | nil => exact ⟨itemPhaseFrame_refl st, rfl⟩
  | cons b rest ih =>
    rw [List.foldl_cons]
    obtain ⟨hf1, hf2⟩ := fetch_batch_frame bt f b st
    exact ⟨itemPhaseFrame_trans (ih _).1 hf1, ((ih _).2).trans hf2⟩

theorem apply_remote_items_batched_frame (bt : BatchDownloadType) (f : Faults) (n : Nat)
    (urls : List Url) (st : PairState) :
    itemPhaseFrame (apply_remote_items_batched bt f n urls st) st ∧
      (apply_remote_items_batched bt f n urls st).rem = st.rem := by
  rw [apply_remote_items_batched]
  exact foldl_fetch_frame bt f (chunkList n urls) st

theorem commit_local_item_additions_frame (f : Faults)
    (putTag : Url → String → VersionTag) (adds : List Url) (st : PairState) :
    itemPhaseFrame (commit_local_item_additions f putTag adds st) st := by
  induction adds generalizing st with
  | nil => exact itemPhaseFrame_refl st
  | cons url rest ih =>
    cases hl : alookup st.loc.items url with
    | none =>
      simp only [commit_local_item_additions, hl]
      exact itemPhaseFrame_trans (ih _) (itemPhaseFrame_refl _)
    | some it =>
      simp only [commit_local_item_additions, hl]
      split_ifs
      · exact itemPhaseFrame_trans (ih _) (itemPhaseFrame_refl _)
      · exact itemPhaseFrame_trans (ih _) (itemPhaseFrame_refl _)

theorem commit_local_item_changes_frame (f : Faults)
    (putTag : Url → String → VersionTag) (chgs : List Url) (st : PairState) :
    itemPhaseFrame (commit_local_item_changes f putTag chgs st) st := by
  induction chgs generalizing st with
  | nil => exact itemPhaseFrame_refl st
  | cons url rest ih =>
    cases hl : alookup st.loc.items url with
    | none =>
      simp only [commit_local_item_changes, hl]
      exact itemPhaseFrame_trans (ih _) (itemPhaseFrame_refl _)
    | some it =>
      simp only [commit_local_item_changes, hl]
      split_ifs
      · exact itemPhaseFrame_trans (ih _) (itemPhaseFrame_refl _)
      · exact itemPhaseFrame_trans (ih _) (itemPhaseFrame_refl _)

theorem commit_item_changes_frame (f : Faults) (putTag : Url → String → VersionTag)
    (n : Nat) (chg : ItemChanges) (st : PairState) :
    itemPhaseFrame (commit_item_changes f putTag n chg st) st := by
  rw [commit_item_changes]
  refine itemPhaseFrame_trans (commit_local_item_changes_frame f putTag _ _) ?_
  refine itemPhaseFrame_trans (commit_local_item_additions_frame f putTag _ _) ?_
  refine itemPhaseFrame_trans (apply_remote_items_batched_frame .RemoteChanges f n _ _).1 ?_
  refine itemPhaseFrame_trans (apply_remote_items_batched_frame .RemoteAdditions f n _ _).1 ?_
  refine itemPhaseFrame_trans (commit_remote_item_dels_frame _ _).1 ?_
  exact commit_local_item_dels_frame f _ st



theorem commit_local_prop_dels_frame (f : Faults) (dels : List NamespacedName)
    (st : PairState) :
    propPhaseFrame (commit_local_prop_dels f dels st) st := by
  induction dels generalizing st with
  | nil => exact propPhaseFrame_refl st
  | cons nsn rest ih =>
    cases hl : alookup st.loc.properties nsn with
    | some p =>
      simp only [commit_local_prop_dels, hl]
      split_ifs
      · exact propPhaseFrame_trans (ih _) (propPhaseFrame_refl _)
      · exact propPhaseFrame_trans (ih _) (propPhaseFrame_refl _)
    | none =>
      simp only [commit_local_prop_dels, hl]
      split_ifs
      · exact propPhaseFrame_trans (ih _) (propPhaseFrame_refl _)
      · exact propPhaseFrame_trans (ih _) (propPhaseFrame_refl _)

theorem commit_remote_prop_dels_frame (dels : List NamespacedName) (st : PairState) :
    propPhaseFrame (commit_remote_prop_dels dels st) st ∧
      (commit_remote_prop_dels dels st).rem = st.rem := by
  induction dels generalizing st with
  | nil => exact ⟨propPhaseFrame_refl st, rfl⟩
  | cons nsn rest ih =>
    cases hl : alookup st.loc.properties nsn with
    | some p =>
      simp only [commit_remote_prop_dels, hl]
      exact ⟨propPhaseFrame_trans (ih _).1 (propPhaseFrame_refl _), (ih _).2⟩
    | none =>
      simp only [commit_remote_prop_dels, hl]
      exact ⟨propPhaseFrame_trans (ih _).1 (propPhaseFrame_refl _), (ih _).2⟩

theorem apply_one_prop_frame (bt : BatchDownloadType) (st : PairState) (p : Property) :
    propPhaseFrame (apply_one_prop bt st p) st ∧ (apply_one_prop bt st p).rem = st.rem := by
  cases bt <;> simp only [apply_one_prop] <;> split_ifs <;>
    exact ⟨⟨rfl, rfl, rfl, rfl, rfl, rfl, rfl, rfl, rfl⟩, rfl⟩

theorem apply_props_list_frame (bt : BatchDownloadType) (batch : List Property)
    (st : PairState) :
    propPhaseFrame (apply_props_list bt batch st) st ∧
      (apply_props_list bt batch st).rem = st.rem := by
  induction batch generalizing st with
  | nil => exact ⟨propPhaseFrame_refl st, rfl⟩
  | cons p rest ih =>
    rw [apply_props_list, List.foldl_cons]
    obtain ⟨hf1, hf2⟩ := apply_one_prop_frame bt st p
    exact ⟨propPhaseFrame_trans (ih _).1 hf1, ((ih _).2).trans hf2⟩

theorem apply_remote_props_batched_frame (bt : BatchDownloadType) (n : Nat)
    (props : List Property) (st : PairState) :
    propPhaseFrame (apply_remote_props_batched bt n props st) st ∧
      (apply_remote_props_batched bt n props st).rem = st.rem := by
  rw [props_batched_eq]
  generalize chunkList n props = bs
  induction bs generalizing st with
  | nil => exact ⟨propPhaseFrame_refl st, rfl⟩
  | cons b rest ih =>
    rw [List.foldl_cons]
    obtain ⟨hf1, hf2⟩ := apply_props_list_frame bt b st
    exact ⟨propPhaseFrame_trans (ih _).1 hf1, ((ih _).2).trans hf2⟩

theorem commit_local_prop_additions_frame (f : Faults) (props : List Property)
    (st : PairState) :
    propPhaseFrame (commit_local_prop_additions f props st) st := by
  induction props generalizing st with
  | nil => exact propPhaseFrame_refl st
  | cons p rest ih =>
    cases hl : alookup st.loc.properties p.nsn with
    | none =>
      simp only [commit_local_prop_additions, hl]
      exact propPhaseFrame_trans (ih _) (propPhaseFrame_refl _)
    | some lp =>
      simp only [commit_local_prop_additions, hl]
      split_ifs
      · exact propPhaseFrame_trans (ih _) (propPhaseFrame_refl _)
      · exact propPhaseFrame_trans (ih _) (propPhaseFrame_refl _)

theorem commit_local_prop_changes_frame (f : Faults) (names : List NamespacedName)
    (st : PairState) :
    propPhaseFrame (commit_local_prop_changes f names st) st := by
  induction names generalizing st with
  | nil => exact propPhaseFrame_refl st
  | cons nsn rest ih =>
    cases hl : alookup st.loc.properties nsn with
    | none =>
      simp only [commit_local_prop_changes, hl]
      exact propPhaseFrame_trans (ih _) (propPhaseFrame_refl _)
    | some lp =>
      simp only [commit_local_prop_changes, hl]
      split_ifs
      · exact propPhaseFrame_trans (ih _) (propPhaseFrame_refl _)
      · exact propPhaseFrame_trans (ih _) (propPhaseFrame_refl _)

theorem commit_prop_changes_frame (f : Faults) (n : Nat) (chg : PropChanges)
    (st : PairState) :
    propPhaseFrame (commit_prop_changes f n chg st) st := by
  rw [commit_prop_changes]
  refine propPhaseFrame_trans (commit_local_prop_changes_frame f _ _) ?_
  refine propPhaseFrame_trans (commit_local_prop_additions_frame f _ _) ?_
  refine propPhaseFrame_trans (apply_remote_props_batched_frame .RemoteChanges n _ _).1 ?_
  refine propPhaseFrame_trans (apply_remote_props_batched_frame .RemoteAdditions n _ _).1 ?_
  refine propPhaseFrame_trans (commit_remote_prop_dels_frame _ _).1 ?_
  exact commit_local_prop_dels_frame f _ st

/-! ### Well-formedness of the maps is preserved by every phase -/

/-- The well-formedness the proofs track per calendar pair: no duplicate keys
in the four maps, and the local property map keyed by the property's own
name (as the Rust `HashMap<NamespacedName, Property>` is). -/
def PairWF (st : PairState) : Prop :=
  (akeys st.loc.items).Nodup ∧ (akeys st.loc.properties).Nodup ∧
  (akeys st.rem.items).Nodup ∧ (akeys st.rem.props).Nodup ∧
  (∀ e ∈ st.loc.properties, e.2.nsn = e.1)

theorem coherent_ainsert {l : List (NamespacedName × Property)} {n : NamespacedName}
    {p : Property} (hc : ∀ e ∈ l, e.2.nsn = e.1) (hp : p.nsn = n) :
    ∀ e ∈ ainsert n p l, e.2.nsn = e.1 := by
  induction l with
  | nil =>
    intro e he
    simp only [ainsert, List.mem_singleton] at he
    subst he
    exact hp
  | cons kv rest ih =>
    obtain ⟨k, v⟩ := kv
    intro e he
    by_cases hk : k = n
    · subst hk
      rw [ainsert, if_pos rfl] at he
      rcases List.mem_cons.mp he with rfl | hr
      · exact hp
      · exact hc _ (List.mem_cons_of_mem _ hr)
    · rw [ainsert, if_neg hk] at he
      rcases List.mem_cons.mp he with rfl | hr
      · exact hc _ (List.mem_cons_self _ _)
      · exact ih (fun e' he' => hc e' (List.mem_cons_of_mem _ he')) e hr

theorem coherent_aerase {l : List (NamespacedName × Property)} {n : NamespacedName}
    (hc : ∀ e ∈ l, e.2.nsn = e.1) :
    ∀ e ∈ aerase n l, e.2.nsn = e.1 := by
  induction l with
  | nil => intro e he; simp [aerase] at he
  | cons kv rest ih =>
    obtain ⟨k, v⟩ := kv
    intro e he
    by_cases hk : k = n
    · subst hk
      rw [aerase, if_pos rfl] at he
      exact hc _ (List.mem_cons_of_mem _ he)
    · rw [aerase, if_neg hk] at he
      rcases List.mem_cons.mp he with rfl | hr
      · exact hc _ (List.mem_cons_self _ _)
      · exact ih (fun e' he' => hc e' (List.mem_cons_of_mem _ he')) e hr



theorem commit_local_item_dels_wf (f : Faults) (dels : List Url) (st : PairState)
    (h : PairWF st) : PairWF (commit_local_item_dels f dels st) := by
  induction dels generalizing st with
  | nil => exact h
  | cons url rest ih =>
    obtain ⟨h1, h2, h3, h4, h5⟩ := h
    cases hl : alookup st.loc.items url with
    | some it =>
      simp only [commit_local_item_dels, hl]
      split_ifs
      · exact ih _ ⟨akeys_aerase_nodup url _ h1, h2, akeys_aerase_nodup url _ h3, h4, h5⟩
      · exact ih _ ⟨h1, h2, h3, h4, h5⟩
    | none =>
      simp only [commit_local_item_dels, hl]
      split_ifs
      · exact ih _ ⟨h1, h2, akeys_aerase_nodup url _ h3, h4, h5⟩
      · exact ih _ ⟨h1, h2, h3, h4, h5⟩

theorem commit_remote_item_dels_wf (dels : List Url) (st : PairState)
    (h : PairWF st) : PairWF (commit_remote_item_dels dels st) := by
  induction dels generalizing st with
  | nil => exact h
  | cons url rest ih =>
    obtain ⟨h1, h2, h3, h4, h5⟩ := h
    cases hl : alookup st.loc.items url with
    | some it =>
      simp only [commit_remote_item_dels, hl]
      exact ih _ ⟨akeys_aerase_nodup url _ h1, h2, h3, h4, h5⟩
    | none =>
      simp only [commit_remote_item_dels, hl]
      exact ih _ ⟨h1, h2, h3, h4, h5⟩

theorem apply_one_item_wf (bt : BatchDownloadType) (st : PairState)
    (it : Option (Url × LocalItem)) (h : PairWF st) : PairWF (apply_one_item bt st it) := by
  obtain ⟨h1, h2, h3, h4, h5⟩ := h
  cases it with
  | none => exact ⟨h1, h2, h3, h4, h5⟩
  | some p =>
    obtain ⟨u, ni⟩ := p
    cases bt <;> simp only [apply_one_item] <;> split_ifs <;>
      exact ⟨by first | exact akeys_ainsert_nodup u _ _ h1 | exact h1, h2, h3, h4, h5⟩

theorem apply_items_list_wf (bt : BatchDownloadType) (rc : RemoteCal) (batch : List Url)
    (st : PairState) (h : PairWF st) : PairWF (apply_items_list bt rc batch st) := by
  induction batch generalizing st with
  | nil => exact h
  | cons v rest ih =>
    rw [apply_items_list_cons]
    exact ih _ (apply_one_item_wf bt st _ h)

theorem fetch_batch_wf (bt : BatchDownloadType) (f : Faults) (batch : List Url)
    (st : PairState) (h : PairWF st) : PairWF (fetch_batch_and_apply_items bt f batch st) := by
  rw [fetch_batch_eq]
  split_ifs
  · exact apply_items_list_wf bt st.rem batch st h
  · exact h

theorem apply_remote_items_batched_wf (bt : BatchDownloadType) (f : Faults) (n : Nat)
    (urls : List Url) (st : PairState) (h : PairWF st) :
    PairWF (apply_remote_items_batched bt f n urls st) := by
  rw [apply_remote_items_batched]
  generalize chunkList n urls = bs
  induction bs generalizing st with
  | nil => exact h
  | cons b rest ih =>
    rw [List.foldl_cons]
    exact ih _ (fetch_batch_wf bt f b st h)

theorem commit_local_item_additions_wf (f : Faults) (putTag : Url → String → VersionTag)
    (adds : List Url) (st : PairState) (h : PairWF st) :
    PairWF (commit_local_item_additions f putTag adds st) := by
  induction adds generalizing st with
  | nil => exact h
  | cons url rest ih =>
    obtain ⟨h1, h2, h3, h4, h5⟩ := h
    cases hl : alookup st.loc.items url with
    | none =>
      simp only [commit_local_item_additions, hl]
      exact ih _ ⟨h1, h2, h3, h4, h5⟩
    | some it =>
      simp only [commit_local_item_additions, hl]
      split_ifs
      · exact ih _ ⟨akeys_ainsert_nodup url _ _ h1, h2, akeys_ainsert_nodup url _ _ h3, h4, h5⟩
      · exact ih _ ⟨h1, h2, h3, h4, h5⟩

theorem commit_local_item_changes_wf (f : Faults) (putTag : Url → String → VersionTag)
    (chgs : List Url) (st : PairState) (h : PairWF st) :
    PairWF (commit_local_item_changes f putTag chgs st) := by
  induction chgs generalizing st with
  | nil => exact h
  | cons url rest ih =>
    obtain ⟨h1, h2, h3, h4, h5⟩ := h
    cases hl : alookup st.loc.items url with
    | none =>
      simp only [commit_local_item_changes, hl]
      exact ih _ ⟨h1, h2, h3, h4, h5⟩
    | some it =>
      simp only [commit_local_item_changes, hl]
      split_ifs
      · exact ih _ ⟨akeys_ainsert_nodup url _ _ h1, h2, akeys_ainsert_nodup url _ _ h3, h4, h5⟩
      · exact ih _ ⟨h1, h2, h3, h4, h5⟩

theorem commit_item_changes_wf (f : Faults) (putTag : Url → String → VersionTag)
    (n : Nat) (chg : ItemChanges) (st : PairState) (h : PairWF st) :
    PairWF (commit_item_changes f putTag n chg st) := by
  rw [commit_item_changes]
  exact commit_local_item_changes_wf f putTag _ _
    (commit_local_item_additions_wf f putTag _ _
      (apply_remote_items_batched_wf .RemoteChanges f n _ _
        (apply_remote_items_batched_wf .RemoteAdditions f n _ _
          (commit_remote_item_dels_wf _ _
            (commit_local_item_dels_wf f _ st h)))))

theorem commit_local_prop_dels_wf (f : Faults) (dels : List NamespacedName)
    (st : PairState) (h : PairWF st) : PairWF (commit_local_prop_dels f dels st) := by
  induction dels generalizing st with
  | nil => exact h
  | cons nsn rest ih =>
    obtain ⟨h1, h2, h3, h4, h5⟩ := h
    cases hl : alookup st.loc.properties nsn with
    | some p =>
      simp only [commit_local_prop_dels, hl]
      split_ifs
      · exact ih _ ⟨h1, akeys_aerase_nodup nsn _ h2, h3, akeys_aerase_nodup nsn _ h4,
          coherent_aerase h5⟩
      · exact ih _ ⟨h1, h2, h3, h4, h5⟩
    | none =>
      simp only [commit_local_prop_dels, hl]
      split_ifs
      · exact ih _ ⟨h1, h2, h3, akeys_aerase_nodup nsn _ h4, h5⟩
      · exact ih _ ⟨h1, h2, h3, h4, h5⟩

theorem commit_remote_prop_dels_wf (dels : List NamespacedName) (st : PairState)
    (h : PairWF st) : PairWF (commit_remote_prop_dels dels st) := by
  induction dels generalizing st with
  | nil => exact h
  | cons nsn rest ih =>
    obtain ⟨h1, h2, h3, h4, h5⟩ := h
    cases hl : alookup st.loc.properties nsn with
    | some p =>
      simp only [commit_remote_prop_dels, hl]
      exact ih _ ⟨h1, akeys_aerase_nodup nsn _ h2, h3, h4, coherent_aerase h5⟩
    | none =>
      simp only [commit_remote_prop_dels, hl]
      exact ih _ ⟨h1, h2, h3, h4, h5⟩

theorem apply_one_prop_wf (bt : BatchDownloadType) (st : PairState) (p : Property)
    (h : PairWF st) : PairWF (apply_one_prop bt st p) := by
  obtain ⟨h1, h2, h3, h4, h5⟩ := h
  cases bt <;> simp only [apply_one_prop] <;> split_ifs <;>
    exact ⟨h1,
      by first | exact akeys_ainsert_nodup p.nsn _ _ h2 | exact h2, h3, h4,
      by first | exact coherent_ainsert h5 rfl | exact h5⟩

theorem apply_props_list_wf (bt : BatchDownloadType) (batch : List Property)
    (st : PairState) (h : PairWF st) : PairWF (apply_props_list bt batch st) := by
  induction batch generalizing st with
  | nil => exact h
  | cons p rest ih =>
    rw [apply_props_list, List.foldl_cons]
    exact ih _ (apply_one_prop_wf bt st p h)

theorem apply_remote_props_batched_wf (bt : BatchDownloadType) (n : Nat)
    (props : List Property) (st : PairState) (h : PairWF st) :
    PairWF (apply_remote_props_batched bt n props st) := by
  rw [props_batched_eq]
  generalize chunkList n props = bs
  induction bs generalizing st with
  | nil => exact h
  | cons b rest ih =>
    rw [List.foldl_cons]
    exact ih _ (apply_props_list_wf bt b st h)

theorem commit_local_prop_additions_wf (f : Faults) (props : List Property)
    (st : PairState) (h : PairWF st) : PairWF (commit_local_prop_additions f props st) := by
  induction props generalizing st with
  | nil => exact h
  | cons p rest ih =>
    obtain ⟨h1, h2, h3, h4, h5⟩ := h
    cases hl : alookup st.loc.properties p.nsn with
    | none =>
      simp only [commit_local_prop_additions, hl]
      exact ih _ ⟨h1, h2, h3, h4, h5⟩
    | some lp =>
      have hco : lp.nsn = p.nsn := h5 _ (alookup_mem hl)
      simp only [commit_local_prop_additions, hl]
      split_ifs
      · exact ih _ ⟨h1, akeys_ainsert_nodup p.nsn _ _ h2, h3, akeys_ainsert_nodup p.nsn _ _ h4,
          coherent_ainsert h5 hco⟩
      · exact ih _ ⟨h1, h2, h3, h4, h5⟩

theorem commit_local_prop_changes_wf (f : Faults) (names : List NamespacedName)
    (st : PairState) (h : PairWF st) : PairWF (commit_local_prop_changes f names st) := by
  induction names generalizing st with
  | nil => exact h
  | cons nsn rest ih =>
    obtain ⟨h1, h2, h3, h4, h5⟩ := h
    cases hl : alookup st.loc.properties nsn with
    | none =>
      simp only [commit_local_prop_changes, hl]
      exact ih _ ⟨h1, h2, h3, h4, h5⟩
    | some lp =>
      have hco : lp.nsn = nsn := h5 _ (alookup_mem hl)
      simp only [commit_local_prop_changes, hl]
      split_ifs
      · exact ih _ ⟨h1, akeys_ainsert_nodup nsn _ _ h2, h3, akeys_ainsert_nodup nsn _ _ h4,
          coherent_ainsert h5 hco⟩
      · exact ih _ ⟨h1, h2, h3, h4, h5⟩

theorem commit_prop_changes_wf (f : Faults) (n : Nat) (chg : PropChanges)
    (st : PairState) (h : PairWF st) : PairWF (commit_prop_changes f n chg st) := by
  rw [commit_prop_changes]
  exact commit_local_prop_changes_wf f _ _
    (commit_local_prop_additions_wf f _ _
      (apply_remote_props_batched_wf .RemoteChanges n _ _
        (apply_remote_props_batched_wf .RemoteAdditions n _ _
          (commit_remote_prop_dels_wf _ _
            (commit_local_prop_dels_wf f _ st h)))))



/-! ### Effects of the item phases under an error-free run -/

theorem prog_ne_of_bumped {o i : Nat} (hle : i + 1 ≤ o) : ¬ o = i := by omega

theorem chunkList_flatten {α : Type} (n : Nat) (l : List α) :
    (chunkList n l).flatten = l := by
  have key : ∀ (k : Nat) (l : List α), l.length ≤ k → (chunkList n l).flatten = l := by
    intro k
    induction k with
    | zero =>
      intro l hl
      rw [Nat.le_zero, List.length_eq_zero] at hl
      subst hl
      simp [chunkList_nil]
    | succ k ih =>
      intro l hl
      cases l with
      | nil => simp [chunkList_nil]
      | cons x xs =>
        rw [chunkList_cons, List.flatten_cons, ih (xs.drop (n - 1))
          (by rw [List.length_drop]; simp only [List.length_cons] at hl; omega)]
        rw [List.cons_append, List.take_append_drop]
  exact key l.length l le_rfl

theorem mem_chunkList {α : Type} (n : Nat) (u : α) (l : List α) :
    u ∈ l ↔ ∃ b ∈ chunkList n l, u ∈ b := by
  conv_lhs => rw [← chunkList_flatten n l]
  exact List.mem_flatten

theorem apply_items_list_prog_le (bt : BatchDownloadType) (rc : RemoteCal)
    (batch : List Url) (st : PairState) :
    st.prog.nErrors ≤ (apply_items_list bt rc batch st).prog.nErrors :=
  foldl_apply_items_prog_le bt _ st

theorem foldl_fetch_prog_le (bt : BatchDownloadType) (f : Faults) (bs : List (List Url))
    (st : PairState) :
    st.prog.nErrors ≤
      (bs.foldl (fun s batch => fetch_batch_and_apply_items bt f batch s) st).prog.nErrors := by
  induction bs generalizing st with
  | nil => exact le_rfl
  | cons b rest ih =>
    rw [List.foldl_cons]
    exact le_step (ih _) (fetch_batch_prog_le bt f b st)

theorem commit_remote_item_dels_not_mem (dels : List Url) (st : PairState) (u : Url)
    (hu : u ∉ dels) :
    alookup (commit_remote_item_dels dels st).loc.items u = alookup st.loc.items u := by
  induction dels generalizing st with
  | nil => rfl
  | cons url rest ih =>
    have hne : url ≠ u := fun h => hu (h ▸ List.mem_cons_self url rest)
    have hur : u ∉ rest := fun h => hu (List.mem_cons_of_mem _ h)
    cases hl : alookup st.loc.items url with
    | some it =>
      rw [commit_remote_item_dels, hl]
      exact (ih _ hur).trans (alookup_aerase_ne url u _ hne)
    | none =>
      rw [commit_remote_item_dels, hl]
      exact ih _ hur

theorem commit_remote_item_dels_success (dels : List Url) (st : PairState)
    (hndL : (akeys st.loc.items).Nodup)
    (h : (commit_remote_item_dels dels st).prog.nErrors = st.prog.nErrors) :
    ∀ u ∈ dels, alookup (commit_remote_item_dels dels st).loc.items u = none := by
  induction dels generalizing st with
  | nil => intro u hu; exact absurd hu (List.not_mem_nil u)
  | cons url rest ih =>
    cases hl : alookup st.loc.items url with
    | some it =>
      rw [commit_remote_item_dels, hl] at h ⊢
      intro u hu
      have hstep := ih { st with loc := { st.loc with items := aerase url st.loc.items }, log := st.log ++ [.deleteItemLocal url] } (akeys_aerase_nodup url _ hndL) h
      by_cases hequ : url = u
      · subst hequ
        by_cases hmr : url ∈ rest
        · exact hstep url hmr
        · exact (commit_remote_item_dels_not_mem rest _ url hmr).trans
            (alookup_aerase_self url _ hndL)
      · exact hstep u (by rcases List.mem_cons.mp hu with h | h; exact absurd h.symm hequ; exact h)
    | none =>
      rw [commit_remote_item_dels, hl] at h
      exact absurd h (prog_ne_of_bumped (commit_remote_item_dels_prog_le rest
        { st with prog := st.prog.warn, log := st.log ++ [.deleteItemLocal url] }))

theorem commit_local_item_dels_success (f : Faults) (dels : List Url) (st : PairState)
    (hndL : (akeys st.loc.items).Nodup) (hndR : (akeys st.rem.items).Nodup)
    (h : (commit_local_item_dels f dels st).prog.nErrors = st.prog.nErrors) :
    ∀ u ∈ dels, alookup (commit_local_item_dels f dels st).loc.items u = none ∧
      alookup (commit_local_item_dels f dels st).rem.items u = none := by
  induction dels generalizing st with
  | nil => intro u hu; exact absurd hu (List.not_mem_nil u)
  | cons url rest ih =>
    by_cases hf : f.delete_item url = true
    · cases hl : alookup st.loc.items url with
      | some it =>
        rw [commit_local_item_dels, if_pos hf, hl] at h ⊢
        intro u hu
        have hstep := ih { st with loc := { st.loc with items := aerase url st.loc.items }, rem := { st.rem with items := aerase url st.rem.items }, log := st.log ++ [.deleteItemRemote url, .deleteItemLocal url] } (akeys_aerase_nodup url _ hndL) (akeys_aerase_nodup url _ hndR) h
        by_cases hequ : url = u
        · subst hequ
          by_cases hmr : url ∈ rest
          · exact hstep url hmr
          · obtain ⟨ha, hb⟩ := commit_local_item_dels_not_mem f rest { st with loc := { st.loc with items := aerase url st.loc.items }, rem := { st.rem with items := aerase url st.rem.items }, log := st.log ++ [.deleteItemRemote url, .deleteItemLocal url] } url hmr
            exact ⟨ha.trans (alookup_aerase_self url _ hndL),
              hb.trans (alookup_aerase_self url _ hndR)⟩
        · exact hstep u
            (by rcases List.mem_cons.mp hu with h | h; exact absurd h.symm hequ; exact h)
      | none =>
        rw [commit_local_item_dels, if_pos hf, hl] at h
        exact absurd h (prog_ne_of_bumped (commit_local_item_dels_prog_le f rest
          { st with rem := { st.rem with items := aerase url st.rem.items }, prog := st.prog.error, log := st.log ++ [.deleteItemRemote url, .deleteItemLocal url] }))
    · rw [commit_local_item_dels, if_neg hf] at h
      exact absurd h (prog_ne_of_bumped (commit_local_item_dels_prog_le f rest
        { st with prog := st.prog.warn, log := st.log ++ [.deleteItemRemote url] }))

theorem commit_local_item_additions_not_mem (f : Faults)
    (putTag : Url → String → VersionTag) (adds : List Url) (st : PairState) (u : Url)
    (hu : u ∉ adds) :
    alookup (commit_local_item_additions f putTag adds st).loc.items u =
        alookup st.loc.items u ∧
      alookup (commit_local_item_additions f putTag adds st).rem.items u =
        alookup st.rem.items u := by
  induction adds generalizing st with
  | nil => exact ⟨rfl, rfl⟩
  | cons url rest ih =>
    have hne : url ≠ u := fun h => hu (h ▸ List.mem_cons_self url rest)
    have hur : u ∉ rest := fun h => hu (List.mem_cons_of_mem _ h)
    cases hl : alookup st.loc.items url with
    | none =>
      simp only [commit_local_item_additions, hl]
      exact ih _ hur
    | some it =>
      simp only [commit_local_item_additions, hl]
      split_ifs
      · exact ⟨((ih _ hur).1).trans (alookup_ainsert_ne url u _ _ hne),
          ((ih _ hur).2).trans (alookup_ainsert_ne url u _ _ hne)⟩
      · exact ih _ hur

theorem commit_local_item_additions_success (f : Faults)
    (putTag : Url → String → VersionTag) (adds : List Url) (st : PairState)
    (h : (commit_local_item_additions f putTag adds st).prog.nErrors = st.prog.nErrors) :
    ∀ u ∈ adds, ∃ it : LocalItem, alookup st.loc.items u = some it ∧
      alookup (commit_local_item_additions f putTag adds st).loc.items u =
        some ⟨it.data, .Synced (putTag u it.data)⟩ ∧
      alookup (commit_local_item_additions f putTag adds st).rem.items u =
        some ⟨it.data, putTag u it.data⟩ := by
  induction adds generalizing st with
  | nil => intro u hu; exact absurd hu (List.not_mem_nil u)
  | cons url rest ih =>
    cases hl : alookup st.loc.items url with
    | none =>
      rw [commit_local_item_additions, hl] at h
      exact absurd h (prog_ne_of_bumped (commit_local_item_additions_prog_le f putTag rest
        { st with prog := st.prog.error }))
    | some it =>
      by_cases hf : f.add_item url = true
      · simp only [commit_local_item_additions, hl] at h ⊢
        rw [if_pos hf] at h ⊢
        intro u hu
        have hstep := ih { st with loc := { st.loc with items := ainsert url { it with ss := .Synced (putTag url it.data) } st.loc.items }, rem := { st.rem with items := ainsert url ⟨it.data, putTag url it.data⟩ st.rem.items }, log := st.log ++ [.addItemRemote url] } h
        by_cases hequ : url = u
        · subst hequ
          by_cases hmr : url ∈ rest
          · obtain ⟨it', hit', hA, hB⟩ := hstep url hmr
            rw [alookup_ainsert_self] at hit'
            obtain rfl := (Option.some.inj hit').symm
            exact ⟨it, hl, hA, hB⟩
          · obtain ⟨ha, hb⟩ := commit_local_item_additions_not_mem f putTag rest { st with loc := { st.loc with items := ainsert url { it with ss := .Synced (putTag url it.data) } st.loc.items }, rem := { st.rem with items := ainsert url ⟨it.data, putTag url it.data⟩ st.rem.items }, log := st.log ++ [.addItemRemote url] } url hmr
            exact ⟨it, hl, ha.trans (alookup_ainsert_self url _ _),
              hb.trans (alookup_ainsert_self url _ _)⟩
        · have hur : u ∈ rest := by
            rcases List.mem_cons.mp hu with h | h
            · exact absurd h.symm hequ
            · exact h
          obtain ⟨it', hit', hA, hB⟩ := hstep u hur
          rw [alookup_ainsert_ne url u _ _ hequ] at hit'
          exact ⟨it', hit', hA, hB⟩
      · simp only [commit_local_item_additions, hl] at h
        rw [if_neg hf] at h
        exact absurd h (prog_ne_of_bumped (commit_local_item_additions_prog_le f putTag rest
          { st with prog := st.prog.error, log := st.log ++ [.addItemRemote url] }))

theorem commit_local_item_changes_not_mem (f : Faults)
    (putTag : Url → String → VersionTag) (chgs : List Url) (st : PairState) (u : Url)
    (hu : u ∉ chgs) :
    alookup (commit_local_item_changes f putTag chgs st).loc.items u =
        alookup st.loc.items u ∧
      alookup (commit_local_item_changes f putTag chgs st).rem.items u =
        alookup st.rem.items u := by
  induction chgs generalizing st with
  | nil => exact ⟨rfl, rfl⟩
  | cons url rest ih =>
    have hne : url ≠ u := fun h => hu (h ▸ List.mem_cons_self url rest)
    have hur : u ∉ rest := fun h => hu (List.mem_cons_of_mem _ h)
    cases hl : alookup st.loc.items url with
    | none =>
      simp only [commit_local_item_changes, hl]
      exact ih _ hur
    | some it =>
      simp only [commit_local_item_changes, hl]
      split_ifs
      · exact ⟨((ih _ hur).1).trans (alookup_ainsert_ne url u _ _ hne),
          ((ih _ hur).2).trans (alookup_ainsert_ne url u _ _ hne)⟩
      · exact ih _ hur

theorem commit_local_item_changes_success (f : Faults)
    (putTag : Url → String → VersionTag) (chgs : List Url) (st : PairState)
    (h : (commit_local_item_changes f putTag chgs st).prog.nErrors = st.prog.nErrors) :
    ∀ u ∈ chgs, ∃ it : LocalItem, alookup st.loc.items u = some it ∧
      alookup (commit_local_item_changes f putTag chgs st).loc.items u =
        some ⟨it.data, .Synced (putTag u it.data)⟩ ∧
      alookup (commit_local_item_changes f putTag chgs st).rem.items u =
        some ⟨it.data, putTag u it.data⟩ := by
  induction chgs generalizing st with
  | nil => intro u hu; exact absurd hu (List.not_mem_nil u)
  | cons url rest ih =>
    cases hl : alookup st.loc.items url with
    | none =>
      rw [commit_local_item_changes, hl] at h
      exact absurd h (prog_ne_of_bumped (commit_local_item_changes_prog_le f putTag rest
        { st with prog := st.prog.error }))
    | some it =>
      by_cases hf : (f.update_item url && can_update_remote it.ss) = true
      · simp only [commit_local_item_changes, hl] at h ⊢
        rw [if_pos hf] at h ⊢
        intro u hu
        have hstep := ih { st with loc := { st.loc with items := ainsert url { it with ss := .Synced (putTag url it.data) } st.loc.items }, rem := { st.rem with items := ainsert url ⟨it.data, putTag url it.data⟩ st.rem.items }, log := st.log ++ [.updateItemRemote url] } h
        by_cases hequ : url = u
        · subst hequ
          by_cases hmr : url ∈ rest
          · obtain ⟨it', hit', hA, hB⟩ := hstep url hmr
            rw [alookup_ainsert_self] at hit'
            obtain rfl := (Option.some.inj hit').symm
            exact ⟨it, hl, hA, hB⟩
          · obtain ⟨ha, hb⟩ := commit_local_item_changes_not_mem f putTag rest { st with loc := { st.loc with items := ainsert url { it with ss := .Synced (putTag url it.data) } st.loc.items }, rem := { st.rem with items := ainsert url ⟨it.data, putTag url it.data⟩ st.rem.items }, log := st.log ++ [.updateItemRemote url] } url hmr
            exact ⟨it, hl, ha.trans (alookup_ainsert_self url _ _),
              hb.trans (alookup_ainsert_self url _ _)⟩
        · have hur : u ∈ rest := by
            rcases List.mem_cons.mp hu with h | h
            · exact absurd h.symm hequ
            · exact h
          obtain ⟨it', hit', hA, hB⟩ := hstep u hur
          rw [alookup_ainsert_ne url u _ _ hequ] at hit'
          exact ⟨it', hit', hA, hB⟩
      · simp only [commit_local_item_changes, hl] at h
        rw [if_neg hf] at h
        exact absurd h (prog_ne_of_bumped (commit_local_item_changes_prog_le f putTag rest
          { st with prog := st.prog.error, log := st.log ++ [.updateItemRemote url] }))



theorem apply_items_list_not_mem (bt : BatchDownloadType) (rc : RemoteCal)
    (batch : List Url) (st : PairState) (u : Url) (hu : u ∉ batch) :
    alookup (apply_items_list bt rc batch st).loc.items u = alookup st.loc.items u := by
  induction batch generalizing st with
  | nil => rfl
  | cons v rest ih =>
    have hne : v ≠ u := fun h => hu (h ▸ List.mem_cons_self v rest)
    have hur : u ∉ rest := fun h => hu (List.mem_cons_of_mem _ h)
    rw [apply_items_list_cons]
    refine (ih _ hur).trans ?_
    cases hr : alookup rc.items v with
    | none => rfl
    | some r =>
      cases bt <;> simp only [apply_one_item, Option.map_some'] <;> split_ifs <;>
        first | rfl | exact alookup_ainsert_ne v u _ _ hne

theorem apply_items_list_success (bt : BatchDownloadType) (rc : RemoteCal)
    (batch : List Url) (st : PairState)
    (h : (apply_items_list bt rc batch st).prog.nErrors = st.prog.nErrors) :
    ∀ u ∈ batch, ∃ r : RemoteItem, alookup rc.items u = some r ∧
      alookup (apply_items_list bt rc batch st).loc.items u =
        some ⟨r.data, .Synced r.tag⟩ := by
  induction batch generalizing st with
  | nil => intro u hu; exact absurd hu (List.not_mem_nil u)
  | cons v rest ih =>
    rw [apply_items_list_cons] at h ⊢
    cases hr : alookup rc.items v with
    | none =>
      rw [hr] at h
      exact absurd h (prog_ne_of_bumped (apply_items_list_prog_le bt rc rest
        (apply_one_item bt st
          (Option.map (fun r : RemoteItem => (v, (⟨r.data, .Synced r.tag⟩ : LocalItem))) none))))
    | some r =>
      rw [hr] at h
      cases bt with
      | RemoteAdditions =>
        simp only [apply_one_item, Option.map_some'] at h ⊢
        split_ifs at h ⊢ with hex
        · exact absurd h (prog_ne_of_bumped (apply_items_list_prog_le .RemoteAdditions rc rest
            { st with prog := st.prog.error, log := st.log ++ [.addItemLocal v] }))
        · intro u hu
          have hstep := ih { st with loc := { st.loc with items := ainsert v ⟨r.data, .Synced r.tag⟩ st.loc.items }, log := st.log ++ [.addItemLocal v] } h
          by_cases hequ : v = u
          · subst hequ
            by_cases hmr : v ∈ rest
            · exact hstep v hmr
            · exact ⟨r, hr, (apply_items_list_not_mem _ rc rest _ v hmr).trans
                (alookup_ainsert_self v _ _)⟩
          · exact hstep u
              (by rcases List.mem_cons.mp hu with h | h; exact absurd h.symm hequ; exact h)
      | RemoteChanges =>
        simp only [apply_one_item, Option.map_some'] at h ⊢
        split_ifs at h ⊢ with hex
        · intro u hu
          have hstep := ih { st with loc := { st.loc with items := ainsert v ⟨r.data, .Synced r.tag⟩ st.loc.items }, log := st.log ++ [.updateItemLocal v] } h
          by_cases hequ : v = u
          · subst hequ
            by_cases hmr : v ∈ rest
            · exact hstep v hmr
            · exact ⟨r, hr, (apply_items_list_not_mem _ rc rest _ v hmr).trans
                (alookup_ainsert_self v _ _)⟩
          · exact hstep u
              (by rcases List.mem_cons.mp hu with h | h; exact absurd h.symm hequ; exact h)
        · exact absurd h (prog_ne_of_bumped (apply_items_list_prog_le .RemoteChanges rc rest
            { st with prog := st.prog.error, log := st.log ++ [.updateItemLocal v] }))

theorem fetch_batch_not_mem (bt : BatchDownloadType) (f : Faults) (batch : List Url)
    (st : PairState) (u : Url) (hu : u ∉ batch) :
    alookup (fetch_batch_and_apply_items bt f batch st).loc.items u =
      alookup st.loc.items u := by
  rw [fetch_batch_eq]
  split_ifs
  · exact apply_items_list_not_mem bt st.rem batch st u hu
  · rfl

theorem fetch_batch_success (bt : BatchDownloadType) (f : Faults) (batch : List Url)
    (st : PairState)
    (h : (fetch_batch_and_apply_items bt f batch st).prog.nErrors = st.prog.nErrors) :
    ∀ u ∈ batch, ∃ r : RemoteItem, alookup st.rem.items u = some r ∧
      alookup (fetch_batch_and_apply_items bt f batch st).loc.items u =
        some ⟨r.data, .Synced r.tag⟩ := by
  rw [fetch_batch_eq] at h ⊢
  split_ifs at h ⊢ with hfb
  · exact apply_items_list_success bt st.rem batch st h
  · exact absurd h (prog_ne_of_bumped le_rfl)

theorem foldl_fetch_not_mem (bt : BatchDownloadType) (f : Faults) (bs : List (List Url))
    (st : PairState) (u : Url) (hu : ∀ b ∈ bs, u ∉ b) :
    alookup ((bs.foldl (fun s batch => fetch_batch_and_apply_items bt f batch s) st)).loc.items u =
      alookup st.loc.items u := by
  induction bs generalizing st with
  | nil => rfl
  | cons b rest ih =>
    rw [List.foldl_cons]
    exact (ih _ (fun b' hb' => hu b' (List.mem_cons_of_mem _ hb'))).trans
      (fetch_batch_not_mem bt f b st u (hu b (List.mem_cons_self _ _)))

theorem foldl_fetch_success (bt : BatchDownloadType) (f : Faults) (bs : List (List Url))
    (st : PairState)
    (h : ((bs.foldl (fun s batch => fetch_batch_and_apply_items bt f batch s) st)).prog.nErrors =
      st.prog.nErrors) :
    ∀ u, (∃ b ∈ bs, u ∈ b) →
      ∃ r : RemoteItem, alookup st.rem.items u = some r ∧
        alookup ((bs.foldl (fun s batch => fetch_batch_and_apply_items bt f batch s) st)).loc.items u =
          some ⟨r.data, .Synced r.tag⟩ := by
  induction bs generalizing st with
  | nil => intro u hu; exact absurd hu (by simp)
  | cons b rest ih =>
    rw [List.foldl_cons] at h ⊢
    have hmid : (fetch_batch_and_apply_items bt f b st).prog.nErrors = st.prog.nErrors :=
      le_antisymm ((foldl_fetch_prog_le bt f rest _).trans (le_of_eq h))
        (fetch_batch_prog_le bt f b st)
    have hrest : ((rest.foldl (fun s batch => fetch_batch_and_apply_items bt f batch s)
        (fetch_batch_and_apply_items bt f b st))).prog.nErrors =
          (fetch_batch_and_apply_items bt f b st).prog.nErrors := h.trans hmid.symm
    intro u hu
    rcases hu with ⟨b', hb', hub'⟩
    rcases List.mem_cons.mp hb' with rfl | hbr
    · by_cases hre : ∃ b2 ∈ rest, u ∈ b2
      · obtain ⟨r, hrr, hout⟩ := ih _ hrest u hre
        rw [(fetch_batch_frame bt f b' st).2] at hrr
        exact ⟨r, hrr, hout⟩
      · push_neg at hre
        obtain ⟨r, hrr, hmidout⟩ := fetch_batch_success bt f b' st hmid u hub'
        exact ⟨r, hrr, (foldl_fetch_not_mem bt f rest _ u hre).trans hmidout⟩
    · obtain ⟨r, hrr, hout⟩ := ih _ hrest u ⟨b', hbr, hub'⟩
      rw [(fetch_batch_frame bt f b st).2] at hrr
      exact ⟨r, hrr, hout⟩

theorem apply_remote_items_batched_not_mem (bt : BatchDownloadType) (f : Faults)
    (n : Nat) (urls : List Url) (st : PairState) (u : Url) (hu : u ∉ urls) :
    alookup (apply_remote_items_batched bt f n urls st).loc.items u =
      alookup st.loc.items u := by
  rw [apply_remote_items_batched]
  refine foldl_fetch_not_mem bt f (chunkList n urls) st u ?_
  intro b hb hub
  exact hu ((mem_chunkList n u urls).mpr ⟨b, hb, hub⟩)

theorem apply_remote_items_batched_success (bt : BatchDownloadType) (f : Faults)
    (n : Nat) (urls : List Url) (st : PairState)
    (h : (apply_remote_items_batched bt f n urls st).prog.nErrors = st.prog.nErrors) :
    ∀ u ∈ urls, ∃ r : RemoteItem, alookup st.rem.items u = some r ∧
      alookup (apply_remote_items_batched bt f n urls st).loc.items u =
        some ⟨r.data, .Synced r.tag⟩ := by
  rw [apply_remote_items_batched] at h ⊢
  intro u hu
  exact foldl_fetch_success bt f (chunkList n urls) st h u ((mem_chunkList n u urls).mp hu)



/-! ### Effects of the property phases under an error-free run -/

theorem commit_local_prop_dels_not_mem (f : Faults) (dels : List NamespacedName)
    (st : PairState) (nn : NamespacedName) (hn : nn ∉ dels) :
    alookup (commit_local_prop_dels f dels st).loc.properties nn =
        alookup st.loc.properties nn ∧
      alookup (commit_local_prop_dels f dels st).rem.props nn =
        alookup st.rem.props nn := by
  induction dels generalizing st with
  | nil => exact ⟨rfl, rfl⟩
  | cons nsn rest ih =>
    have hne : nsn ≠ nn := fun h => hn (h ▸ List.mem_cons_self nsn rest)
    have hnr : nn ∉ rest := fun h => hn (List.mem_cons_of_mem _ h)
    by_cases hf : f.delete_property nsn = true
    · cases hl : alookup st.loc.properties nsn with
      | some p =>
        simp only [commit_local_prop_dels, hl]
        rw [if_pos hf]
        exact ⟨((ih _ hnr).1).trans (alookup_aerase_ne nsn nn _ hne),
          ((ih _ hnr).2).trans (alookup_aerase_ne nsn nn _ hne)⟩
      | none =>
        simp only [commit_local_prop_dels, hl]
        rw [if_pos hf]
        exact ⟨(ih _ hnr).1, ((ih _ hnr).2).trans (alookup_aerase_ne nsn nn _ hne)⟩
    · simp only [commit_local_prop_dels]
      rw [if_neg hf]
      exact ih _ hnr

theorem commit_local_prop_dels_success (f : Faults) (dels : List NamespacedName)
    (st : PairState) (hndL : (akeys st.loc.properties).Nodup)
    (hndR : (akeys st.rem.props).Nodup)
    (h : (commit_local_prop_dels f dels st).prog.nErrors = st.prog.nErrors) :
    ∀ nn ∈ dels, alookup (commit_local_prop_dels f dels st).loc.properties nn = none ∧
      alookup (commit_local_prop_dels f dels st).rem.props nn = none := by
  induction dels generalizing st with
  | nil => intro nn hn; exact absurd hn (List.not_mem_nil nn)
  | cons nsn rest ih =>
    by_cases hf : f.delete_property nsn = true
    · cases hl : alookup st.loc.properties nsn with
      | some p =>
        simp only [commit_local_prop_dels, hl] at h ⊢
        rw [if_pos hf] at h ⊢
        intro nn hn
        have hstep := ih { st with loc := { st.loc with properties := aerase nsn st.loc.properties }, rem := { st.rem with props := aerase nsn st.rem.props }, log := st.log ++ [.deletePropRemote nsn, .deletePropLocal nsn] } (akeys_aerase_nodup nsn _ hndL) (akeys_aerase_nodup nsn _ hndR) h
        by_cases hequ : nsn = nn
        · subst hequ
          by_cases hmr : nsn ∈ rest
          · exact hstep nsn hmr
          · obtain ⟨ha, hb⟩ := commit_local_prop_dels_not_mem f rest { st with loc := { st.loc with properties := aerase nsn st.loc.properties }, rem := { st.rem with props := aerase nsn st.rem.props }, log := st.log ++ [.deletePropRemote nsn, .deletePropLocal nsn] } nsn hmr
            exact ⟨ha.trans (alookup_aerase_self nsn _ hndL),
              hb.trans (alookup_aerase_self nsn _ hndR)⟩
        · exact hstep nn
            (by rcases List.mem_cons.mp hn with h | h; exact absurd h.symm hequ; exact h)
      | none =>
        simp only [commit_local_prop_dels, hl] at h
        rw [if_pos hf] at h
        exact absurd h (prog_ne_of_bumped (commit_local_prop_dels_prog_le f rest
          { st with rem := { st.rem with props := aerase nsn st.rem.props }, prog := st.prog.error, log := st.log ++ [.deletePropRemote nsn, .deletePropLocal nsn] }))
    · simp only [commit_local_prop_dels] at h
      rw [if_neg hf] at h
      exact absurd h (prog_ne_of_bumped (commit_local_prop_dels_prog_le f rest
        { st with prog := st.prog.warn, log := st.log ++ [.deletePropRemote nsn] }))

theorem commit_remote_prop_dels_not_mem (dels : List NamespacedName) (st : PairState)
    (nn : NamespacedName) (hn : nn ∉ dels) :
    alookup (commit_remote_prop_dels dels st).loc.properties nn =
      alookup st.loc.properties nn := by
  induction dels generalizing st with
  | nil => rfl
  | cons nsn rest ih =>
    have hne : nsn ≠ nn := fun h => hn (h ▸ List.mem_cons_self nsn rest)
    have hnr : nn ∉ rest := fun h => hn (List.mem_cons_of_mem _ h)
    cases hl : alookup st.loc.properties nsn with
    | some p =>
      rw [commit_remote_prop_dels, hl]
      exact (ih _ hnr).trans (alookup_aerase_ne nsn nn _ hne)
    | none =>
      rw [commit_remote_prop_dels, hl]
      exact ih _ hnr

theorem commit_remote_prop_dels_success (dels : List NamespacedName) (st : PairState)
    (hndL : (akeys st.loc.properties).Nodup)
    (h : (commit_remote_prop_dels dels st).prog.nErrors = st.prog.nErrors) :
    ∀ nn ∈ dels, alookup (commit_remote_prop_dels dels st).loc.properties nn = none := by
  induction dels generalizing st with
  | nil => intro nn hn; exact absurd hn (List.not_mem_nil nn)
  | cons nsn rest ih =>
    cases hl : alookup st.loc.properties nsn with
    | some p =>
      rw [commit_remote_prop_dels, hl] at h ⊢
      intro nn hn
      have hstep := ih { st with loc := { st.loc with properties := aerase nsn st.loc.properties }, log := st.log ++ [.deletePropLocal nsn] } (akeys_aerase_nodup nsn _ hndL) h
      by_cases hequ : nsn = nn
      · subst hequ
        by_cases hmr : nsn ∈ rest
        · exact hstep nsn hmr
        · exact (commit_remote_prop_dels_not_mem rest _ nsn hmr).trans
            (alookup_aerase_self nsn _ hndL)
      · exact hstep nn
          (by rcases List.mem_cons.mp hn with h | h; exact absurd h.symm hequ; exact h)
    | none =>
      rw [commit_remote_prop_dels, hl] at h
      exact absurd h (prog_ne_of_bumped (commit_remote_prop_dels_prog_le rest
        { st with prog := st.prog.warn, log := st.log ++ [.deletePropLocal nsn] }))

theorem apply_props_list_cons (bt : BatchDownloadType) (q : Property)
    (rest : List Property) (st : PairState) :
    apply_props_list bt (q :: rest) st = apply_props_list bt rest (apply_one_prop bt st q) :=
  rfl

theorem apply_props_list_not_mem (bt : BatchDownloadType) (batch : List Property)
    (st : PairState) (nn : NamespacedName) (hn : nn ∉ batch.map Property.nsn) :
    alookup (apply_props_list bt batch st).loc.properties nn =
      alookup st.loc.properties nn := by
  induction batch generalizing st with
  | nil => rfl
  | cons q rest ih =>
    have hne : q.nsn ≠ nn := fun h => hn (h ▸ List.mem_map_of_mem Property.nsn (List.mem_cons_self q rest))
    have hnr : nn ∉ rest.map Property.nsn := by
      intro h
      rcases List.mem_map.mp h with ⟨p2, hp2, hpn⟩
      exact hn (List.mem_map.mpr ⟨p2, List.mem_cons_of_mem _ hp2, hpn⟩)
    rw [apply_props_list_cons]
    refine (ih _ hnr).trans ?_
    cases bt <;> simp only [apply_one_prop] <;> split_ifs <;>
      first | rfl | exact alookup_ainsert_ne q.nsn nn _ _ hne

theorem apply_props_list_success (bt : BatchDownloadType) (batch : List Property)
    (st : PairState)
    (h : (apply_props_list bt batch st).prog.nErrors = st.prog.nErrors) :
    ∀ p ∈ batch, ∃ v : String,
      alookup (apply_props_list bt batch st).loc.properties p.nsn =
        some ⟨p.nsn, v, .Synced v⟩ := by
  induction batch generalizing st with
  | nil => intro p hp; exact absurd hp (List.not_mem_nil p)
  | cons q rest ih =>
    rw [apply_props_list_cons] at h ⊢
    cases bt with
    | RemoteAdditions =>
      simp only [apply_one_prop] at h ⊢
      split_ifs at h ⊢ with hex
      · exact absurd h (prog_ne_of_bumped (apply_props_list_prog_le .RemoteAdditions rest
          { st with prog := st.prog.error, log := st.log ++ [.addPropLocal q.nsn] }))
      · intro p hp
        have hstep := ih { st with loc := { st.loc with properties := ainsert q.nsn q.mark_synced_to_self st.loc.properties }, log := st.log ++ [.addPropLocal q.nsn] } h
        rcases List.mem_cons.mp hp with rfl | hpr
        · by_cases hmr : p.nsn ∈ rest.map Property.nsn
          · rcases List.mem_map.mp hmr with ⟨p2, hp2, hpn⟩
            obtain ⟨v, hv⟩ := hstep p2 hp2
            rw [hpn] at hv
            exact ⟨v, hv⟩
          · refine ⟨p.value, ?_⟩
            exact (apply_props_list_not_mem _ rest _ p.nsn hmr).trans
              (alookup_ainsert_self p.nsn _ _)
        · exact hstep p hpr
    | RemoteChanges =>
      simp only [apply_one_prop] at h ⊢
      split_ifs at h ⊢ with hex
      · intro p hp
        have hstep := ih { st with loc := { st.loc with properties := ainsert q.nsn q.mark_synced_to_self st.loc.properties }, log := st.log ++ [.updatePropLocal q.nsn] } h
        rcases List.mem_cons.mp hp with rfl | hpr
        · by_cases hmr : p.nsn ∈ rest.map Property.nsn
          · rcases List.mem_map.mp hmr with ⟨p2, hp2, hpn⟩
            obtain ⟨v, hv⟩ := hstep p2 hp2
            rw [hpn] at hv
            exact ⟨v, hv⟩
          · refine ⟨p.value, ?_⟩
            exact (apply_props_list_not_mem _ rest _ p.nsn hmr).trans
              (alookup_ainsert_self p.nsn _ _)
        · exact hstep p hpr
      · exact absurd h (prog_ne_of_bumped (apply_props_list_prog_le .RemoteChanges rest
          { st with prog := st.prog.error, log := st.log ++ [.updatePropLocal q.nsn] }))

theorem foldl_props_prog_le (bt : BatchDownloadType) (bs : List (List Property))
    (st : PairState) :
    st.prog.nErrors ≤
      (bs.foldl (fun s b => apply_props_list bt b s) st).prog.nErrors := by
  induction bs generalizing st with
  | nil => exact le_rfl
  | cons b rest ih =>
    rw [List.foldl_cons]
    exact le_step (ih _) (apply_props_list_prog_le bt b st)

theorem foldl_props_not_mem (bt : BatchDownloadType) (bs : List (List Property))
    (st : PairState) (nn : NamespacedName) (hn : ∀ b ∈ bs, nn ∉ b.map Property.nsn) :
    alookup ((bs.foldl (fun s b => apply_props_list bt b s) st)).loc.properties nn =
      alookup st.loc.properties nn := by
  induction bs generalizing st with
  | nil => rfl
  | cons b rest ih =>
    rw [List.foldl_cons]
    exact (ih _ (fun b' hb' => hn b' (List.mem_cons_of_mem _ hb'))).trans
      (apply_props_list_not_mem bt b st nn (hn b (List.mem_cons_self _ _)))

theorem foldl_props_success (bt : BatchDownloadType) (bs : List (List Property))
    (st : PairState)
    (h : ((bs.foldl (fun s b => apply_props_list bt b s) st)).prog.nErrors =
      st.prog.nErrors) :
    ∀ b ∈ bs, ∀ p ∈ b, ∃ v : String,
      alookup ((bs.foldl (fun s b => apply_props_list bt b s) st)).loc.properties p.nsn =
        some ⟨p.nsn, v, .Synced v⟩ := by
  induction bs generalizing st with
  | nil => intro b hb; exact absurd hb (List.not_mem_nil b)
  | cons b rest ih =>
    rw [List.foldl_cons] at h ⊢
    have hmid : (apply_props_list bt b st).prog.nErrors = st.prog.nErrors :=
      le_antisymm ((foldl_props_prog_le bt rest _).trans (le_of_eq h))
        (apply_props_list_prog_le bt b st)
    have hrest : ((rest.foldl (fun s b2 => apply_props_list bt b2 s)
        (apply_props_list bt b st))).prog.nErrors =
          (apply_props_list bt b st).prog.nErrors := h.trans hmid.symm
    intro b' hb' p hp
    rcases List.mem_cons.mp hb' with rfl | hbr
    · by_cases hre : ∃ b2 ∈ rest, ∃ p2 ∈ b2, p2.nsn = p.nsn
      · obtain ⟨b2, hb2, p2, hp2, hpn⟩ := hre
        obtain ⟨v, hv⟩ := ih _ hrest b2 hb2 p2 hp2
        rw [hpn] at hv
        exact ⟨v, hv⟩
      · push_neg at hre
        obtain ⟨v, hv⟩ := apply_props_list_success bt b' st hmid p hp
        refine ⟨v, ?_⟩
        refine (foldl_props_not_mem bt rest _ p.nsn ?_).trans hv
        intro b2 hb2 hmem
        rcases List.mem_map.mp hmem with ⟨p2, hp2, hpn⟩
        exact hre b2 hb2 p2 hp2 hpn
    · exact ih _ hrest b' hbr p hp

theorem apply_remote_props_batched_not_mem (bt : BatchDownloadType) (n : Nat)
    (props : List Property) (st : PairState) (nn : NamespacedName)
    (hn : nn ∉ props.map Property.nsn) :
    alookup (apply_remote_props_batched bt n props st).loc.properties nn =
      alookup st.loc.properties nn := by
  rw [props_batched_eq]
  refine foldl_props_not_mem bt (chunkList n props) st nn ?_
  intro b hb hmem
  rcases List.mem_map.mp hmem with ⟨p2, hp2, hpn⟩
  exact hn (List.mem_map.mpr ⟨p2, (mem_chunkList n p2 props).mpr ⟨b, hb, hp2⟩, hpn⟩)

theorem apply_remote_props_batched_success (bt : BatchDownloadType) (n : Nat)
    (props : List Property) (st : PairState)
    (h : (apply_remote_props_batched bt n props st).prog.nErrors = st.prog.nErrors) :
    ∀ p ∈ props, ∃ v : String,
      alookup (apply_remote_props_batched bt n props st).loc.properties p.nsn =
        some ⟨p.nsn, v, .Synced v⟩ := by
  rw [props_batched_eq] at h ⊢
  intro p hp
  rcases (mem_chunkList n p props).mp hp with ⟨b, hb, hpb⟩
  exact foldl_props_success bt (chunkList n props) st h b hb p hpb



theorem commit_local_prop_additions_not_mem (f : Faults) (props : List Property)
    (st : PairState) (nn : NamespacedName) (hn : nn ∉ props.map Property.nsn) :
    alookup (commit_local_prop_additions f props st).loc.properties nn =
        alookup st.loc.properties nn ∧
      alookup (commit_local_prop_additions f props st).rem.props nn =
        alookup st.rem.props nn := by
  induction props generalizing st with
  | nil => exact ⟨rfl, rfl⟩
  | cons q rest ih =>
    have hne : q.nsn ≠ nn := fun h =>
      hn (h ▸ List.mem_map_of_mem Property.nsn (List.mem_cons_self q rest))
    have hnr : nn ∉ rest.map Property.nsn := by
      intro h
      rcases List.mem_map.mp h with ⟨p2, hp2, hpn⟩
      exact hn (List.mem_map.mpr ⟨p2, List.mem_cons_of_mem _ hp2, hpn⟩)
    cases hl : alookup st.loc.properties q.nsn with
    | none =>
      simp only [commit_local_prop_additions, hl]
      exact ih _ hnr
    | some lq =>
      simp only [commit_local_prop_additions, hl]
      split_ifs
      · exact ⟨((ih _ hnr).1).trans (alookup_ainsert_ne q.nsn nn _ _ hne),
          ((ih _ hnr).2).trans (alookup_ainsert_ne q.nsn nn _ _ hne)⟩
      · exact ih _ hnr

theorem commit_local_prop_additions_success (f : Faults) (props : List Property)
    (st : PairState)
    (h : (commit_local_prop_additions f props st).prog.nErrors = st.prog.nErrors) :
    ∀ p ∈ props, ∃ lp : Property, alookup st.loc.properties p.nsn = some lp ∧
      alookup (commit_local_prop_additions f props st).loc.properties p.nsn =
        some { lp with sync_status := .Synced lp.value } ∧
      alookup (commit_local_prop_additions f props st).rem.props p.nsn =
        some lp.value := by
  induction props generalizing st with
  | nil => intro p hp; exact absurd hp (List.not_mem_nil p)
  | cons q rest ih =>
    cases hl : alookup st.loc.properties q.nsn with
    | none =>
      simp only [commit_local_prop_additions, hl] at h
      exact absurd h (prog_ne_of_bumped (commit_local_prop_additions_prog_le f rest
        { st with prog := st.prog.error }))
    | some lq =>
      by_cases hf : f.set_property q.nsn = true
      · simp only [commit_local_prop_additions, hl] at h ⊢
        rw [if_pos hf] at h ⊢
        intro p hp
        have hstep := ih { st with loc := { st.loc with properties := ainsert q.nsn { lq with sync_status := .Synced lq.value } st.loc.properties }, rem := { st.rem with props := ainsert q.nsn lq.value st.rem.props }, log := st.log ++ [.setPropRemote q.nsn] } h
        rcases List.mem_cons.mp hp with rfl | hpr
        · by_cases hmr : p.nsn ∈ rest.map Property.nsn
          · rcases List.mem_map.mp hmr with ⟨p2, hp2, hpn⟩
            obtain ⟨lp', hlp', hA, hB⟩ := hstep p2 hp2
            rw [hpn] at hlp' hA hB
            rw [alookup_ainsert_self] at hlp'
            obtain rfl := (Option.some.inj hlp').symm
            exact ⟨lq, hl, hA, hB⟩
          · obtain ⟨ha, hb⟩ := commit_local_prop_additions_not_mem f rest { st with loc := { st.loc with properties := ainsert p.nsn { lq with sync_status := .Synced lq.value } st.loc.properties }, rem := { st.rem with props := ainsert p.nsn lq.value st.rem.props }, log := st.log ++ [.setPropRemote p.nsn] } p.nsn hmr
            exact ⟨lq, hl, ha.trans (alookup_ainsert_self p.nsn _ _),
              hb.trans (alookup_ainsert_self p.nsn _ _)⟩
        · obtain ⟨lp', hlp', hA, hB⟩ := hstep p hpr
          by_cases hequ : q.nsn = p.nsn
          · rw [← hequ] at hlp'
            rw [alookup_ainsert_self] at hlp'
            obtain rfl := (Option.some.inj hlp').symm
            refine ⟨lq, ?_, hA, hB⟩
            rw [← hequ]
            exact hl
          · rw [alookup_ainsert_ne q.nsn p.nsn _ _ hequ] at hlp'
            exact ⟨lp', hlp', hA, hB⟩
      · simp only [commit_local_prop_additions, hl] at h
        rw [if_neg hf] at h
        exact absurd h (prog_ne_of_bumped (commit_local_prop_additions_prog_le f rest
          { st with prog := st.prog.error, log := st.log ++ [.setPropRemote q.nsn] }))

theorem commit_local_prop_changes_not_mem (f : Faults) (names : List NamespacedName)
    (st : PairState) (nn : NamespacedName) (hn : nn ∉ names) :
    alookup (commit_local_prop_changes f names st).loc.properties nn =
        alookup st.loc.properties nn ∧
      alookup (commit_local_prop_changes f names st).rem.props nn =
        alookup st.rem.props nn := by
  induction names generalizing st with
  | nil => exact ⟨rfl, rfl⟩
  | cons nsn rest ih =>
    have hne : nsn ≠ nn := fun h => hn (h ▸ List.mem_cons_self nsn rest)
    have hnr : nn ∉ rest := fun h => hn (List.mem_cons_of_mem _ h)
    cases hl : alookup st.loc.properties nsn with
    | none =>
      simp only [commit_local_prop_changes, hl]
      exact ih _ hnr
    | some lq =>
      simp only [commit_local_prop_changes, hl]
      split_ifs
      · exact ⟨((ih _ hnr).1).trans (alookup_ainsert_ne nsn nn _ _ hne),
          ((ih _ hnr).2).trans (alookup_ainsert_ne nsn nn _ _ hne)⟩
      · exact ih _ hnr

theorem commit_local_prop_changes_success (f : Faults) (names : List NamespacedName)
    (st : PairState)
    (h : (commit_local_prop_changes f names st).prog.nErrors = st.prog.nErrors) :
    ∀ nn ∈ names, ∃ lp : Property, alookup st.loc.properties nn = some lp ∧
      alookup (commit_local_prop_changes f names st).loc.properties nn =
        some { lp with sync_status := .Synced lp.value } ∧
      alookup (commit_local_prop_changes f names st).rem.props nn =
        some lp.value := by
  induction names generalizing st with
  | nil => intro nn hn; exact absurd hn (List.not_mem_nil nn)
  | cons nsn rest ih =>
    cases hl : alookup st.loc.properties nsn with
    | none =>
      simp only [commit_local_prop_changes, hl] at h
      exact absurd h (prog_ne_of_bumped (commit_local_prop_changes_prog_le f rest
        { st with prog := st.prog.error }))
    | some lq =>
      by_cases hf : f.set_property nsn = true
      · simp only [commit_local_prop_changes, hl] at h ⊢
        rw [if_pos hf] at h ⊢
        intro nn hn
        have hstep := ih { st with loc := { st.loc with properties := ainsert nsn { lq with sync_status := .Synced lq.value } st.loc.properties }, rem := { st.rem with props := ainsert nsn lq.value st.rem.props }, log := st.log ++ [.setPropRemote nsn] } h
        by_cases hequ : nsn = nn
        · subst hequ
          by_cases hmr : nsn ∈ rest
          · obtain ⟨lp', hlp', hA, hB⟩ := hstep nsn hmr
            rw [alookup_ainsert_self] at hlp'
            obtain rfl := (Option.some.inj hlp').symm
            exact ⟨lq, hl, hA, hB⟩
          · obtain ⟨ha, hb⟩ := commit_local_prop_changes_not_mem f rest { st with loc := { st.loc with properties := ainsert nsn { lq with sync_status := .Synced lq.value } st.loc.properties }, rem := { st.rem with props := ainsert nsn lq.value st.rem.props }, log := st.log ++ [.setPropRemote nsn] } nsn hmr
            exact ⟨lq, hl, ha.trans (alookup_ainsert_self nsn _ _),
              hb.trans (alookup_ainsert_self nsn _ _)⟩
        · have hnr : nn ∈ rest := by
            rcases List.mem_cons.mp hn with h | h
            · exact absurd h.symm hequ
            · exact h
          obtain ⟨lp', hlp', hA, hB⟩ := hstep nn hnr
          rw [alookup_ainsert_ne nsn nn _ _ hequ] at hlp'
          exact ⟨lp', hlp', hA, hB⟩
      · simp only [commit_local_prop_changes, hl] at h
        rw [if_neg hf] at h
        exact absurd h (prog_ne_of_bumped (commit_local_prop_changes_prog_le f rest
          { st with prog := st.prog.error, log := st.log ++ [.setPropRemote nsn] }))



/-! ### Characterization of the property delta computation -/

theorem scan_remote_prop_dels_frame (P : List (NamespacedName × Property))
    (RP : List Property) (th : List (NamespacedName × Property)) (acc : PropChanges)
    (prog : SyncProgress) :
    (scan_remote_props P RP th acc prog).1.remote_prop_dels = acc.remote_prop_dels := by
  induction RP generalizing th acc prog with
  | nil => simp [scan_remote_props]
  | cons rp rest ih =>
    cases hl : alookup P rp.nsn with
    | none => simp only [scan_remote_props, hl]; rw [ih]
    | some lp =>
      cases hss : lp.sync_status <;> simp only [scan_remote_props, hl, hss] <;>
        (try split_ifs) <;> rw [ih]

theorem scan_local_prop_additions_frame (P : List (NamespacedName × Property))
    (RP : List Property) (th : List (NamespacedName × Property)) (acc : PropChanges)
    (prog : SyncProgress) :
    (scan_remote_props P RP th acc prog).1.local_prop_additions =
      acc.local_prop_additions := by
  induction RP generalizing th acc prog with
  | nil => simp [scan_remote_props]
  | cons rp rest ih =>
    cases hl : alookup P rp.nsn with
    | none => simp only [scan_remote_props, hl]; rw [ih]
    | some lp =>
      cases hss : lp.sync_status <;> simp only [scan_remote_props, hl, hss] <;>
        (try split_ifs) <;> rw [ih]

theorem scan_mem_remote_prop_additions (P : List (NamespacedName × Property))
    (RP : List Property) (th : List (NamespacedName × Property)) (acc : PropChanges)
    (prog : SyncProgress) (q : Property) :
    q ∈ (scan_remote_props P RP th acc prog).1.remote_prop_additions ↔
      q ∈ acc.remote_prop_additions ∨ (q ∈ RP ∧ alookup P q.nsn = none) := by
  induction RP generalizing th acc prog with
  | nil => simp [scan_remote_props]
  | cons rp rest ih =>
    by_cases hq : q = rp
    · subst hq
      cases hl : alookup P q.nsn with
      | none =>
        simp only [scan_remote_props, hl]
        rw [ih]
        simp [hl, List.mem_cons]
      | some lp =>
        cases hss : lp.sync_status <;> simp only [scan_remote_props, hl, hss] <;>
          (try split_ifs) <;> rw [ih] <;> simp_all [List.mem_cons]
    · cases hl : alookup P rp.nsn with
      | none =>
        simp only [scan_remote_props, hl]
        rw [ih]
        simp [hq, List.mem_cons]
      | some lp =>
        cases hss : lp.sync_status <;> simp only [scan_remote_props, hl, hss] <;>
          (try split_ifs) <;> rw [ih] <;> simp [hq, List.mem_cons]

theorem scan_mem_remote_prop_changes (P : List (NamespacedName × Property))
    (RP : List Property) (th : List (NamespacedName × Property)) (acc : PropChanges)
    (prog : SyncProgress) (q : Property) :
    q ∈ (scan_remote_props P RP th acc prog).1.remote_prop_changes ↔
      q ∈ acc.remote_prop_changes ∨
        (q ∈ RP ∧ ∃ lp, alookup P q.nsn = some lp ∧
          remote_change_status q.value lp.sync_status = true) := by
  induction RP generalizing th acc prog with
  | nil => simp [scan_remote_props]
  | cons rp rest ih =>
    by_cases hq : q = rp
    · subst hq
      cases hl : alookup P q.nsn with
      | none =>
        simp only [scan_remote_props, hl]
        rw [ih]
        simp [hl, List.mem_cons]
      | some lp =>
        cases hss : lp.sync_status <;> simp only [scan_remote_props, hl, hss] <;>
          (try split_ifs) <;> rw [ih] <;>
          simp_all [List.mem_cons, remote_change_status]
    · cases hl : alookup P rp.nsn with
      | none =>
        simp only [scan_remote_props, hl]
        rw [ih]
        simp [hq, List.mem_cons]
      | some lp =>
        cases hss : lp.sync_status <;> simp only [scan_remote_props, hl, hss] <;>
          (try split_ifs) <;> rw [ih] <;> simp [hq, List.mem_cons]

theorem exists_mem_cons_of_head_false {α : Type} {p : α → Prop} {a : α} {l : List α}
    (ha : ¬ p a) : (∃ x ∈ a :: l, p x) ↔ ∃ x ∈ l, p x := by
  rw [List.exists_mem_cons_iff]
  simp [ha]

theorem exists_mem_cons_iff_or {α : Type} (p : α → Prop) (a : α) (l : List α) :
    (∃ x ∈ a :: l, p x) ↔ p a ∨ ∃ x ∈ l, p x := List.exists_mem_cons_iff p a l

theorem scan_mem_local_prop_changes (P : List (NamespacedName × Property))
    (RP : List Property) (th : List (NamespacedName × Property)) (acc : PropChanges)
    (prog : SyncProgress) (nn : NamespacedName) :
    nn ∈ (scan_remote_props P RP th acc prog).1.local_prop_changes ↔
      nn ∈ acc.local_prop_changes ∨
        ∃ rp ∈ RP, ∃ lp, alookup P rp.nsn = some lp ∧ lp.nsn = nn ∧
          lp.sync_status = .LocallyModified rp.value := by
  induction RP generalizing th acc prog with
  | nil => simp [scan_remote_props]
  | cons rp rest ih =>
    cases hl : alookup P rp.nsn with
    | none =>
      simp only [scan_remote_props, hl]
      rw [ih, exists_mem_cons_of_head_false (by simp [hl])]
    | some lp =>
      cases hss : lp.sync_status with
      | NotSynced =>
        simp only [scan_remote_props, hl, hss]
        rw [ih, exists_mem_cons_of_head_false (by simp [hl, hss])]
      | Synced vt =>
        simp only [scan_remote_props, hl, hss]
        split_ifs <;> rw [ih, exists_mem_cons_of_head_false (by simp [hl, hss])]
      | LocallyDeleted vt =>
        simp only [scan_remote_props, hl, hss]
        split_ifs <;> rw [ih, exists_mem_cons_of_head_false (by simp [hl, hss])]
      | LocallyModified vt =>
        simp only [scan_remote_props, hl, hss]
        by_cases hv : rp.value = vt
        · rw [if_pos hv, ih, exists_mem_cons_iff_or]
          simp only [hl, hss, hv, Option.some.injEq]
          constructor
          · rintro (h | h)
            · rcases List.mem_cons.mp h with rfl | h2
              · exact Or.inr (Or.inl ⟨lp, rfl, rfl, hss⟩)
              · exact Or.inl h2
            · exact Or.inr (Or.inr h)
          · rintro (h | ⟨lp', hlp', hn', hss'⟩ | h)
            · exact Or.inl (List.mem_cons_of_mem _ h)
            · subst hlp'
              exact Or.inl (by rw [hn']; exact List.mem_cons_self _ _)
            · exact Or.inr h
        · rw [if_neg hv, ih, exists_mem_cons_of_head_false
            (by simp [hl, hss]; intro _ h; exact hv h.symm)]

theorem scan_mem_local_prop_dels (P : List (NamespacedName × Property))
    (RP : List Property) (th : List (NamespacedName × Property)) (acc : PropChanges)
    (prog : SyncProgress) (nn : NamespacedName) :
    nn ∈ (scan_remote_props P RP th acc prog).1.local_prop_dels ↔
      nn ∈ acc.local_prop_dels ∨
        ∃ rp ∈ RP, ∃ lp, alookup P rp.nsn = some lp ∧ lp.nsn = nn ∧
          lp.sync_status = .LocallyDeleted rp.value := by
  induction RP generalizing th acc prog with
  | nil => simp [scan_remote_props]
  | cons rp rest ih =>
    cases hl : alookup P rp.nsn with
    | none =>
      simp only [scan_remote_props, hl]
      rw [ih, exists_mem_cons_of_head_false (by simp [hl])]
    | some lp =>
      cases hss : lp.sync_status with
      | NotSynced =>
        simp only [scan_remote_props, hl, hss]
        rw [ih, exists_mem_cons_of_head_false (by simp [hl, hss])]
      | Synced vt =>
        simp only [scan_remote_props, hl, hss]
        split_ifs <;> rw [ih, exists_mem_cons_of_head_false (by simp [hl, hss])]
      | LocallyModified vt =>
        simp only [scan_remote_props, hl, hss]
        split_ifs <;> rw [ih, exists_mem_cons_of_head_false (by simp [hl, hss])]
      | LocallyDeleted vt =>
        simp only [scan_remote_props, hl, hss]
        by_cases hv : rp.value = vt
        · rw [if_pos hv, ih, exists_mem_cons_iff_or]
          simp only [hl, hss, hv, Option.some.injEq]
          constructor
          · rintro (h | h)
            · rcases List.mem_cons.mp h with rfl | h2
              · exact Or.inr (Or.inl ⟨lp, rfl, rfl, hss⟩)
              · exact Or.inl h2
            · exact Or.inr (Or.inr h)
          · rintro (h | ⟨lp', hlp', hn', hss'⟩ | h)
            · exact Or.inl (List.mem_cons_of_mem _ h)
            · subst hlp'
              exact Or.inl (by rw [hn']; exact List.mem_cons_self _ _)
            · exact Or.inr h
        · rw [if_neg hv, ih, exists_mem_cons_of_head_false
            (by simp [hl, hss]; intro _ h; exact hv h.symm)]


theorem scan_props_th_absent (P : List (NamespacedName × Property)) (RP : List Property)
    (th : List (NamespacedName × Property)) (acc : PropChanges) (prog : SyncProgress)
    (nn : NamespacedName) (h : alookup th nn = none) :
    alookup (scan_remote_props P RP th acc prog).2.1 nn = none := by
  induction RP generalizing th acc prog with
  | nil => exact h
  | cons rp rest ih =>
    cases hl : alookup P rp.nsn with
    | none =>
      simp only [scan_remote_props, hl]
      exact ih _ _ _ h
    | some lp =>
      cases hss : lp.sync_status <;> simp only [scan_remote_props, hl, hss] <;>
        (try split_ifs) <;> exact ih _ _ _ (alookup_aerase_of_none rp.nsn nn th h)

theorem scan_props_th_nodup (P : List (NamespacedName × Property)) (RP : List Property)
    (th : List (NamespacedName × Property)) (acc : PropChanges) (prog : SyncProgress)
    (hnd : (akeys th).Nodup) :
    (akeys (scan_remote_props P RP th acc prog).2.1).Nodup := by
  induction RP generalizing th acc prog with
  | nil => exact hnd
  | cons rp rest ih =>
    cases hl : alookup P rp.nsn with
    | none =>
      simp only [scan_remote_props, hl]
      exact ih _ _ _ hnd
    | some lp =>
      cases hss : lp.sync_status <;> simp only [scan_remote_props, hl, hss] <;>
        (try split_ifs) <;> exact ih _ _ _ (akeys_aerase_nodup rp.nsn th hnd)

theorem scan_props_to_handle (P : List (NamespacedName × Property)) (RP : List Property)
    (th : List (NamespacedName × Property)) (acc : PropChanges) (prog : SyncProgress)
    (nn : NamespacedName) (hnd : (akeys th).Nodup) :
    ((¬ ∃ rp ∈ RP, rp.nsn = nn ∧ (alookup P nn).isSome = true) →
      alookup (scan_remote_props P RP th acc prog).2.1 nn = alookup th nn) ∧
    ((∃ rp ∈ RP, rp.nsn = nn ∧ (alookup P nn).isSome = true) →
      alookup (scan_remote_props P RP th acc prog).2.1 nn = none) := by
  induction RP generalizing th acc prog with
  | nil =>
    exact ⟨fun _ => rfl, fun h => absurd h (by simp)⟩
  | cons rp rest ih =>
    by_cases hn : rp.nsn = nn
    · subst hn
      cases hl : alookup P rp.nsn with
      | none =>
        simp only [scan_remote_props, hl]
        constructor
        · intro hno
          exact (ih _ _ _ hnd).1 (fun ⟨x, hx, px⟩ => by rw [hl] at px; simp at px)
        · intro hyes
          rcases hyes with ⟨x, hx, hpx⟩
          exact absurd hpx.2 (by simp)
      | some lp =>
        cases hss : lp.sync_status <;> simp only [scan_remote_props, hl, hss] <;>
          (try split_ifs) <;>
          exact ⟨fun hno => absurd ⟨rp, List.mem_cons_self _ _, rfl, by simp [hl]⟩ hno,
            fun _ => scan_props_th_absent _ _ _ _ _ _ (alookup_aerase_self rp.nsn th hnd)⟩
    · cases hl : alookup P rp.nsn with
      | none =>
        simp only [scan_remote_props, hl]
        constructor
        · intro hno
          exact (ih _ _ _ hnd).1
            (fun ⟨x, hx, px⟩ => hno ⟨x, List.mem_cons_of_mem _ hx, px⟩)
        · intro hyes
          rcases hyes with ⟨x, hx, hpx⟩
          rcases List.mem_cons.mp hx with rfl | hxr
          · exact absurd hpx.1 hn
          · exact (ih _ _ _ hnd).2 ⟨x, hxr, hpx⟩
      | some lp =>
        cases hss : lp.sync_status <;> simp only [scan_remote_props, hl, hss] <;>
          (try split_ifs) <;>
          refine ⟨fun hno => ((ih _ _ _ (akeys_aerase_nodup rp.nsn th hnd)).1
              (fun ⟨x, hx, px⟩ => hno ⟨x, List.mem_cons_of_mem _ hx, px⟩)).trans
              (alookup_aerase_ne rp.nsn nn th hn),
            fun hyes => (ih _ _ _ (akeys_aerase_nodup rp.nsn th hnd)).2 ?_⟩ <;>
          (rcases hyes with ⟨x, hx, hpx⟩
           rcases List.mem_cons.mp hx with rfl | hxr
           · exact absurd hpx.1 hn
           · exact ⟨x, hxr, hpx⟩)

theorem leftover_local_prop_dels_frame (th : List (NamespacedName × Property))
    (acc : PropChanges) (prog : SyncProgress) :
    (handle_leftover_local_props th acc prog).1.local_prop_dels = acc.local_prop_dels := by
  induction th generalizing acc prog with
  | nil => simp [handle_leftover_local_props]
  | cons e rest ih =>
    obtain ⟨k, lp⟩ := e
    cases hss : lp.sync_status <;> simp only [handle_leftover_local_props, hss] <;> rw [ih]

theorem leftover_local_prop_changes_frame (th : List (NamespacedName × Property))
    (acc : PropChanges) (prog : SyncProgress) :
    (handle_leftover_local_props th acc prog).1.local_prop_changes =
      acc.local_prop_changes := by
  induction th generalizing acc prog with
  | nil => simp [handle_leftover_local_props]
  | cons e rest ih =>
    obtain ⟨k, lp⟩ := e
    cases hss : lp.sync_status <;> simp only [handle_leftover_local_props, hss] <;> rw [ih]

theorem leftover_remote_prop_changes_frame (th : List (NamespacedName × Property))
    (acc : PropChanges) (prog : SyncProgress) :
    (handle_leftover_local_props th acc prog).1.remote_prop_changes =
      acc.remote_prop_changes := by
  induction th generalizing acc prog with
  | nil => simp [handle_leftover_local_props]
  | cons e rest ih =>
    obtain ⟨k, lp⟩ := e
    cases hss : lp.sync_status <;> simp only [handle_leftover_local_props, hss] <;> rw [ih]

theorem leftover_remote_prop_additions_frame (th : List (NamespacedName × Property))
    (acc : PropChanges) (prog : SyncProgress) :
    (handle_leftover_local_props th acc prog).1.remote_prop_additions =
      acc.remote_prop_additions := by
  induction th generalizing acc prog with
  | nil => simp [handle_leftover_local_props]
  | cons e rest ih =>
    obtain ⟨k, lp⟩ := e
    cases hss : lp.sync_status <;> simp only [handle_leftover_local_props, hss] <;> rw [ih]

theorem leftover_mem_remote_prop_dels (th : List (NamespacedName × Property))
    (acc : PropChanges) (prog : SyncProgress) (nn : NamespacedName) :
    nn ∈ (handle_leftover_local_props th acc prog).1.remote_prop_dels ↔
      nn ∈ acc.remote_prop_dels ∨
        ∃ p, (nn, p) ∈ th ∧ p.sync_status ≠ .NotSynced := by
  induction th generalizing acc prog with
  | nil => simp [handle_leftover_local_props]
  | cons e rest ih =>
    obtain ⟨k, lp⟩ := e
    by_cases hk : k = nn
    · subst hk
      cases hss : lp.sync_status <;> simp only [handle_leftover_local_props, hss] <;>
        rw [ih] <;> simp [List.mem_cons, Prod.mk.injEq, hss] <;> tauto
    · cases hss : lp.sync_status <;> simp only [handle_leftover_local_props, hss] <;>
        rw [ih] <;> simp [List.mem_cons, Prod.mk.injEq, hk, Ne.symm hk] <;> tauto

theorem leftover_mem_local_prop_additions (th : List (NamespacedName × Property))
    (acc : PropChanges) (prog : SyncProgress) (q : Property) :
    q ∈ (handle_leftover_local_props th acc prog).1.local_prop_additions ↔
      q ∈ acc.local_prop_additions ∨
        ∃ nn, (nn, q) ∈ th ∧ q.sync_status = .NotSynced := by
  induction th generalizing acc prog with
  | nil => simp [handle_leftover_local_props]
  | cons e rest ih =>
    obtain ⟨k, lp⟩ := e
    by_cases hq : lp = q
    · subst hq
      cases hss : lp.sync_status <;> simp only [handle_leftover_local_props, hss] <;>
        rw [ih] <;> simp [List.mem_cons, Prod.mk.injEq, hss] <;> tauto
    · cases hss : lp.sync_status <;> simp only [handle_leftover_local_props, hss] <;>
        rw [ih] <;> simp [List.mem_cons, Prod.mk.injEq, hq, Ne.symm hq] <;> tauto



theorem calculate_prop_changes_spec (P : List (NamespacedName × Property))
    (RP : List Property) (prog : SyncProgress)
    (hndP : (akeys P).Nodup) (hco : ∀ e ∈ P, e.2.nsn = e.1)
    (nn : NamespacedName) (q : Property) :
    (q ∈ (calculate_prop_changes P RP prog).1.remote_prop_additions ↔
      q ∈ RP ∧ alookup P q.nsn = none)
    ∧ (q ∈ (calculate_prop_changes P RP prog).1.remote_prop_changes ↔
      q ∈ RP ∧ ∃ lp, alookup P q.nsn = some lp ∧
        remote_change_status q.value lp.sync_status = true)
    ∧ (nn ∈ (calculate_prop_changes P RP prog).1.local_prop_changes ↔
      ∃ rp ∈ RP, rp.nsn = nn ∧ ∃ lp, alookup P nn = some lp ∧
        lp.sync_status = .LocallyModified rp.value)
    ∧ (nn ∈ (calculate_prop_changes P RP prog).1.local_prop_dels ↔
      ∃ rp ∈ RP, rp.nsn = nn ∧ ∃ lp, alookup P nn = some lp ∧
        lp.sync_status = .LocallyDeleted rp.value)
    ∧ (nn ∈ (calculate_prop_changes P RP prog).1.remote_prop_dels ↔
      (∀ rp ∈ RP, rp.nsn ≠ nn) ∧ ∃ lp, alookup P nn = some lp ∧
        lp.sync_status ≠ .NotSynced)
    ∧ (q ∈ (calculate_prop_changes P RP prog).1.local_prop_additions ↔
      (∀ rp ∈ RP, rp.nsn ≠ q.nsn) ∧ alookup P q.nsn = some q ∧
        q.sync_status = .NotSynced) := by
  have hcalc : calculate_prop_changes P RP prog =
      handle_leftover_local_props
        (scan_remote_props P RP P PropChanges.empty prog).2.1
        (scan_remote_props P RP P PropChanges.empty prog).1
        (scan_remote_props P RP P PropChanges.empty prog).2.2 := rfl
  have hthnd := scan_props_th_nodup P RP P PropChanges.empty prog hndP
  refine ⟨?_, ?_, ?_, ?_, ?_, ?_⟩
  · rw [hcalc, leftover_remote_prop_additions_frame, scan_mem_remote_prop_additions]
    simp [PropChanges.empty]
  · rw [hcalc, leftover_remote_prop_changes_frame, scan_mem_remote_prop_changes]
    simp [PropChanges.empty]
  · rw [hcalc, leftover_local_prop_changes_frame, scan_mem_local_prop_changes]
    simp only [PropChanges.empty, List.not_mem_nil, false_or]
    constructor
    · rintro ⟨rp, hrp, lp, hlp, hn, hss⟩
      have hlr : lp.nsn = rp.nsn := hco _ (alookup_mem hlp)
      refine ⟨rp, hrp, hlr.symm.trans hn, lp, ?_, hss⟩
      rw [← (hlr.symm.trans hn)]
      exact hlp
    · rintro ⟨rp, hrp, hrn, lp, hlp, hss⟩
      refine ⟨rp, hrp, lp, ?_, hco _ (alookup_mem hlp), hss⟩
      rw [hrn]
      exact hlp
  · rw [hcalc, leftover_local_prop_dels_frame, scan_mem_local_prop_dels]
    simp only [PropChanges.empty, List.not_mem_nil, false_or]
    constructor
    · rintro ⟨rp, hrp, lp, hlp, hn, hss⟩
      have hlr : lp.nsn = rp.nsn := hco _ (alookup_mem hlp)
      refine ⟨rp, hrp, hlr.symm.trans hn, lp, ?_, hss⟩
      rw [← (hlr.symm.trans hn)]
      exact hlp
    · rintro ⟨rp, hrp, hrn, lp, hlp, hss⟩
      refine ⟨rp, hrp, lp, ?_, hco _ (alookup_mem hlp), hss⟩
      rw [hrn]
      exact hlp
  · rw [hcalc, leftover_mem_remote_prop_dels, scan_remote_prop_dels_frame]
    simp only [PropChanges.empty, List.not_mem_nil, false_or]
    constructor
    · rintro ⟨p, hmem, hns⟩
      have hlook : alookup (scan_remote_props P RP P PropChanges.empty prog).2.1 nn = some p :=
        mem_alookup hthnd hmem
      by_cases hcond : ∃ rp ∈ RP, rp.nsn = nn ∧ (alookup P nn).isSome = true
      · rw [(scan_props_to_handle P RP P PropChanges.empty prog nn hndP).2 hcond] at hlook
        exact absurd hlook (by simp)
      · have heq := (scan_props_to_handle P RP P PropChanges.empty prog nn hndP).1 hcond
        rw [heq] at hlook
        refine ⟨fun rp hrp hne => hcond ⟨rp, hrp, hne, by simp [hlook]⟩, p, hlook, hns⟩
    · rintro ⟨hall, lp, hlp, hns⟩
      have hcond : ¬ ∃ rp ∈ RP, rp.nsn = nn ∧ (alookup P nn).isSome = true :=
        fun ⟨rp, hrp, heq, _⟩ => hall rp hrp heq
      have heq := (scan_props_to_handle P RP P PropChanges.empty prog nn hndP).1 hcond
      exact ⟨lp, alookup_mem (heq.trans hlp), hns⟩
  · rw [hcalc, leftover_mem_local_prop_additions, scan_local_prop_additions_frame]
    simp only [PropChanges.empty, List.not_mem_nil, false_or]
    constructor
    · rintro ⟨nn', hmem, hns⟩
      have hlook : alookup (scan_remote_props P RP P PropChanges.empty prog).2.1 nn' = some q :=
        mem_alookup hthnd hmem
      by_cases hcond : ∃ rp ∈ RP, rp.nsn = nn' ∧ (alookup P nn').isSome = true
      · rw [(scan_props_to_handle P RP P PropChanges.empty prog nn' hndP).2 hcond] at hlook
        exact absurd hlook (by simp)
      · have heq := (scan_props_to_handle P RP P PropChanges.empty prog nn' hndP).1 hcond
        rw [heq] at hlook
        have hqn : q.nsn = nn' := hco _ (alookup_mem hlook)
        subst hqn
        refine ⟨fun rp hrp hne => hcond ⟨rp, hrp, hne, by simp [hlook]⟩, hlook, hns⟩
    · rintro ⟨hall, hlp, hns⟩
      have hcond : ¬ ∃ rp ∈ RP, rp.nsn = q.nsn ∧ (alookup P q.nsn).isSome = true :=
        fun ⟨rp, hrp, heq, _⟩ => hall rp hrp heq
      have heq := (scan_props_to_handle P RP P PropChanges.empty prog q.nsn hndP).1 hcond
      exact ⟨q.nsn, alookup_mem (heq.trans hlp), hns⟩



/-! ### After an error-free commit, no local item or property stays dirty -/

/-- No pending local work: the sync status is neither `LocallyModified` nor
`LocallyDeleted`. -/
def cleanCal (c : CachedCalendar) : Prop :=
  (∀ u it, alookup c.items u = some it → it.ss.is_dirty = false) ∧
  (∀ nn p, alookup c.properties nn = some p → p.sync_status.is_dirty = false)

theorem akeys_version_tags (rc : RemoteCal) : akeys rc.version_tags = akeys rc.items := by
  simp [RemoteCal.version_tags, akeys, List.map_map]

theorem commit_item_changes_clean (f : Faults) (putTag : Url → String → VersionTag)
    (n : Nat) (st : PairState) (R : List (Url × VersionTag)) (prog0 : SyncProgress)
    (hWF : PairWF st) (hndR : (akeys R).Nodup)
    (hsucc : (commit_item_changes f putTag n
        (calculate_item_changes st.loc.items R prog0).1 st).prog.nErrors =
      st.prog.nErrors) :
    ∀ u it, alookup (commit_item_changes f putTag n
        (calculate_item_changes st.loc.items R prog0).1 st).loc.items u = some it →
      it.ss.is_dirty = false := by
  intro u it hlook
  rw [commit_item_changes] at hsucc hlook
  set chg := (calculate_item_changes st.loc.items R prog0).1 with hchg
  set m1 := commit_local_item_dels f chg.local_item_dels st with hm1
  set m2 := commit_remote_item_dels chg.remote_item_dels m1 with hm2
  set m3 := apply_remote_items_batched .RemoteAdditions f n chg.remote_item_additions m2 with hm3
  set m4 := apply_remote_items_batched .RemoteChanges f n chg.remote_item_changes m3 with hm4
  set m5 := commit_local_item_additions f putTag chg.local_item_additions m4 with hm5
  have l1 : st.prog.nErrors ≤ m1.prog.nErrors := commit_local_item_dels_prog_le f _ st
  have l2 : m1.prog.nErrors ≤ m2.prog.nErrors := commit_remote_item_dels_prog_le _ m1
  have l3 : m2.prog.nErrors ≤ m3.prog.nErrors :=
    apply_remote_items_batched_prog_le .RemoteAdditions f n _ m2
  have l4 : m3.prog.nErrors ≤ m4.prog.nErrors :=
    apply_remote_items_batched_prog_le .RemoteChanges f n _ m3
  have l5 : m4.prog.nErrors ≤ m5.prog.nErrors :=
    commit_local_item_additions_prog_le f putTag _ m4
  have l6 : m5.prog.nErrors ≤
      (commit_local_item_changes f putTag chg.local_item_changes m5).prog.nErrors :=
    commit_local_item_changes_prog_le f putTag _ m5
  have e5 : m5.prog.nErrors = st.prog.nErrors :=
    le_antisymm (l6.trans (le_of_eq hsucc)) (l1.trans (l2.trans (l3.trans (l4.trans l5))))
  have e4 : m4.prog.nErrors = st.prog.nErrors :=
    le_antisymm (l5.trans (le_of_eq e5)) (l1.trans (l2.trans (l3.trans l4)))
  have e3 : m3.prog.nErrors = st.prog.nErrors :=
    le_antisymm (l4.trans (le_of_eq e4)) (l1.trans (l2.trans l3))
  have e2 : m2.prog.nErrors = st.prog.nErrors :=
    le_antisymm (l3.trans (le_of_eq e3)) (l1.trans l2)
  have e1 : m1.prog.nErrors = st.prog.nErrors :=
    le_antisymm (l2.trans (le_of_eq e2)) l1
  have w1 : PairWF m1 := commit_local_item_dels_wf f _ st hWF
  have w2 : PairWF m2 := commit_remote_item_dels_wf _ m1 w1
  have w3 : PairWF m3 := apply_remote_items_batched_wf .RemoteAdditions f n _ m2 w2
  have w4 : PairWF m4 := apply_remote_items_batched_wf .RemoteChanges f n _ m3 w3
  have w5 : PairWF m5 := commit_local_item_additions_wf f putTag _ m4 w4
  -- walk the six phases backwards
  by_cases q6 : u ∈ chg.local_item_changes
  · obtain ⟨it', _, hA, _⟩ := commit_local_item_changes_success f putTag _ m5
      (hsucc.trans e5.symm) u q6
    have hit : it = ⟨it'.data, .Synced (putTag u it'.data)⟩ :=
      Option.some.inj (hlook.symm.trans hA)
    rw [hit]
    rfl
  · have h5 : alookup m5.loc.items u = some it :=
      ((commit_local_item_changes_not_mem f putTag _ m5 u q6).1).symm.trans hlook
    by_cases q5 : u ∈ chg.local_item_additions
    · obtain ⟨it', _, hA, _⟩ := commit_local_item_additions_success f putTag _ m4
        (e5.trans e4.symm) u q5
      have hit : it = ⟨it'.data, .Synced (putTag u it'.data)⟩ :=
        Option.some.inj (h5.symm.trans hA)
      rw [hit]
      rfl
    · have h4 : alookup m4.loc.items u = some it :=
        ((commit_local_item_additions_not_mem f putTag _ m4 u q5).1).symm.trans h5
      by_cases q4 : u ∈ chg.remote_item_changes
      · obtain ⟨r, _, hA⟩ := apply_remote_items_batched_success .RemoteChanges f n _ m3
          (e4.trans e3.symm) u q4
        have hit : it = ⟨r.data, .Synced r.tag⟩ := Option.some.inj (h4.symm.trans hA)
        rw [hit]
        rfl
      · have h3 : alookup m3.loc.items u = some it :=
          (apply_remote_items_batched_not_mem .RemoteChanges f n _ m3 u q4).symm.trans h4
        by_cases q3 : u ∈ chg.remote_item_additions
        · obtain ⟨r, _, hA⟩ := apply_remote_items_batched_success .RemoteAdditions f n _ m2
            (e3.trans e2.symm) u q3
          have hit : it = ⟨r.data, .Synced r.tag⟩ := Option.some.inj (h3.symm.trans hA)
          rw [hit]
          rfl
        · have h2 : alookup m2.loc.items u = some it :=
            (apply_remote_items_batched_not_mem .RemoteAdditions f n _ m2 u q3).symm.trans h3
          by_cases q2 : u ∈ chg.remote_item_dels
          · have := commit_remote_item_dels_success _ m1 w1.1 (e2.trans e1.symm) u q2
            rw [this] at h2
            exact absurd h2 (by simp)
          · have h1 : alookup m1.loc.items u = some it :=
              (commit_remote_item_dels_not_mem _ m1 u q2).symm.trans h2
            by_cases q1 : u ∈ chg.local_item_dels
            · have := (commit_local_item_dels_success f _ st hWF.1 hWF.2.2.1 e1 u q1).1
              rw [this] at h1
              exact absurd h1 (by simp)
            · have h0 : alookup st.loc.items u = some it :=
                ((commit_local_item_dels_not_mem f _ st u q1).1).symm.trans h1
              -- the URL is in none of the six delta sets, yet the item would be dirty
              obtain ⟨c1, c2, c3, c4, c5, c6⟩ :=
                item_delta_spec st.loc.items R prog0 u hWF.1 hndR
              rw [← hchg] at c1 c2 c3 c4 c5 c6
              cases hss : it.ss with
              | NotSynced => rfl
              | Synced v => rfl
              | LocallyModified v =>
                exfalso
                cases hRl : alookup R u with
                | some rt =>
                  by_cases hv : rt = v
                  · exact q6 (c3.mpr ⟨rt, it, hRl, h0, by rw [hss, hv]⟩)
                  · exact q4 (c2.mpr ⟨rt, it, hRl, h0, Or.inr (Or.inl ⟨v, hss, hv⟩)⟩)
                | none =>
                  exact q2 (c5.mpr ⟨hRl, it, h0, by rw [hss]; simp⟩)
              | LocallyDeleted v =>
                exfalso
                cases hRl : alookup R u with
                | some rt =>
                  by_cases hv : rt = v
                  · exact q1 (c4.mpr ⟨rt, it, hRl, h0, by rw [hss, hv]⟩)
                  · exact q4 (c2.mpr ⟨rt, it, hRl, h0, Or.inr (Or.inr ⟨v, hss, hv⟩)⟩)
                | none =>
                  exact q2 (c5.mpr ⟨hRl, it, h0, by rw [hss]; simp⟩)



theorem commit_prop_changes_clean (f : Faults) (n : Nat) (st : PairState)
    (RP : List Property) (prog0 : SyncProgress)
    (hWF : PairWF st)
    (hsucc : (commit_prop_changes f n
        (calculate_prop_changes st.loc.properties RP prog0).1 st).prog.nErrors =
      st.prog.nErrors) :
    ∀ nn p, alookup (commit_prop_changes f n
        (calculate_prop_changes st.loc.properties RP prog0).1 st).loc.properties nn =
          some p →
      p.sync_status.is_dirty = false := by
  intro nn p hlook
  rw [commit_prop_changes] at hsucc hlook
  set chg := (calculate_prop_changes st.loc.properties RP prog0).1 with hchg
  set m1 := commit_local_prop_dels f chg.local_prop_dels st with hm1
  set m2 := commit_remote_prop_dels chg.remote_prop_dels m1 with hm2
  set m3 := apply_remote_props_batched .RemoteAdditions n chg.remote_prop_additions m2 with hm3
  set m4 := apply_remote_props_batched .RemoteChanges n chg.remote_prop_changes m3 with hm4
  set m5 := commit_local_prop_additions f chg.local_prop_additions m4 with hm5
  have l1 : st.prog.nErrors ≤ m1.prog.nErrors := commit_local_prop_dels_prog_le f _ st
  have l2 : m1.prog.nErrors ≤ m2.prog.nErrors := commit_remote_prop_dels_prog_le _ m1
  have l3 : m2.prog.nErrors ≤ m3.prog.nErrors :=
    apply_remote_props_batched_prog_le .RemoteAdditions n _ m2
  have l4 : m3.prog.nErrors ≤ m4.prog.nErrors :=
    apply_remote_props_batched_prog_le .RemoteChanges n _ m3
  have l5 : m4.prog.nErrors ≤ m5.prog.nErrors :=
    commit_local_prop_additions_prog_le f _ m4
  have l6 : m5.prog.nErrors ≤
      (commit_local_prop_changes f chg.local_prop_changes m5).prog.nErrors :=
    commit_local_prop_changes_prog_le f _ m5
  have e5 : m5.prog.nErrors = st.prog.nErrors :=
    le_antisymm (l6.trans (le_of_eq hsucc)) (l1.trans (l2.trans (l3.trans (l4.trans l5))))
  have e4 : m4.prog.nErrors = st.prog.nErrors :=
    le_antisymm (l5.trans (le_of_eq e5)) (l1.trans (l2.trans (l3.trans l4)))
  have e3 : m3.prog.nErrors = st.prog.nErrors :=
    le_antisymm (l4.trans (le_of_eq e4)) (l1.trans (l2.trans l3))
  have e2 : m2.prog.nErrors = st.prog.nErrors :=
    le_antisymm (l3.trans (le_of_eq e3)) (l1.trans l2)
  have e1 : m1.prog.nErrors = st.prog.nErrors :=
    le_antisymm (l2.trans (le_of_eq e2)) l1
  have w1 : PairWF m1 := commit_local_prop_dels_wf f _ st hWF
  have w2 : PairWF m2 := commit_remote_prop_dels_wf _ m1 w1
  by_cases q6 : nn ∈ chg.local_prop_changes
  · obtain ⟨lp, _, hA, _⟩ := commit_local_prop_changes_success f _ m5
      (hsucc.trans e5.symm) nn q6
    have hp : p = { lp with sync_status := .Synced lp.value } :=
      Option.some.inj (hlook.symm.trans hA)
    rw [hp]
    rfl
  · have h5 : alookup m5.loc.properties nn = some p :=
      ((commit_local_prop_changes_not_mem f _ m5 nn q6).1).symm.trans hlook
    by_cases q5 : nn ∈ chg.local_prop_additions.map Property.nsn
    · rcases List.mem_map.mp q5 with ⟨pq, hpq, hqn⟩
      obtain ⟨lp, _, hA, _⟩ := commit_local_prop_additions_success f _ m4
        (e5.trans e4.symm) pq hpq
      rw [hqn] at hA
      have hp : p = { lp with sync_status := .Synced lp.value } :=
        Option.some.inj (h5.symm.trans hA)
      rw [hp]
      rfl
    · have h4 : alookup m4.loc.properties nn = some p :=
        ((commit_local_prop_additions_not_mem f _ m4 nn q5).1).symm.trans h5
      by_cases q4 : nn ∈ chg.remote_prop_changes.map Property.nsn
      · rcases List.mem_map.mp q4 with ⟨pq, hpq, hqn⟩
        obtain ⟨v, hA⟩ := apply_remote_props_batched_success .RemoteChanges n _ m3
          (e4.trans e3.symm) pq hpq
        rw [hqn] at hA
        have hp : p = ⟨nn, v, .Synced v⟩ := Option.some.inj (h4.symm.trans hA)
        rw [hp]
        rfl
      · have h3 : alookup m3.loc.properties nn = some p :=
          (apply_remote_props_batched_not_mem .RemoteChanges n _ m3 nn q4).symm.trans h4
        by_cases q3 : nn ∈ chg.remote_prop_additions.map Property.nsn
        · rcases List.mem_map.mp q3 with ⟨pq, hpq, hqn⟩
          obtain ⟨v, hA⟩ := apply_remote_props_batched_success .RemoteAdditions n _ m2
            (e3.trans e2.symm) pq hpq
          rw [hqn] at hA
          have hp : p = ⟨nn, v, .Synced v⟩ := Option.some.inj (h3.symm.trans hA)
          rw [hp]
          rfl
        · have h2 : alookup m2.loc.properties nn = some p :=
            (apply_remote_props_batched_not_mem .RemoteAdditions n _ m2 nn q3).symm.trans h3
          by_cases q2 : nn ∈ chg.remote_prop_dels
          · have := commit_remote_prop_dels_success _ m1 w1.2.1 (e2.trans e1.symm) nn q2
            rw [this] at h2
            exact absurd h2 (by simp)
          · have h1 : alookup m1.loc.properties nn = some p :=
              (commit_remote_prop_dels_not_mem _ m1 nn q2).symm.trans h2
            by_cases q1 : nn ∈ chg.local_prop_dels
            · have := (commit_local_prop_dels_success f _ st hWF.2.1 hWF.2.2.2.1 e1 nn q1).1
              rw [this] at h1
              exact absurd h1 (by simp)
            · have h0 : alookup st.loc.properties nn = some p :=
                ((commit_local_prop_dels_not_mem f _ st nn q1).1).symm.trans h1
              obtain ⟨c1, c2, c3, c4, c5, c6⟩ :=
                calculate_prop_changes_spec st.loc.properties RP prog0 hWF.2.1
                  hWF.2.2.2.2 nn p
              rw [← hchg] at c2 c3 c4 c5
              cases hss : p.sync_status with
              | NotSynced => rfl
              | Synced v => rfl
              | LocallyModified v =>
                exfalso
                by_cases hex : ∃ rp ∈ RP, rp.nsn = nn
                · rcases hex with ⟨rp, hrp, hrn⟩
                  by_cases hv : rp.value = v
                  · exact q6 (c3.mpr ⟨rp, hrp, hrn, p, h0, by rw [hss, hv]⟩)
                  · have c2r := (calculate_prop_changes_spec st.loc.properties RP prog0
                      hWF.2.1 hWF.2.2.2.2 nn rp).2.1
                    rw [← hchg] at c2r
                    refine q4 (List.mem_map.mpr ⟨rp, c2r.mpr ⟨hrp, p, ?_, ?_⟩, hrn⟩)
                    · rw [hrn]
                      exact h0
                    · rw [hss]
                      simp [remote_change_status, hv]
                · push_neg at hex
                  refine q2 (c5.mpr ⟨hex, p, h0, ?_⟩)
                  rw [hss]
                  simp
              | LocallyDeleted v =>
                exfalso
                by_cases hex : ∃ rp ∈ RP, rp.nsn = nn
                · rcases hex with ⟨rp, hrp, hrn⟩
                  by_cases hv : rp.value = v
                  · exact q1 (c4.mpr ⟨rp, hrp, hrn, p, h0, by rw [hss, hv]⟩)
                  · have c2r := (calculate_prop_changes_spec st.loc.properties RP prog0
                      hWF.2.1 hWF.2.2.2.2 nn rp).2.1
                    rw [← hchg] at c2r
                    refine q4 (List.mem_map.mpr ⟨rp, c2r.mpr ⟨hrp, p, ?_, ?_⟩, hrn⟩)
                    · rw [hrn]
                      exact h0
                    · rw [hss]
                      simp [remote_change_status, hv]
                · push_neg at hex
                  refine q2 (c5.mpr ⟨hex, p, h0, ?_⟩)
                  rw [hss]
                  simp



/-! ### The engine level: a successful pass leaves every local calendar clean -/

theorem mem_ainsert {α β : Type} [DecidableEq α] {a : α} {b : β} {l : List (α × β)}
    {e : α × β} (h : e ∈ ainsert a b l) : e = (a, b) ∨ e ∈ l := by
  induction l with
  | nil => simpa [ainsert] using h
  | cons kv rest ih =>
    by_cases hk : kv.1 = a
    · rw [ainsert, if_pos hk] at h
      rcases List.mem_cons.mp h with h | h
      · exact Or.inl h
      · exact Or.inr (List.mem_cons_of_mem _ h)
    · rw [ainsert, if_neg hk] at h
      rcases List.mem_cons.mp h with h | h
      · exact Or.inr (h ▸ List.mem_cons_self _ _)
      · rcases ih h with h | h
        · exact Or.inl h
        · exact Or.inr (List.mem_cons_of_mem _ h)

theorem mem_aerase {α β : Type} [DecidableEq α] {a : α} {l : List (α × β)}
    {e : α × β} (h : e ∈ aerase a l) : e ∈ l := by
  induction l with
  | nil => simpa [aerase] using h
  | cons kv rest ih =>
    by_cases hk : kv.1 = a
    · rw [aerase, if_pos hk] at h
      exact List.mem_cons_of_mem _ h
    · rw [aerase, if_neg hk] at h
      rcases List.mem_cons.mp h with h | h
      · exact h ▸ List.mem_cons_self _ _
      · exact List.mem_cons_of_mem _ (ih h)

/-- Well-formedness of a `CachedCalendar`'s two `HashMap`s. -/
def CalWF (c : CachedCalendar) : Prop :=
  (akeys c.items).Nodup ∧ (akeys c.properties).Nodup ∧
    ∀ e ∈ c.properties, e.2.nsn = e.1

/-- Well-formedness of a remote calendar's two maps. -/
def RemWF (rc : RemoteCal) : Prop :=
  (akeys rc.items).Nodup ∧ (akeys rc.props).Nodup

/-- Well-formedness of the two sources: both calendar maps are key-nodup
and every calendar's own maps are. -/
def EngineWF (st : EngineState) : Prop :=
  (akeys st.locSrc).Nodup ∧ (akeys st.remSrc).Nodup ∧
    (∀ e ∈ st.locSrc, CalWF e.2) ∧ (∀ e ∈ st.remSrc, RemWF e.2)

instance (c : CachedCalendar) : Decidable (CalWF c) := by
  unfold CalWF
  infer_instance

instance (rc : RemoteCal) : Decidable (RemWF rc) := by
  unfold RemWF
  infer_instance

instance (st : EngineState) : Decidable (EngineWF st) := by
  unfold EngineWF
  infer_instance

/-- When the two commit steps of `sync_calendar_pair` finish without having
recorded an error, the resulting local calendar is clean and the pair is
still well-formed. -/
theorem pair_commit_clean (f : Faults) (putTag : Url → String → VersionTag) (n : Nat)
    (cal : CachedCalendar) (rc : RemoteCal) (prog : SyncProgress) (lg : List WriteOp)
    (hWFc : CalWF cal) (hWFr : RemWF rc)
    (heq : (commit_prop_changes f n
        (calculate_prop_changes cal.properties rc.remote_properties
          (calculate_item_changes cal.items rc.version_tags prog).2).1
        (commit_item_changes f putTag n
          (calculate_item_changes cal.items rc.version_tags prog).1
          ⟨cal, rc,
            (calculate_prop_changes cal.properties rc.remote_properties
              (calculate_item_changes cal.items rc.version_tags prog).2).2, lg⟩)).prog.nErrors
      = prog.nErrors) :
    cleanCal (commit_prop_changes f n
        (calculate_prop_changes cal.properties rc.remote_properties
          (calculate_item_changes cal.items rc.version_tags prog).2).1
        (commit_item_changes f putTag n
          (calculate_item_changes cal.items rc.version_tags prog).1
          ⟨cal, rc,
            (calculate_prop_changes cal.properties rc.remote_properties
              (calculate_item_changes cal.items rc.version_tags prog).2).2, lg⟩)).loc ∧
    PairWF (commit_prop_changes f n
        (calculate_prop_changes cal.properties rc.remote_properties
          (calculate_item_changes cal.items rc.version_tags prog).2).1
        (commit_item_changes f putTag n
          (calculate_item_changes cal.items rc.version_tags prog).1
          ⟨cal, rc,
            (calculate_prop_changes cal.properties rc.remote_properties
              (calculate_item_changes cal.items rc.version_tags prog).2).2, lg⟩)) := by
  set ichg := calculate_item_changes cal.items rc.version_tags prog with hic
  set pch := calculate_prop_changes cal.properties rc.remote_properties ichg.2 with hpc
  set ps0 : PairState := ⟨cal, rc, pch.2, lg⟩ with hps0
  set ps1 := commit_item_changes f putTag n ichg.1 ps0 with hps1
  have hndR : (akeys rc.version_tags).Nodup := by
    rw [akeys_version_tags]
    exact hWFr.1
  have hWF0 : PairWF ps0 := ⟨hWFc.1, hWFc.2.1, hWFr.1, hWFr.2, hWFc.2.2⟩
  have l0 : prog.nErrors ≤ ichg.2.nErrors := calculate_item_changes_prog_le _ _ _
  have l1 : ichg.2.nErrors ≤ pch.2.nErrors := calculate_prop_changes_prog_le _ _ _
  have l2 : ps0.prog.nErrors ≤ ps1.prog.nErrors := commit_item_changes_prog_le f putTag n _ ps0
  have l3 : ps1.prog.nErrors ≤
      (commit_prop_changes f n pch.1 ps1).prog.nErrors :=
    commit_prop_changes_prog_le f n _ ps1
  have e_item : ps1.prog.nErrors = ps0.prog.nErrors :=
    le_antisymm ((l3.trans (le_of_eq heq)).trans (l0.trans l1)) l2
  have e_prop : (commit_prop_changes f n pch.1 ps1).prog.nErrors = ps1.prog.nErrors :=
    le_antisymm ((le_of_eq heq).trans ((l0.trans l1).trans l2)) l3
  have hCleanI : ∀ u it, alookup ps1.loc.items u = some it → it.ss.is_dirty = false :=
    commit_item_changes_clean f putTag n ps0 rc.version_tags prog hWF0 hndR e_item
  have hWF1 : PairWF ps1 := commit_item_changes_wf f putTag n _ ps0 hWF0
  have hfp : ps1.loc.properties = cal.properties :=
    (commit_item_changes_frame f putTag n ichg.1 ps0).1
  have hcg : pch.1 =
      (calculate_prop_changes ps1.loc.properties rc.remote_properties ichg.2).1 := by
    rw [hpc, hfp]
  have hCleanP := commit_prop_changes_clean f n ps1 rc.remote_properties ichg.2 hWF1
    (by rw [← hcg]; exact e_prop)
  rw [← hcg] at hCleanP
  refine ⟨⟨?_, hCleanP⟩, commit_prop_changes_wf f n _ ps1 hWF1⟩
  intro u it hlk
  rw [(commit_prop_changes_frame f n pch.1 ps1).1] at hlk
  exact hCleanI u it hlk



theorem CalWF_new (a : String) (b : Url) (c : String) : CalWF (CachedCalendar.new a b c) := by
  refine ⟨?_, ?_, ?_⟩ <;> simp [CachedCalendar.new, akeys]

theorem RemWF_new (a : String) (b : Url) (c : String) : RemWF (RemoteCal.new a b c) := by
  refine ⟨?_, ?_⟩ <;> simp [RemoteCal.new, akeys]

theorem cleanCal_new (a : String) (b : Url) (c : String) :
    cleanCal (CachedCalendar.new a b c) := by
  refine ⟨?_, ?_⟩ <;> intro u it h <;> simp [CachedCalendar.new, alookup] at h

theorem alookup_mem_akeys {α β : Type} [DecidableEq α] {l : List (α × β)} {a : α} {b : β}
    (h : alookup l a = some b) : a ∈ akeys l := by
  rw [← alookup_isSome]
  rw [h]
  rfl

/-- A `run_sync` step on one calendar pair that returned `Ok` without having
recorded any error: the written-back local calendar is clean, every other
local entry is untouched, and well-formedness survives. -/
theorem sync_calendar_pair_clean (f : Faults) (putTag : Url → String → VersionTag)
    (n : Nat) (url : Url) (st : EngineState) (hWF : EngineWF st)
    (heq : (sync_calendar_pair f putTag n url st).1.prog.nErrors = st.prog.nErrors)
    (hok : (sync_calendar_pair f putTag n url st).2 = true) :
    (∀ u cal, alookup (sync_calendar_pair f putTag n url st).1.locSrc u = some cal →
      (u = url → cleanCal cal) ∧ (u ≠ url → alookup st.locSrc u = some cal)) ∧
    EngineWF (sync_calendar_pair f putTag n url st).1 := by
  cases hL : alookup st.locSrc url with
  | none =>
    cases hR : alookup st.remSrc url <;> simp [sync_calendar_pair, hL, hR] at hok
  | some cal =>
    cases hR : alookup st.remSrc url with
    | none => simp [sync_calendar_pair, hL, hR] at hok
    | some rc =>
      have hcWF : CalWF cal := hWF.2.2.1 _ (alookup_mem hL)
      have hrWF : RemWF rc := hWF.2.2.2 _ (alookup_mem hR)
      by_cases hdel : cal.deleted = true
      · by_cases hdr : f.delete_remote_calendar url = true
        · by_cases hdl : f.delete_local_calendar url = true
          · have hout1 : (sync_calendar_pair f putTag n url st).1 =
                { st with locSrc := aerase url st.locSrc,
                          remSrc := aerase url st.remSrc,
                          log := (st.log ++ [.deleteCalendarRemote url]) ++
                            [.deleteCalendarLocal url] } := by
              simp only [sync_calendar_pair, hL, hR]
              rw [if_pos hdel, if_pos hdr, if_pos hdl]
            rw [hout1]
            constructor
            · intro u c hlk
              dsimp only at hlk
              by_cases hu : u = url
              · subst hu
                rw [alookup_aerase_self u st.locSrc hWF.1] at hlk
                exact absurd hlk (by simp)
              · refine ⟨fun h => absurd h hu, fun _ => ?_⟩
                rw [alookup_aerase_ne url u st.locSrc (fun h => hu h.symm)] at hlk
                exact hlk
            · refine ⟨akeys_aerase_nodup url st.locSrc hWF.1,
                akeys_aerase_nodup url st.remSrc hWF.2.1, ?_, ?_⟩
              · intro e he
                exact hWF.2.2.1 e (mem_aerase he)
              · intro e he
                exact hWF.2.2.2 e (mem_aerase he)
          · simp only [sync_calendar_pair, hL, hR] at hok
            rw [if_pos hdel, if_pos hdr, if_neg hdl] at hok
            simp at hok
        · simp only [sync_calendar_pair, hL, hR] at hok
          rw [if_pos hdel, if_neg hdr] at hok
          simp at hok
      · by_cases h4 : f.get_item_version_tags url = true
        · by_cases h5 : f.get_remote_properties url = true
          · set ichg := calculate_item_changes cal.items rc.version_tags st.prog with hic
            set pch := calculate_prop_changes cal.properties rc.remote_properties ichg.2
              with hpc
            set PS2 := commit_prop_changes f n pch.1
              (commit_item_changes f putTag n ichg.1 ⟨cal, rc, pch.2, st.log⟩) with hPS2
            have hout1 : (sync_calendar_pair f putTag n url st).1 =
                { st with locSrc := ainsert url PS2.loc st.locSrc,
                          remSrc := ainsert url PS2.rem st.remSrc,
                          prog := PS2.prog, log := PS2.log } := by
              simp only [sync_calendar_pair, hL, hR]
              rw [if_neg hdel, if_pos h4, if_pos h5]
            rw [hout1] at heq
            have hpair := pair_commit_clean f putTag n cal rc st.prog st.log hcWF hrWF heq
            rw [hout1]
            constructor
            · intro u c hlk
              dsimp only at hlk
              by_cases hu : u = url
              · subst hu
                rw [alookup_ainsert_self u PS2.loc st.locSrc] at hlk
                refine ⟨fun _ => ?_, fun h => absurd rfl h⟩
                rw [← Option.some.inj hlk]
                exact hpair.1
              · refine ⟨fun h => absurd h hu, fun _ => ?_⟩
                rw [alookup_ainsert_ne url u PS2.loc st.locSrc (fun h => hu h.symm)] at hlk
                exact hlk
            · have hwf2 : PairWF PS2 := hpair.2
              refine ⟨akeys_ainsert_nodup url PS2.loc st.locSrc hWF.1,
                akeys_ainsert_nodup url PS2.rem st.remSrc hWF.2.1, ?_, ?_⟩
              · intro e he
                rcases mem_ainsert he with he | he
                · rw [he]
                  exact ⟨hwf2.1, hwf2.2.1, hwf2.2.2.2.2⟩
                · exact hWF.2.2.1 e he
              · intro e he
                rcases mem_ainsert he with he | he
                · rw [he]
                  exact ⟨hwf2.2.2.1, hwf2.2.2.2.1⟩
                · exact hWF.2.2.2 e he
          · simp only [sync_calendar_pair, hL, hR] at hok
            rw [if_neg hdel, if_pos h4, if_neg h5] at hok
            simp at hok
        · simp only [sync_calendar_pair, hL, hR] at hok
          rw [if_neg hdel, if_neg h4] at hok
          simp at hok



theorem process_remote_cals_warn_le (f : Faults) (putTag : Url → String → VersionTag)
    (n : Nat) (rest : List (Url × RemoteCal)) (handled : List Url) (X : EngineState) :
    X.prog.nErrors + 1 ≤ (process_remote_cals f putTag n rest handled
      { X with prog := X.prog.warn }).1.prog.nErrors :=
  process_remote_cals_prog_le f putTag n rest handled { X with prog := X.prog.warn }

/-- Loop 1 of `run_sync_inner` under "no new error was recorded": the sources
stay well-formed and every handled URL's local calendar is clean. -/
theorem process_remote_cals_clean (f : Faults) (putTag : Url → String → VersionTag)
    (n : Nat) (rcals : List (Url × RemoteCal)) :
    ∀ (handled : List Url) (st : EngineState), EngineWF st →
      (∀ u ∈ handled, ∀ c, alookup st.locSrc u = some c → cleanCal c) →
      (process_remote_cals f putTag n rcals handled st).1.prog.nErrors = st.prog.nErrors →
      EngineWF (process_remote_cals f putTag n rcals handled st).1 ∧
      ∀ u ∈ (process_remote_cals f putTag n rcals handled st).2, ∀ c,
        alookup (process_remote_cals f putTag n rcals handled st).1.locSrc u = some c →
          cleanCal c := by
  induction rcals with
  | nil =>
    intro handled st hWF hhand _
    exact ⟨hWF, hhand⟩
  | cons e rest ih =>
    obtain ⟨cal_url, rcal⟩ := e
    intro handled st hWF hhand heq
    cases hl : alookup st.locSrc cal_url with
    | some c0 =>
      simp only [process_remote_cals, hl] at heq ⊢
      by_cases ho : (sync_calendar_pair f putTag n cal_url st).2 = true
      · rw [if_pos ho] at heq ⊢
        have hs1 : st.prog.nErrors ≤
            (sync_calendar_pair f putTag n cal_url st).1.prog.nErrors :=
          sync_calendar_pair_prog_le f putTag n cal_url st
        have hs2 := process_remote_cals_prog_le f putTag n rest (cal_url :: handled)
          (sync_calendar_pair f putTag n cal_url st).1
        have e_sync : (sync_calendar_pair f putTag n cal_url st).1.prog.nErrors =
            st.prog.nErrors := le_antisymm (hs2.trans (le_of_eq heq)) hs1
        have hsync := sync_calendar_pair_clean f putTag n cal_url st hWF e_sync ho
        refine ih (cal_url :: handled) (sync_calendar_pair f putTag n cal_url st).1
          hsync.2 ?_ (heq.trans e_sync.symm)
        intro u hu c hlk
        by_cases huc : u = cal_url
        · exact (hsync.1 u c hlk).1 huc
        · have hold := (hsync.1 u c hlk).2 huc
          rcases List.mem_cons.mp hu with h | h
          · exact absurd h huc
          · exact hhand u h c hold
      · rw [if_neg ho] at heq
        have hs1 : st.prog.nErrors ≤
            (sync_calendar_pair f putTag n cal_url st).1.prog.nErrors :=
          sync_calendar_pair_prog_le f putTag n cal_url st
        have hs2 := process_remote_cals_warn_le f putTag n rest handled
          (sync_calendar_pair f putTag n cal_url st).1
        omega
    | none =>
      simp only [process_remote_cals, hl] at heq ⊢
      by_cases hc : f.create_local_calendar cal_url = true
      · rw [if_pos hc] at heq ⊢
        set st1 : EngineState :=
          { st with
            locSrc := ainsert cal_url (CachedCalendar.new rcal.name cal_url rcal.meta) st.locSrc,
            log := st.log ++ [.createCalendarLocal cal_url] } with hst1
        have hWF1 : EngineWF st1 := by
          refine ⟨akeys_ainsert_nodup _ _ _ hWF.1, hWF.2.1, ?_, hWF.2.2.2⟩
          intro e he
          rcases mem_ainsert he with he | he
          · rw [he]
            exact CalWF_new _ _ _
          · exact hWF.2.2.1 e he
        have hhand1 : ∀ u ∈ handled, ∀ c, alookup st1.locSrc u = some c → cleanCal c := by
          intro u hu c hlk
          by_cases huc : u = cal_url
          · rw [huc] at hlk
            rw [show st1.locSrc =
                ainsert cal_url (CachedCalendar.new rcal.name cal_url rcal.meta) st.locSrc
                from rfl,
              alookup_ainsert_self] at hlk
            rw [← Option.some.inj hlk]
            exact cleanCal_new _ _ _
          · rw [show st1.locSrc =
                ainsert cal_url (CachedCalendar.new rcal.name cal_url rcal.meta) st.locSrc
                from rfl,
              alookup_ainsert_ne cal_url u
                (CachedCalendar.new rcal.name cal_url rcal.meta) st.locSrc
                (fun h => huc h.symm)] at hlk
            exact hhand u hu c hlk
        by_cases ho : (sync_calendar_pair f putTag n cal_url st1).2 = true
        · rw [if_pos ho] at heq ⊢
          have hs1 : st1.prog.nErrors ≤
              (sync_calendar_pair f putTag n cal_url st1).1.prog.nErrors :=
            sync_calendar_pair_prog_le f putTag n cal_url st1
          have hs2 := process_remote_cals_prog_le f putTag n rest (cal_url :: handled)
            (sync_calendar_pair f putTag n cal_url st1).1
          have e_sync : (sync_calendar_pair f putTag n cal_url st1).1.prog.nErrors =
              st1.prog.nErrors := le_antisymm (hs2.trans (le_of_eq heq)) hs1
          have hsync := sync_calendar_pair_clean f putTag n cal_url st1 hWF1 e_sync ho
          refine ih (cal_url :: handled) (sync_calendar_pair f putTag n cal_url st1).1
            hsync.2 ?_ (heq.trans e_sync.symm)
          intro u hu c hlk
          by_cases huc : u = cal_url
          · exact (hsync.1 u c hlk).1 huc
          · have hold := (hsync.1 u c hlk).2 huc
            rcases List.mem_cons.mp hu with h | h
            · exact absurd h huc
            · exact hhand1 u h c hold
        · rw [if_neg ho] at heq
          have hs1 : st1.prog.nErrors ≤
              (sync_calendar_pair f putTag n cal_url st1).1.prog.nErrors :=
            sync_calendar_pair_prog_le f putTag n cal_url st1
          have hs2 := process_remote_cals_warn_le f putTag n rest handled
            (sync_calendar_pair f putTag n cal_url st1).1
          have hs0 : st1.prog.nErrors = st.prog.nErrors := rfl
          omega
      · rw [if_neg hc] at heq
        have hs2 := process_remote_cals_warn_le f putTag n rest handled st
        omega



theorem process_local_cals_warn_le (f : Faults) (putTag : Url → String → VersionTag)
    (n : Nat) (handled : List Url) (rest : List (Url × CachedCalendar)) (X : EngineState) :
    X.prog.nErrors + 1 ≤ (process_local_cals f putTag n handled rest
      { X with prog := X.prog.warn }).1.prog.nErrors :=
  process_local_cals_prog_le f putTag n handled rest { X with prog := X.prog.warn }

/-- Loop 2 of `run_sync_inner` under "no new error was recorded" and no
abort: when on entry every local calendar is either still to be visited or
already clean (and handled ones are clean), every local calendar left at the
end is clean. -/
theorem process_local_cals_clean (f : Faults) (putTag : Url → String → VersionTag)
    (n : Nat) (handled : List Url) (cals : List (Url × CachedCalendar)) :
    ∀ st : EngineState, EngineWF st →
      (∀ u ∈ handled, ∀ c, alookup st.locSrc u = some c → cleanCal c) →
      (∀ u c, alookup st.locSrc u = some c → u ∈ cals.map Prod.fst ∨ cleanCal c) →
      (process_local_cals f putTag n handled cals st).1.prog.nErrors = st.prog.nErrors →
      (process_local_cals f putTag n handled cals st).2 = true →
      ∀ u c, alookup (process_local_cals f putTag n handled cals st).1.locSrc u = some c →
        cleanCal c := by
  induction cals with
  | nil =>
    intro st _ _ hcov _ _ u c h
    rcases hcov u c h with hin | hcl
    · simp at hin
    · exact hcl
  | cons e rest ih =>
    obtain ⟨cal_url, snap⟩ := e
    intro st hWF hhand hcov heq hok
    by_cases hmem : cal_url ∈ handled
    · simp only [process_local_cals, if_pos hmem] at heq hok ⊢
      refine ih st hWF hhand ?_ heq hok
      intro u c h
      rcases hcov u c h with hin | hcl
      · rw [List.map_cons, List.mem_cons] at hin
        rcases hin with hin | hin
        · exact Or.inr (hhand u (by rw [hin]; exact hmem) c h)
        · exact Or.inl hin
      · exact Or.inr hcl
    · cases hL : alookup st.locSrc cal_url with
      | none =>
        simp only [process_local_cals, if_neg hmem, hL] at heq hok ⊢
        refine ih st hWF hhand ?_ heq hok
        intro u c h
        rcases hcov u c h with hin | hcl
        · rw [List.map_cons, List.mem_cons] at hin
          rcases hin with hin | hin
          · rw [hin] at h
            rw [hL] at h
            exact absurd h (by simp)
          · exact Or.inl hin
        · exact Or.inr hcl
      | some cal_local =>
        by_cases hdel : cal_local.deleted = true
        · simp only [process_local_cals, if_neg hmem, hL, if_pos hdel] at heq hok ⊢
          by_cases hdl : f.delete_local_calendar cal_url = true
          · rw [if_pos hdl] at heq hok ⊢
            have hWF2 : EngineWF { st with locSrc := aerase cal_url st.locSrc, log := st.log ++ [.deleteCalendarLocal cal_url] } :=
              ⟨akeys_aerase_nodup _ _ hWF.1, hWF.2.1,
                fun e he => hWF.2.2.1 e (mem_aerase he), hWF.2.2.2⟩
            have hhand2 : ∀ u ∈ handled, ∀ c,
                alookup (aerase cal_url st.locSrc) u = some c → cleanCal c := by
              intro u hu c h
              have huc : ¬ cal_url = u := fun hh => hmem (hh ▸ hu)
              rw [alookup_aerase_ne cal_url u st.locSrc huc] at h
              exact hhand u hu c h
            have hcov2 : ∀ u c, alookup (aerase cal_url st.locSrc) u = some c →
                u ∈ rest.map Prod.fst ∨ cleanCal c := by
              intro u c h
              by_cases huc : u = cal_url
              · rw [huc, alookup_aerase_self cal_url st.locSrc hWF.1] at h
                exact absurd h (by simp)
              · rw [alookup_aerase_ne cal_url u st.locSrc (fun hh => huc hh.symm)] at h
                rcases hcov u c h with hin | hcl
                · rw [List.map_cons, List.mem_cons] at hin
                  rcases hin with hin | hin
                  · exact absurd hin huc
                  · exact Or.inl hin
                · exact Or.inr hcl
            exact ih { st with locSrc := aerase cal_url st.locSrc, log := st.log ++ [.deleteCalendarLocal cal_url] } hWF2 hhand2 hcov2 heq hok
          · rw [if_neg hdl] at hok
            simp at hok
        · cases hR : alookup st.remSrc cal_url with
          | some rc =>
            simp only [process_local_cals, if_neg hmem, hL, hdel, Bool.false_eq_true,
              if_false, hR] at heq hok ⊢
            by_cases ho : (sync_calendar_pair f putTag n cal_url st).2 = true
            · rw [if_pos ho] at heq hok ⊢
              have hs1 : st.prog.nErrors ≤
                  (sync_calendar_pair f putTag n cal_url st).1.prog.nErrors :=
                sync_calendar_pair_prog_le f putTag n cal_url st
              have hs2 := process_local_cals_prog_le f putTag n handled rest
                (sync_calendar_pair f putTag n cal_url st).1
              have e_sync : (sync_calendar_pair f putTag n cal_url st).1.prog.nErrors =
                  st.prog.nErrors := le_antisymm (hs2.trans (le_of_eq heq)) hs1
              have hsync := sync_calendar_pair_clean f putTag n cal_url st hWF e_sync ho
              refine ih (sync_calendar_pair f putTag n cal_url st).1 hsync.2 ?_ ?_
                (heq.trans e_sync.symm) hok
              · intro u hu c h
                have huc : ¬ u = cal_url := fun hh => hmem (hh ▸ hu)
                exact hhand u hu c ((hsync.1 u c h).2 huc)
              · intro u c h
                by_cases huc : u = cal_url
                · exact Or.inr ((hsync.1 u c h).1 huc)
                · rcases hcov u c ((hsync.1 u c h).2 huc) with hin | hcl
                  · rw [List.map_cons, List.mem_cons] at hin
                    rcases hin with hin | hin
                    · exact absurd hin huc
                    · exact Or.inl hin
                  · exact Or.inr hcl
            · rw [if_neg ho] at heq
              have hs1 : st.prog.nErrors ≤
                  (sync_calendar_pair f putTag n cal_url st).1.prog.nErrors :=
                sync_calendar_pair_prog_le f putTag n cal_url st
              have hs2 := process_local_cals_warn_le f putTag n handled rest
                (sync_calendar_pair f putTag n cal_url st).1
              omega
          | none =>
            simp only [process_local_cals, if_neg hmem, hL, hdel, Bool.false_eq_true,
              if_false, hR] at heq hok ⊢
            by_cases hc : f.create_remote_calendar cal_url = true
            · rw [if_pos hc] at heq hok ⊢
              have hWF1 : EngineWF { st with remSrc := ainsert cal_url (RemoteCal.new cal_local.name cal_url cal_local.meta) st.remSrc, log := st.log ++ [.createCalendarRemote cal_url] } :=
                ⟨hWF.1, akeys_ainsert_nodup _ _ _ hWF.2.1, hWF.2.2.1,
                  fun e he => (mem_ainsert he).elim
                    (fun h2 => by rw [h2]; exact RemWF_new _ _ _)
                    (fun h2 => hWF.2.2.2 e h2)⟩
              split_ifs at heq hok ⊢ with ho
              · have hs1 : st.prog.nErrors ≤ (sync_calendar_pair f putTag n cal_url { st with remSrc := ainsert cal_url (RemoteCal.new cal_local.name cal_url cal_local.meta) st.remSrc, log := st.log ++ [.createCalendarRemote cal_url] }).1.prog.nErrors :=
                  sync_calendar_pair_prog_le f putTag n cal_url { st with remSrc := ainsert cal_url (RemoteCal.new cal_local.name cal_url cal_local.meta) st.remSrc, log := st.log ++ [.createCalendarRemote cal_url] }
                have hs2 := process_local_cals_prog_le f putTag n handled rest (sync_calendar_pair f putTag n cal_url { st with remSrc := ainsert cal_url (RemoteCal.new cal_local.name cal_url cal_local.meta) st.remSrc, log := st.log ++ [.createCalendarRemote cal_url] }).1
                have e_sync : (sync_calendar_pair f putTag n cal_url { st with remSrc := ainsert cal_url (RemoteCal.new cal_local.name cal_url cal_local.meta) st.remSrc, log := st.log ++ [.createCalendarRemote cal_url] }).1.prog.nErrors = st.prog.nErrors :=
                  le_antisymm (hs2.trans (le_of_eq heq)) hs1
                have hsync := sync_calendar_pair_clean f putTag n cal_url { st with remSrc := ainsert cal_url (RemoteCal.new cal_local.name cal_url cal_local.meta) st.remSrc, log := st.log ++ [.createCalendarRemote cal_url] } hWF1 e_sync ho
                refine ih (sync_calendar_pair f putTag n cal_url { st with remSrc := ainsert cal_url (RemoteCal.new cal_local.name cal_url cal_local.meta) st.remSrc, log := st.log ++ [.createCalendarRemote cal_url] }).1 hsync.2 ?_ ?_
                  (heq.trans e_sync.symm) hok
                · intro u hu c h
                  have huc : ¬ u = cal_url := fun hh => hmem (hh ▸ hu)
                  exact hhand u hu c ((hsync.1 u c h).2 huc)
                · intro u c h
                  by_cases huc : u = cal_url
                  · exact Or.inr ((hsync.1 u c h).1 huc)
                  · rcases hcov u c ((hsync.1 u c h).2 huc) with hin | hcl
                    · rw [List.map_cons, List.mem_cons] at hin
                      rcases hin with hin | hin
                      · exact absurd hin huc
                      · exact Or.inl hin
                    · exact Or.inr hcl
              · have hs1 : st.prog.nErrors ≤ (sync_calendar_pair f putTag n cal_url { st with remSrc := ainsert cal_url (RemoteCal.new cal_local.name cal_url cal_local.meta) st.remSrc, log := st.log ++ [.createCalendarRemote cal_url] }).1.prog.nErrors :=
                  sync_calendar_pair_prog_le f putTag n cal_url { st with remSrc := ainsert cal_url (RemoteCal.new cal_local.name cal_url cal_local.meta) st.remSrc, log := st.log ++ [.createCalendarRemote cal_url] }
                have hs2 := process_local_cals_warn_le f putTag n handled rest (sync_calendar_pair f putTag n cal_url { st with remSrc := ainsert cal_url (RemoteCal.new cal_local.name cal_url cal_local.meta) st.remSrc, log := st.log ++ [.createCalendarRemote cal_url] }).1
                omega
            · rw [if_neg hc] at heq
              have hs2 := process_local_cals_warn_le f putTag n handled rest st
              omega


theorem is_dirty_false_elim (s : SyncStatus) (h : s.is_dirty = false) :
    ∀ V, s ≠ .LocallyModified V ∧ s ≠ .LocallyDeleted V := by
  intro V
  cases s <;> simp_all [SyncStatus.is_dirty]

/-- **C2.** After any sync pass that reports `success = true`, every item and
every property still present in every local calendar has a sync status that is
neither `LocallyModified` nor `LocallyDeleted`: the commit steps flipped local
additions and modifications to `Synced` and removed local deletions. -/
theorem sync_success_no_dirty_local (f : Faults) (putTag : Url → String → VersionTag)
    (n : Nat) (st : EngineState) (hWF : EngineWF st)
    (hok : (run_sync f putTag n st).2 = true) :
    ∀ u cal, alookup (run_sync f putTag n st).1.locSrc u = some cal →
      (∀ v it, alookup cal.items v = some it →
        ∀ V, it.ss ≠ .LocallyModified V ∧ it.ss ≠ .LocallyDeleted V) ∧
      (∀ nn p, alookup cal.properties nn = some p →
        ∀ V, p.sync_status ≠ .LocallyModified V ∧ p.sync_status ≠ .LocallyDeleted V) := by
  by_cases hg : f.get_remote_calendars = true
  · simp only [run_sync, if_pos hg] at hok ⊢
    by_cases h2 : (process_local_cals f putTag n
        (process_remote_cals f putTag n st.remSrc [] st).2
        (process_remote_cals f putTag n st.remSrc [] st).1.locSrc
        (process_remote_cals f putTag n st.remSrc [] st).1).2 = true
    · rw [if_pos h2] at hok ⊢
      have hz : (process_local_cals f putTag n
          (process_remote_cals f putTag n st.remSrc [] st).2
          (process_remote_cals f putTag n st.remSrc [] st).1.locSrc
          (process_remote_cals f putTag n st.remSrc [] st).1).1.prog.nErrors = 0 := by
        simpa [SyncProgress.is_success] using hok
      have m1 := process_remote_cals_prog_le f putTag n st.remSrc [] st
      have m2 := process_local_cals_prog_le f putTag n
        (process_remote_cals f putTag n st.remSrc [] st).2
        (process_remote_cals f putTag n st.remSrc [] st).1.locSrc
        (process_remote_cals f putTag n st.remSrc [] st).1
      have e1 : (process_remote_cals f putTag n st.remSrc [] st).1.prog.nErrors =
          st.prog.nErrors := by omega
      have hloop1 := process_remote_cals_clean f putTag n st.remSrc [] st hWF
        (fun u hu => absurd hu (List.not_mem_nil u)) e1
      have e2 : (process_local_cals f putTag n
          (process_remote_cals f putTag n st.remSrc [] st).2
          (process_remote_cals f putTag n st.remSrc [] st).1.locSrc
          (process_remote_cals f putTag n st.remSrc [] st).1).1.prog.nErrors =
          (process_remote_cals f putTag n st.remSrc [] st).1.prog.nErrors := by omega
      have hloop2 := process_local_cals_clean f putTag n
        (process_remote_cals f putTag n st.remSrc [] st).2
        (process_remote_cals f putTag n st.remSrc [] st).1.locSrc
        (process_remote_cals f putTag n st.remSrc [] st).1 hloop1.1 hloop1.2
        (fun u c h => Or.inl (alookup_mem_akeys h)) e2 h2
      intro u cal hlk
      have hc := hloop2 u cal hlk
      exact ⟨fun v it h => is_dirty_false_elim _ (hc.1 v it h),
        fun nn p h => is_dirty_false_elim _ (hc.2 nn p h)⟩
    · rw [if_neg h2] at hok
      simp [SyncProgress.is_success, SyncProgress.error] at hok
  · simp only [run_sync, if_neg hg] at hok
    simp [SyncProgress.is_success, SyncProgress.error] at hok

def exC2Tag : Url → String → VersionTag := fun _ _ => "T"

def exC2Loc : CachedCalendar :=
  ⟨"cal", "c", "", [(⟨"x", "a"⟩, ⟨⟨"x", "a"⟩, "v", .LocallyModified "w"⟩)],
    [("i", ⟨"d", .LocallyModified "t0"⟩)], false⟩

def exC2Rem : RemoteCal :=
  ⟨"cal", "c", "", [("i", ⟨"d0", "t0"⟩)], [(⟨"x", "a"⟩, "w")]⟩

def exC2St : EngineState := ⟨[("c", exC2Loc)], [("c", exC2Rem)], ⟨0⟩, []⟩

theorem sync_success_no_dirty_local_witness :
    EngineWF exC2St ∧ (run_sync Faults.noFaults exC2Tag 2 exC2St).2 = true ∧
      ∀ u cal, alookup (run_sync Faults.noFaults exC2Tag 2 exC2St).1.locSrc u = some cal →
        (∀ v it, alookup cal.items v = some it →
          ∀ V, it.ss ≠ .LocallyModified V ∧ it.ss ≠ .LocallyDeleted V) ∧
        (∀ nn p, alookup cal.properties nn = some p →
          ∀ V, p.sync_status ≠ .LocallyModified V ∧ p.sync_status ≠ .LocallyDeleted V) :=
  ⟨by decide, by decide, sync_success_no_dirty_local Faults.noFaults exC2Tag 2 exC2St
    (by decide) (by decide)⟩



/-! ### C3: idempotence of a fault-free sync -/

theorem ainsert_self_of_lookup {α β : Type} [DecidableEq α] {l : List (α × β)} {a : α}
    {b : β} (h : alookup l a = some b) : ainsert a b l = l := by
  induction l with
  | nil => simp [alookup] at h
  | cons kv rest ih =>
    by_cases hk : kv.1 = a
    · rw [ainsert, if_pos hk]
      obtain ⟨k, v⟩ := kv
      rw [alookup, if_pos hk] at h
      rw [← hk, Option.some.inj h]
    · rw [ainsert, if_neg hk]
      obtain ⟨k, v⟩ := kv
      rw [alookup, if_neg hk] at h
      rw [ih h]

/-- Fold `List.erase` over a list of keys (the successive `to_handle` shrinking
of the two delta scans). -/
def eraseList {α : Type} [DecidableEq α] : List α → List α → List α
  | th, [] => th
  | th, u :: us => eraseList (th.erase u) us

theorem eraseList_nil {α : Type} [DecidableEq α] :
    ∀ (us th : List α), th.Nodup → (∀ x ∈ th, x ∈ us) → eraseList th us = [] := by
  intro us
  induction us with
  | nil =>
    intro th _ hsub
    cases th with
    | nil => rfl
    | cons x r => exact absurd (hsub x (List.mem_cons_self x r)) (List.not_mem_nil x)
  | cons u us ih =>
    intro th hnd hsub
    rw [eraseList]
    refine ih (th.erase u) (hnd.erase u) ?_
    intro x hx
    have hxth : x ∈ th := List.mem_of_mem_erase hx
    have hxu : x ≠ u := by
      intro he
      rw [he] at hx
      exact (List.Nodup.not_mem_erase hnd) hx
    rcases List.mem_cons.mp (hsub x hxth) with h | h
    · exact absurd h hxu
    · exact h

def aeraseList {α β : Type} [DecidableEq α] : List (α × β) → List α → List (α × β)
  | th, [] => th
  | th, n :: ns => aeraseList (aerase n th) ns

theorem mem_aerase_fst_ne {α β : Type} [DecidableEq α] {th : List (α × β)} {n : α}
    {e : α × β} (hnd : (akeys th).Nodup) (he : e ∈ aerase n th) : e.1 ≠ n := by
  intro hfst
  have h1 : e.1 ∈ akeys (aerase n th) := List.mem_map_of_mem Prod.fst he
  rw [← alookup_isSome] at h1
  rw [hfst, alookup_aerase_self n th hnd] at h1
  exact absurd h1 (by simp)

theorem aeraseList_nil {α β : Type} [DecidableEq α] :
    ∀ (ns : List α) (th : List (α × β)), (akeys th).Nodup →
      (∀ e ∈ th, e.1 ∈ ns) → aeraseList th ns = [] := by
  intro ns
  induction ns with
  | nil =>
    intro th _ hsub
    cases th with
    | nil => rfl
    | cons e r => exact absurd (hsub e (List.mem_cons_self e r)) (List.not_mem_nil e.1)
  | cons n ns ih =>
    intro th hnd hsub
    rw [aeraseList]
    refine ih (aerase n th) (akeys_aerase_nodup n th hnd) ?_
    intro e he
    rcases List.mem_cons.mp (hsub e (mem_aerase he)) with h | h
    · exact absurd h (mem_aerase_fst_ne hnd he)
    · exact h

theorem mem_akeys_aerase_of_ne {α β : Type} [DecidableEq α] {th : List (α × β)}
    {a n : α} (hne : a ≠ n) (ha : a ∈ akeys th) : a ∈ akeys (aerase n th) := by
  rw [← alookup_isSome] at ha ⊢
  rw [alookup_aerase_ne n a th (fun h => hne h.symm)]
  exact ha

/-- On a pair where every remote item is mirrored locally as `Synced` with the
same tag (or the URL is a `NotSynced` reuse), the first delta loop classifies
nothing and drains `to_handle` by exactly the remote URLs. -/
theorem scan_items_stable (L : List (Url × LocalItem)) :
    ∀ (R : List (Url × VersionTag)) (th : List Url) (acc : ItemChanges)
      (prog : SyncProgress),
      (∀ e ∈ R, ∃ it, alookup L e.1 = some it ∧
        (it.ss = .Synced e.2 ∨ it.ss = .NotSynced)) →
      (akeys R).Nodup →
      ∃ p2, scan_remote_items L R th acc prog = (acc, eraseList th (akeys R), p2) := by
  intro R
  induction R with
  | nil =>
    intro th acc prog _ _
    exact ⟨prog, rfl⟩
  | cons e rest ih =>
    obtain ⟨url, rt⟩ := e
    intro th acc prog hmatch hnd
    obtain ⟨it, hlk, hss⟩ := hmatch (url, rt) (List.mem_cons_self _ _)
    rw [akeys, List.map_cons, List.nodup_cons] at hnd
    have hmatch' : ∀ e ∈ rest, ∃ it, alookup L e.1 = some it ∧
        (it.ss = .Synced e.2 ∨ it.ss = .NotSynced) :=
      fun e he => hmatch e (List.mem_cons_of_mem _ he)
    rcases hss with hss | hss
    · obtain ⟨p2, hp2⟩ := ih (th.erase url) acc
        (if url ∈ th then prog else prog.error) hmatch' hnd.2
      refine ⟨p2, ?_⟩
      simp only [scan_remote_items, hlk, hss]
      rw [if_neg (by simp)]
      rw [hp2]
      rfl
    · obtain ⟨p2, hp2⟩ := ih (th.erase url) acc
        ((if url ∈ th then prog else prog.error).error) hmatch' hnd.2
      refine ⟨p2, ?_⟩
      simp only [scan_remote_items, hlk, hss]
      rw [hp2]
      rfl

/-- On a stable pair the item delta is empty. -/
theorem calculate_item_changes_stable (L : List (Url × LocalItem))
    (R : List (Url × VersionTag)) (prog : SyncProgress)
    (hndL : (akeys L).Nodup) (hndR : (akeys R).Nodup)
    (hmatch : ∀ e ∈ R, ∃ it, alookup L e.1 = some it ∧
      (it.ss = .Synced e.2 ∨ it.ss = .NotSynced))
    (hcov : ∀ u ∈ akeys L, u ∈ akeys R) :
    (calculate_item_changes L R prog).1 = ItemChanges.empty := by
  obtain ⟨p2, hp2⟩ := scan_items_stable L R (akeys L) ItemChanges.empty prog hmatch hndR
  have hth : eraseList (akeys L) (akeys R) = [] := eraseList_nil (akeys R) (akeys L) hndL hcov
  rw [calculate_item_changes, hp2, hth]
  rfl

/-- On a pair where every remote property is mirrored locally as `Synced` with
the same value (or it is a `NotSynced` reuse), the first property loop
classifies nothing. -/
theorem scan_props_stable (P : List (NamespacedName × Property)) :
    ∀ (RP : List Property) (th : List (NamespacedName × Property)) (acc : PropChanges)
      (prog : SyncProgress),
      (∀ rp ∈ RP, ∃ lp, alookup P rp.nsn = some lp ∧
        (lp.sync_status = .Synced rp.value ∨ lp.sync_status = .NotSynced)) →
      (RP.map Property.nsn).Nodup →
      ∃ p2, scan_remote_props P RP th acc prog =
        (acc, aeraseList th (RP.map Property.nsn), p2) := by
  intro RP
  induction RP with
  | nil =>
    intro th acc prog _ _
    exact ⟨prog, rfl⟩
  | cons rp rest ih =>
    intro th acc prog hmatch hnd
    obtain ⟨lp, hlk, hss⟩ := hmatch rp (List.mem_cons_self _ _)
    rw [List.map_cons, List.nodup_cons] at hnd
    have hmatch' : ∀ q ∈ rest, ∃ lp, alookup P q.nsn = some lp ∧
        (lp.sync_status = .Synced q.value ∨ lp.sync_status = .NotSynced) :=
      fun q hq => hmatch q (List.mem_cons_of_mem _ hq)
    rcases hss with hss | hss
    · obtain ⟨p2, hp2⟩ := ih (aerase rp.nsn th) acc
        (if rp.nsn ∈ akeys th then prog else prog.error) hmatch' hnd.2
      refine ⟨p2, ?_⟩
      simp only [scan_remote_props, hlk, hss]
      rw [if_neg (by simp)]
      rw [hp2]
      rfl
    · obtain ⟨p2, hp2⟩ := ih (aerase rp.nsn th) acc
        ((if rp.nsn ∈ akeys th then prog else prog.error).error) hmatch' hnd.2
      refine ⟨p2, ?_⟩
      simp only [scan_remote_props, hlk, hss]
      rw [hp2]
      rfl

/-- On a stable pair the property delta is empty. -/
theorem calculate_prop_changes_stable (P : List (NamespacedName × Property))
    (RP : List Property) (prog : SyncProgress)
    (hndP : (akeys P).Nodup) (hndRP : (RP.map Property.nsn).Nodup)
    (hmatch : ∀ rp ∈ RP, ∃ lp, alookup P rp.nsn = some lp ∧
      (lp.sync_status = .Synced rp.value ∨ lp.sync_status = .NotSynced))
    (hcov : ∀ e ∈ P, e.1 ∈ RP.map Property.nsn) :
    (calculate_prop_changes P RP prog).1 = PropChanges.empty := by
  obtain ⟨p2, hp2⟩ := scan_props_stable P RP P PropChanges.empty prog hmatch hndRP
  have hth : aeraseList P (RP.map Property.nsn) = [] :=
    aeraseList_nil (RP.map Property.nsn) P hndP hcov
  rw [calculate_prop_changes, hp2, hth]
  rfl

theorem commit_item_changes_empty (f : Faults) (putTag : Url → String → VersionTag)
    (n : Nat) (st : PairState) :
    commit_item_changes f putTag n ItemChanges.empty st = st := rfl

theorem commit_prop_changes_empty (f : Faults) (n : Nat) (st : PairState) :
    commit_prop_changes f n PropChanges.empty st = st := rfl

/-- The stable configurations of one item/property map pair: everything the
local map holds is `Synced` with exactly the remote tag/value (or a skipped
`NotSynced` reuse of a URL/name also present remotely), and nothing exists
remotely without a local counterpart. -/
def calStable (cal : CachedCalendar) (rc : RemoteCal) : Prop :=
  cal.deleted = false ∧
  (∀ u it, alookup cal.items u = some it →
    ∃ r, alookup rc.items u = some r ∧ (it.ss = .Synced r.tag ∨ it.ss = .NotSynced)) ∧
  (∀ u r, alookup rc.items u = some r → (alookup cal.items u).isSome = true) ∧
  (∀ nn p, alookup cal.properties nn = some p →
    ∃ v, alookup rc.props nn = some v ∧
      (p.sync_status = .Synced v ∨ p.sync_status = .NotSynced)) ∧
  (∀ nn v, alookup rc.props nn = some v → (alookup cal.properties nn).isSome = true)

theorem remote_properties_map_nsn (rc : RemoteCal) :
    rc.remote_properties.map Property.nsn = akeys rc.props := by
  simp [RemoteCal.remote_properties, akeys, List.map_map]

/-- `sync_calendar_pair` on a stable pair returns `Ok` and only touches the
progress counter: both sources and the log are written back unchanged. -/
theorem sync_pair_stable (putTag : Url → String → VersionTag) (n : Nat) (url : Url)
    (st : EngineState) (cal : CachedCalendar) (rc : RemoteCal)
    (hL : alookup st.locSrc url = some cal) (hR : alookup st.remSrc url = some rc)
    (hWFc : CalWF cal) (hWFr : RemWF rc) (hs : calStable cal rc) :
    ∃ P, sync_calendar_pair Faults.noFaults putTag n url st = ({ st with prog := P }, true) := by
  have hic : (calculate_item_changes cal.items rc.version_tags st.prog).1 =
      ItemChanges.empty := by
    refine calculate_item_changes_stable cal.items rc.version_tags st.prog hWFc.1 ?_ ?_ ?_
    · rw [akeys_version_tags]
      exact hWFr.1
    · intro e he
      rw [RemoteCal.version_tags, List.mem_map] at he
      obtain ⟨q, hq, hqe⟩ := he
      have hlkr : alookup rc.items q.1 = some q.2 := mem_alookup hWFr.1 hq
      have hsome := hs.2.2.1 q.1 q.2 hlkr
      rw [Option.isSome_iff_exists] at hsome
      obtain ⟨it, hit⟩ := hsome
      obtain ⟨r, hr, hss⟩ := hs.2.1 q.1 it hit
      rw [hlkr] at hr
      refine ⟨it, ?_, ?_⟩
      · rw [← hqe]
        exact hit
      · rw [← hqe]
        rcases hss with hss | hss
        · exact Or.inl (by rw [hss, ← Option.some.inj hr])
        · exact Or.inr hss
    · intro u hu
      rw [← alookup_isSome] at hu
      rw [Option.isSome_iff_exists] at hu
      obtain ⟨it, hit⟩ := hu
      obtain ⟨r, hr, _⟩ := hs.2.1 u it hit
      rw [akeys_version_tags, ← alookup_isSome, hr]
      rfl
  have hpc : ∀ prog2, (calculate_prop_changes cal.properties rc.remote_properties prog2).1 =
      PropChanges.empty := by
    intro prog2
    refine calculate_prop_changes_stable cal.properties rc.remote_properties prog2
      hWFc.2.1 ?_ ?_ ?_
    · rw [remote_properties_map_nsn]
      exact hWFr.2
    · intro rp hrp
      rw [RemoteCal.remote_properties, List.mem_map] at hrp
      obtain ⟨q, hq, hqe⟩ := hrp
      have hlkr : alookup rc.props q.1 = some q.2 := mem_alookup hWFr.2 hq
      have hsome := hs.2.2.2.2 q.1 q.2 hlkr
      rw [Option.isSome_iff_exists] at hsome
      obtain ⟨lp, hlp⟩ := hsome
      obtain ⟨v, hv, hss⟩ := hs.2.2.2.1 q.1 lp hlp
      rw [hlkr] at hv
      refine ⟨lp, ?_, ?_⟩
      · rw [← hqe]
        exact hlp
      · rw [← hqe]
        rcases hss with hss | hss
        · exact Or.inl (by rw [hss, ← Option.some.inj hv])
        · exact Or.inr hss
    · intro e he
      have hlk : alookup cal.properties e.1 = some e.2 := mem_alookup hWFc.2.1 he
      obtain ⟨v, hv, _⟩ := hs.2.2.2.1 e.1 e.2 hlk
      rw [remote_properties_map_nsn, ← alookup_isSome, hv]
      rfl
  refine ⟨(calculate_prop_changes cal.properties rc.remote_properties
    (calculate_item_changes cal.items rc.version_tags st.prog).2).2, ?_⟩
  simp only [sync_calendar_pair, hL, hR]
  rw [if_neg (by rw [hs.1]; simp)]
  rw [if_pos (show Faults.noFaults.get_item_version_tags url = true from rfl)]
  rw [if_pos (show Faults.noFaults.get_remote_properties url = true from rfl)]
  rw [hic, hpc, commit_item_changes_empty, commit_prop_changes_empty]
  dsimp only
  rw [ainsert_self_of_lookup hL, ainsert_self_of_lookup hR]



/-- Both sources pair up URL for URL and every pair is stable. -/
def EngineStable (st : EngineState) : Prop :=
  (∀ u cal, alookup st.locSrc u = some cal →
    ∃ rc, alookup st.remSrc u = some rc ∧ calStable cal rc) ∧
  (∀ u rc, alookup st.remSrc u = some rc → (alookup st.locSrc u).isSome = true)

/-- Loop 1 over a stable engine: every pair syncs trivially, so the two
sources and the log come out untouched. -/
theorem process_remote_cals_stable_id (putTag : Url → String → VersionTag) (n : Nat) :
    ∀ (rcals : List (Url × RemoteCal)) (handled : List Url) (st : EngineState),
      EngineWF st → EngineStable st →
      (∀ e ∈ rcals, (alookup st.remSrc e.1).isSome = true) →
      (process_remote_cals Faults.noFaults putTag n rcals handled st).1.locSrc = st.locSrc ∧
      (process_remote_cals Faults.noFaults putTag n rcals handled st).1.remSrc = st.remSrc ∧
      (process_remote_cals Faults.noFaults putTag n rcals handled st).1.log = st.log := by
  intro rcals
  induction rcals with
  | nil =>
    intro handled st _ _ _
    exact ⟨rfl, rfl, rfl⟩
  | cons e rest ih =>
    obtain ⟨cal_url, rcal⟩ := e
    intro handled st hWF hstab hsub
    have hrs := hsub (cal_url, rcal) (List.mem_cons_self _ _)
    rw [Option.isSome_iff_exists] at hrs
    obtain ⟨rc, hrc⟩ := hrs
    have hls := hstab.2 cal_url rc hrc
    rw [Option.isSome_iff_exists] at hls
    obtain ⟨cal, hcal⟩ := hls
    obtain ⟨rc2, hrc2, hstp⟩ := hstab.1 cal_url cal hcal
    rw [hrc] at hrc2
    have hstp2 : calStable cal rc := (Option.some.inj hrc2) ▸ hstp
    obtain ⟨P, hP⟩ := sync_pair_stable putTag n cal_url st cal rc hcal hrc
      (hWF.2.2.1 _ (alookup_mem hcal)) (hWF.2.2.2 _ (alookup_mem hrc)) hstp2
    simp only [process_remote_cals, hcal, hP]
    have hrest := ih (cal_url :: handled) { st with prog := P } hWF hstab
      (fun e2 he2 => hsub e2 (List.mem_cons_of_mem _ he2))
    exact hrest

/-- Loop 2 over a stable engine: likewise untouched, and no abort. -/
theorem process_local_cals_stable_id (putTag : Url → String → VersionTag) (n : Nat)
    (handled : List Url) :
    ∀ (lcals : List (Url × CachedCalendar)) (st : EngineState),
      EngineWF st → EngineStable st →
      (process_local_cals Faults.noFaults putTag n handled lcals st).1.locSrc = st.locSrc ∧
      (process_local_cals Faults.noFaults putTag n handled lcals st).1.remSrc = st.remSrc ∧
      (process_local_cals Faults.noFaults putTag n handled lcals st).1.log = st.log ∧
      (process_local_cals Faults.noFaults putTag n handled lcals st).2 = true := by
  intro lcals
  induction lcals with
  | nil =>
    intro st _ _
    exact ⟨rfl, rfl, rfl, rfl⟩
  | cons e rest ih =>
    obtain ⟨cal_url, snap⟩ := e
    intro st hWF hstab
    by_cases hmem : cal_url ∈ handled
    · simp only [process_local_cals, if_pos hmem]
      exact ih st hWF hstab
    · cases hL : alookup st.locSrc cal_url with
      | none =>
        simp only [process_local_cals, if_neg hmem, hL]
        exact ih st hWF hstab
      | some cal =>
        obtain ⟨rc, hrc, hstp⟩ := hstab.1 cal_url cal hL
        obtain ⟨P, hP⟩ := sync_pair_stable putTag n cal_url st cal rc hL hrc
          (hWF.2.2.1 _ (alookup_mem hL)) (hWF.2.2.2 _ (alookup_mem hrc)) hstp
        simp only [process_local_cals, if_neg hmem, hL, hstp.1, Bool.false_eq_true,
          if_false, hrc, hP]
        exact ih { st with prog := P } hWF hstab

/-- A whole `run_sync` pass over a stable engine leaves both sources and the
log untouched. -/
theorem run_sync_stable_id (putTag : Url → String → VersionTag) (n : Nat)
    (st : EngineState) (hWF : EngineWF st) (hstab : EngineStable st) :
    (run_sync Faults.noFaults putTag n st).1.locSrc = st.locSrc ∧
    (run_sync Faults.noFaults putTag n st).1.remSrc = st.remSrc ∧
    (run_sync Faults.noFaults putTag n st).1.log = st.log := by
  have h1 := process_remote_cals_stable_id putTag n st.remSrc [] st hWF hstab
    (fun e he => by rw [mem_alookup hWF.2.1 he]; rfl)
  have hWF1 : EngineWF (process_remote_cals Faults.noFaults putTag n st.remSrc [] st).1 := by
    refine ⟨?_, ?_, ?_, ?_⟩
    · rw [h1.1]
      exact hWF.1
    · rw [h1.2.1]
      exact hWF.2.1
    · rw [h1.1]
      exact hWF.2.2.1
    · rw [h1.2.1]
      exact hWF.2.2.2
  have hstab1 : EngineStable (process_remote_cals Faults.noFaults putTag n st.remSrc [] st).1 := by
    constructor
    · intro u cal hc
      rw [h1.1] at hc
      rw [h1.2.1]
      exact hstab.1 u cal hc
    · intro u rc hc
      rw [h1.2.1] at hc
      rw [h1.1]
      exact hstab.2 u rc hc
  have h2 := process_local_cals_stable_id putTag n
    (process_remote_cals Faults.noFaults putTag n st.remSrc [] st).2
    (process_remote_cals Faults.noFaults putTag n st.remSrc [] st).1.locSrc
    (process_remote_cals Faults.noFaults putTag n st.remSrc [] st).1 hWF1 hstab1
  simp only [run_sync, if_pos (show Faults.noFaults.get_remote_calendars = true from rfl)]
  rw [if_pos h2.2.2.2]
  exact ⟨h2.1.trans h1.1, h2.2.1.trans h1.2.1, h2.2.2.1.trans h1.2.2⟩



/-! ### No commit step records an error under `noFaults` when its inputs are
in the shape the delta computation guarantees -/

theorem commit_local_item_dels_noerr (dels : List Url) :
    ∀ st : PairState, dels.Nodup →
      (∀ u ∈ dels, (alookup st.loc.items u).isSome = true) →
      (commit_local_item_dels Faults.noFaults dels st).prog.nErrors = st.prog.nErrors := by
  induction dels with
  | nil =>
    intro st _ _
    rfl
  | cons url rest ih =>
    intro st hnd h
    rw [List.nodup_cons] at hnd
    have hiso := h url (List.mem_cons_self _ _)
    rw [Option.isSome_iff_exists] at hiso
    obtain ⟨it, hit⟩ := hiso
    simp only [commit_local_item_dels,
      if_pos (show Faults.noFaults.delete_item url = true from rfl), hit]
    refine (ih { st with loc := { st.loc with items := aerase url st.loc.items }, rem := { st.rem with items := aerase url st.rem.items }, log := st.log ++ [.deleteItemRemote url, .deleteItemLocal url] } hnd.2 ?_)
    intro u hu
    have hne : url ≠ u := fun he => hnd.1 (he ▸ hu)
    rw [show ({ st with loc := { st.loc with items := aerase url st.loc.items }, rem := { st.rem with items := aerase url st.rem.items }, log := st.log ++ [.deleteItemRemote url, .deleteItemLocal url] } : PairState).loc.items = aerase url st.loc.items from rfl]
    rw [alookup_aerase_ne url u st.loc.items hne]
    exact h u (List.mem_cons_of_mem _ hu)

theorem commit_remote_item_dels_noerr (dels : List Url) :
    ∀ st : PairState, dels.Nodup →
      (∀ u ∈ dels, (alookup st.loc.items u).isSome = true) →
      (commit_remote_item_dels dels st).prog.nErrors = st.prog.nErrors := by
  induction dels with
  | nil =>
    intro st _ _
    rfl
  | cons url rest ih =>
    intro st hnd h
    rw [List.nodup_cons] at hnd
    have hiso := h url (List.mem_cons_self _ _)
    rw [Option.isSome_iff_exists] at hiso
    obtain ⟨it, hit⟩ := hiso
    simp only [commit_remote_item_dels, hit]
    refine (ih { st with loc := { st.loc with items := aerase url st.loc.items }, log := st.log ++ [.deleteItemLocal url] } hnd.2 ?_)
    intro u hu
    have hne : url ≠ u := fun he => hnd.1 (he ▸ hu)
    rw [show ({ st with loc := { st.loc with items := aerase url st.loc.items }, log := st.log ++ [.deleteItemLocal url] } : PairState).loc.items = aerase url st.loc.items from rfl]
    rw [alookup_aerase_ne url u st.loc.items hne]
    exact h u (List.mem_cons_of_mem _ hu)

/-- The per-URL precondition of a batched download: an addition's URL must be
locally unknown, a change's URL locally present. -/
def batchPre (bt : BatchDownloadType) (st : PairState) (u : Url) : Prop :=
  match bt with
  | .RemoteAdditions => alookup st.loc.items u = none
  | .RemoteChanges => (alookup st.loc.items u).isSome = true

theorem apply_items_list_noerr (bt : BatchDownloadType) (rc : RemoteCal)
    (batch : List Url) :
    ∀ st : PairState, batch.Nodup →
      (∀ u ∈ batch, (alookup rc.items u).isSome = true) →
      (∀ u ∈ batch, batchPre bt st u) →
      (apply_items_list bt rc batch st).prog.nErrors = st.prog.nErrors := by
  induction batch with
  | nil =>
    intro st _ _ _
    rfl
  | cons u rest ih =>
    intro st hnd hrem hloc
    rw [List.nodup_cons] at hnd
    have hiso := hrem u (List.mem_cons_self _ _)
    rw [Option.isSome_iff_exists] at hiso
    obtain ⟨r, hr⟩ := hiso
    have hmap : (alookup rc.items u).map
        (fun r => (u, (⟨r.data, .Synced r.tag⟩ : LocalItem))) =
          some (u, (⟨r.data, .Synced r.tag⟩ : LocalItem)) := by
      rw [hr]
      rfl
    rw [apply_items_list_cons, hmap]
    have hpre := hloc u (List.mem_cons_self _ _)
    cases bt with
    | RemoteAdditions =>
      rw [batchPre] at hpre
      simp only [apply_one_item]
      rw [if_neg (by rw [hpre]; simp)]
      refine ih { st with loc := { st.loc with items := ainsert u ⟨r.data, .Synced r.tag⟩ st.loc.items }, log := st.log ++ [.addItemLocal u] } hnd.2 (fun v hv => hrem v (List.mem_cons_of_mem _ hv)) ?_
      intro v hv
      have hne : u ≠ v := fun he => hnd.1 (he ▸ hv)
      rw [batchPre]
      rw [show ({ st with loc := { st.loc with items := ainsert u ⟨r.data, .Synced r.tag⟩ st.loc.items }, log := st.log ++ [.addItemLocal u] } : PairState).loc.items = ainsert u ⟨r.data, .Synced r.tag⟩ st.loc.items from rfl]
      rw [alookup_ainsert_ne u v _ st.loc.items hne]
      exact hloc v (List.mem_cons_of_mem _ hv)
    | RemoteChanges =>
      rw [batchPre] at hpre
      simp only [apply_one_item]
      rw [if_pos hpre]
      refine ih { st with loc := { st.loc with items := ainsert u ⟨r.data, .Synced r.tag⟩ st.loc.items }, log := st.log ++ [.updateItemLocal u] } hnd.2 (fun v hv => hrem v (List.mem_cons_of_mem _ hv)) ?_
      intro v hv
      have hne : u ≠ v := fun he => hnd.1 (he ▸ hv)
      rw [batchPre]
      rw [show ({ st with loc := { st.loc with items := ainsert u ⟨r.data, .Synced r.tag⟩ st.loc.items }, log := st.log ++ [.updateItemLocal u] } : PairState).loc.items = ainsert u ⟨r.data, .Synced r.tag⟩ st.loc.items from rfl]
      rw [alookup_ainsert_ne u v _ st.loc.items hne]
      exact hloc v (List.mem_cons_of_mem _ hv)

theorem foldl_fetch_noerr (bt : BatchDownloadType) (bs : List (List Url)) :
    ∀ st : PairState, bs.flatten.Nodup →
      (∀ u ∈ bs.flatten, (alookup st.rem.items u).isSome = true) →
      (∀ u ∈ bs.flatten, batchPre bt st u) →
      ((bs.foldl (fun s batch => fetch_batch_and_apply_items bt Faults.noFaults batch s) st)).prog.nErrors = st.prog.nErrors := by
  induction bs with
  | nil =>
    intro st _ _ _
    rfl
  | cons b rest ih =>
    intro st hnd hrem hloc
    rw [List.flatten_cons, List.nodup_append] at hnd
    rw [List.foldl_cons, fetch_batch_eq,
      if_pos (show Faults.noFaults.get_items_by_url st.rem.url b = true from rfl)]
    have hb : ∀ u ∈ b, u ∈ (b :: rest).flatten := by
      intro u hu
      rw [List.flatten_cons, List.mem_append]
      exact Or.inl hu
    have hrest : ∀ u ∈ rest.flatten, u ∈ (b :: rest).flatten := by
      intro u hu
      rw [List.flatten_cons, List.mem_append]
      exact Or.inr hu
    have hstep : (apply_items_list bt st.rem b st).prog.nErrors = st.prog.nErrors :=
      apply_items_list_noerr bt st.rem b st hnd.1
        (fun u hu => hrem u (hb u hu)) (fun u hu => hloc u (hb u hu))
    have hfr := apply_items_list_frame bt st.rem b st
    refine (ih (apply_items_list bt st.rem b st) hnd.2.1 ?_ ?_).trans hstep
    · intro u hu
      rw [hfr.2]
      exact hrem u (hrest u hu)
    · intro u hu
      have hub : u ∉ b := fun hin => hnd.2.2 hin hu
      cases bt with
      | RemoteAdditions =>
        rw [batchPre, apply_items_list_not_mem .RemoteAdditions st.rem b st u hub]
        exact hloc u (hrest u hu)
      | RemoteChanges =>
        rw [batchPre, apply_items_list_not_mem .RemoteChanges st.rem b st u hub]
        exact hloc u (hrest u hu)

theorem apply_remote_items_batched_noerr (bt : BatchDownloadType) (n : Nat)
    (urls : List Url) (st : PairState) (hnd : urls.Nodup)
    (hrem : ∀ u ∈ urls, (alookup st.rem.items u).isSome = true)
    (hloc : ∀ u ∈ urls, batchPre bt st u) :
    (apply_remote_items_batched bt Faults.noFaults n urls st).prog.nErrors =
      st.prog.nErrors := by
  rw [apply_remote_items_batched]
  refine foldl_fetch_noerr bt (chunkList n urls) st ?_ ?_ ?_
  · rw [chunkList_flatten]
    exact hnd
  · rw [chunkList_flatten]
    exact hrem
  · rw [chunkList_flatten]
    exact hloc

theorem commit_local_item_additions_noerr (putTag : Url → String → VersionTag)
    (adds : List Url) :
    ∀ st : PairState,
      (∀ u ∈ adds, (alookup st.loc.items u).isSome = true) →
      (commit_local_item_additions Faults.noFaults putTag adds st).prog.nErrors =
        st.prog.nErrors := by
  induction adds with
  | nil =>
    intro st _
    rfl
  | cons url rest ih =>
    intro st h
    have hiso := h url (List.mem_cons_self _ _)
    rw [Option.isSome_iff_exists] at hiso
    obtain ⟨it, hit⟩ := hiso
    simp only [commit_local_item_additions, hit,
      if_pos (show Faults.noFaults.add_item url = true from rfl)]
    refine ih { st with loc := { st.loc with items := ainsert url { it with ss := .Synced (putTag url it.data) } st.loc.items }, rem := { st.rem with items := ainsert url ⟨it.data, putTag url it.data⟩ st.rem.items }, log := st.log ++ [.addItemRemote url] } ?_
    intro u hu
    rw [show ({ st with loc := { st.loc with items := ainsert url { it with ss := .Synced (putTag url it.data) } st.loc.items }, rem := { st.rem with items := ainsert url ⟨it.data, putTag url it.data⟩ st.rem.items }, log := st.log ++ [.addItemRemote url] } : PairState).loc.items = ainsert url { it with ss := .Synced (putTag url it.data) } st.loc.items from rfl]
    by_cases hne : url = u
    · rw [← hne, alookup_ainsert_self]
      rfl
    · rw [alookup_ainsert_ne url u _ st.loc.items hne]
      exact h u (List.mem_cons_of_mem _ hu)

theorem commit_local_item_changes_noerr (putTag : Url → String → VersionTag)
    (chgs : List Url) :
    ∀ st : PairState, chgs.Nodup →
      (∀ u ∈ chgs, ∃ it, alookup st.loc.items u = some it ∧
        can_update_remote it.ss = true) →
      (commit_local_item_changes Faults.noFaults putTag chgs st).prog.nErrors =
        st.prog.nErrors := by
  induction chgs with
  | nil =>
    intro st _ _
    rfl
  | cons url rest ih =>
    intro st hnd h
    rw [List.nodup_cons] at hnd
    obtain ⟨it, hit, hcan⟩ := h url (List.mem_cons_self _ _)
    simp only [commit_local_item_changes, hit]
    rw [if_pos (by rw [hcan]; rfl)]
    refine ih { st with loc := { st.loc with items := ainsert url { it with ss := .Synced (putTag url it.data) } st.loc.items }, rem := { st.rem with items := ainsert url ⟨it.data, putTag url it.data⟩ st.rem.items }, log := st.log ++ [.updateItemRemote url] } hnd.2 ?_
    intro u hu
    have hne : url ≠ u := fun he => hnd.1 (he ▸ hu)
    rw [show ({ st with loc := { st.loc with items := ainsert url { it with ss := .Synced (putTag url it.data) } st.loc.items }, rem := { st.rem with items := ainsert url ⟨it.data, putTag url it.data⟩ st.rem.items }, log := st.log ++ [.updateItemRemote url] } : PairState).loc.items = ainsert url { it with ss := .Synced (putTag url it.data) } st.loc.items from rfl]
    rw [alookup_ainsert_ne url u _ st.loc.items hne]
    exact h u (List.mem_cons_of_mem _ hu)



theorem commit_local_prop_dels_noerr (dels : List NamespacedName) :
    ∀ st : PairState, dels.Nodup →
      (∀ nn ∈ dels, (alookup st.loc.properties nn).isSome = true) →
      (commit_local_prop_dels Faults.noFaults dels st).prog.nErrors = st.prog.nErrors := by
  induction dels with
  | nil =>
    intro st _ _
    rfl
  | cons nsn rest ih =>
    intro st hnd h
    rw [List.nodup_cons] at hnd
    have hiso := h nsn (List.mem_cons_self _ _)
    rw [Option.isSome_iff_exists] at hiso
    obtain ⟨p, hp⟩ := hiso
    simp only [commit_local_prop_dels,
      if_pos (show Faults.noFaults.delete_property nsn = true from rfl), hp]
    refine (ih { st with loc := { st.loc with properties := aerase nsn st.loc.properties }, rem := { st.rem with props := aerase nsn st.rem.props }, log := st.log ++ [.deletePropRemote nsn, .deletePropLocal nsn] } hnd.2 ?_)
    intro nn hn
    have hne : nsn ≠ nn := fun he => hnd.1 (he ▸ hn)
    rw [show ({ st with loc := { st.loc with properties := aerase nsn st.loc.properties }, rem := { st.rem with props := aerase nsn st.rem.props }, log := st.log ++ [.deletePropRemote nsn, .deletePropLocal nsn] } : PairState).loc.properties = aerase nsn st.loc.properties from rfl]
    rw [alookup_aerase_ne nsn nn st.loc.properties hne]
    exact h nn (List.mem_cons_of_mem _ hn)

theorem commit_remote_prop_dels_noerr (dels : List NamespacedName) :
    ∀ st : PairState, dels.Nodup →
      (∀ nn ∈ dels, (alookup st.loc.properties nn).isSome = true) →
      (commit_remote_prop_dels dels st).prog.nErrors = st.prog.nErrors := by
  induction dels with
  | nil =>
    intro st _ _
    rfl
  | cons nsn rest ih =>
    intro st hnd h
    rw [List.nodup_cons] at hnd
    have hiso := h nsn (List.mem_cons_self _ _)
    rw [Option.isSome_iff_exists] at hiso
    obtain ⟨p, hp⟩ := hiso
    simp only [commit_remote_prop_dels, hp]
    refine (ih { st with loc := { st.loc with properties := aerase nsn st.loc.properties }, log := st.log ++ [.deletePropLocal nsn] } hnd.2 ?_)
    intro nn hn
    have hne : nsn ≠ nn := fun he => hnd.1 (he ▸ hn)
    rw [show ({ st with loc := { st.loc with properties := aerase nsn st.loc.properties }, log := st.log ++ [.deletePropLocal nsn] } : PairState).loc.properties = aerase nsn st.loc.properties from rfl]
    rw [alookup_aerase_ne nsn nn st.loc.properties hne]
    exact h nn (List.mem_cons_of_mem _ hn)

/-- The per-name precondition for applying downloaded properties. -/
def batchPreP (bt : BatchDownloadType) (st : PairState) (nn : NamespacedName) : Prop :=
  match bt with
  | .RemoteAdditions => alookup st.loc.properties nn = none
  | .RemoteChanges => (alookup st.loc.properties nn).isSome = true

theorem apply_props_list_noerr (bt : BatchDownloadType) (batch : List Property) :
    ∀ st : PairState, (batch.map Property.nsn).Nodup →
      (∀ p ∈ batch, batchPreP bt st p.nsn) →
      (apply_props_list bt batch st).prog.nErrors = st.prog.nErrors := by
  induction batch with
  | nil =>
    intro st _ _
    rfl
  | cons q rest ih =>
    intro st hnd hloc
    rw [List.map_cons, List.nodup_cons] at hnd
    rw [apply_props_list_cons]
    have hpre := hloc q (List.mem_cons_self _ _)
    cases bt with
    | RemoteAdditions =>
      rw [batchPreP] at hpre
      simp only [apply_one_prop]
      rw [if_neg (by rw [hpre]; simp)]
      refine ih { st with loc := { st.loc with properties := ainsert q.nsn q.mark_synced_to_self st.loc.properties }, log := st.log ++ [.addPropLocal q.nsn] } hnd.2 ?_
      intro p hp
      have hne : q.nsn ≠ p.nsn := fun he =>
        hnd.1 (he ▸ List.mem_map_of_mem Property.nsn hp)
      rw [batchPreP]
      rw [show ({ st with loc := { st.loc with properties := ainsert q.nsn q.mark_synced_to_self st.loc.properties }, log := st.log ++ [.addPropLocal q.nsn] } : PairState).loc.properties = ainsert q.nsn q.mark_synced_to_self st.loc.properties from rfl]
      rw [alookup_ainsert_ne q.nsn p.nsn _ st.loc.properties hne]
      exact hloc p (List.mem_cons_of_mem _ hp)
    | RemoteChanges =>
      rw [batchPreP] at hpre
      simp only [apply_one_prop]
      rw [if_pos hpre]
      refine ih { st with loc := { st.loc with properties := ainsert q.nsn q.mark_synced_to_self st.loc.properties }, log := st.log ++ [.updatePropLocal q.nsn] } hnd.2 ?_
      intro p hp
      have hne : q.nsn ≠ p.nsn := fun he =>
        hnd.1 (he ▸ List.mem_map_of_mem Property.nsn hp)
      rw [batchPreP]
      rw [show ({ st with loc := { st.loc with properties := ainsert q.nsn q.mark_synced_to_self st.loc.properties }, log := st.log ++ [.updatePropLocal q.nsn] } : PairState).loc.properties = ainsert q.nsn q.mark_synced_to_self st.loc.properties from rfl]
      rw [alookup_ainsert_ne q.nsn p.nsn _ st.loc.properties hne]
      exact hloc p (List.mem_cons_of_mem _ hp)

theorem foldl_props_noerr (bt : BatchDownloadType) (bs : List (List Property)) :
    ∀ st : PairState, (bs.flatten.map Property.nsn).Nodup →
      (∀ p ∈ bs.flatten, batchPreP bt st p.nsn) →
      ((bs.foldl (fun s b => apply_props_list bt b s) st)).prog.nErrors = st.prog.nErrors := by
  induction bs with
  | nil =>
    intro st _ _
    rfl
  | cons b rest ih =>
    intro st hnd hloc
    rw [List.flatten_cons, List.map_append, List.nodup_append] at hnd
    rw [List.foldl_cons]
    have hb : ∀ p ∈ b, p ∈ (b :: rest).flatten := by
      intro p hp
      rw [List.flatten_cons, List.mem_append]
      exact Or.inl hp
    have hrest : ∀ p ∈ rest.flatten, p ∈ (b :: rest).flatten := by
      intro p hp
      rw [List.flatten_cons, List.mem_append]
      exact Or.inr hp
    have hstep : (apply_props_list bt b st).prog.nErrors = st.prog.nErrors :=
      apply_props_list_noerr bt b st hnd.1 (fun p hp => hloc p (hb p hp))
    refine (ih (apply_props_list bt b st) hnd.2.1 ?_).trans hstep
    intro p hp
    have hpb : p.nsn ∉ b.map Property.nsn := fun hin =>
      hnd.2.2 hin (List.mem_map_of_mem Property.nsn hp)
    cases bt with
    | RemoteAdditions =>
      rw [batchPreP, apply_props_list_not_mem .RemoteAdditions b st p.nsn hpb]
      exact hloc p (hrest p hp)
    | RemoteChanges =>
      rw [batchPreP, apply_props_list_not_mem .RemoteChanges b st p.nsn hpb]
      exact hloc p (hrest p hp)

theorem apply_remote_props_batched_noerr (bt : BatchDownloadType) (n : Nat)
    (props : List Property) (st : PairState)
    (hnd : (props.map Property.nsn).Nodup)
    (hloc : ∀ p ∈ props, batchPreP bt st p.nsn) :
    (apply_remote_props_batched bt n props st).prog.nErrors = st.prog.nErrors := by
  rw [props_batched_eq]
  refine foldl_props_noerr bt (chunkList n props) st ?_ ?_
  · rw [chunkList_flatten]
    exact hnd
  · rw [chunkList_flatten]
    exact hloc

theorem commit_local_prop_additions_noerr (props : List Property) :
    ∀ st : PairState,
      (∀ p ∈ props, (alookup st.loc.properties p.nsn).isSome = true) →
      (commit_local_prop_additions Faults.noFaults props st).prog.nErrors =
        st.prog.nErrors := by
  induction props with
  | nil =>
    intro st _
    rfl
  | cons q rest ih =>
    intro st h
    have hiso := h q (List.mem_cons_self _ _)
    rw [Option.isSome_iff_exists] at hiso
    obtain ⟨lp, hlp⟩ := hiso
    simp only [commit_local_prop_additions, hlp,
      if_pos (show Faults.noFaults.set_property q.nsn = true from rfl)]
    refine ih { st with loc := { st.loc with properties := ainsert q.nsn { lp with sync_status := .Synced lp.value } st.loc.properties }, rem := { st.rem with props := ainsert q.nsn lp.value st.rem.props }, log := st.log ++ [.setPropRemote q.nsn] } ?_
    intro p hp
    rw [show ({ st with loc := { st.loc with properties := ainsert q.nsn { lp with sync_status := .Synced lp.value } st.loc.properties }, rem := { st.rem with props := ainsert q.nsn lp.value st.rem.props }, log := st.log ++ [.setPropRemote q.nsn] } : PairState).loc.properties = ainsert q.nsn { lp with sync_status := .Synced lp.value } st.loc.properties from rfl]
    by_cases hne : q.nsn = p.nsn
    · rw [← hne, alookup_ainsert_self]
      rfl
    · rw [alookup_ainsert_ne q.nsn p.nsn _ st.loc.properties hne]
      exact h p (List.mem_cons_of_mem _ hp)

theorem commit_local_prop_changes_noerr (names : List NamespacedName) :
    ∀ st : PairState,
      (∀ nn ∈ names, (alookup st.loc.properties nn).isSome = true) →
      (commit_local_prop_changes Faults.noFaults names st).prog.nErrors =
        st.prog.nErrors := by
  induction names with
  | nil =>
    intro st _
    rfl
  | cons nsn rest ih =>
    intro st h
    have hiso := h nsn (List.mem_cons_self _ _)
    rw [Option.isSome_iff_exists] at hiso
    obtain ⟨lp, hlp⟩ := hiso
    simp only [commit_local_prop_changes, hlp,
      if_pos (show Faults.noFaults.set_property nsn = true from rfl)]
    refine ih { st with loc := { st.loc with properties := ainsert nsn { lp with sync_status := .Synced lp.value } st.loc.properties }, rem := { st.rem with props := ainsert nsn lp.value st.rem.props }, log := st.log ++ [.setPropRemote nsn] } ?_
    intro nn hn
    rw [show ({ st with loc := { st.loc with properties := ainsert nsn { lp with sync_status := .Synced lp.value } st.loc.properties }, rem := { st.rem with props := ainsert nsn lp.value st.rem.props }, log := st.log ++ [.setPropRemote nsn] } : PairState).loc.properties = ainsert nsn { lp with sync_status := .Synced lp.value } st.loc.properties from rfl]
    by_cases hne : nsn = nn
    · rw [← hne, alookup_ainsert_self]
      rfl
    · rw [alookup_ainsert_ne nsn nn _ st.loc.properties hne]
      exact h nn (List.mem_cons_of_mem _ hn)



theorem scan_items_th_nodup (L : List (Url × LocalItem)) :
    ∀ (R : List (Url × VersionTag)) (th : List Url) (acc : ItemChanges)
      (prog : SyncProgress), th.Nodup →
      (scan_remote_items L R th acc prog).2.1.Nodup := by
  intro R
  induction R with
  | nil =>
    intro th acc prog h
    exact h
  | cons e rest ih =>
    obtain ⟨url, rt⟩ := e
    intro th acc prog h
    cases hl : alookup L url with
    | none =>
      simp only [scan_remote_items, hl]
      exact ih th _ _ h
    | some item =>
      obtain ⟨d, ss⟩ := item
      cases ss <;> simp only [scan_remote_items, hl] <;> (try split_ifs) <;>
        exact ih (th.erase url) _ _ (h.erase url)

/-- The first item loop keeps the four sets it fills duplicate-free. -/
theorem scan_items_nodup (L : List (Url × LocalItem)) :
    ∀ (R : List (Url × VersionTag)) (th : List Url) (acc : ItemChanges)
      (prog : SyncProgress),
      (akeys R).Nodup →
      (∀ u ∈ akeys R, u ∉ acc.local_item_dels ∧ u ∉ acc.local_item_changes ∧
        u ∉ acc.remote_item_changes ∧ u ∉ acc.remote_item_additions) →
      acc.local_item_dels.Nodup → acc.local_item_changes.Nodup →
      acc.remote_item_changes.Nodup → acc.remote_item_additions.Nodup →
      (scan_remote_items L R th acc prog).1.local_item_dels.Nodup ∧
        (scan_remote_items L R th acc prog).1.local_item_changes.Nodup ∧
        (scan_remote_items L R th acc prog).1.remote_item_changes.Nodup ∧
        (scan_remote_items L R th acc prog).1.remote_item_additions.Nodup := by
  intro R
  induction R with
  | nil =>
    intro th acc prog _ _ h1 h2 h3 h4
    exact ⟨h1, h2, h3, h4⟩
  | cons e rest ih =>
    obtain ⟨url, rt⟩ := e
    intro th acc prog hndR hacc h1 h2 h3 h4
    rw [akeys, List.map_cons, List.nodup_cons] at hndR
    have hself := hacc url (by rw [akeys, List.map_cons]; exact List.mem_cons_self _ _)
    have hacc2 : ∀ X : List Url, ∀ u ∈ akeys rest, u ∉ X → u ∉ url :: X := by
      intro X u hu hX
      rw [List.mem_cons]
      rintro (h | h)
      · exact hndR.1 (h ▸ hu)
      · exact hX h
    have haccr : ∀ u ∈ akeys rest, u ∉ acc.local_item_dels ∧ u ∉ acc.local_item_changes ∧
        u ∉ acc.remote_item_changes ∧ u ∉ acc.remote_item_additions := by
      intro u hu
      exact hacc u (by rw [akeys, List.map_cons]; exact List.mem_cons_of_mem _ hu)
    cases hl : alookup L url with
    | none =>
      simp only [scan_remote_items, hl]
      refine ih th _ _ hndR.2 ?_ h1 h2 h3 (List.nodup_cons.mpr ⟨hself.2.2.2, h4⟩)
      intro u hu
      exact ⟨(haccr u hu).1, (haccr u hu).2.1, (haccr u hu).2.2.1,
        hacc2 _ u hu (haccr u hu).2.2.2⟩
    | some item =>
      obtain ⟨d, ss⟩ := item
      have haccRC : ∀ u ∈ akeys rest, u ∉ acc.local_item_dels ∧
          u ∉ acc.local_item_changes ∧ u ∉ url :: acc.remote_item_changes ∧
          u ∉ acc.remote_item_additions := fun u hu =>
        ⟨(haccr u hu).1, (haccr u hu).2.1, hacc2 _ u hu (haccr u hu).2.2.1,
          (haccr u hu).2.2.2⟩
      cases ss with
      | NotSynced =>
        simp only [scan_remote_items, hl]
        split_ifs <;> exact ih (th.erase url) _ _ hndR.2 haccr h1 h2 h3 h4
      | Synced lt =>
        simp only [scan_remote_items, hl]
        split_ifs <;>
          first
          | exact ih (th.erase url) _ _ hndR.2 haccRC h1 h2
              (List.nodup_cons.mpr ⟨hself.2.2.1, h3⟩) h4
          | exact ih (th.erase url) _ _ hndR.2 haccr h1 h2 h3 h4
      | LocallyModified lt =>
        simp only [scan_remote_items, hl]
        split_ifs <;>
          first
          | exact ih (th.erase url) _ _ hndR.2
              (fun u hu => ⟨(haccr u hu).1, hacc2 _ u hu (haccr u hu).2.1,
                (haccr u hu).2.2.1, (haccr u hu).2.2.2⟩) h1
              (List.nodup_cons.mpr ⟨hself.2.1, h2⟩) h3 h4
          | exact ih (th.erase url) _ _ hndR.2 haccRC h1 h2
              (List.nodup_cons.mpr ⟨hself.2.2.1, h3⟩) h4
      | LocallyDeleted lt =>
        simp only [scan_remote_items, hl]
        split_ifs <;>
          first
          | exact ih (th.erase url) _ _ hndR.2
              (fun u hu => ⟨hacc2 _ u hu (haccr u hu).1, (haccr u hu).2.1,
                (haccr u hu).2.2.1, (haccr u hu).2.2.2⟩)
              (List.nodup_cons.mpr ⟨hself.1, h1⟩) h2 h3 h4
          | exact ih (th.erase url) _ _ hndR.2 haccRC h1 h2
              (List.nodup_cons.mpr ⟨hself.2.2.1, h3⟩) h4

/-- The leftover item loop keeps the two sets it fills duplicate-free. -/
theorem leftover_items_nodup (L : List (Url × LocalItem)) :
    ∀ (th : List Url) (acc : ItemChanges) (prog : SyncProgress), th.Nodup →
      (∀ u ∈ th, u ∉ acc.remote_item_dels ∧ u ∉ acc.local_item_additions) →
      acc.remote_item_dels.Nodup → acc.local_item_additions.Nodup →
      (handle_leftover_local_items L th acc prog).1.remote_item_dels.Nodup ∧
        (handle_leftover_local_items L th acc prog).1.local_item_additions.Nodup := by
  intro th
  induction th with
  | nil =>
    intro acc prog _ _ h1 h2
    exact ⟨h1, h2⟩
  | cons url rest ih =>
    intro acc prog hnd hacc h1 h2
    rw [List.nodup_cons] at hnd
    have hself := hacc url (List.mem_cons_self _ _)
    have haccr : ∀ u ∈ rest, u ∉ acc.remote_item_dels ∧ u ∉ acc.local_item_additions :=
      fun u hu => hacc u (List.mem_cons_of_mem _ hu)
    have hacc2 : ∀ X : List Url, ∀ u ∈ rest, u ∉ X → u ∉ url :: X := by
      intro X u hu hX
      rw [List.mem_cons]
      rintro (h | h)
      · exact hnd.1 (h ▸ hu)
      · exact hX h
    cases hl : alookup L url with
    | none =>
      simp only [handle_leftover_local_items, hl]
      exact ih _ _ hnd.2 haccr h1 h2
    | some item =>
      obtain ⟨d, ss⟩ := item
      cases ss with
      | NotSynced =>
        simp only [handle_leftover_local_items, hl]
        refine ih _ _ hnd.2 ?_ h1 (List.nodup_cons.mpr ⟨hself.2, h2⟩)
        intro u hu
        exact ⟨(haccr u hu).1, hacc2 _ u hu (haccr u hu).2⟩
      | Synced lt =>
        simp only [handle_leftover_local_items, hl]
        refine ih _ _ hnd.2 ?_ (List.nodup_cons.mpr ⟨hself.1, h1⟩) h2
        intro u hu
        exact ⟨hacc2 _ u hu (haccr u hu).1, (haccr u hu).2⟩
      | LocallyModified lt =>
        simp only [handle_leftover_local_items, hl]
        refine ih _ _ hnd.2 ?_ (List.nodup_cons.mpr ⟨hself.1, h1⟩) h2
        intro u hu
        exact ⟨hacc2 _ u hu (haccr u hu).1, (haccr u hu).2⟩
      | LocallyDeleted lt =>
        simp only [handle_leftover_local_items, hl]
        refine ih _ _ hnd.2 ?_ (List.nodup_cons.mpr ⟨hself.1, h1⟩) h2
        intro u hu
        exact ⟨hacc2 _ u hu (haccr u hu).1, (haccr u hu).2⟩

/-- All six item delta sets are duplicate-free. -/
theorem calculate_item_changes_nodup (L : List (Url × LocalItem))
    (R : List (Url × VersionTag)) (prog : SyncProgress)
    (hndL : (akeys L).Nodup) (hndR : (akeys R).Nodup) :
    (calculate_item_changes L R prog).1.local_item_dels.Nodup ∧
    (calculate_item_changes L R prog).1.local_item_changes.Nodup ∧
    (calculate_item_changes L R prog).1.remote_item_changes.Nodup ∧
    (calculate_item_changes L R prog).1.remote_item_additions.Nodup ∧
    (calculate_item_changes L R prog).1.remote_item_dels.Nodup ∧
    (calculate_item_changes L R prog).1.local_item_additions.Nodup := by
  have hscan := scan_items_nodup L R (akeys L) ItemChanges.empty prog hndR
    (by intro u _; exact ⟨List.not_mem_nil u, List.not_mem_nil u, List.not_mem_nil u,
      List.not_mem_nil u⟩)
    List.nodup_nil List.nodup_nil List.nodup_nil List.nodup_nil
  have hth := scan_items_th_nodup L R (akeys L) ItemChanges.empty prog hndL
  have hleft := leftover_items_nodup L
    (scan_remote_items L R (akeys L) ItemChanges.empty prog).2.1
    (scan_remote_items L R (akeys L) ItemChanges.empty prog).1
    (scan_remote_items L R (akeys L) ItemChanges.empty prog).2.2 hth
    (by
      intro u _
      rw [scan_remote_item_dels_frame, scan_local_item_additions_frame]
      exact ⟨List.not_mem_nil u, List.not_mem_nil u⟩)
    (by rw [scan_remote_item_dels_frame]; exact List.nodup_nil)
    (by rw [scan_local_item_additions_frame]; exact List.nodup_nil)
  rw [calculate_item_changes]
  refine ⟨?_, ?_, ?_, ?_, hleft.1, hleft.2⟩
  · rw [leftover_local_item_dels_frame]
    exact hscan.1
  · rw [leftover_local_item_changes_frame]
    exact hscan.2.1
  · rw [leftover_remote_item_changes_frame]
    exact hscan.2.2.1
  · rw [leftover_remote_item_additions_frame]
    exact hscan.2.2.2



/-- The first property loop keeps the sets it fills duplicate-free (by
remote-property name). -/
theorem scan_props_nodup (P : List (NamespacedName × Property))
    (hco : ∀ e ∈ P, e.2.nsn = e.1) :
    ∀ (RP : List Property) (th : List (NamespacedName × Property)) (acc : PropChanges)
      (prog : SyncProgress),
      (RP.map Property.nsn).Nodup →
      (∀ nn ∈ RP.map Property.nsn, nn ∉ acc.local_prop_dels ∧
        nn ∉ acc.remote_prop_changes.map Property.nsn ∧
        nn ∉ acc.remote_prop_additions.map Property.nsn) →
      acc.local_prop_dels.Nodup → (acc.remote_prop_changes.map Property.nsn).Nodup →
      (acc.remote_prop_additions.map Property.nsn).Nodup →
      (scan_remote_props P RP th acc prog).1.local_prop_dels.Nodup ∧
        ((scan_remote_props P RP th acc prog).1.remote_prop_changes.map Property.nsn).Nodup ∧
        ((scan_remote_props P RP th acc prog).1.remote_prop_additions.map Property.nsn).Nodup := by
  intro RP
  induction RP with
  | nil =>
    intro th acc prog _ _ h1 h2 h3
    exact ⟨h1, h2, h3⟩
  | cons rp rest ih =>
    intro th acc prog hndR hacc h1 h2 h3
    rw [List.map_cons, List.nodup_cons] at hndR
    have hself := hacc rp.nsn (by rw [List.map_cons]; exact List.mem_cons_self _ _)
    have haccr : ∀ nn ∈ rest.map Property.nsn, nn ∉ acc.local_prop_dels ∧
        nn ∉ acc.remote_prop_changes.map Property.nsn ∧
        nn ∉ acc.remote_prop_additions.map Property.nsn := by
      intro nn hn
      exact hacc nn (by rw [List.map_cons]; exact List.mem_cons_of_mem _ hn)
    have hacc2 : ∀ X : List NamespacedName, ∀ nn ∈ rest.map Property.nsn,
        nn ∉ X → nn ∉ rp.nsn :: X := by
      intro X nn hn hX
      rw [List.mem_cons]
      rintro (h | h)
      · exact hndR.1 (h ▸ hn)
      · exact hX h
    have haccRC : ∀ nn ∈ rest.map Property.nsn, nn ∉ acc.local_prop_dels ∧
        nn ∉ (rp :: acc.remote_prop_changes).map Property.nsn ∧
        nn ∉ acc.remote_prop_additions.map Property.nsn := by
      intro nn hn
      rw [List.map_cons]
      exact ⟨(haccr nn hn).1, hacc2 _ nn hn (haccr nn hn).2.1, (haccr nn hn).2.2⟩
    have hndRC : ((rp :: acc.remote_prop_changes).map Property.nsn).Nodup := by
      rw [List.map_cons]
      exact List.nodup_cons.mpr ⟨hself.2.1, h2⟩
    cases hl : alookup P rp.nsn with
    | none =>
      simp only [scan_remote_props, hl]
      refine ih th _ _ hndR.2 ?_ h1 h2 (by rw [List.map_cons]; exact List.nodup_cons.mpr ⟨hself.2.2, h3⟩)
      intro nn hn
      rw [List.map_cons]
      exact ⟨(haccr nn hn).1, (haccr nn hn).2.1, hacc2 _ nn hn (haccr nn hn).2.2⟩
    | some local_prop =>
      have hlpn : local_prop.nsn = rp.nsn := hco _ (alookup_mem hl)
      cases hss : local_prop.sync_status with
      | NotSynced =>
        simp only [scan_remote_props, hl, hss]
        split_ifs <;> exact ih (aerase rp.nsn th) _ _ hndR.2 haccr h1 h2 h3
      | Synced lt =>
        simp only [scan_remote_props, hl, hss]
        split_ifs <;>
          first
          | exact ih (aerase rp.nsn th) _ _ hndR.2 haccRC h1 hndRC h3
          | exact ih (aerase rp.nsn th) _ _ hndR.2 haccr h1 h2 h3
      | LocallyModified lt =>
        simp only [scan_remote_props, hl, hss]
        split_ifs <;>
          first
          | exact ih (aerase rp.nsn th) _ _ hndR.2 haccr h1 h2 h3
          | exact ih (aerase rp.nsn th) _ _ hndR.2 haccRC h1 hndRC h3
      | LocallyDeleted lt =>
        simp only [scan_remote_props, hl, hss]
        split_ifs <;>
          first
          | exact ih (aerase rp.nsn th) _ _ hndR.2
              (fun nn hn => ⟨by rw [hlpn]; exact hacc2 _ nn hn (haccr nn hn).1,
                (haccr nn hn).2.1, (haccr nn hn).2.2⟩)
              (by rw [hlpn]; exact List.nodup_cons.mpr ⟨hself.1, h1⟩) h2 h3
          | exact ih (aerase rp.nsn th) _ _ hndR.2 haccRC h1 hndRC h3

/-- The leftover property loop keeps `remote_prop_dels` duplicate-free. -/
theorem leftover_props_nodup :
    ∀ (th : List (NamespacedName × Property)) (acc : PropChanges) (prog : SyncProgress),
      (akeys th).Nodup →
      (∀ e ∈ th, e.1 ∉ acc.remote_prop_dels) →
      acc.remote_prop_dels.Nodup →
      (handle_leftover_local_props th acc prog).1.remote_prop_dels.Nodup := by
  intro th
  induction th with
  | nil =>
    intro acc prog _ _ h1
    exact h1
  | cons e rest ih =>
    obtain ⟨nsn, local_prop⟩ := e
    intro acc prog hnd hacc h1
    rw [akeys, List.map_cons, List.nodup_cons] at hnd
    have hself := hacc (nsn, local_prop) (List.mem_cons_self _ _)
    have haccr : ∀ e ∈ rest, e.1 ∉ acc.remote_prop_dels :=
      fun e he => hacc e (List.mem_cons_of_mem _ he)
    have hacc2 : ∀ e ∈ rest, e.1 ∉ nsn :: acc.remote_prop_dels := by
      intro e he hX
      rw [List.mem_cons] at hX
      rcases hX with h | h
      · have hmm : e.1 ∈ akeys rest := List.mem_map_of_mem Prod.fst he
        rw [h] at hmm
        exact hnd.1 hmm
      · exact haccr e he h
    cases hss : local_prop.sync_status with
    | NotSynced =>
      simp only [handle_leftover_local_props, hss]
      exact ih _ _ hnd.2 haccr h1
    | Synced lt =>
      simp only [handle_leftover_local_props, hss]
      exact ih _ _ hnd.2 hacc2 (List.nodup_cons.mpr ⟨hself, h1⟩)
    | LocallyModified lt =>
      simp only [handle_leftover_local_props, hss]
      exact ih _ _ hnd.2 hacc2 (List.nodup_cons.mpr ⟨hself, h1⟩)
    | LocallyDeleted lt =>
      simp only [handle_leftover_local_props, hss]
      exact ih _ _ hnd.2 hacc2 (List.nodup_cons.mpr ⟨hself, h1⟩)

/-- The property delta sets relevant to the commit loops are
duplicate-free. -/
theorem calculate_prop_changes_nodup (P : List (NamespacedName × Property))
    (RP : List Property) (prog : SyncProgress)
    (hndP : (akeys P).Nodup) (hco : ∀ e ∈ P, e.2.nsn = e.1)
    (hndRP : (RP.map Property.nsn).Nodup) :
    (calculate_prop_changes P RP prog).1.local_prop_dels.Nodup ∧
    ((calculate_prop_changes P RP prog).1.remote_prop_changes.map Property.nsn).Nodup ∧
    ((calculate_prop_changes P RP prog).1.remote_prop_additions.map Property.nsn).Nodup ∧
    (calculate_prop_changes P RP prog).1.remote_prop_dels.Nodup := by
  have hscan := scan_props_nodup P hco RP P PropChanges.empty prog hndRP
    (by intro nn _; exact ⟨List.not_mem_nil nn, List.not_mem_nil nn, List.not_mem_nil nn⟩)
    List.nodup_nil List.nodup_nil List.nodup_nil
  have hth := scan_props_th_nodup P RP P PropChanges.empty prog hndP
  have hleft := leftover_props_nodup
    (scan_remote_props P RP P PropChanges.empty prog).2.1
    (scan_remote_props P RP P PropChanges.empty prog).1
    (scan_remote_props P RP P PropChanges.empty prog).2.2 hth
    (by
      intro e _
      rw [scan_remote_prop_dels_frame]
      exact List.not_mem_nil e.1)
    (by rw [scan_remote_prop_dels_frame]; exact List.nodup_nil)
  rw [calculate_prop_changes]
  refine ⟨?_, ?_, ?_, hleft⟩
  · rw [leftover_local_prop_dels_frame]
    exact hscan.1
  · rw [leftover_remote_prop_changes_frame]
    exact hscan.2.1
  · rw [leftover_remote_prop_additions_frame]
    exact hscan.2.2



/-- Error-free batched property application overwrites each listed name with
the downloaded property marked synced-to-itself. -/
theorem apply_props_list_exact (bt : BatchDownloadType) (batch : List Property) :
    ∀ st : PairState,
      (apply_props_list bt batch st).prog.nErrors = st.prog.nErrors →
      ∀ nn ∈ batch.map Property.nsn,
        ∃ q ∈ batch, q.nsn = nn ∧
          alookup (apply_props_list bt batch st).loc.properties nn =
            some q.mark_synced_to_self := by
  induction batch with
  | nil =>
    intro st _ nn hn
    exact absurd hn (List.not_mem_nil nn)
  | cons q rest ih =>
    intro st heq nn hn
    rw [apply_props_list_cons] at heq ⊢
    have l1 : st.prog.nErrors ≤ (apply_one_prop bt st q).prog.nErrors :=
      apply_one_prop_prog_le bt st q
    have l2 : (apply_one_prop bt st q).prog.nErrors ≤
        (apply_props_list bt rest (apply_one_prop bt st q)).prog.nErrors :=
      apply_props_list_prog_le bt rest (apply_one_prop bt st q)
    have estep : (apply_one_prop bt st q).prog.nErrors = st.prog.nErrors :=
      le_antisymm (l2.trans (le_of_eq heq)) l1
    have h1 : (apply_one_prop bt st q).loc.properties =
        ainsert q.nsn q.mark_synced_to_self st.loc.properties := by
      cases bt with
      | RemoteAdditions =>
        by_cases hiso : (alookup st.loc.properties q.nsn).isSome = true
        · exfalso
          rw [apply_one_prop, if_pos hiso] at estep
          exact prog_ne_of_bumped (le_of_eq rfl) estep
        · rw [apply_one_prop, if_neg hiso]
      | RemoteChanges =>
        by_cases hiso : (alookup st.loc.properties q.nsn).isSome = true
        · rw [apply_one_prop, if_pos hiso]
        · exfalso
          rw [apply_one_prop, if_neg hiso] at estep
          exact prog_ne_of_bumped (le_of_eq rfl) estep
    by_cases hr : nn ∈ rest.map Property.nsn
    · obtain ⟨q2, hq2, hn2, hlook⟩ := ih (apply_one_prop bt st q)
        (heq.trans estep.symm) nn hr
      exact ⟨q2, List.mem_cons_of_mem _ hq2, hn2, hlook⟩
    · rw [List.map_cons, List.mem_cons] at hn
      rcases hn with hn | hn
      · refine ⟨q, List.mem_cons_self _ _, hn.symm, ?_⟩
        rw [apply_props_list_not_mem bt rest (apply_one_prop bt st q) nn hr, h1, ← hn,
          alookup_ainsert_self]
      · exact absurd hn hr

theorem foldl_props_exact (bt : BatchDownloadType) (bs : List (List Property)) :
    ∀ st : PairState,
      ((bs.foldl (fun s b => apply_props_list bt b s) st)).prog.nErrors = st.prog.nErrors →
      ∀ nn ∈ bs.flatten.map Property.nsn,
        ∃ q ∈ bs.flatten, q.nsn = nn ∧
          alookup ((bs.foldl (fun s b => apply_props_list bt b s) st)).loc.properties nn =
            some q.mark_synced_to_self := by
  induction bs with
  | nil =>
    intro st _ nn hn
    exact absurd hn (by simp)
  | cons b rest ih =>
    intro st heq nn hn
    rw [List.foldl_cons] at heq ⊢
    have l1 : st.prog.nErrors ≤ (apply_props_list bt b st).prog.nErrors :=
      apply_props_list_prog_le bt b st
    have l2 : (apply_props_list bt b st).prog.nErrors ≤
        ((rest.foldl (fun s b2 => apply_props_list bt b2 s)
          (apply_props_list bt b st))).prog.nErrors :=
      foldl_props_prog_le bt rest (apply_props_list bt b st)
    have estep : (apply_props_list bt b st).prog.nErrors = st.prog.nErrors :=
      le_antisymm (l2.trans (le_of_eq heq)) l1
    by_cases hr : nn ∈ rest.flatten.map Property.nsn
    · obtain ⟨q2, hq2, hn2, hlook⟩ := ih (apply_props_list bt b st)
        (heq.trans estep.symm) nn hr
      refine ⟨q2, ?_, hn2, hlook⟩
      rw [List.flatten_cons, List.mem_append]
      exact Or.inr hq2
    · rw [List.flatten_cons, List.map_append, List.mem_append] at hn
      rcases hn with hn | hn
      · obtain ⟨q2, hq2, hn2, hlook⟩ := apply_props_list_exact bt b st estep nn hn
        refine ⟨q2, ?_, hn2, ?_⟩
        · rw [List.flatten_cons, List.mem_append]
          exact Or.inl hq2
        · rw [foldl_props_not_mem bt rest (apply_props_list bt b st) nn ?_]
          · exact hlook
          · intro b2 hb2 hmem
            refine hr ?_
            rw [List.mem_map] at hmem ⊢
            obtain ⟨p2, hp2, hpn⟩ := hmem
            exact ⟨p2, List.mem_flatten.mpr ⟨b2, hb2, hp2⟩, hpn⟩
      · exact absurd hn hr

theorem apply_remote_props_batched_exact (bt : BatchDownloadType) (n : Nat)
    (props : List Property) (st : PairState)
    (heq : (apply_remote_props_batched bt n props st).prog.nErrors = st.prog.nErrors) :
    ∀ nn ∈ props.map Property.nsn,
      ∃ q ∈ props, q.nsn = nn ∧
        alookup (apply_remote_props_batched bt n props st).loc.properties nn =
          some q.mark_synced_to_self := by
  rw [props_batched_eq] at heq ⊢
  intro nn hn
  obtain ⟨q, hq, hqn, hlook⟩ := foldl_props_exact bt (chunkList n props) st heq nn
    (by rw [chunkList_flatten]; exact hn)
  refine ⟨q, ?_, hqn, hlook⟩
  rw [← chunkList_flatten n props]
  exact hq



theorem alookup_map_snd {α β γ : Type} [DecidableEq α] (f : β → γ) (l : List (α × β))
    (a : α) :
    alookup (l.map (fun e => (e.1, f e.2))) a = (alookup l a).map f := by
  induction l with
  | nil => simp [alookup]
  | cons kv rest ih =>
    by_cases h : kv.1 = a <;> simp [alookup, h, ih]

theorem alookup_version_tags (rc : RemoteCal) (u : Url) :
    alookup rc.version_tags u = (alookup rc.items u).map RemoteItem.tag :=
  alookup_map_snd RemoteItem.tag rc.items u

theorem nodup_map_eq_of_eq {α β : Type} {f : α → β} :
    ∀ {l : List α}, (l.map f).Nodup → ∀ {a b : α}, a ∈ l → b ∈ l → f a = f b → a = b := by
  intro l
  induction l with
  | nil =>
    intro _ a b ha
    exact absurd ha (List.not_mem_nil a)
  | cons x rest ih =>
    intro hnd a b ha hb hf
    rw [List.map_cons, List.nodup_cons] at hnd
    rcases List.mem_cons.mp ha with ha | ha <;> rcases List.mem_cons.mp hb with hb | hb
    · rw [ha, hb]
    · exact absurd (by rw [← ha, hf]; exact List.mem_map_of_mem f hb) hnd.1
    · exact absurd (by rw [← hb, ← hf]; exact List.mem_map_of_mem f ha) hnd.1
    · exact ih hnd.2 ha hb hf

/-- The item half of a fault-free commit run: afterwards every local item is
`Synced` with exactly the tag the remote map holds for its URL (or is a
skipped `NotSynced` URL reuse), nothing remote lacks a local counterpart, and
no error is recorded. -/
theorem commit_item_changes_stable (putTag : Url → String → VersionTag) (n : Nat)
    (st : PairState) (prog0 : SyncProgress) (hWF : PairWF st) :
    (∀ u it, alookup (commit_item_changes Faults.noFaults putTag n
        (calculate_item_changes st.loc.items st.rem.version_tags prog0).1 st).loc.items u =
          some it →
      ∃ r, alookup (commit_item_changes Faults.noFaults putTag n
          (calculate_item_changes st.loc.items st.rem.version_tags prog0).1 st).rem.items u =
            some r ∧ (it.ss = .Synced r.tag ∨ it.ss = .NotSynced)) ∧
    (∀ u r, alookup (commit_item_changes Faults.noFaults putTag n
        (calculate_item_changes st.loc.items st.rem.version_tags prog0).1 st).rem.items u =
          some r →
      (alookup (commit_item_changes Faults.noFaults putTag n
          (calculate_item_changes st.loc.items st.rem.version_tags prog0).1 st).loc.items u).isSome = true) ∧
    (commit_item_changes Faults.noFaults putTag n
        (calculate_item_changes st.loc.items st.rem.version_tags prog0).1
        st).prog.nErrors = st.prog.nErrors := by
  have hndR : (akeys st.rem.version_tags).Nodup := by
    rw [akeys_version_tags]
    exact hWF.2.2.1
  have spec := fun u => item_delta_spec st.loc.items st.rem.version_tags prog0 u hWF.1 hndR
  have hnod := calculate_item_changes_nodup st.loc.items st.rem.version_tags prog0
    hWF.1 hndR
  rw [commit_item_changes]
  set chg := (calculate_item_changes st.loc.items st.rem.version_tags prog0).1 with hchg
  set m1 := commit_local_item_dels Faults.noFaults chg.local_item_dels st with hm1
  set m2 := commit_remote_item_dels chg.remote_item_dels m1 with hm2
  set m3 := apply_remote_items_batched .RemoteAdditions Faults.noFaults n
    chg.remote_item_additions m2 with hm3
  set m4 := apply_remote_items_batched .RemoteChanges Faults.noFaults n
    chg.remote_item_changes m3 with hm4
  set m5 := commit_local_item_additions Faults.noFaults putTag chg.local_item_additions m4
    with hm5
  set m6 := commit_local_item_changes Faults.noFaults putTag chg.local_item_changes m5
    with hm6
  have w1 : PairWF m1 := commit_local_item_dels_wf Faults.noFaults _ st hWF
  have hLD_R : ∀ u ∈ chg.local_item_dels, ∃ rt it,
      alookup st.rem.version_tags u = some rt ∧ alookup st.loc.items u = some it ∧
        it.ss = .LocallyDeleted rt := fun u hu => (spec u).2.2.2.1.mp hu
  have hRD_R : ∀ u ∈ chg.remote_item_dels,
      alookup st.rem.version_tags u = none ∧ ∃ it, alookup st.loc.items u = some it ∧
        it.ss ≠ .NotSynced := fun u hu => (spec u).2.2.2.2.1.mp hu
  have hRA_R : ∀ u ∈ chg.remote_item_additions,
      (∃ rt, alookup st.rem.version_tags u = some rt) ∧ alookup st.loc.items u = none :=
    fun u hu => (spec u).1.mp hu
  have hRC_R : ∀ u ∈ chg.remote_item_changes, ∃ rt it,
      alookup st.rem.version_tags u = some rt ∧ alookup st.loc.items u = some it ∧
        remote_change_status rt it.ss = true := by
    intro u hu
    obtain ⟨rt, it, h1, h2, h3⟩ := (spec u).2.1.mp hu
    refine ⟨rt, it, h1, h2, ?_⟩
    rw [remote_change_status_iff]
    exact h3
  have hLC_R : ∀ u ∈ chg.local_item_changes, ∃ rt it,
      alookup st.rem.version_tags u = some rt ∧ alookup st.loc.items u = some it ∧
        it.ss = .LocallyModified rt := fun u hu => (spec u).2.2.1.mp hu
  have hLA_R : ∀ u ∈ chg.local_item_additions,
      alookup st.rem.version_tags u = none ∧ ∃ it, alookup st.loc.items u = some it ∧
        it.ss = .NotSynced := fun u hu => (spec u).2.2.2.2.2.mp hu
  have noLD_of_Rnone : ∀ u, alookup st.rem.version_tags u = none →
      u ∉ chg.local_item_dels := by
    intro u hRn hmem
    obtain ⟨rt, it, hs, _, _⟩ := hLD_R u hmem
    rw [hRn] at hs
    exact absurd hs (by simp)
  have noLC_of_Rnone : ∀ u, alookup st.rem.version_tags u = none →
      u ∉ chg.local_item_changes := by
    intro u hRn hmem
    obtain ⟨rt, it, hs, _, _⟩ := hLC_R u hmem
    rw [hRn] at hs
    exact absurd hs (by simp)
  have noRC_of_Rnone : ∀ u, alookup st.rem.version_tags u = none →
      u ∉ chg.remote_item_changes := by
    intro u hRn hmem
    obtain ⟨rt, it, hs, _, _⟩ := hRC_R u hmem
    rw [hRn] at hs
    exact absurd hs (by simp)
  have noRA_of_Rnone : ∀ u, alookup st.rem.version_tags u = none →
      u ∉ chg.remote_item_additions := by
    intro u hRn hmem
    obtain ⟨⟨rt, hs⟩, _⟩ := hRA_R u hmem
    rw [hRn] at hs
    exact absurd hs (by simp)
  have noRD_of_Rsome : ∀ u rt, alookup st.rem.version_tags u = some rt →
      u ∉ chg.remote_item_dels := by
    intro u rt hRs hmem
    obtain ⟨hn, _⟩ := hRD_R u hmem
    rw [hRs] at hn
    exact absurd hn (by simp)
  have noLA_of_Rsome : ∀ u rt, alookup st.rem.version_tags u = some rt →
      u ∉ chg.local_item_additions := by
    intro u rt hRs hmem
    obtain ⟨hn, _⟩ := hLA_R u hmem
    rw [hRs] at hn
    exact absurd hn (by simp)
  have noRA_of_Lsome : ∀ u it, alookup st.loc.items u = some it →
      u ∉ chg.remote_item_additions := by
    intro u it hLs hmem
    obtain ⟨_, hn⟩ := hRA_R u hmem
    rw [hLs] at hn
    exact absurd hn (by simp)
  have noLD_of_Lnone : ∀ u, alookup st.loc.items u = none →
      u ∉ chg.local_item_dels := by
    intro u hLn hmem
    obtain ⟨rt, it, _, hs, _⟩ := hLD_R u hmem
    rw [hLn] at hs
    exact absurd hs (by simp)
  have noRD_of_Lnone : ∀ u, alookup st.loc.items u = none →
      u ∉ chg.remote_item_dels := by
    intro u hLn hmem
    obtain ⟨_, it, hs, _⟩ := hRD_R u hmem
    rw [hLn] at hs
    exact absurd hs (by simp)
  have noLC_of_Lnone : ∀ u, alookup st.loc.items u = none →
      u ∉ chg.local_item_changes := by
    intro u hLn hmem
    obtain ⟨rt, it, _, hs, _⟩ := hLC_R u hmem
    rw [hLn] at hs
    exact absurd hs (by simp)
  have noLA_of_Lnone : ∀ u, alookup st.loc.items u = none →
      u ∉ chg.local_item_additions := by
    intro u hLn hmem
    obtain ⟨_, it, hs, _⟩ := hLA_R u hmem
    rw [hLn] at hs
    exact absurd hs (by simp)
  have noRC_of_Lnone : ∀ u, alookup st.loc.items u = none →
      u ∉ chg.remote_item_changes := by
    intro u hLn hmem
    obtain ⟨rt, it, _, hs, _⟩ := hRC_R u hmem
    rw [hLn] at hs
    exact absurd hs (by simp)
  have dLD_RC : ∀ u, u ∈ chg.local_item_dels → u ∈ chg.remote_item_changes → False := by
    intro u hu hv
    obtain ⟨rt, it, hRs, hLs, hss⟩ := hLD_R u hu
    obtain ⟨rt2, it2, hRs2, hLs2, hcs⟩ := hRC_R u hv
    rw [hRs] at hRs2
    rw [hLs] at hLs2
    rw [← Option.some.inj hRs2, ← Option.some.inj hLs2, hss] at hcs
    simp [remote_change_status] at hcs
  have dLC_RC : ∀ u, u ∈ chg.local_item_changes → u ∈ chg.remote_item_changes → False := by
    intro u hu hv
    obtain ⟨rt, it, hRs, hLs, hss⟩ := hLC_R u hu
    obtain ⟨rt2, it2, hRs2, hLs2, hcs⟩ := hRC_R u hv
    rw [hRs] at hRs2
    rw [hLs] at hLs2
    rw [← Option.some.inj hRs2, ← Option.some.inj hLs2, hss] at hcs
    simp [remote_change_status] at hcs
  have dLD_LC : ∀ u, u ∈ chg.local_item_dels → u ∈ chg.local_item_changes → False := by
    intro u hu hv
    obtain ⟨rt, it, hRs, hLs, hss⟩ := hLD_R u hu
    obtain ⟨rt2, it2, hRs2, hLs2, hss2⟩ := hLC_R u hv
    rw [hLs] at hLs2
    rw [← Option.some.inj hLs2, hss] at hss2
    exact absurd hss2 (by simp)
  have dRD_LA : ∀ u, u ∈ chg.remote_item_dels → u ∈ chg.local_item_additions → False := by
    intro u hu hv
    obtain ⟨_, it, hLs, hne⟩ := hRD_R u hu
    obtain ⟨_, it2, hLs2, hss2⟩ := hLA_R u hv
    rw [hLs] at hLs2
    exact hne ((Option.some.inj hLs2) ▸ hss2)
  have e1 : m1.prog.nErrors = st.prog.nErrors := by
    refine commit_local_item_dels_noerr chg.local_item_dels st hnod.1 ?_
    intro u hu
    obtain ⟨rt, it, _, hLu, _⟩ := hLD_R u hu
    rw [hLu]
    rfl
  have s1succ := commit_local_item_dels_success Faults.noFaults chg.local_item_dels st
    hWF.1 hWF.2.2.1 e1
  have s1not := commit_local_item_dels_not_mem Faults.noFaults chg.local_item_dels st
  have e2 : m2.prog.nErrors = m1.prog.nErrors := by
    refine commit_remote_item_dels_noerr chg.remote_item_dels m1 hnod.2.2.2.2.1 ?_
    intro u hu
    obtain ⟨hRn, it, hLu, _⟩ := hRD_R u hu
    rw [(s1not u (noLD_of_Rnone u hRn)).1, hLu]
    rfl
  have s2succ := commit_remote_item_dels_success chg.remote_item_dels m1 w1.1 e2
  have s2not := commit_remote_item_dels_not_mem chg.remote_item_dels m1
  have r2 : m2.rem = m1.rem := (commit_remote_item_dels_frame chg.remote_item_dels m1).2
  have e3 : m3.prog.nErrors = m2.prog.nErrors := by
    refine apply_remote_items_batched_noerr .RemoteAdditions n chg.remote_item_additions m2
      hnod.2.2.2.1 ?_ ?_
    · intro u hu
      obtain ⟨⟨rt, hRs⟩, hLn⟩ := hRA_R u hu
      rw [r2, (s1not u (noLD_of_Lnone u hLn)).2]
      rw [alookup_version_tags] at hRs
      obtain ⟨r, hr, _⟩ := Option.map_eq_some'.mp hRs
      rw [hr]
      rfl
    · intro u hu
      obtain ⟨⟨rt, hRs⟩, hLn⟩ := hRA_R u hu
      show alookup m2.loc.items u = none
      rw [s2not u (noRD_of_Lnone u hLn), (s1not u (noLD_of_Lnone u hLn)).1]
      exact hLn
  have s3succ := apply_remote_items_batched_success .RemoteAdditions Faults.noFaults n
    chg.remote_item_additions m2 e3
  have s3not := apply_remote_items_batched_not_mem .RemoteAdditions Faults.noFaults n
    chg.remote_item_additions m2
  have r3 : m3.rem = m2.rem := (apply_remote_items_batched_frame .RemoteAdditions
    Faults.noFaults n chg.remote_item_additions m2).2
  have e4 : m4.prog.nErrors = m3.prog.nErrors := by
    refine apply_remote_items_batched_noerr .RemoteChanges n chg.remote_item_changes m3
      hnod.2.2.1 ?_ ?_
    · intro u hu
      obtain ⟨rt, it, hRs, hLs, _⟩ := hRC_R u hu
      rw [r3, r2, (s1not u (fun hm => dLD_RC u hm hu)).2]
      rw [alookup_version_tags] at hRs
      obtain ⟨r, hr, _⟩ := Option.map_eq_some'.mp hRs
      rw [hr]
      rfl
    · intro u hu
      obtain ⟨rt, it, hRs, hLs, _⟩ := hRC_R u hu
      show (alookup m3.loc.items u).isSome = true
      rw [s3not u (noRA_of_Lsome u it hLs), s2not u (noRD_of_Rsome u rt hRs),
        (s1not u (fun hm => dLD_RC u hm hu)).1, hLs]
      rfl
  have s4succ := apply_remote_items_batched_success .RemoteChanges Faults.noFaults n
    chg.remote_item_changes m3 e4
  have s4not := apply_remote_items_batched_not_mem .RemoteChanges Faults.noFaults n
    chg.remote_item_changes m3
  have r4 : m4.rem = m3.rem := (apply_remote_items_batched_frame .RemoteChanges
    Faults.noFaults n chg.remote_item_changes m3).2
  have e5 : m5.prog.nErrors = m4.prog.nErrors := by
    refine commit_local_item_additions_noerr putTag chg.local_item_additions m4 ?_
    intro u hu
    obtain ⟨hRn, it, hLs, hss⟩ := hLA_R u hu
    rw [s4not u (noRC_of_Rnone u hRn), s3not u (noRA_of_Lsome u it hLs),
      s2not u (fun hm => dRD_LA u hm hu), (s1not u (noLD_of_Rnone u hRn)).1, hLs]
    rfl
  have s5succ := commit_local_item_additions_success Faults.noFaults putTag
    chg.local_item_additions m4 e5
  have s5not := commit_local_item_additions_not_mem Faults.noFaults putTag
    chg.local_item_additions m4
  have e6 : m6.prog.nErrors = m5.prog.nErrors := by
    refine commit_local_item_changes_noerr putTag chg.local_item_changes m5 hnod.2.1 ?_
    intro u hu
    obtain ⟨rt, it, hRs, hLs, hss⟩ := hLC_R u hu
    refine ⟨it, ?_, ?_⟩
    · rw [(s5not u (noLA_of_Rsome u rt hRs)).1, s4not u (fun hm => dLC_RC u hu hm),
        s3not u (noRA_of_Lsome u it hLs), s2not u (noRD_of_Rsome u rt hRs),
        (s1not u (fun hm => dLD_LC u hm hu)).1]
      exact hLs
    · rw [hss]
      rfl
  have s6succ := commit_local_item_changes_success Faults.noFaults putTag
    chg.local_item_changes m5 e6
  have s6not := commit_local_item_changes_not_mem Faults.noFaults putTag
    chg.local_item_changes m5
  have locF5 : ∀ u, u ∉ chg.local_item_changes →
      alookup m6.loc.items u = alookup m5.loc.items u := fun u h6 => (s6not u h6).1
  have locF4 : ∀ u, u ∉ chg.local_item_additions → u ∉ chg.local_item_changes →
      alookup m6.loc.items u = alookup m4.loc.items u :=
    fun u h5 h6 => (locF5 u h6).trans (s5not u h5).1
  have locF3 : ∀ u, u ∉ chg.remote_item_changes → u ∉ chg.local_item_additions →
      u ∉ chg.local_item_changes →
      alookup m6.loc.items u = alookup m3.loc.items u :=
    fun u h4 h5 h6 => (locF4 u h5 h6).trans (s4not u h4)
  have locF2 : ∀ u, u ∉ chg.remote_item_additions → u ∉ chg.remote_item_changes →
      u ∉ chg.local_item_additions → u ∉ chg.local_item_changes →
      alookup m6.loc.items u = alookup m2.loc.items u :=
    fun u h3 h4 h5 h6 => (locF3 u h4 h5 h6).trans (s3not u h3)
  have locF1 : ∀ u, u ∉ chg.remote_item_dels → u ∉ chg.remote_item_additions →
      u ∉ chg.remote_item_changes → u ∉ chg.local_item_additions →
      u ∉ chg.local_item_changes →
      alookup m6.loc.items u = alookup m1.loc.items u :=
    fun u h2 h3 h4 h5 h6 => (locF2 u h3 h4 h5 h6).trans (s2not u h2)
  have locF0 : ∀ u, u ∉ chg.local_item_dels → u ∉ chg.remote_item_dels →
      u ∉ chg.remote_item_additions → u ∉ chg.remote_item_changes →
      u ∉ chg.local_item_additions → u ∉ chg.local_item_changes →
      alookup m6.loc.items u = alookup st.loc.items u :=
    fun u h1 h2 h3 h4 h5 h6 => (locF1 u h2 h3 h4 h5 h6).trans (s1not u h1).1
  have remF1 : ∀ u, u ∉ chg.local_item_additions → u ∉ chg.local_item_changes →
      alookup m6.rem.items u = alookup m1.rem.items u := by
    intro u h5 h6
    refine ((s6not u h6).2.trans (s5not u h5).2).trans ?_
    rw [r4, r3, r2]
  have remF0 : ∀ u, u ∉ chg.local_item_dels → u ∉ chg.local_item_additions →
      u ∉ chg.local_item_changes →
      alookup m6.rem.items u = alookup st.rem.items u :=
    fun u h1 h5 h6 => (remF1 u h5 h6).trans (s1not u h1).2
  refine ⟨?_, ?_, e6.trans (e5.trans (e4.trans (e3.trans (e2.trans e1))))⟩
  · intro u it hit
    by_cases cLD : u ∈ chg.local_item_dels
    · exfalso
      obtain ⟨rt, it0, hRs, hLs, _⟩ := hLD_R u cLD
      rw [locF1 u (noRD_of_Rsome u rt hRs) (noRA_of_Lsome u it0 hLs)
        (fun hm => dLD_RC u cLD hm) (noLA_of_Rsome u rt hRs)
        (fun hm => dLD_LC u cLD hm), (s1succ u cLD).1] at hit
      exact absurd hit (by simp)
    · by_cases cRD : u ∈ chg.remote_item_dels
      · exfalso
        obtain ⟨hRn, it0, hLs, _⟩ := hRD_R u cRD
        rw [locF2 u (noRA_of_Lsome u it0 hLs) (noRC_of_Rnone u hRn)
          (fun hm => dRD_LA u cRD hm) (noLC_of_Rnone u hRn), s2succ u cRD] at hit
        exact absurd hit (by simp)
      · by_cases cRA : u ∈ chg.remote_item_additions
        · obtain ⟨hex, hLn⟩ := hRA_R u cRA
          obtain ⟨r, hrm2, hm3v⟩ := s3succ u cRA
          rw [locF3 u (noRC_of_Lnone u hLn) (noLA_of_Lnone u hLn)
            (noLC_of_Lnone u hLn), hm3v] at hit
          refine ⟨r, ?_, Or.inl ?_⟩
          · rw [remF0 u cLD (noLA_of_Lnone u hLn) (noLC_of_Lnone u hLn)]
            rw [r2] at hrm2
            exact ((s1not u cLD).2.symm).trans hrm2
          · rw [← Option.some.inj hit]
        · by_cases cRC : u ∈ chg.remote_item_changes
          · obtain ⟨rt, it0, hRs, hLs, _⟩ := hRC_R u cRC
            obtain ⟨r, hrm3, hm4v⟩ := s4succ u cRC
            rw [locF4 u (noLA_of_Rsome u rt hRs) (fun hm => dLC_RC u hm cRC),
              hm4v] at hit
            refine ⟨r, ?_, Or.inl ?_⟩
            · rw [remF0 u cLD (noLA_of_Rsome u rt hRs) (fun hm => dLC_RC u hm cRC)]
              rw [r3, r2] at hrm3
              exact ((s1not u cLD).2.symm).trans hrm3
            · rw [← Option.some.inj hit]
          · by_cases cLA : u ∈ chg.local_item_additions
            · obtain ⟨hRn, it1, hLs, hss⟩ := hLA_R u cLA
              obtain ⟨it0, hm4l, h5l, h5r⟩ := s5succ u cLA
              rw [locF5 u (noLC_of_Rnone u hRn), h5l] at hit
              refine ⟨⟨it0.data, putTag u it0.data⟩, ?_, Or.inl ?_⟩
              · rw [(s6not u (noLC_of_Rnone u hRn)).2]
                exact h5r
              · rw [← Option.some.inj hit]
            · by_cases cLC : u ∈ chg.local_item_changes
              · obtain ⟨it0, hm5l, h6l, h6r⟩ := s6succ u cLC
                rw [h6l] at hit
                refine ⟨⟨it0.data, putTag u it0.data⟩, h6r, Or.inl ?_⟩
                rw [← Option.some.inj hit]
              · have hst : alookup st.loc.items u = some it :=
                  (locF0 u cLD cRD cRA cRC cLA cLC).symm.trans hit
                cases hR : alookup st.rem.version_tags u with
                | none =>
                  exfalso
                  cases hss : it.ss with
                  | NotSynced =>
                    exact cLA ((spec u).2.2.2.2.2.mpr ⟨hR, it, hst, hss⟩)
                  | Synced lt =>
                    exact cRD ((spec u).2.2.2.2.1.mpr ⟨hR, it, hst, by rw [hss]; simp⟩)
                  | LocallyModified lt =>
                    exact cRD ((spec u).2.2.2.2.1.mpr ⟨hR, it, hst, by rw [hss]; simp⟩)
                  | LocallyDeleted lt =>
                    exact cRD ((spec u).2.2.2.2.1.mpr ⟨hR, it, hst, by rw [hss]; simp⟩)
                | some rt =>
                  have hRv := hR
                  rw [alookup_version_tags] at hR
                  obtain ⟨r, hr, hrt⟩ := Option.map_eq_some'.mp hR
                  refine ⟨r, ?_, ?_⟩
                  · rw [remF0 u cLD cLA cLC]
                    exact hr
                  · cases hss : it.ss with
                    | NotSynced => exact Or.inr rfl
                    | Synced lt =>
                      by_cases hlt : rt = lt
                      · refine Or.inl ?_
                        rw [hrt, hlt]
                      · exact absurd ((spec u).2.1.mpr
                          ⟨rt, it, hRv, hst, Or.inl ⟨lt, hss, hlt⟩⟩) cRC
                    | LocallyModified lt =>
                      by_cases hlt : rt = lt
                      · exact absurd ((spec u).2.2.1.mpr
                          ⟨rt, it, hRv, hst, by rw [hss, hlt]⟩) cLC
                      · exact absurd ((spec u).2.1.mpr
                          ⟨rt, it, hRv, hst, Or.inr (Or.inl ⟨lt, hss, hlt⟩)⟩) cRC
                    | LocallyDeleted lt =>
                      by_cases hlt : rt = lt
                      · exact absurd ((spec u).2.2.2.1.mpr
                          ⟨rt, it, hRv, hst, by rw [hss, hlt]⟩) cLD
                      · exact absurd ((spec u).2.1.mpr
                          ⟨rt, it, hRv, hst, Or.inr (Or.inr ⟨lt, hss, hlt⟩)⟩) cRC
  · intro u r hr
    by_cases cLD : u ∈ chg.local_item_dels
    · exfalso
      obtain ⟨rt, it0, hRs, hLs, _⟩ := hLD_R u cLD
      rw [remF1 u (noLA_of_Rsome u rt hRs) (fun hm => dLD_LC u cLD hm),
        (s1succ u cLD).2] at hr
      exact absurd hr (by simp)
    · by_cases cRA : u ∈ chg.remote_item_additions
      · obtain ⟨hex, hLn⟩ := hRA_R u cRA
        obtain ⟨r0, hrm2, hm3v⟩ := s3succ u cRA
        rw [locF3 u (noRC_of_Lnone u hLn) (noLA_of_Lnone u hLn)
          (noLC_of_Lnone u hLn), hm3v]
        rfl
      · by_cases cRC : u ∈ chg.remote_item_changes
        · obtain ⟨rt, it0, hRs, hLs, _⟩ := hRC_R u cRC
          obtain ⟨r0, hrm3, hm4v⟩ := s4succ u cRC
          rw [locF4 u (noLA_of_Rsome u rt hRs) (fun hm => dLC_RC u hm cRC), hm4v]
          rfl
        · by_cases cLA : u ∈ chg.local_item_additions
          · obtain ⟨hRn, it1, hLs, hss⟩ := hLA_R u cLA
            obtain ⟨it0, hm4l, h5l, h5r⟩ := s5succ u cLA
            rw [locF5 u (noLC_of_Rnone u hRn), h5l]
            rfl
          · by_cases cLC : u ∈ chg.local_item_changes
            · obtain ⟨it0, hm5l, h6l, h6r⟩ := s6succ u cLC
              rw [h6l]
              rfl
            · by_cases cRD : u ∈ chg.remote_item_dels
              · exfalso
                obtain ⟨hRn, it0, hLs, _⟩ := hRD_R u cRD
                rw [remF0 u cLD (fun hm => dRD_LA u cRD hm) (noLC_of_Rnone u hRn)] at hr
                rw [alookup_version_tags] at hRn
                rw [Option.map_eq_none'.mp hRn] at hr
                exact absurd hr (by simp)
              · have hrs : alookup st.rem.items u = some r :=
                  (remF0 u cLD cLA cLC).symm.trans hr
                cases hLs : alookup st.loc.items u with
                | none =>
                  exact absurd ((spec u).1.mpr
                    ⟨⟨r.tag, by rw [alookup_version_tags, hrs]; rfl⟩, hLs⟩) cRA
                | some it =>
                  rw [locF0 u cLD cRD cRA cRC cLA cLC, hLs]
                  rfl



/-- The property half of a fault-free commit run, for any remote property
list `RP` that presents exactly the remote map (names unique, values
matching). -/
theorem commit_prop_changes_stable (n : Nat) (st : PairState) (RP : List Property)
    (prog0 : SyncProgress) (hWF : PairWF st)
    (hndRP : (RP.map Property.nsn).Nodup)
    (hRP1 : ∀ q ∈ RP, alookup st.rem.props q.nsn = some q.value)
    (hRP2 : ∀ nn v, alookup st.rem.props nn = some v →
      (⟨nn, v, .NotSynced⟩ : Property) ∈ RP) :
    (∀ nn p, alookup (commit_prop_changes Faults.noFaults n
        (calculate_prop_changes st.loc.properties RP prog0).1 st).loc.properties nn =
          some p →
      ∃ v, alookup (commit_prop_changes Faults.noFaults n
          (calculate_prop_changes st.loc.properties RP prog0).1 st).rem.props nn =
            some v ∧ (p.sync_status = .Synced v ∨ p.sync_status = .NotSynced)) ∧
    (∀ nn v, alookup (commit_prop_changes Faults.noFaults n
        (calculate_prop_changes st.loc.properties RP prog0).1 st).rem.props nn =
          some v →
      (alookup (commit_prop_changes Faults.noFaults n
          (calculate_prop_changes st.loc.properties RP prog0).1 st).loc.properties nn).isSome = true) ∧
    (commit_prop_changes Faults.noFaults n
        (calculate_prop_changes st.loc.properties RP prog0).1 st).prog.nErrors =
      st.prog.nErrors := by
  have spec := fun nn q => calculate_prop_changes_spec st.loc.properties RP prog0
    hWF.2.1 hWF.2.2.2.2 nn q
  have hnod := calculate_prop_changes_nodup st.loc.properties RP prog0 hWF.2.1
    hWF.2.2.2.2 hndRP
  rw [commit_prop_changes]
  set chg := (calculate_prop_changes st.loc.properties RP prog0).1 with hchg
  set m1 := commit_local_prop_dels Faults.noFaults chg.local_prop_dels st with hm1
  set m2 := commit_remote_prop_dels chg.remote_prop_dels m1 with hm2
  set m3 := apply_remote_props_batched .RemoteAdditions n chg.remote_prop_additions m2
    with hm3
  set m4 := apply_remote_props_batched .RemoteChanges n chg.remote_prop_changes m3
    with hm4
  set m5 := commit_local_prop_additions Faults.noFaults chg.local_prop_additions m4
    with hm5
  set m6 := commit_local_prop_changes Faults.noFaults chg.local_prop_changes m5 with hm6
  have w1 : PairWF m1 := commit_local_prop_dels_wf Faults.noFaults _ st hWF
  have hLD_R : ∀ nn ∈ chg.local_prop_dels, ∃ rp ∈ RP, rp.nsn = nn ∧
      ∃ lp, alookup st.loc.properties nn = some lp ∧
        lp.sync_status = .LocallyDeleted rp.value :=
    fun nn hn => (spec nn ⟨nn, "", .NotSynced⟩).2.2.2.1.mp hn
  have hRD_R : ∀ nn ∈ chg.remote_prop_dels, (∀ rp ∈ RP, rp.nsn ≠ nn) ∧
      ∃ lp, alookup st.loc.properties nn = some lp ∧ lp.sync_status ≠ .NotSynced :=
    fun nn hn => (spec nn ⟨nn, "", .NotSynced⟩).2.2.2.2.1.mp hn
  have hRA_R : ∀ q ∈ chg.remote_prop_additions, q ∈ RP ∧
      alookup st.loc.properties q.nsn = none :=
    fun q hq => (spec q.nsn q).1.mp hq
  have hRC_R : ∀ q ∈ chg.remote_prop_changes, q ∈ RP ∧
      ∃ lp, alookup st.loc.properties q.nsn = some lp ∧
        remote_change_status q.value lp.sync_status = true :=
    fun q hq => (spec q.nsn q).2.1.mp hq
  have hLA_R : ∀ q ∈ chg.local_prop_additions, (∀ rp ∈ RP, rp.nsn ≠ q.nsn) ∧
      alookup st.loc.properties q.nsn = some q ∧ q.sync_status = .NotSynced :=
    fun q hq => (spec q.nsn q).2.2.2.2.2.mp hq
  have hLC_R : ∀ nn ∈ chg.local_prop_changes, ∃ rp ∈ RP, rp.nsn = nn ∧
      ∃ lp, alookup st.loc.properties nn = some lp ∧
        lp.sync_status = .LocallyModified rp.value :=
    fun nn hn => (spec nn ⟨nn, "", .NotSynced⟩).2.2.1.mp hn
  have hRPinj : ∀ q ∈ RP, ∀ q2 ∈ RP, q.nsn = q2.nsn → q = q2 :=
    fun q hq q2 hq2 hf => nodup_map_eq_of_eq hndRP hq hq2 hf
  have noLD_of_noRP : ∀ nn, (∀ rp ∈ RP, rp.nsn ≠ nn) → nn ∉ chg.local_prop_dels := by
    intro nn hno hmem
    obtain ⟨rp, hrp, hrn, _⟩ := hLD_R nn hmem
    exact hno rp hrp hrn
  have noLC_of_noRP : ∀ nn, (∀ rp ∈ RP, rp.nsn ≠ nn) → nn ∉ chg.local_prop_changes := by
    intro nn hno hmem
    obtain ⟨rp, hrp, hrn, _⟩ := hLC_R nn hmem
    exact hno rp hrp hrn
  have noRC_of_noRP : ∀ nn, (∀ rp ∈ RP, rp.nsn ≠ nn) →
      nn ∉ chg.remote_prop_changes.map Property.nsn := by
    intro nn hno hmem
    obtain ⟨q, hq, hqn⟩ := List.mem_map.mp hmem
    exact hno q (hRC_R q hq).1 hqn
  have noRA_of_noRP : ∀ nn, (∀ rp ∈ RP, rp.nsn ≠ nn) →
      nn ∉ chg.remote_prop_additions.map Property.nsn := by
    intro nn hno hmem
    obtain ⟨q, hq, hqn⟩ := List.mem_map.mp hmem
    exact hno q (hRA_R q hq).1 hqn
  have noRD_of_RP : ∀ nn rp, rp ∈ RP → rp.nsn = nn → nn ∉ chg.remote_prop_dels := by
    intro nn rp hrp hrn hmem
    exact (hRD_R nn hmem).1 rp hrp hrn
  have noLA_of_RP : ∀ nn rp, rp ∈ RP → rp.nsn = nn →
      nn ∉ chg.local_prop_additions.map Property.nsn := by
    intro nn rp hrp hrn hmem
    obtain ⟨q, hq, hqn⟩ := List.mem_map.mp hmem
    exact (hLA_R q hq).1 rp hrp (hrn.trans hqn.symm)
  have noRA_of_Lsome : ∀ nn lp, alookup st.loc.properties nn = some lp →
      nn ∉ chg.remote_prop_additions.map Property.nsn := by
    intro nn lp hLs hmem
    obtain ⟨q, hq, hqn⟩ := List.mem_map.mp hmem
    have := (hRA_R q hq).2
    rw [hqn, hLs] at this
    exact absurd this (by simp)
  have noLD_of_Lnone : ∀ nn, alookup st.loc.properties nn = none →
      nn ∉ chg.local_prop_dels := by
    intro nn hLn hmem
    obtain ⟨rp, _, _, lp, hs, _⟩ := hLD_R nn hmem
    rw [hLn] at hs
    exact absurd hs (by simp)
  have noRD_of_Lnone : ∀ nn, alookup st.loc.properties nn = none →
      nn ∉ chg.remote_prop_dels := by
    intro nn hLn hmem
    obtain ⟨_, lp, hs, _⟩ := hRD_R nn hmem
    rw [hLn] at hs
    exact absurd hs (by simp)
  have noLC_of_Lnone : ∀ nn, alookup st.loc.properties nn = none →
      nn ∉ chg.local_prop_changes := by
    intro nn hLn hmem
    obtain ⟨rp, _, _, lp, hs, _⟩ := hLC_R nn hmem
    rw [hLn] at hs
    exact absurd hs (by simp)
  have noLA_of_Lnone : ∀ nn, alookup st.loc.properties nn = none →
      nn ∉ chg.local_prop_additions.map Property.nsn := by
    intro nn hLn hmem
    obtain ⟨q, hq, hqn⟩ := List.mem_map.mp hmem
    have := (hLA_R q hq).2.1
    rw [hqn, hLn] at this
    exact absurd this (by simp)
  have noRC_of_Lnone : ∀ nn, alookup st.loc.properties nn = none →
      nn ∉ chg.remote_prop_changes.map Property.nsn := by
    intro nn hLn hmem
    obtain ⟨q, hq, hqn⟩ := List.mem_map.mp hmem
    obtain ⟨_, lp, hs, _⟩ := hRC_R q hq
    rw [hqn, hLn] at hs
    exact absurd hs (by simp)
  have noRD_of_NS : ∀ nn lp, alookup st.loc.properties nn = some lp →
      lp.sync_status = .NotSynced → nn ∉ chg.remote_prop_dels := by
    intro nn lp hLs hss hmem
    obtain ⟨_, lp2, hs2, hne⟩ := hRD_R nn hmem
    rw [hLs] at hs2
    exact hne ((Option.some.inj hs2) ▸ hss)
  have dLD_RC : ∀ nn, nn ∈ chg.local_prop_dels →
      nn ∈ chg.remote_prop_changes.map Property.nsn → False := by
    intro nn hu hv
    obtain ⟨rp, hrp, hrn, lp, hLs, hss⟩ := hLD_R nn hu
    obtain ⟨q, hq, hqn⟩ := List.mem_map.mp hv
    obtain ⟨hqRP, lp2, hLs2, hcs⟩ := hRC_R q hq
    rw [hqn, hLs] at hLs2
    have hqrp : q = rp := hRPinj q hqRP rp hrp (hqn.trans hrn.symm)
    rw [← Option.some.inj hLs2, hss, hqrp] at hcs
    simp [remote_change_status] at hcs
  have dLC_RC : ∀ nn, nn ∈ chg.local_prop_changes →
      nn ∈ chg.remote_prop_changes.map Property.nsn → False := by
    intro nn hu hv
    obtain ⟨rp, hrp, hrn, lp, hLs, hss⟩ := hLC_R nn hu
    obtain ⟨q, hq, hqn⟩ := List.mem_map.mp hv
    obtain ⟨hqRP, lp2, hLs2, hcs⟩ := hRC_R q hq
    rw [hqn, hLs] at hLs2
    have hqrp : q = rp := hRPinj q hqRP rp hrp (hqn.trans hrn.symm)
    rw [← Option.some.inj hLs2, hss, hqrp] at hcs
    simp [remote_change_status] at hcs
  have dLD_LC : ∀ nn, nn ∈ chg.local_prop_dels → nn ∈ chg.local_prop_changes → False := by
    intro nn hu hv
    obtain ⟨rp, hrp, hrn, lp, hLs, hss⟩ := hLD_R nn hu
    obtain ⟨rp2, hrp2, hrn2, lp2, hLs2, hss2⟩ := hLC_R nn hv
    rw [hLs] at hLs2
    rw [← Option.some.inj hLs2, hss] at hss2
    exact absurd hss2 (by simp)
  have dRD_LA : ∀ nn, nn ∈ chg.remote_prop_dels →
      nn ∈ chg.local_prop_additions.map Property.nsn → False := by
    intro nn hu hv
    obtain ⟨_, lp, hLs, hne⟩ := hRD_R nn hu
    obtain ⟨q, hq, hqn⟩ := List.mem_map.mp hv
    obtain ⟨_, hLs2, hss2⟩ := hLA_R q hq
    rw [hqn, hLs] at hLs2
    exact hne ((Option.some.inj hLs2) ▸ hss2)
  have e1 : m1.prog.nErrors = st.prog.nErrors := by
    refine commit_local_prop_dels_noerr chg.local_prop_dels st hnod.1 ?_
    intro nn hn
    obtain ⟨rp, _, _, lp, hLs, _⟩ := hLD_R nn hn
    rw [hLs]
    rfl
  have s1succ := commit_local_prop_dels_success Faults.noFaults chg.local_prop_dels st
    hWF.2.1 hWF.2.2.2.1 e1
  have s1not := commit_local_prop_dels_not_mem Faults.noFaults chg.local_prop_dels st
  have e2 : m2.prog.nErrors = m1.prog.nErrors := by
    refine commit_remote_prop_dels_noerr chg.remote_prop_dels m1 hnod.2.2.2 ?_
    intro nn hn
    obtain ⟨hno, lp, hLs, _⟩ := hRD_R nn hn
    rw [(s1not nn (noLD_of_noRP nn hno)).1, hLs]
    rfl
  have s2succ := commit_remote_prop_dels_success chg.remote_prop_dels m1 w1.2.1 e2
  have s2not := commit_remote_prop_dels_not_mem chg.remote_prop_dels m1
  have r2 : m2.rem = m1.rem := (commit_remote_prop_dels_frame chg.remote_prop_dels m1).2
  have e3 : m3.prog.nErrors = m2.prog.nErrors := by
    refine apply_remote_props_batched_noerr .RemoteAdditions n chg.remote_prop_additions m2
      hnod.2.2.1 ?_
    intro q hq
    obtain ⟨hqRP, hLn⟩ := hRA_R q hq
    show alookup m2.loc.properties q.nsn = none
    rw [s2not q.nsn (noRD_of_Lnone q.nsn hLn), (s1not q.nsn (noLD_of_Lnone q.nsn hLn)).1]
    exact hLn
  have s3exact := apply_remote_props_batched_exact .RemoteAdditions n
    chg.remote_prop_additions m2 e3
  have s3not := apply_remote_props_batched_not_mem .RemoteAdditions n
    chg.remote_prop_additions m2
  have r3 : m3.rem = m2.rem := (apply_remote_props_batched_frame .RemoteAdditions n
    chg.remote_prop_additions m2).2
  have e4 : m4.prog.nErrors = m3.prog.nErrors := by
    refine apply_remote_props_batched_noerr .RemoteChanges n chg.remote_prop_changes m3
      hnod.2.1 ?_
    intro q hq
    obtain ⟨hqRP, lp, hLs, _⟩ := hRC_R q hq
    show (alookup m3.loc.properties q.nsn).isSome = true
    rw [s3not q.nsn (noRA_of_Lsome q.nsn lp hLs),
      s2not q.nsn (noRD_of_RP q.nsn q hqRP rfl),
      (s1not q.nsn (fun hm => dLD_RC q.nsn hm
        (List.mem_map_of_mem Property.nsn hq))).1, hLs]
    rfl
  have s4exact := apply_remote_props_batched_exact .RemoteChanges n
    chg.remote_prop_changes m3 e4
  have s4not := apply_remote_props_batched_not_mem .RemoteChanges n
    chg.remote_prop_changes m3
  have r4 : m4.rem = m3.rem := (apply_remote_props_batched_frame .RemoteChanges n
    chg.remote_prop_changes m3).2
  have e5 : m5.prog.nErrors = m4.prog.nErrors := by
    refine commit_local_prop_additions_noerr chg.local_prop_additions m4 ?_
    intro q hq
    obtain ⟨hno, hLs, hss⟩ := hLA_R q hq
    rw [s4not q.nsn (noRC_of_noRP q.nsn hno), s3not q.nsn (noRA_of_noRP q.nsn hno),
      s2not q.nsn (noRD_of_NS q.nsn q hLs hss),
      (s1not q.nsn (noLD_of_noRP q.nsn hno)).1, hLs]
    rfl
  have s5succ := commit_local_prop_additions_success Faults.noFaults
    chg.local_prop_additions m4 e5
  have s5not := commit_local_prop_additions_not_mem Faults.noFaults
    chg.local_prop_additions m4
  have e6 : m6.prog.nErrors = m5.prog.nErrors := by
    refine commit_local_prop_changes_noerr chg.local_prop_changes m5 ?_
    intro nn hn
    obtain ⟨rp, hrp, hrn, lp, hLs, hss⟩ := hLC_R nn hn
    rw [(s5not nn (noLA_of_RP nn rp hrp hrn)).1,
      s4not nn (fun hm => dLC_RC nn hn hm), s3not nn (noRA_of_Lsome nn lp hLs),
      s2not nn (noRD_of_RP nn rp hrp hrn),
      (s1not nn (fun hm => dLD_LC nn hm hn)).1, hLs]
    rfl
  have s6succ := commit_local_prop_changes_success Faults.noFaults
    chg.local_prop_changes m5 e6
  have s6not := commit_local_prop_changes_not_mem Faults.noFaults
    chg.local_prop_changes m5
  have locF5 : ∀ nn, nn ∉ chg.local_prop_changes →
      alookup m6.loc.properties nn = alookup m5.loc.properties nn :=
    fun nn h6 => (s6not nn h6).1
  have locF4 : ∀ nn, nn ∉ chg.local_prop_additions.map Property.nsn →
      nn ∉ chg.local_prop_changes →
      alookup m6.loc.properties nn = alookup m4.loc.properties nn :=
    fun nn h5 h6 => (locF5 nn h6).trans (s5not nn h5).1
  have locF3 : ∀ nn, nn ∉ chg.remote_prop_changes.map Property.nsn →
      nn ∉ chg.local_prop_additions.map Property.nsn → nn ∉ chg.local_prop_changes →
      alookup m6.loc.properties nn = alookup m3.loc.properties nn :=
    fun nn h4 h5 h6 => (locF4 nn h5 h6).trans (s4not nn h4)
  have locF2 : ∀ nn, nn ∉ chg.remote_prop_additions.map Property.nsn →
      nn ∉ chg.remote_prop_changes.map Property.nsn →
      nn ∉ chg.local_prop_additions.map Property.nsn → nn ∉ chg.local_prop_changes →
      alookup m6.loc.properties nn = alookup m2.loc.properties nn :=
    fun nn h3 h4 h5 h6 => (locF3 nn h4 h5 h6).trans (s3not nn h3)
  have locF1 : ∀ nn, nn ∉ chg.remote_prop_dels →
      nn ∉ chg.remote_prop_additions.map Property.nsn →
      nn ∉ chg.remote_prop_changes.map Property.nsn →
      nn ∉ chg.local_prop_additions.map Property.nsn → nn ∉ chg.local_prop_changes →
      alookup m6.loc.properties nn = alookup m1.loc.properties nn :=
    fun nn h2 h3 h4 h5 h6 => (locF2 nn h3 h4 h5 h6).trans (s2not nn h2)
  have locF0 : ∀ nn, nn ∉ chg.local_prop_dels → nn ∉ chg.remote_prop_dels →
      nn ∉ chg.remote_prop_additions.map Property.nsn →
      nn ∉ chg.remote_prop_changes.map Property.nsn →
      nn ∉ chg.local_prop_additions.map Property.nsn → nn ∉ chg.local_prop_changes →
      alookup m6.loc.properties nn = alookup st.loc.properties nn :=
    fun nn h1 h2 h3 h4 h5 h6 => (locF1 nn h2 h3 h4 h5 h6).trans (s1not nn h1).1
  have remF1 : ∀ nn, nn ∉ chg.local_prop_additions.map Property.nsn →
      nn ∉ chg.local_prop_changes →
      alookup m6.rem.props nn = alookup m1.rem.props nn := by
    intro nn h5 h6
    refine ((s6not nn h6).2.trans (s5not nn h5).2).trans ?_
    rw [r4, r3, r2]
  have remF0 : ∀ nn, nn ∉ chg.local_prop_dels →
      nn ∉ chg.local_prop_additions.map Property.nsn → nn ∉ chg.local_prop_changes →
      alookup m6.rem.props nn = alookup st.rem.props nn :=
    fun nn h1 h5 h6 => (remF1 nn h5 h6).trans (s1not nn h1).2
  refine ⟨?_, ?_, e6.trans (e5.trans (e4.trans (e3.trans (e2.trans e1))))⟩
  · intro nn p hit
    by_cases cLD : nn ∈ chg.local_prop_dels
    · exfalso
      obtain ⟨rp, hrp, hrn, lp, hLs, _⟩ := hLD_R nn cLD
      rw [locF1 nn (noRD_of_RP nn rp hrp hrn) (noRA_of_Lsome nn lp hLs)
        (fun hm => dLD_RC nn cLD hm) (noLA_of_RP nn rp hrp hrn)
        (fun hm => dLD_LC nn cLD hm), (s1succ nn cLD).1] at hit
      exact absurd hit (by simp)
    · by_cases cRD : nn ∈ chg.remote_prop_dels
      · exfalso
        obtain ⟨hno, lp, hLs, _⟩ := hRD_R nn cRD
        rw [locF2 nn (noRA_of_Lsome nn lp hLs) (noRC_of_noRP nn hno)
          (fun hm => dRD_LA nn cRD hm) (noLC_of_noRP nn hno), s2succ nn cRD] at hit
        exact absurd hit (by simp)
      · by_cases cRA : nn ∈ chg.remote_prop_additions.map Property.nsn
        · obtain ⟨q, hq, hqn, hlook3⟩ := s3exact nn cRA
          obtain ⟨hqRP, hLn0⟩ := hRA_R q hq
          have hLn : alookup st.loc.properties nn = none := by
            rw [← hqn]
            exact hLn0
          rw [locF3 nn (noRC_of_Lnone nn hLn) (noLA_of_Lnone nn hLn)
            (noLC_of_Lnone nn hLn), hlook3] at hit
          refine ⟨q.value, ?_, Or.inl ?_⟩
          · rw [remF0 nn cLD (noLA_of_Lnone nn hLn) (noLC_of_Lnone nn hLn), ← hqn]
            exact hRP1 q hqRP
          · rw [← Option.some.inj hit]
            rfl
        · by_cases cRC : nn ∈ chg.remote_prop_changes.map Property.nsn
          · obtain ⟨q, hq, hqn, hlook4⟩ := s4exact nn cRC
            obtain ⟨hqRP, lp, hLs0, _⟩ := hRC_R q hq
            have hLs : alookup st.loc.properties nn = some lp := by
              rw [← hqn]
              exact hLs0
            rw [locF4 nn (noLA_of_RP nn q hqRP hqn) (fun hm => dLC_RC nn hm cRC),
              hlook4] at hit
            refine ⟨q.value, ?_, Or.inl ?_⟩
            · rw [remF0 nn cLD (noLA_of_RP nn q hqRP hqn)
                (fun hm => dLC_RC nn hm cRC), ← hqn]
              exact hRP1 q hqRP
            · rw [← Option.some.inj hit]
              rfl
          · by_cases cLA : nn ∈ chg.local_prop_additions.map Property.nsn
            · obtain ⟨q, hq, hqn⟩ := List.mem_map.mp cLA
              obtain ⟨hno0, hLs0, hss0⟩ := hLA_R q hq
              have hno : ∀ rp ∈ RP, rp.nsn ≠ nn := by
                intro rp hrp
                rw [← hqn]
                exact hno0 rp hrp
              obtain ⟨lp, hm4l, h5l, h5r⟩ := s5succ q hq
              rw [locF5 nn (noLC_of_noRP nn hno)] at hit
              rw [hqn] at h5l h5r
              rw [h5l] at hit
              refine ⟨lp.value, ?_, Or.inl ?_⟩
              · rw [(s6not nn (noLC_of_noRP nn hno)).2]
                exact h5r
              · rw [← Option.some.inj hit]
            · by_cases cLC : nn ∈ chg.local_prop_changes
              · obtain ⟨lp, hm5l, h6l, h6r⟩ := s6succ nn cLC
                rw [h6l] at hit
                refine ⟨lp.value, h6r, Or.inl ?_⟩
                rw [← Option.some.inj hit]
              · have hst : alookup st.loc.properties nn = some p :=
                  (locF0 nn cLD cRD cRA cRC cLA cLC).symm.trans hit
                have hpn : p.nsn = nn := hWF.2.2.2.2 _ (alookup_mem hst)
                by_cases hex : ∃ rp ∈ RP, rp.nsn = nn
                · obtain ⟨rp, hrp, hrn⟩ := hex
                  refine ⟨rp.value, ?_, ?_⟩
                  · rw [remF0 nn cLD cLA cLC, ← hrn]
                    exact hRP1 rp hrp
                  · cases hss : p.sync_status with
                    | NotSynced => exact Or.inr rfl
                    | Synced v =>
                      by_cases hv : rp.value = v
                      · refine Or.inl ?_
                        rw [hv]
                      · exfalso
                        refine cRC (List.mem_map.mpr ⟨rp, ?_, hrn⟩)
                        refine (spec rp.nsn rp).2.1.mpr ⟨hrp, p, ?_, ?_⟩
                        · rw [hrn]
                          exact hst
                        · rw [hss]
                          simp [remote_change_status, hv]
                    | LocallyModified v =>
                      by_cases hv : rp.value = v
                      · exact absurd ((spec nn ⟨nn, "", .NotSynced⟩).2.2.1.mpr
                          ⟨rp, hrp, hrn, p, hst, by rw [hss, hv]⟩) cLC
                      · exfalso
                        refine cRC (List.mem_map.mpr ⟨rp, ?_, hrn⟩)
                        refine (spec rp.nsn rp).2.1.mpr ⟨hrp, p, ?_, ?_⟩
                        · rw [hrn]
                          exact hst
                        · rw [hss]
                          simp [remote_change_status, hv]
                    | LocallyDeleted v =>
                      by_cases hv : rp.value = v
                      · exact absurd ((spec nn ⟨nn, "", .NotSynced⟩).2.2.2.1.mpr
                          ⟨rp, hrp, hrn, p, hst, by rw [hss, hv]⟩) cLD
                      · exfalso
                        refine cRC (List.mem_map.mpr ⟨rp, ?_, hrn⟩)
                        refine (spec rp.nsn rp).2.1.mpr ⟨hrp, p, ?_, ?_⟩
                        · rw [hrn]
                          exact hst
                        · rw [hss]
                          simp [remote_change_status, hv]
                · push_neg at hex
                  exfalso
                  cases hss : p.sync_status with
                  | NotSynced =>
                    refine cLA (List.mem_map.mpr ⟨p, ?_, hpn⟩)
                    refine (spec p.nsn p).2.2.2.2.2.mpr ⟨?_, ?_, hss⟩
                    · intro rp hrp
                      rw [hpn]
                      exact hex rp hrp
                    · rw [hpn]
                      exact hst
                  | Synced v =>
                    exact cRD ((spec nn ⟨nn, "", .NotSynced⟩).2.2.2.2.1.mpr
                      ⟨hex, p, hst, by rw [hss]; simp⟩)
                  | LocallyModified v =>
                    exact cRD ((spec nn ⟨nn, "", .NotSynced⟩).2.2.2.2.1.mpr
                      ⟨hex, p, hst, by rw [hss]; simp⟩)
                  | LocallyDeleted v =>
                    exact cRD ((spec nn ⟨nn, "", .NotSynced⟩).2.2.2.2.1.mpr
                      ⟨hex, p, hst, by rw [hss]; simp⟩)
  · intro nn v hr
    by_cases cLD : nn ∈ chg.local_prop_dels
    · exfalso
      obtain ⟨rp, hrp, hrn, lp, hLs, _⟩ := hLD_R nn cLD
      rw [remF1 nn (noLA_of_RP nn rp hrp hrn) (fun hm => dLD_LC nn cLD hm),
        (s1succ nn cLD).2] at hr
      exact absurd hr (by simp)
    · by_cases cRA : nn ∈ chg.remote_prop_additions.map Property.nsn
      · obtain ⟨q, hq, hqn, hlook3⟩ := s3exact nn cRA
        obtain ⟨hqRP, hLn0⟩ := hRA_R q hq
        have hLn : alookup st.loc.properties nn = none := by
          rw [← hqn]
          exact hLn0
        rw [locF3 nn (noRC_of_Lnone nn hLn) (noLA_of_Lnone nn hLn)
          (noLC_of_Lnone nn hLn), hlook3]
        rfl
      · by_cases cRC : nn ∈ chg.remote_prop_changes.map Property.nsn
        · obtain ⟨q, hq, hqn, hlook4⟩ := s4exact nn cRC
          obtain ⟨hqRP, lp, hLs0, _⟩ := hRC_R q hq
          rw [locF4 nn (noLA_of_RP nn q hqRP hqn) (fun hm => dLC_RC nn hm cRC), hlook4]
          rfl
        · by_cases cLA : nn ∈ chg.local_prop_additions.map Property.nsn
          · obtain ⟨q, hq, hqn⟩ := List.mem_map.mp cLA
            obtain ⟨hno0, hLs0, hss0⟩ := hLA_R q hq
            have hno : ∀ rp ∈ RP, rp.nsn ≠ nn := by
              intro rp hrp
              rw [← hqn]
              exact hno0 rp hrp
            obtain ⟨lp, hm4l, h5l, h5r⟩ := s5succ q hq
            rw [hqn] at h5l
            rw [locF5 nn (noLC_of_noRP nn hno), h5l]
            rfl
          · by_cases cLC : nn ∈ chg.local_prop_changes
            · obtain ⟨lp, hm5l, h6l, h6r⟩ := s6succ nn cLC
              rw [h6l]
              rfl
            · by_cases cRD : nn ∈ chg.remote_prop_dels
              · exfalso
                obtain ⟨hno, lp, hLs, _⟩ := hRD_R nn cRD
                rw [remF0 nn cLD (fun hm => dRD_LA nn cRD hm)
                  (noLC_of_noRP nn hno)] at hr
                cases hrem : alookup st.rem.props nn with
                | none =>
                  rw [hrem] at hr
                  exact absurd hr (by simp)
                | some v0 =>
                  exact hno _ (hRP2 nn v0 hrem) rfl
              · have hrs : alookup st.rem.props nn = some v :=
                  (remF0 nn cLD cLA cLC).symm.trans hr
                have hmemRP := hRP2 nn v hrs
                cases hLs : alookup st.loc.properties nn with
                | none =>
                  refine absurd ?_ cRA
                  refine List.mem_map.mpr ⟨⟨nn, v, .NotSynced⟩, ?_, rfl⟩
                  exact (spec nn ⟨nn, v, .NotSynced⟩).1.mpr ⟨hmemRP, hLs⟩
                | some p =>
                  rw [locF0 nn cLD cRD cRA cRC cLA cLC, hLs]
                  rfl



/-- A fault-free `sync_calendar_pair` on a live (not deletion-marked) pair
returns `Ok` and writes back a stable, still well-formed pair; every other
URL of the two sources keeps its binding. -/
theorem pair_commit_stable (putTag : Url → String → VersionTag) (n : Nat) (url : Url)
    (st : EngineState) (cal : CachedCalendar) (rc : RemoteCal)
    (hL : alookup st.locSrc url = some cal) (hR : alookup st.remSrc url = some rc)
    (hWFc : CalWF cal) (hWFr : RemWF rc) (hdel : cal.deleted = false) :
    ∃ cal2 rc2 P lg,
      sync_calendar_pair Faults.noFaults putTag n url st =
        ({ st with locSrc := ainsert url cal2 st.locSrc,
                   remSrc := ainsert url rc2 st.remSrc, prog := P, log := lg }, true) ∧
      calStable cal2 rc2 ∧ CalWF cal2 ∧ RemWF rc2 := by
  set ICHG := calculate_item_changes cal.items rc.version_tags st.prog with hI
  set PCHG := calculate_prop_changes cal.properties rc.remote_properties ICHG.2 with hPc
  set PS0 : PairState := ⟨cal, rc, PCHG.2, st.log⟩ with hPS0
  set PS1 := commit_item_changes Faults.noFaults putTag n ICHG.1 PS0 with hPS1
  set PS2 := commit_prop_changes Faults.noFaults n PCHG.1 PS1 with hPS2
  have hPWF0 : PairWF PS0 := ⟨hWFc.1, hWFc.2.1, hWFr.1, hWFr.2, hWFc.2.2⟩
  have hit := commit_item_changes_stable putTag n PS0 st.prog hPWF0
  have hfr1 : itemPhaseFrame PS1 PS0 :=
    commit_item_changes_frame Faults.noFaults putTag n ICHG.1 PS0
  have wf1 : PairWF PS1 := commit_item_changes_wf Faults.noFaults putTag n ICHG.1 PS0 hPWF0
  have hfp : PS1.loc.properties = cal.properties := hfr1.1
  have hfpr : PS1.rem.props = rc.props := hfr1.2.1
  have hnd : (rc.remote_properties.map Property.nsn).Nodup := by
    rw [remote_properties_map_nsn]
    exact hWFr.2
  have hrp1 : ∀ q ∈ rc.remote_properties, alookup PS1.rem.props q.nsn = some q.value := by
    intro q hq
    rw [hfpr]
    rw [RemoteCal.remote_properties, List.mem_map] at hq
    obtain ⟨e, he, hqe⟩ := hq
    rw [← hqe]
    exact mem_alookup hWFr.2 he
  have hrp2 : ∀ nn v, alookup PS1.rem.props nn = some v →
      (⟨nn, v, .NotSynced⟩ : Property) ∈ rc.remote_properties := by
    intro nn v h
    rw [hfpr] at h
    rw [RemoteCal.remote_properties, List.mem_map]
    exact ⟨(nn, v), alookup_mem h, rfl⟩
  have hpr := commit_prop_changes_stable n PS1 rc.remote_properties ICHG.2 wf1 hnd hrp1 hrp2
  rw [hfp] at hpr
  have hfr2 : propPhaseFrame PS2 PS1 :=
    commit_prop_changes_frame Faults.noFaults n PCHG.1 PS1
  have wf2 : PairWF PS2 := commit_prop_changes_wf Faults.noFaults n PCHG.1 PS1 wf1
  refine ⟨PS2.loc, PS2.rem, PS2.prog, PS2.log, ?_, ?_, ?_, ?_⟩
  · simp only [sync_calendar_pair, hL, hR]
    rw [if_neg (by rw [hdel]; simp)]
    rw [if_pos (show Faults.noFaults.get_item_version_tags url = true from rfl)]
    rw [if_pos (show Faults.noFaults.get_remote_properties url = true from rfl)]
  · refine ⟨?_, ?_, ?_, hpr.1, hpr.2.1⟩
    · exact (hfr2.2.2.2.2.2.1.trans hfr1.2.2.2.2.2.1).trans hdel
    · intro u it h2
      rw [hfr2.1] at h2
      rw [hfr2.2.1]
      exact hit.1 u it h2
    · intro u r h3
      rw [hfr2.2.1] at h3
      rw [hfr2.1]
      exact hit.2.1 u r h3
  · exact ⟨wf2.1, wf2.2.1, wf2.2.2.2.2⟩
  · exact ⟨wf2.2.2.1, wf2.2.2.2.1⟩

/-- Stability of a single URL across both sources: either absent from both
maps, or present in both with a stable pair. -/
def stableAt (st : EngineState) (u : Url) : Prop :=
  (alookup st.locSrc u = none ∧ alookup st.remSrc u = none) ∨
  (∃ cal rc, alookup st.locSrc u = some cal ∧ alookup st.remSrc u = some rc ∧
    calStable cal rc)

theorem stableAt_of_eq {a b : EngineState} {u : Url}
    (hl : alookup a.locSrc u = alookup b.locSrc u)
    (hr : alookup a.remSrc u = alookup b.remSrc u) (h : stableAt b u) : stableAt a u := by
  rcases h with ⟨h1, h2⟩ | ⟨cal, rc, h1, h2, h3⟩
  · exact Or.inl ⟨hl.trans h1, hr.trans h2⟩
  · exact Or.inr ⟨cal, rc, hl.trans h1, hr.trans h2, h3⟩

/-- A fault-free `sync_calendar_pair` on any present pair: it returns `Ok`,
the URL ends stable (a deletion-marked calendar is removed from both sides,
a live one is written back fully synced), no other URL moves, and the engine
stays well-formed. -/
theorem sync_pair_forward (putTag : Url → String → VersionTag) (n : Nat) (url : Url)
    (st : EngineState) (cal : CachedCalendar) (rc : RemoteCal)
    (hWF : EngineWF st) (hL : alookup st.locSrc url = some cal)
    (hR : alookup st.remSrc url = some rc) :
    ∃ out, sync_calendar_pair Faults.noFaults putTag n url st = (out, true) ∧
      stableAt out url ∧
      (∀ u, u ≠ url → alookup out.locSrc u = alookup st.locSrc u ∧
        alookup out.remSrc u = alookup st.remSrc u) ∧
      EngineWF out := by
  cases hdel : cal.deleted with
  | true =>
    have heq : sync_calendar_pair Faults.noFaults putTag n url st =
        ({ st with locSrc := aerase url st.locSrc, remSrc := aerase url st.remSrc,
                   log := st.log ++ [.deleteCalendarRemote url] ++ [.deleteCalendarLocal url] }, true) := by
      simp only [sync_calendar_pair, hL, hR]
      rw [if_pos hdel]
      rw [if_pos (show Faults.noFaults.delete_remote_calendar url = true from rfl)]
      rw [if_pos (show Faults.noFaults.delete_local_calendar url = true from rfl)]
    refine ⟨_, heq, ?_, ?_, ?_⟩
    · exact Or.inl ⟨alookup_aerase_self url st.locSrc hWF.1,
        alookup_aerase_self url st.remSrc hWF.2.1⟩
    · intro u hu
      exact ⟨alookup_aerase_ne url u st.locSrc (fun he => hu he.symm),
        alookup_aerase_ne url u st.remSrc (fun he => hu he.symm)⟩
    · exact ⟨akeys_aerase_nodup url st.locSrc hWF.1,
        akeys_aerase_nodup url st.remSrc hWF.2.1,
        fun e he => hWF.2.2.1 e (mem_aerase he),
        fun e he => hWF.2.2.2 e (mem_aerase he)⟩
  | false =>
    obtain ⟨cal2, rc2, P, lg, heq, hstab, hwfc, hwfr⟩ :=
      pair_commit_stable putTag n url st cal rc hL hR
        (hWF.2.2.1 _ (alookup_mem hL)) (hWF.2.2.2 _ (alookup_mem hR)) hdel
    refine ⟨_, heq, ?_, ?_, ?_⟩
    · exact Or.inr ⟨cal2, rc2, alookup_ainsert_self url cal2 st.locSrc,
        alookup_ainsert_self url rc2 st.remSrc, hstab⟩
    · intro u hu
      exact ⟨alookup_ainsert_ne url u cal2 st.locSrc (fun he => hu he.symm),
        alookup_ainsert_ne url u rc2 st.remSrc (fun he => hu he.symm)⟩
    · refine ⟨akeys_ainsert_nodup url cal2 st.locSrc hWF.1,
        akeys_ainsert_nodup url rc2 st.remSrc hWF.2.1, ?_, ?_⟩
      · intro e he
        rcases mem_ainsert he with h | h
        · rw [h]
          exact hwfc
        · exact hWF.2.2.1 e h
      · intro e he
        rcases mem_ainsert he with h | h
        · rw [h]
          exact hwfr
        · exact hWF.2.2.2 e h



/-- Loop 1 under a fault-free run: every listed remote URL ends up handled
and stable, previously handled URLs stay stable, unhandled URLs keep their
bindings, and the engine stays well-formed. -/
theorem process_remote_cals_forward (putTag : Url → String → VersionTag) (n : Nat) :
    ∀ (rcals : List (Url × RemoteCal)) (handled : List Url) (st : EngineState),
      EngineWF st → (rcals.map Prod.fst).Nodup →
      (∀ u ∈ handled, stableAt st u) →
      (∀ e ∈ rcals, (alookup st.remSrc e.1).isSome = true) →
      EngineWF (process_remote_cals Faults.noFaults putTag n rcals handled st).1 ∧
      (∀ u ∈ (process_remote_cals Faults.noFaults putTag n rcals handled st).2,
        stableAt (process_remote_cals Faults.noFaults putTag n rcals handled st).1 u) ∧
      (∀ u ∈ handled, u ∈ (process_remote_cals Faults.noFaults putTag n rcals handled st).2) ∧
      (∀ e ∈ rcals, e.1 ∈ (process_remote_cals Faults.noFaults putTag n rcals handled st).2) ∧
      (∀ u, u ∉ (process_remote_cals Faults.noFaults putTag n rcals handled st).2 →
        alookup (process_remote_cals Faults.noFaults putTag n rcals handled st).1.locSrc u =
          alookup st.locSrc u ∧
        alookup (process_remote_cals Faults.noFaults putTag n rcals handled st).1.remSrc u =
          alookup st.remSrc u) := by
  intro rcals
  induction rcals with
  | nil =>
    intro handled st hWF _ hstab _
    exact ⟨hWF, hstab, fun u hu => hu, fun e he => absurd he (List.not_mem_nil e),
      fun u _ => ⟨rfl, rfl⟩⟩
  | cons e rest ih =>
    obtain ⟨cal_url, rcal⟩ := e
    intro handled st hWF hnd hstab hsub
    have hnd1 : (rest.map Prod.fst).Nodup := (List.nodup_cons.mp hnd).2
    have hhd : cal_url ∉ rest.map Prod.fst := (List.nodup_cons.mp hnd).1
    have hrs := hsub (cal_url, rcal) (List.mem_cons_self _ _)
    rw [Option.isSome_iff_exists] at hrs
    obtain ⟨rc, hrc⟩ := hrs
    cases hcl : alookup st.locSrc cal_url with
    | some cal =>
      obtain ⟨out, hout, hstab2, hfr2, hwf2⟩ :=
        sync_pair_forward putTag n cal_url st cal rc hWF hcl hrc
      have hrec := ih (cal_url :: handled) out hwf2 hnd1 ?hstabN ?hsubN
      case hstabN =>
        intro u hu
        by_cases hue : u = cal_url
        · rw [hue]
          exact hstab2
        · rcases List.mem_cons.mp hu with h | h
          · exact absurd h hue
          · exact stableAt_of_eq (hfr2 u hue).1 (hfr2 u hue).2 (hstab u h)
      case hsubN =>
        intro e2 he2
        have hne : e2.1 ≠ cal_url := fun hc =>
          hhd (hc ▸ List.mem_map_of_mem Prod.fst he2)
        rw [(hfr2 e2.1 hne).2]
        exact hsub e2 (List.mem_cons_of_mem _ he2)
      simp only [process_remote_cals, hcl, hout]
      refine ⟨hrec.1, hrec.2.1, ?_, ?_, ?_⟩
      · intro u hu
        exact hrec.2.2.1 u (List.mem_cons_of_mem _ hu)
      · intro e2 he2
        rcases List.mem_cons.mp he2 with h | h
        · rw [h]
          exact hrec.2.2.1 cal_url (List.mem_cons_self _ _)
        · exact hrec.2.2.2.1 e2 h
      · intro u hu
        have hnh : u ∉ cal_url :: handled := fun hc => hu (hrec.2.2.1 u hc)
        have hne : u ≠ cal_url := fun hc => hnh (hc ▸ List.mem_cons_self _ _)
        obtain ⟨h1, h2⟩ := hrec.2.2.2.2 u hu
        exact ⟨h1.trans (hfr2 u hne).1, h2.trans (hfr2 u hne).2⟩
    | none =>
      have hnew : CalWF (CachedCalendar.new rcal.name cal_url rcal.meta) :=
        ⟨List.nodup_nil, List.nodup_nil, fun e2 he2 => absurd he2 (List.not_mem_nil e2)⟩
      have hWF1 : EngineWF { st with
          locSrc := ainsert cal_url (CachedCalendar.new rcal.name cal_url rcal.meta) st.locSrc,
          log := st.log ++ [.createCalendarLocal cal_url] } := by
        refine ⟨akeys_ainsert_nodup _ _ _ hWF.1, hWF.2.1, ?_, hWF.2.2.2⟩
        intro e2 he2
        rcases mem_ainsert he2 with h | h
        · rw [h]
          exact hnew
        · exact hWF.2.2.1 e2 h
      obtain ⟨out, hout, hstab2, hfr2, hwf2⟩ :=
        sync_pair_forward putTag n cal_url
          { st with locSrc := ainsert cal_url (CachedCalendar.new rcal.name cal_url rcal.meta) st.locSrc,
                    log := st.log ++ [.createCalendarLocal cal_url] }
          (CachedCalendar.new rcal.name cal_url rcal.meta) rc hWF1
          (alookup_ainsert_self _ _ _) hrc
      have hrec := ih (cal_url :: handled) out hwf2 hnd1 ?hstabP ?hsubP
      case hstabP =>
        intro u hu
        by_cases hue : u = cal_url
        · rw [hue]
          exact hstab2
        · rcases List.mem_cons.mp hu with h | h
          · exact absurd h hue
          · refine stableAt_of_eq ?_ ?_ (hstab u h)
            · exact (hfr2 u hue).1.trans
                (alookup_ainsert_ne cal_url u _ st.locSrc (fun hc => hue hc.symm))
            · exact (hfr2 u hue).2
      case hsubP =>
        intro e2 he2
        have hne : e2.1 ≠ cal_url := fun hc =>
          hhd (hc ▸ List.mem_map_of_mem Prod.fst he2)
        rw [(hfr2 e2.1 hne).2]
        exact hsub e2 (List.mem_cons_of_mem _ he2)
      simp only [process_remote_cals, hcl, hout]
      rw [if_pos (show Faults.noFaults.create_local_calendar cal_url = true from rfl)]
      refine ⟨hrec.1, hrec.2.1, ?_, ?_, ?_⟩
      · intro u hu
        exact hrec.2.2.1 u (List.mem_cons_of_mem _ hu)
      · intro e2 he2
        rcases List.mem_cons.mp he2 with h | h
        · rw [h]
          exact hrec.2.2.1 cal_url (List.mem_cons_self _ _)
        · exact hrec.2.2.2.1 e2 h
      · intro u hu
        have hnh : u ∉ cal_url :: handled := fun hc => hu (hrec.2.2.1 u hc)
        have hne : u ≠ cal_url := fun hc => hnh (hc ▸ List.mem_cons_self _ _)
        obtain ⟨h1, h2⟩ := hrec.2.2.2.2 u hu
        refine ⟨?_, h2.trans (hfr2 u hne).2⟩
        exact (h1.trans (hfr2 u hne).1).trans
          (alookup_ainsert_ne cal_url u _ st.locSrc (fun hc => hne hc.symm))

/-- Loop 2 under a fault-free run: starting from an engine whose handled
URLs are stable and whose every live URL is handled, listed, or stable, the
loop finishes with `Ok` and a fully stable, well-formed engine. -/
theorem process_local_cals_forward (putTag : Url → String → VersionTag) (n : Nat)
    (handled : List Url) :
    ∀ (lcals : List (Url × CachedCalendar)) (st : EngineState),
      EngineWF st →
      (∀ u ∈ handled, stableAt st u) →
      (∀ u, (alookup st.locSrc u).isSome = true →
        u ∈ handled ∨ u ∈ lcals.map Prod.fst ∨ stableAt st u) →
      (∀ u, (alookup st.remSrc u).isSome = true → u ∈ handled ∨ stableAt st u) →
      EngineStable (process_local_cals Faults.noFaults putTag n handled lcals st).1 ∧
      EngineWF (process_local_cals Faults.noFaults putTag n handled lcals st).1 ∧
      (process_local_cals Faults.noFaults putTag n handled lcals st).2 = true := by
  intro lcals
  induction lcals with
  | nil =>
    intro st hWF hstab hloc hrem
    refine ⟨⟨?_, ?_⟩, hWF, rfl⟩
    · intro u cal hc
      have hc2 : alookup st.locSrc u = some cal := hc
      have hs : stableAt st u := by
        rcases hloc u (by rw [hc2]; rfl) with h | h | h
        · exact hstab u h
        · exact absurd h (List.not_mem_nil u)
        · exact h
      rcases hs with ⟨h1, _⟩ | ⟨cal2, rc, h1, h2, h3⟩
      · rw [hc2] at h1
        exact absurd h1 (by simp)
      · rw [hc2] at h1
        refine ⟨rc, h2, ?_⟩
        rw [Option.some.inj h1]
        exact h3
    · intro u rc hc
      have hc2 : alookup st.remSrc u = some rc := hc
      have hs : stableAt st u := by
        rcases hrem u (by rw [hc2]; rfl) with h | h
        · exact hstab u h
        · exact h
      rcases hs with ⟨_, h2⟩ | ⟨cal2, rc2, h1, _, _⟩
      · rw [hc2] at h2
        exact absurd h2 (by simp)
      · show (alookup st.locSrc u).isSome = true
        rw [h1]
        rfl
  | cons e rest ih =>
    obtain ⟨cal_url, snap⟩ := e
    intro st hWF hstab hloc hrem
    by_cases hmem : cal_url ∈ handled
    · simp only [process_local_cals, if_pos hmem]
      refine ih st hWF hstab ?_ hrem
      intro u hu
      rcases hloc u hu with h | h | h
      · exact Or.inl h
      · rw [List.map_cons] at h
        rcases List.mem_cons.mp h with h2 | h2
        · rw [h2]
          exact Or.inl hmem
        · exact Or.inr (Or.inl h2)
      · exact Or.inr (Or.inr h)
    · cases hcl : alookup st.locSrc cal_url with
      | none =>
        simp only [process_local_cals, if_neg hmem, hcl]
        refine ih st hWF hstab ?_ hrem
        intro u hu
        rcases hloc u hu with h | h | h
        · exact Or.inl h
        · rw [List.map_cons] at h
          rcases List.mem_cons.mp h with h2 | h2
          · rw [h2, hcl] at hu
            exact absurd hu (by simp)
          · exact Or.inr (Or.inl h2)
        · exact Or.inr (Or.inr h)
      | some cal =>
        cases hdel : cal.deleted with
        | true =>
          have hstN : ∀ u, u ≠ cal_url →
              alookup (aerase cal_url st.locSrc) u = alookup st.locSrc u :=
            fun u hu => alookup_aerase_ne cal_url u st.locSrc (fun hc => hu hc.symm)
          simp only [process_local_cals, if_neg hmem, hcl, hdel, if_true]
          rw [if_pos (show Faults.noFaults.delete_local_calendar cal_url = true from rfl)]
          refine ih _ ?_ ?_ ?_ ?_
          · exact ⟨akeys_aerase_nodup _ _ hWF.1, hWF.2.1,
              fun e2 he2 => hWF.2.2.1 e2 (mem_aerase he2), hWF.2.2.2⟩
          · intro u hu
            have hue : u ≠ cal_url := fun hc => hmem (hc ▸ hu)
            refine stableAt_of_eq ?_ ?_ (hstab u hu)
            · exact hstN u hue
            · exact rfl
          · intro u hu
            by_cases hue : u = cal_url
            · exfalso
              rw [hue] at hu
              have hu2 : (alookup (aerase cal_url st.locSrc) cal_url).isSome = true := hu
              rw [alookup_aerase_self cal_url st.locSrc hWF.1] at hu2
              exact absurd hu2 (by simp)
            · have hu2 : (alookup st.locSrc u).isSome = true := by
                rw [← hstN u hue]
                exact hu
              rcases hloc u hu2 with h | h | h
              · exact Or.inl h
              · rw [List.map_cons] at h
                rcases List.mem_cons.mp h with h2 | h2
                · exact absurd h2 hue
                · exact Or.inr (Or.inl h2)
              · refine Or.inr (Or.inr (stableAt_of_eq ?_ ?_ h))
                · exact hstN u hue
                · exact rfl
          · intro u hu
            have hu2 : (alookup st.remSrc u).isSome = true := hu
            rcases hrem u hu2 with h | h
            · exact Or.inl h
            · refine Or.inr (stableAt_of_eq ?_ ?_ h)
              · by_cases hue : u = cal_url
                · exfalso
                  rcases h with ⟨h1, _⟩ | ⟨cal2, rc2, h1, _, h3⟩
                  · rw [hue, hcl] at h1
                    exact absurd h1 (by simp)
                  · rw [hue, hcl] at h1
                    have hd2 : cal.deleted = false := by
                      rw [Option.some.inj h1]
                      exact h3.1
                    rw [hdel] at hd2
                    exact absurd hd2 (by simp)
                · exact hstN u hue
              · exact rfl
        | false =>
          cases hcr : alookup st.remSrc cal_url with
          | some rc =>
            obtain ⟨out, hout, hstab2, hfr2, hwf2⟩ :=
              sync_pair_forward putTag n cal_url st cal rc hWF hcl hcr
            simp only [process_local_cals, if_neg hmem, hcl, hdel, Bool.false_eq_true,
              if_false, hcr, hout]
            refine ih out hwf2 ?_ ?_ ?_
            · intro u hu
              have hue : u ≠ cal_url := fun hc => hmem (hc ▸ hu)
              exact stableAt_of_eq (hfr2 u hue).1 (hfr2 u hue).2 (hstab u hu)
            · intro u hu
              by_cases hue : u = cal_url
              · rw [hue]
                exact Or.inr (Or.inr hstab2)
              · rw [show (alookup out.locSrc u).isSome =
                    (alookup st.locSrc u).isSome from by rw [(hfr2 u hue).1]] at hu
                rcases hloc u hu with h | h | h
                · exact Or.inl h
                · rw [List.map_cons] at h
                  rcases List.mem_cons.mp h with h2 | h2
                  · exact absurd h2 hue
                  · exact Or.inr (Or.inl h2)
                · exact Or.inr (Or.inr
                    (stableAt_of_eq (hfr2 u hue).1 (hfr2 u hue).2 h))
            · intro u hu
              by_cases hue : u = cal_url
              · rw [hue]
                exact Or.inr hstab2
              · rw [show (alookup out.remSrc u).isSome =
                    (alookup st.remSrc u).isSome from by rw [(hfr2 u hue).2]] at hu
                rcases hrem u hu with h | h
                · exact Or.inl h
                · exact Or.inr (stableAt_of_eq (hfr2 u hue).1 (hfr2 u hue).2 h)
          | none =>
            have hnewr : RemWF (RemoteCal.new cal.name cal_url cal.meta) :=
              ⟨List.nodup_nil, List.nodup_nil⟩
            have hWF1 : EngineWF { st with
                remSrc := ainsert cal_url (RemoteCal.new cal.name cal_url cal.meta) st.remSrc,
                log := st.log ++ [.createCalendarRemote cal_url] } := by
              refine ⟨hWF.1, akeys_ainsert_nodup _ _ _ hWF.2.1, hWF.2.2.1, ?_⟩
              intro e2 he2
              rcases mem_ainsert he2 with h | h
              · rw [h]
                exact hnewr
              · exact hWF.2.2.2 e2 h
            obtain ⟨out, hout, hstab2, hfr2, hwf2⟩ :=
              sync_pair_forward putTag n cal_url
                { st with remSrc := ainsert cal_url (RemoteCal.new cal.name cal_url cal.meta) st.remSrc,
                          log := st.log ++ [.createCalendarRemote cal_url] }
                cal (RemoteCal.new cal.name cal_url cal.meta) hWF1 hcl
                (alookup_ainsert_self _ _ _)
            have hremN : ∀ u, u ≠ cal_url →
                alookup out.remSrc u = alookup st.remSrc u :=
              fun u hu => (hfr2 u hu).2.trans
                (alookup_ainsert_ne cal_url u _ st.remSrc (fun hc => hu hc.symm))
            simp only [process_local_cals, if_neg hmem, hcl, hdel, Bool.false_eq_true,
              if_false, hcr, hout]
            rw [if_pos (show Faults.noFaults.create_remote_calendar cal_url = true from rfl)]
            refine ih out hwf2 ?_ ?_ ?_
            · intro u hu
              have hue : u ≠ cal_url := fun hc => hmem (hc ▸ hu)
              refine stableAt_of_eq ?_ ?_ (hstab u hu)
              · exact (hfr2 u hue).1
              · exact hremN u hue
            · intro u hu
              by_cases hue : u = cal_url
              · rw [hue]
                exact Or.inr (Or.inr hstab2)
              · have hu2 : (alookup st.locSrc u).isSome = true := by
                  have hx : alookup out.locSrc u = alookup st.locSrc u := (hfr2 u hue).1
                  rw [← hx]
                  exact hu
                rcases hloc u hu2 with h | h | h
                · exact Or.inl h
                · rw [List.map_cons] at h
                  rcases List.mem_cons.mp h with h2 | h2
                  · exact absurd h2 hue
                  · exact Or.inr (Or.inl h2)
                · refine Or.inr (Or.inr (stableAt_of_eq ?_ ?_ h))
                  · exact (hfr2 u hue).1
                  · exact hremN u hue
            · intro u hu
              by_cases hue : u = cal_url
              · rw [hue]
                exact Or.inr hstab2
              · have hu2 : (alookup st.remSrc u).isSome = true := by
                  rw [← hremN u hue]
                  exact hu
                rcases hrem u hu2 with h | h
                · exact Or.inl h
                · refine Or.inr (stableAt_of_eq ?_ ?_ h)
                  · exact (hfr2 u hue).1
                  · exact hremN u hue

/-- A whole fault-free `run_sync` pass leaves the engine stable and
well-formed. -/
theorem run_sync_makes_stable (putTag : Url → String → VersionTag) (n : Nat)
    (st : EngineState) (hWF : EngineWF st) :
    EngineStable (run_sync Faults.noFaults putTag n st).1 ∧
    EngineWF (run_sync Faults.noFaults putTag n st).1 := by
  have h1 := process_remote_cals_forward putTag n st.remSrc [] st hWF hWF.2.1
    (fun u hu => absurd hu (List.not_mem_nil u))
    (fun e he => by rw [mem_alookup hWF.2.1 he]; rfl)
  have h2 := process_local_cals_forward putTag n
    (process_remote_cals Faults.noFaults putTag n st.remSrc [] st).2
    (process_remote_cals Faults.noFaults putTag n st.remSrc [] st).1.locSrc
    (process_remote_cals Faults.noFaults putTag n st.remSrc [] st).1
    h1.1 h1.2.1 ?hloc ?hrem
  case hloc =>
    intro u hu
    exact Or.inr (Or.inl ((alookup_isSome _ u).mp hu))
  case hrem =>
    intro u hu
    by_cases hm : u ∈ (process_remote_cals Faults.noFaults putTag n st.remSrc [] st).2
    · exact Or.inl hm
    · exfalso
      obtain ⟨hl, hr⟩ := h1.2.2.2.2 u hm
      rw [hr] at hu
      have hks : u ∈ akeys st.remSrc := (alookup_isSome _ u).mp hu
      obtain ⟨e2, he2, hne⟩ := List.mem_map.mp hks
      exact hm (hne ▸ h1.2.2.2.1 e2 he2)
  rw [run_sync]
  rw [if_pos (show Faults.noFaults.get_remote_calendars = true from rfl)]
  rw [if_pos h2.2.2]
  exact ⟨h2.1, h2.2.1⟩



def exC3Tag : Url → String → VersionTag := fun _ _ => "T"

def exC3Loc : CachedCalendar :=
  ⟨"cal", "c", "", [(⟨"x", "a"⟩, ⟨⟨"x", "a"⟩, "v", .LocallyModified "w"⟩)],
    [("i", ⟨"d", .LocallyModified "t0"⟩), ("j", ⟨"e", .NotSynced⟩)], false⟩

def exC3Rem : RemoteCal :=
  ⟨"cal", "c", "", [("i", ⟨"d0", "t0"⟩), ("k", ⟨"f", "t2"⟩)], [(⟨"x", "a"⟩, "w")]⟩

def exC3St : EngineState := ⟨[("c", exC3Loc)], [("c", exC3Rem)], ⟨0⟩, []⟩

/-- **C3.** Fault-free sync is idempotent: immediately running a second
`run_sync` pass on the state left by a first one changes neither the local
nor the remote source, and the second pass performs no write operation
against either side — the write log (which records every `add_item`,
`update_item`, `delete_item`, `set_property`, `delete_property`,
add/update of local items and properties, and every calendar
creation/deletion) comes out of the second pass exactly as the first pass
left it. -/
theorem sync_idempotent (putTag : Url → String → VersionTag) (n : Nat)
    (st : EngineState) (hWF : EngineWF st) :
    (run_sync Faults.noFaults putTag n
        (run_sync Faults.noFaults putTag n st).1).1.locSrc =
      (run_sync Faults.noFaults putTag n st).1.locSrc ∧
    (run_sync Faults.noFaults putTag n
        (run_sync Faults.noFaults putTag n st).1).1.remSrc =
      (run_sync Faults.noFaults putTag n st).1.remSrc ∧
    (run_sync Faults.noFaults putTag n
        (run_sync Faults.noFaults putTag n st).1).1.log =
      (run_sync Faults.noFaults putTag n st).1.log := by
  obtain ⟨hstab, hwf⟩ := run_sync_makes_stable putTag n st hWF
  exact run_sync_stable_id putTag n (run_sync Faults.noFaults putTag n st).1 hwf hstab

theorem sync_idempotent_witness :
    EngineWF exC3St ∧
    ((run_sync Faults.noFaults exC3Tag 2
        (run_sync Faults.noFaults exC3Tag 2 exC3St).1).1.locSrc =
      (run_sync Faults.noFaults exC3Tag 2 exC3St).1.locSrc ∧
    (run_sync Faults.noFaults exC3Tag 2
        (run_sync Faults.noFaults exC3Tag 2 exC3St).1).1.remSrc =
      (run_sync Faults.noFaults exC3Tag 2 exC3St).1.remSrc ∧
    (run_sync Faults.noFaults exC3Tag 2
        (run_sync Faults.noFaults exC3Tag 2 exC3St).1).1.log =
      (run_sync Faults.noFaults exC3Tag 2 exC3St).1.log) :=
  ⟨by decide, sync_idempotent exC3Tag 2 exC3St (by decide)⟩


end KF
